import Mathlib

/-!
# glex: a streaming lexer (`src/glex/glex.go`)

A shallow embedding of the Go package `glex` and a verification development
about it.

Conventions of the embedding.

* A byte is a natural number (below 256 for a real input); a Go `string` or
  `[]byte` is a `List Nat`; a `rune` and a Go `int` are an `Int`.
* A Go `panic` is an `Except.error` carrying which panic it was; the run-time
  panics of out-of-range index and slice expressions are modelled too
  (`Abort.outOfRange`).
* The lexer state is passed explicitly: a method `func (lx *Lexer) f() T`
  becomes `f : Lexer → Except Abort (T × Lexer)`.
* The source reader `io.Reader` is a scripted reader (`Reader`): the bytes it
  still holds and a plan for the next `Read` calls.
* The loops of the source that are not bounded syntactically carry a fuel
  argument; `next` and `Scan` compute a sufficient amount from the state, and
  the theorems show that it never runs out (`Abort.outOfFuel` is never the
  result).
* `bufLen` (1024 in the source) and the Unicode range tables of the Go
  standard library above Latin-1 are fields of the environment `Env`.
-/

namespace Glex

/-! ## Token kinds (`glex.go` lines 19-45) -/

/-- `EOF = -(iota + 1)` with `iota = 0`. -/
def EOF : Int := -1
/-- `Unknown`, `iota = 1`. -/
def Unknown : Int := -2
/-- `Var`, `iota = 2`. -/
def Var : Int := -3
/-- `ConstNumeric`, `iota = 3`. -/
def ConstNumeric : Int := -4
/-- `ConstString`, `iota = 4`. -/
def ConstString : Int := -5
/-- `Equ`, `iota = 5`. -/
def Equ : Int := -6
/-- `And`, `iota = 6`. -/
def And : Int := -7
/-- `Or`, `iota = 7`. -/
def Or : Int := -8
/-- `LeftBracket`, `iota = 8`. -/
def LeftBracket : Int := -9
/-- `RightBracket`, `iota = 9`. -/
def RightBracket : Int := -10

/-- The map `tokenString`, as a lookup function. -/
def tokenString (tok : Int) : Option String :=
  if tok = EOF then some "EOF"
  else if tok = Var then some "Var"
  else if tok = ConstNumeric then some "ConstantNumeric"
  else if tok = ConstString then some "ConstString"
  else if tok = Equ then some "EQU"
  else if tok = And then some "AND"
  else if tok = Or then some "OR"
  else if tok = LeftBracket then some "LEFT-BRACKET"
  else if tok = RightBracket then some "RIGHT-BRACKET"
  else none

/-- `TokenNameFor`: the name in `tokenString`, or `"*"`. -/
def TokenNameFor (tok : Int) : String :=
  match tokenString tok with
  | some name => name
  | none => "*"

/-! ## Panics -/

/-- The ways a call can abort (a Go `panic`). -/
inductive Abort where
  /-- `panic(errHandlerNotImplemented)`: a `Read` error other than `io.EOF`. -/
  | readError
  /-- `panic(fmt.Errorf("not implemented:<%v>", string(ch)))`. -/
  | notImplemented (ch : Int)
  /-- `panic(fmt.Errorf("not ==! :%v", ch))`. -/
  | notEqu (ch : Int)
  /-- `panic(fmt.Errorf("not &&! :%v", ch))`. -/
  | notAnd (ch : Int)
  /-- `panic(fmt.Errorf("not ||! :%v", ch))`. -/
  | notOr (ch : Int)
  /-- `panic(StringNotClosed)`. -/
  | stringNotClosed
  /-- A run-time panic of Go: index or slice bounds out of range. -/
  | outOfRange
  /-- Not a behaviour of the program: the fuel of a loop of the embedding ran
  out. -/
  | outOfFuel
  deriving DecidableEq, Repr

/-! ## The Go standard library: `unicode/utf8`, `unicode`, `io.Reader` -/

/-- `utf8.RuneError`. -/
def RuneError : Int := 0xFFFD
/-- `utf8.RuneSelf`. -/
def RuneSelf : Nat := 0x80
/-- `utf8.UTFMax`. -/
def UTFMax : Int := 4

/-- The table `first` of `unicode/utf8`: information about the first byte of
a UTF-8 sequence (`as = 0xF0`, `xx = 0xF1`, `s1 = 0x02`, `s2 = 0x13`,
`s3 = 0x03`, `s4 = 0x23`, `s5 = 0x34`, `s6 = 0x04`, `s7 = 0x44`). -/
def first (b : Nat) : Nat :=
  if b < 0x80 then 0xF0
  else if b < 0xC2 then 0xF1
  else if b < 0xE0 then 0x02
  else if b = 0xE0 then 0x13
  else if b < 0xED then 0x03
  else if b = 0xED then 0x23
  else if b < 0xF0 then 0x03
  else if b = 0xF0 then 0x34
  else if b < 0xF4 then 0x04
  else if b = 0xF4 then 0x44
  else 0xF1

/-- The table `acceptRanges` of `unicode/utf8`: lowest and highest value of
the second byte. The table has 16 entries, those from 5 on are zero. -/
def acceptRanges (i : Nat) : Nat × Nat :=
  if i = 0 then (0x80, 0xBF)
  else if i = 1 then (0xA0, 0xBF)
  else if i = 2 then (0x80, 0x9F)
  else if i = 3 then (0x90, 0xBF)
  else if i = 4 then (0x80, 0x8F)
  else (0, 0)

/-- `utf8.FullRune`: does `p` begin with a full encoding of a rune (an invalid
encoding counts as a full rune of width 1). -/
def FullRune (p : List Nat) : Bool :=
  match p with
  | [] => false
  | p0 :: t =>
    let x := first p0
    if x &&& 7 ≤ p.length then true
    else
      let accept := acceptRanges (x >>> 4)
      match t with
      | [] => false
      | p1 :: t2 =>
        if p1 < accept.1 ∨ accept.2 < p1 then true
        else
          match t2 with
          | [] => false
          | p2 :: _ => if p2 < 0x80 ∨ 0xBF < p2 then true else false

/-- `utf8.DecodeRune`: the first rune of `p` and its width in bytes;
`(RuneError, 0)` for the empty slice and `(RuneError, 1)` for an invalid
encoding. The branch-free mask of the source (`rune(x) << 31 >> 31`) is
all ones exactly when `x` is odd, that is when `x = xx`. -/
def DecodeRune (p : List Nat) : Int × Int :=
  match p with
  | [] => (RuneError, 0)
  | p0 :: t =>
    let x := first p0
    if 0xF0 ≤ x then
      (if x % 2 = 1 then RuneError else (p0 : Int), 1)
    else
      let sz := x &&& 7
      let accept := acceptRanges (x >>> 4)
      if p.length < sz then (RuneError, 1)
      else
        match t with
        | [] => (RuneError, 1)
        | b1 :: t2 =>
          if b1 < accept.1 ∨ accept.2 < b1 then (RuneError, 1)
          else if sz ≤ 2 then
            ((((p0 &&& 0x1F) <<< 6 ||| (b1 &&& 0x3F) : Nat) : Int), 2)
          else
            match t2 with
            | [] => (RuneError, 1)
            | b2 :: t3 =>
              if b2 < 0x80 ∨ 0xBF < b2 then (RuneError, 1)
              else if sz ≤ 3 then
                ((((p0 &&& 0x0F) <<< 12 ||| (b1 &&& 0x3F) <<< 6 ||| (b2 &&& 0x3F) : Nat) : Int), 3)
              else
                match t3 with
                | [] => (RuneError, 1)
                | b3 :: _ =>
                  if b3 < 0x80 ∨ 0xBF < b3 then (RuneError, 1)
                  else
                    ((((p0 &&& 0x07) <<< 18 ||| (b1 &&& 0x3F) <<< 12 |||
                        (b2 &&& 0x3F) <<< 6 ||| (b3 &&& 0x3F) : Nat) : Int), 4)

/-- The environment of the lexer: the constant `bufLen` of the source and the
two range tables of package `unicode` that `isIdentRune` consults. -/
structure Env where
  /-- `const bufLen` (1024 in the source). -/
  bufLen : Nat
  /-- Membership in `unicode.Letter` for code points above Latin-1. -/
  letter : Nat → Bool
  /-- Membership in `unicode.Digit` for code points above Latin-1. -/
  digit : Nat → Bool

/-- `const bufLen = 1024`. -/
def bufLen : Nat := 1024

/-- The Latin-1 letters, from the table `properties` of package `unicode`:
`A-Z`, `a-z`, U+00AA, U+00B5, U+00BA, U+00C0-U+00D6, U+00D8-U+00F6,
U+00F8-U+00FF. -/
def latin1Letter (r : Nat) : Bool :=
  (0x41 ≤ r && r ≤ 0x5A) || (0x61 ≤ r && r ≤ 0x7A) || r == 0xAA || r == 0xB5 ||
  r == 0xBA || (0xC0 ≤ r && r ≤ 0xD6) || (0xD8 ≤ r && r ≤ 0xF6) ||
  (0xF8 ≤ r && r ≤ 0xFF)

/-- `unicode.IsLetter`: the `properties` table for Latin-1, the range table
`Letter` above it; a negative rune is in no table. -/
def IsLetter (E : Env) (r : Int) : Bool :=
  if r < 0 then false
  else if r ≤ 0xFF then latin1Letter r.toNat
  else E.letter r.toNat

/-- `unicode.IsDigit`: `'0' <= r && r <= '9'` for `r <= MaxLatin1`, the range
table `Digit` above it. -/
def IsDigit (E : Env) (r : Int) : Bool :=
  if r ≤ 0xFF then decide (0x30 ≤ r ∧ r ≤ 0x39)
  else E.digit r.toNat

/-- The error result of a `Read`: `io.EOF` or any other error. -/
inductive IOErr where
  | eof
  | other
  deriving DecidableEq, Repr

/-- What one scripted `Read` call does: it hands over at most `want` bytes
and returns `err`. -/
structure ReadStep where
  want : Nat
  err : Option IOErr
  deriving DecidableEq, Repr

/-- A scripted `io.Reader`: the bytes not yet delivered and the plan of the
coming `Read` calls. Once the plan is used up the reader behaves like
`strings.Reader`: it delivers as many bytes as fit, and `(0, io.EOF)` when
none is left. -/
structure Reader where
  data : List Nat
  plan : List ReadStep
  deriving DecidableEq, Repr

/-- `Read(p)` with `len(p) = cap`: the bytes written to `p`, the error, and
the reader afterwards. -/
def Reader.read (r : Reader) (cap : Nat) : List Nat × Option IOErr × Reader :=
  match r.plan with
  | [] =>
    if r.data.length = 0 then ([], some IOErr.eof, r)
    else (r.data.take cap, none, { r with data := r.data.drop cap })
  | s :: rest =>
    (r.data.take (min cap s.want), s.err,
      { data := r.data.drop (min cap s.want), plan := rest })

/-- `strings.NewReader(s)`. -/
def stringsNewReader (s : List Nat) : Reader := { data := s, plan := [] }

/-! ## The lexer state (`glex.go` lines 55-96) -/

/-- A line written to `os.Stderr` by `lx.error`. -/
inductive Diag where
  /-- `"illegal UTF-8 encoding!"`. -/
  | illegalUTF8
  /-- `"illegal character NUL"`. -/
  | illegalNUL
  deriving DecidableEq, Repr

/-- `type Lexer struct`. The array `srcBuf [bufLen + 1]byte` is a function
from the index; `tokBuf bytes.Buffer` is the list of its unread bytes;
`stderr` collects what `lx.error` printed. -/
structure Lexer where
  src : Reader
  srcBuf : Nat → Nat
  srcPos : Int
  srcEnd : Int
  srcBufOffset : Int
  line : Int
  column : Int
  lastLineLen : Int
  lastCharLen : Int
  tokBuf : List Nat
  tokPos : Int
  tokEnd : Int
  ch : Int
  whitespace : Nat
  stderr : List Diag

/-- The zero value of `Lexer` (`var lexer Lexer`, `&Lexer{}`), with a reader
that holds nothing in place of the nil interface. -/
def Lexer.zero : Lexer :=
  { src := { data := [], plan := [] }, srcBuf := fun _ => 0, srcPos := 0, srcEnd := 0,
    srcBufOffset := 0, line := 0, column := 0, lastLineLen := 0, lastCharLen := 0,
    tokBuf := [], tokPos := 0, tokEnd := 0, ch := 0, whitespace := 0, stderr := [] }

/-- `scanner.GoWhitespace = 1<<'\t' | 1<<'\n' | 1<<'\r' | 1<<' '`. -/
def GoWhitespace : Nat := 1 <<< 9 ||| 1 <<< 10 ||| 1 <<< 13 ||| 1 <<< 32

/-- `Lexer.Init`. The fields it does not assign (`tokBuf`, `tokEnd`, the rest
of `srcBuf`) keep their values. -/
def Init (lx : Lexer) (src : Reader) : Lexer :=
  { lx with
    src := src
    srcBuf := Function.update lx.srcBuf 0 RuneSelf
    srcPos := 0
    srcEnd := 0
    srcBufOffset := 0
    line := 1
    column := 0
    lastLineLen := 0
    lastCharLen := 0
    tokPos := -1
    whitespace := GoWhitespace
    ch := -2 }

/-- `Lexer.error`: prints the message to `os.Stderr`. -/
def Lexer.error (lx : Lexer) (msg : Diag) : Lexer :=
  { lx with stderr := lx.stderr ++ [msg] }

/-! ## Index and slice expressions on `srcBuf` -/

/-- `lx.srcBuf[i]`: in range for `0 <= i < bufLen + 1`. -/
def index (E : Env) (buf : Nat → Nat) (i : Int) : Except Abort Nat :=
  if 0 ≤ i ∧ i < E.bufLen + 1 then .ok (buf i.toNat) else .error .outOfRange

/-- The bytes `buf[lo], ..., buf[lo + n - 1]`. -/
def bytesAt (buf : Nat → Nat) (lo n : Nat) : List Nat :=
  (List.range n).map (fun j => buf (lo + j))

/-- `lx.srcBuf[lo:hi]`: in range for `0 <= lo <= hi <= bufLen + 1`. -/
def slice (E : Env) (buf : Nat → Nat) (lo hi : Int) : Except Abort (List Nat) :=
  if 0 ≤ lo ∧ lo ≤ hi ∧ hi ≤ E.bufLen + 1 then .ok (bytesAt buf lo.toNat (hi - lo).toNat)
  else .error .outOfRange

/-- `copy(buf[0:], src)` where `src` are `n` bytes of `buf` from `lo` on
(`copy` works as if through a temporary, so overlap is harmless). -/
def copyFront (buf : Nat → Nat) (lo n : Nat) : Nat → Nat :=
  fun j => if j < n then buf (lo + j) else buf j

/-- The buffer after a `Read` has written `bs` into `buf[i:]`. -/
def writeAt (buf : Nat → Nat) (i : Nat) (bs : List Nat) : Nat → Nat :=
  fun j => if i ≤ j ∧ j < i + bs.length then bs.getD (j - i) 0 else buf j

/-! ## `next` (`glex.go` lines 102-165) -/

/-- The outcome of the refill loop of `next`: the loop was left (by its
condition or by `break`), or `next` returned `EOF` from inside it. -/
inductive Filled where
  | more
  | eof
  deriving DecidableEq, Repr

/-- The condition of the refill loop of `next` (lines 105-106):
`lx.srcPos+utf8.UTFMax > lx.srcEnd && !utf8.FullRune(lx.srcBuf[lx.srcPos:lx.srcEnd])`;
`&&` evaluates the slice only if the first test holds. -/
def fillCond (E : Env) (lx : Lexer) : Except Abort Bool :=
  if lx.srcPos + UTFMax > lx.srcEnd then do
    let p ← slice E lx.srcBuf lx.srcPos lx.srcEnd
    pure (!FullRune p)
  else pure false

/-- Lines 107-110 of `next`:
`if lx.tokPos >= 0 { lx.tokBuf.Write(lx.srcBuf[lx.tokPos:lx.srcPos]); lx.tokPos = 0 }`. -/
def spill (E : Env) (lx : Lexer) : Except Abort Lexer :=
  if 0 ≤ lx.tokPos then do
    let t ← slice E lx.srcBuf lx.tokPos lx.srcPos
    pure { lx with tokBuf := lx.tokBuf ++ t, tokPos := 0 }
  else pure lx

/-- Lines 111-120 of `next`: the unread bytes move to the front of the buffer,
a `Read` fills `srcBuf[i:bufLen]`, and the sentinel is put behind the bytes.
The result is the error of the `Read`. -/
def refill (E : Env) (lx : Lexer) : Except Abort (Option IOErr × Lexer) := do
  -- copy(lx.srcBuf[0:], lx.srcBuf[lx.srcPos:lx.srcEnd])
  let p ← slice E lx.srcBuf lx.srcPos lx.srcEnd
  let buf := copyFront lx.srcBuf lx.srcPos.toNat p.length
  let i : Int := lx.srcEnd - lx.srcPos
  -- n, err := lx.src.Read(lx.srcBuf[i:bufLen])
  if ¬ ((0 : Int) ≤ i ∧ i ≤ (E.bufLen : Int)) then .error .outOfRange
  else
    let r := lx.src.read (E.bufLen - i.toNat)
    let n : Int := r.1.length
    let buf := writeAt buf i.toNat r.1
    -- lx.srcBuf[lx.srcEnd] = utf8.RuneSelf, with lx.srcEnd = i + n
    if ¬ ((0 : Int) ≤ i + n ∧ i + n < (E.bufLen : Int) + 1) then .error .outOfRange
    else
      pure (r.2.1,
        { lx with
          src := r.2.2
          srcBuf := Function.update buf (i + n).toNat RuneSelf
          srcBufOffset := lx.srcBufOffset + lx.srcPos
          srcPos := 0
          srcEnd := i + n })

/-- The loop `for lx.srcPos+utf8.UTFMax > lx.srcEnd && !utf8.FullRune(...)` of
`next` (lines 105-135), one iteration per unit of fuel. -/
def fill (E : Env) : Nat → Lexer → Except Abort (Filled × Lexer)
  | 0, _ => .error .outOfFuel
  | fuel + 1, lx => do
    let again ← fillCond E lx
    if again then do
      let lx ← spill E lx
      let r ← refill E lx
      let lx := r.2
      match r.1 with
      | some IOErr.other => .error .readError
      | some IOErr.eof =>
        if lx.srcEnd = 0 then
          -- if lx.lastCharLen > 0 { lx.column++ }; lx.lastCharLen = 0; return EOF
          pure (Filled.eof,
            { lx with
              column := if 0 < lx.lastCharLen then lx.column + 1 else lx.column
              lastCharLen := 0 })
        else pure (Filled.more, lx)
      | none => fill E fuel lx
    else pure (Filled.more, lx)

/-- The end of `next` (lines 152-164): advance past the rune `ch` of `width`
bytes and keep the position up to date. -/
def advance (lx : Lexer) (ch : Int) (width : Int) : Int × Lexer :=
  let lx := { lx with srcPos := lx.srcPos + width, lastCharLen := width,
                      column := lx.column + 1 }
  if ch = 0 then (ch, lx.error Diag.illegalNUL)
  else if ch = 10 then
    (ch, { lx with line := lx.line + 1, lastLineLen := lx.column, column := 0 })
  else (ch, lx)

/-- Fuel that suffices for the refill loop: every iteration that does not
leave the loop uses up a step of the plan or a byte of the reader. -/
def fillFuel (lx : Lexer) : Nat :=
  lx.src.plan.length + lx.src.data.length + 2

/-- `Lexer.next`: the next rune of the source, `EOF` at the end of the
stream. -/
def next (E : Env) (lx : Lexer) : Except Abort (Int × Lexer) := do
  let b ← index E lx.srcBuf lx.srcPos
  if b < RuneSelf then pure (advance lx b 1)
  else do
    let r ← fill E (fillFuel lx) lx
    match r.1 with
    | Filled.eof => pure (EOF, r.2)
    | Filled.more =>
      let lx := r.2
      let b ← index E lx.srcBuf lx.srcPos
      if b < RuneSelf then pure (advance lx b 1)
      else do
        let p ← slice E lx.srcBuf lx.srcPos lx.srcEnd
        let d := DecodeRune p
        if d.1 = RuneError ∧ d.2 = 1 then
          pure (d.1, ({ lx with srcPos := lx.srcPos + d.2, lastCharLen := d.2,
                                column := lx.column + 1 }).error Diag.illegalUTF8)
        else pure (advance lx d.1 d.2)

/-- `Lexer.peek`: fills the look-ahead on the first call and drops one
leading U+FEFF. -/
def peek (E : Env) (lx : Lexer) : Except Abort (Int × Lexer) :=
  if lx.ch = -2 then do
    let r ← next E lx
    let lx := { r.2 with ch := r.1 }
    if lx.ch = 0xFEFF then do
      let r ← next E lx
      let lx := { r.2 with ch := r.1 }
      pure (lx.ch, lx)
    else pure (lx.ch, lx)
  else pure (lx.ch, lx)

/-! ## The scanners (`glex.go` lines 179-303) -/

/-- The test `lx.whitespace&(1<<uint(ch)) != 0`. `uint(ch)` is `ch` modulo
`2^64`, and a shift of a `uint64` by 64 or more gives 0. -/
def isWhitespace (whitespace : Nat) (ch : Int) : Bool :=
  let s := (ch % 2 ^ 64).toNat
  (whitespace &&& (if s < 64 then 1 <<< s else 0)) != 0

/-- `Lexer.isIdentRune`. -/
def isIdentRune (E : Env) (ch : Int) (i : Int) : Bool :=
  ch == 0x5F || IsLetter E ch || (IsDigit E ch && decide (0 < i))

/-- The loop `for lx.whitespace&(1<<uint(ch)) != 0 { ch = lx.next() }` of
`Scan`. -/
def skipWhitespace (E : Env) : Nat → Int → Lexer → Except Abort (Int × Lexer)
  | 0, _, _ => .error .outOfFuel
  | fuel + 1, ch, lx =>
    if isWhitespace lx.whitespace ch then do
      let r ← next E lx
      skipWhitespace E fuel r.1 r.2
    else pure (ch, lx)

/-- The loop `for i := 1; lx.isIdentRune(ch, i); i++ { ch = lx.next() }` of
`scanIdentifier`. -/
def identLoop (E : Env) : Nat → Int → Int → Lexer → Except Abort (Int × Lexer)
  | 0, _, _, _ => .error .outOfFuel
  | fuel + 1, i, ch, lx =>
    if isIdentRune E ch i then do
      let r ← next E lx
      identLoop E fuel (i + 1) r.1 r.2
    else pure (ch, lx)

/-- `Lexer.scanIdentifier`. -/
def scanIdentifier (E : Env) (fuel : Nat) (lx : Lexer) : Except Abort (Int × Lexer) := do
  let r ← next E lx
  identLoop E fuel 1 r.1 r.2

/-- `Lexer.scanEqu`. -/
def scanEqu (E : Env) (lx : Lexer) : Except Abort (Int × Lexer) := do
  let r ← next E lx
  if r.1 = 0x3D then next E r.2 else .error (.notEqu r.1)

/-- `Lexer.scanAnd`. -/
def scanAnd (E : Env) (lx : Lexer) : Except Abort (Int × Lexer) := do
  let r ← next E lx
  if r.1 = 0x26 then next E r.2 else .error (.notAnd r.1)

/-- `Lexer.scanOr`. -/
def scanOr (E : Env) (lx : Lexer) : Except Abort (Int × Lexer) := do
  let r ← next E lx
  if r.1 = 0x7C then next E r.2 else .error (.notOr r.1)

/-- The loop `for ch != right && ch != EOF { ch = lx.next() }` of
`scanString`. -/
def stringLoop (E : Env) (right : Int) : Nat → Int → Lexer → Except Abort (Int × Lexer)
  | 0, _, _ => .error .outOfFuel
  | fuel + 1, ch, lx =>
    if ch ≠ right ∧ ch ≠ EOF then do
      let r ← next E lx
      stringLoop E right fuel r.1 r.2
    else pure (ch, lx)

/-- `Lexer.scanString`. -/
def scanString (E : Env) (fuel : Nat) (right : Int) (lx : Lexer) :
    Except Abort (Int × Lexer) := do
  let r ← next E lx
  let r ← stringLoop E right fuel r.1 r.2
  if right ≠ r.1 then .error .stringNotClosed
  else next E r.2

/-- `Lexer.scanMantissa`. -/
def scanMantissa (E : Env) : Nat → Int → Lexer → Except Abort (Int × Lexer)
  | 0, _, _ => .error .outOfFuel
  | fuel + 1, ch, lx =>
    if 0x30 ≤ ch ∧ ch ≤ 0x39 then do
      let r ← next E lx
      scanMantissa E fuel r.1 r.2
    else pure (ch, lx)

/-- `Lexer.scanNumber`. -/
def scanNumber (E : Env) (fuel : Nat) (ch : Int) (lx : Lexer) :
    Except Abort (Int × Lexer) := do
  let r ← scanMantissa E fuel ch lx
  if r.1 = 0x2E then do
    let r ← next E r.2
    scanMantissa E fuel r.1 r.2
  else pure r

/-- Fuel that suffices for every loop of one `Scan`: each iteration consumes a
byte that is in the buffer or still with the reader. -/
def scanFuel (lx : Lexer) : Nat :=
  (lx.srcEnd - lx.srcPos).toNat + lx.src.data.length + 2

/-- The `switch` of `Scan` (lines 194-227): the token kind and the rune after
the token. -/
def dispatch (E : Env) (fuel : Nat) (ch : Int) (lx : Lexer) :
    Except Abort (Int × Int × Lexer) :=
  if isIdentRune E ch 0 then do
    let r ← scanIdentifier E fuel lx
    pure (Var, r)
  else if EOF = ch then pure (ch, ch, lx)
  else if 0x27 = ch ∨ 0x22 = ch then do
    let r ← scanString E fuel ch lx
    pure (ConstString, r)
  else if 0x3D = ch then do
    let r ← scanEqu E lx
    pure (Equ, r)
  else if 0x26 = ch then do
    let r ← scanAnd E lx
    pure (And, r)
  else if 0x7C = ch then do
    let r ← scanOr E lx
    pure (Or, r)
  else if 0x28 = ch then do
    let r ← next E lx
    pure (LeftBracket, r)
  else if 0x29 = ch then do
    let r ← next E lx
    pure (RightBracket, r)
  else if 0x30 ≤ ch ∧ ch ≤ 0x39 then do
    let r ← scanNumber E fuel ch lx
    pure (ConstNumeric, r)
  else .error (.notImplemented ch)

/-- `Lexer.Scan`: the kind of the next token. -/
def Scan (E : Env) (lx : Lexer) : Except Abort (Int × Lexer) := do
  let fuel := scanFuel lx
  let r ← peek E lx
  let lx := { r.2 with tokPos := -1 }
  let r ← skipWhitespace E fuel r.1 lx
  let lx := { r.2 with tokBuf := [] }
  let lx := { lx with tokPos := lx.srcPos - lx.lastCharLen }
  let t ← dispatch E fuel r.1 lx
  let lx := t.2.2
  let lx := { lx with tokEnd := lx.srcPos - lx.lastCharLen, ch := t.2.1 }
  pure (t.1, lx)

/-! ## `TokenText` (`glex.go` lines 305-319) -/

/-- `Lexer.TokenText`: the text of the token of the last `Scan`. -/
def TokenText (E : Env) (lx : Lexer) : Except Abort (List Nat × Lexer) :=
  if lx.tokPos < 0 then pure ([], lx)
  else
    let lx := if lx.tokEnd < 0 then { lx with tokEnd := lx.tokPos } else lx
    if lx.tokBuf.length = 0 then do
      let s ← slice E lx.srcBuf lx.tokPos lx.tokEnd
      pure (s, lx)
    else do
      let s ← slice E lx.srcBuf lx.tokPos lx.tokEnd
      let lx := { lx with tokBuf := lx.tokBuf ++ s }
      let lx := { lx with tokPos := lx.tokEnd }
      pure (lx.tokBuf, lx)

/-! ## Driving the lexer -/

/-- What a caller observes of one `Scan` followed by `TokenText`: the token
kind and its text, or the abort. -/
inductive Outcome where
  | token (kind : Int) (text : List Nat)
  | abort (e : Abort)
  deriving DecidableEq, Repr

/-- One round of the loop of `main`: `Scan`, then `TokenText`. -/
def scanText (E : Env) (lx : Lexer) : Except Abort ((Int × List Nat) × Lexer) := do
  let r ← Scan E lx
  let t ← TokenText E r.2
  pure ((r.1, t.1), t.2)

/-- The outcomes of `k` rounds of `Scan` and `TokenText`; an abort ends the
run. -/
def run (E : Env) : Nat → Lexer → List Outcome
  | 0, _ => []
  | k + 1, lx =>
    match scanText E lx with
    | .error e => [Outcome.abort e]
    | .ok r => Outcome.token r.1.1 r.1.2 :: run E k r.2

/-- The environment of the source: `bufLen = 1024`, with the given range
tables. -/
def goEnv (letter digit : Nat → Bool) : Env :=
  { bufLen := bufLen, letter := letter, digit := digit }

/-- The bytes of an ASCII string. -/
def ascii (s : String) : List Nat := s.toList.map Char.toNat

/-! ## Invariants of the buffer and the view of the state -/

/-- The bytes of the buffer that are not consumed yet: `srcBuf[srcPos:srcEnd]`. -/
def avail (lx : Lexer) : List Nat :=
  bytesAt lx.srcBuf lx.srcPos.toNat (lx.srcEnd - lx.srcPos).toNat

/-- The unread input: the rest of the buffer, then what the reader holds. -/
def pending (lx : Lexer) : List Nat := avail lx ++ lx.src.data

/-- The bytes of the open token collected so far: the spilled bytes, then
`srcBuf[tokPos:srcPos]`. -/
def tokSoFar (lx : Lexer) : List Nat :=
  lx.tokBuf ++ bytesAt lx.srcBuf lx.tokPos.toNat (lx.srcPos - lx.tokPos).toNat

/-- The buffer window is well formed and the reader reports no error. -/
structure BufOK (E : Env) (lx : Lexer) : Prop where
  cap : 4 ≤ E.bufLen
  pos : 0 ≤ lx.srcPos
  le : lx.srcPos ≤ lx.srcEnd
  hi : lx.srcEnd ≤ E.bufLen
  sentinel : lx.srcBuf lx.srcEnd.toNat = RuneSelf
  noerr : ∀ s ∈ lx.src.plan, s.err = none

/-- The state after lines 107-110 of `next`. -/
def spilled (lx : Lexer) : Lexer :=
  if 0 ≤ lx.tokPos then { lx with tokBuf := tokSoFar lx, tokPos := 0 } else lx

/-- The state after lines 111-120 of `next`. -/
def refilled (E : Env) (lx : Lexer) : Lexer :=
  { lx with
    src := (lx.src.read (E.bufLen - (lx.srcEnd - lx.srcPos).toNat)).2.2
    srcBuf := Function.update
      (writeAt (copyFront lx.srcBuf lx.srcPos.toNat (lx.srcEnd - lx.srcPos).toNat)
        (lx.srcEnd - lx.srcPos).toNat (lx.src.read (E.bufLen - (lx.srcEnd - lx.srcPos).toNat)).1)
      ((lx.srcEnd - lx.srcPos).toNat +
        (lx.src.read (E.bufLen - (lx.srcEnd - lx.srcPos).toNat)).1.length) RuneSelf
    srcBufOffset := lx.srcBufOffset + lx.srcPos
    srcPos := 0
    srcEnd := (((lx.srcEnd - lx.srcPos).toNat +
        (lx.src.read (E.bufLen - (lx.srcEnd - lx.srcPos).toNat)).1.length : Nat) : Int) }

/-- What the body of the refill loop keeps and changes. -/
structure Step (E : Env) (lx r : Lexer) : Prop where
  ok : BufOK E r
  pend : pending r = pending lx
  tokNeg : lx.tokPos < 0 → r.tokPos = lx.tokPos ∧ r.tokBuf = lx.tokBuf
  tokPos : 0 ≤ lx.tokPos → lx.tokPos ≤ lx.srcPos →
    0 ≤ r.tokPos ∧ r.tokPos ≤ r.srcPos ∧ tokSoFar r = tokSoFar lx
  ch : r.ch = lx.ch
  ws : r.whitespace = lx.whitespace
  tokEnd : r.tokEnd = lx.tokEnd

/-- The next rune of a byte sequence and its width in bytes; `EOF` with width
0 at the end. This is what `next` returns for the unread input. -/
def nextRune (rest : List Nat) : Int × Nat :=
  match rest with
  | [] => (EOF, 0)
  | b :: _ =>
    if b < RuneSelf then ((b : Int), 1)
    else ((DecodeRune rest).1, (DecodeRune rest).2.toNat)

/-- The lexer state seen from outside: the unread input is `rest`, and the
rune consumed last (the look-ahead of `Scan`) occupies the bytes `last` just
before `srcPos`. -/
structure View (E : Env) (lx : Lexer) (last rest : List Nat) : Prop where
  ok : BufOK E lx
  pend : pending lx = rest
  lastLen : lx.lastCharLen = last.length
  lastPos : lx.lastCharLen ≤ lx.srcPos
  lastBytes : bytesAt lx.srcBuf (lx.srcPos - lx.lastCharLen).toNat last.length = last

/-- A token is open and its bytes before the look-ahead rune are `acc`: the
spilled bytes, then `srcBuf[tokPos : srcPos - lastCharLen]`. -/
structure TokView (lx : Lexer) (acc : List Nat) : Prop where
  pos : 0 ≤ lx.tokPos
  le : lx.tokPos ≤ lx.srcPos - lx.lastCharLen
  bytes : lx.tokBuf ++ bytesAt lx.srcBuf lx.tokPos.toNat
    (lx.srcPos - lx.lastCharLen - lx.tokPos).toNat = acc

/-- The state after `next` has consumed a rune of `w` bytes: apart from the
position in the buffer only the fields of the source position and the
diagnostics change. -/
def moved (lx : Lexer) (w : Int) (line column lastLineLen : Int) (stderr : List Diag) : Lexer :=
  { lx with srcPos := lx.srcPos + w, lastCharLen := w, line := line, column := column,
            lastLineLen := lastLineLen, stderr := stderr }

/-- What `next` guarantees on a state with view `last`, `rest`: the rune of
`nextRune rest` is consumed, it is the new look-ahead, and an open token
grows by the bytes of the old look-ahead. -/
structure NextOK (E : Env) (lx : Lexer) (last rest : List Nat) (lx' : Lexer) : Prop where
  view : View E lx' (rest.take (nextRune rest).2) (rest.drop (nextRune rest).2)
  tokNeg : lx.tokPos < 0 → lx'.tokPos = lx.tokPos ∧ lx'.tokBuf = lx.tokBuf
  tok : ∀ acc, TokView lx acc → TokView lx' (acc ++ last)
  ch : lx'.ch = lx.ch
  ws : lx'.whitespace = lx.whitespace
  tokEnd : lx'.tokEnd = lx.tokEnd

/-! ## The lexer on the byte sequence alone

The same scanners as above, on a cursor that holds only bytes: the unread
input, the bytes of the look-ahead rune, and the bytes of the open token.
There is no buffer and no reader; the test `isIdentRune` is the parameter
`idr`. -/

/-- A cursor into the input: `acc` are the bytes of the open token before the
look-ahead rune, `last` the bytes of the look-ahead rune, `rest` the unread
input. -/
structure Cur where
  acc : List Nat
  last : List Nat
  rest : List Nat
  deriving DecidableEq, Repr

/-- `next` on a cursor: the first rune of the unread input becomes the
look-ahead. -/
def nextA (c : Cur) : Except Abort (Int × Cur) :=
  .ok ((nextRune c.rest).1,
    { acc := c.acc ++ c.last
      last := c.rest.take (nextRune c.rest).2
      rest := c.rest.drop (nextRune c.rest).2 })

/-- `peek` on a cursor, for the look-ahead `ch` of the lexer. -/
def peekA (ch : Int) (c : Cur) : Except Abort (Int × Cur) :=
  if ch = -2 then do
    let r ← nextA c
    if r.1 = 0xFEFF then nextA r.2 else pure r
  else pure (ch, c)

/-- The whitespace loop of `Scan` on a cursor. -/
def skipWhitespaceA : Nat → Int → Cur → Except Abort (Int × Cur)
  | 0, _, _ => .error .outOfFuel
  | fuel + 1, ch, c =>
    if isWhitespace GoWhitespace ch then do
      let r ← nextA c
      skipWhitespaceA fuel r.1 r.2
    else pure (ch, c)

/-- The loop of `scanIdentifier` on a cursor. -/
def identLoopA (idr : Int → Int → Bool) : Nat → Int → Int → Cur → Except Abort (Int × Cur)
  | 0, _, _, _ => .error .outOfFuel
  | fuel + 1, i, ch, c =>
    if idr ch i then do
      let r ← nextA c
      identLoopA idr fuel (i + 1) r.1 r.2
    else pure (ch, c)

/-- `scanIdentifier` on a cursor. -/
def scanIdentifierA (idr : Int → Int → Bool) (fuel : Nat) (c : Cur) :
    Except Abort (Int × Cur) := do
  let r ← nextA c
  identLoopA idr fuel 1 r.1 r.2

/-- `scanEqu` on a cursor. -/
def scanEquA (c : Cur) : Except Abort (Int × Cur) := do
  let r ← nextA c
  if r.1 = 0x3D then nextA r.2 else .error (.notEqu r.1)

/-- `scanAnd` on a cursor. -/
def scanAndA (c : Cur) : Except Abort (Int × Cur) := do
  let r ← nextA c
  if r.1 = 0x26 then nextA r.2 else .error (.notAnd r.1)

/-- `scanOr` on a cursor. -/
def scanOrA (c : Cur) : Except Abort (Int × Cur) := do
  let r ← nextA c
  if r.1 = 0x7C then nextA r.2 else .error (.notOr r.1)

/-- The loop of `scanString` on a cursor. -/
def stringLoopA (right : Int) : Nat → Int → Cur → Except Abort (Int × Cur)
  | 0, _, _ => .error .outOfFuel
  | fuel + 1, ch, c =>
    if ch ≠ right ∧ ch ≠ EOF then do
      let r ← nextA c
      stringLoopA right fuel r.1 r.2
    else pure (ch, c)

/-- `scanString` on a cursor. -/
def scanStringA (fuel : Nat) (right : Int) (c : Cur) : Except Abort (Int × Cur) := do
  let r ← nextA c
  let r ← stringLoopA right fuel r.1 r.2
  if right ≠ r.1 then .error .stringNotClosed
  else nextA r.2

/-- `scanMantissa` on a cursor. -/
def scanMantissaA : Nat → Int → Cur → Except Abort (Int × Cur)
  | 0, _, _ => .error .outOfFuel
  | fuel + 1, ch, c =>
    if 0x30 ≤ ch ∧ ch ≤ 0x39 then do
      let r ← nextA c
      scanMantissaA fuel r.1 r.2
    else pure (ch, c)

/-- `scanNumber` on a cursor. -/
def scanNumberA (fuel : Nat) (ch : Int) (c : Cur) : Except Abort (Int × Cur) := do
  let r ← scanMantissaA fuel ch c
  if r.1 = 0x2E then do
    let r ← nextA r.2
    scanMantissaA fuel r.1 r.2
  else pure r

/-- The `switch` of `Scan` on a cursor. -/
def dispatchA (idr : Int → Int → Bool) (fuel : Nat) (ch : Int) (c : Cur) :
    Except Abort (Int × Int × Cur) :=
  if idr ch 0 then do
    let r ← scanIdentifierA idr fuel c
    pure (Var, r)
  else if EOF = ch then pure (ch, ch, c)
  else if 0x27 = ch ∨ 0x22 = ch then do
    let r ← scanStringA fuel ch c
    pure (ConstString, r)
  else if 0x3D = ch then do
    let r ← scanEquA c
    pure (Equ, r)
  else if 0x26 = ch then do
    let r ← scanAndA c
    pure (And, r)
  else if 0x7C = ch then do
    let r ← scanOrA c
    pure (Or, r)
  else if 0x28 = ch then do
    let r ← nextA c
    pure (LeftBracket, r)
  else if 0x29 = ch then do
    let r ← nextA c
    pure (RightBracket, r)
  else if 0x30 ≤ ch ∧ ch ≤ 0x39 then do
    let r ← scanNumberA fuel ch c
    pure (ConstNumeric, r)
  else .error (.notImplemented ch)

/-- `Scan` on a cursor: the token kind, the new look-ahead and the cursor,
whose `acc` is the text of the token. -/
def ScanA (idr : Int → Int → Bool) (ch : Int) (c : Cur) :
    Except Abort (Int × Int × Cur) := do
  let fuel := c.rest.length + 2
  let r ← peekA ch c
  let r ← skipWhitespaceA fuel r.1 r.2
  let t ← dispatchA idr fuel r.1 { r.2 with acc := [] }
  pure t

/-- The outcomes of `k` rounds of `Scan` and `TokenText` on a cursor. -/
def runA (idr : Int → Int → Bool) : Nat → Int → Cur → List Outcome
  | 0, _, _ => []
  | k + 1, ch, c =>
    match ScanA idr ch c with
    | .error e => [Outcome.abort e]
    | .ok r => Outcome.token r.1 r.2.2.acc :: runA idr k r.2.1 r.2.2

/-! ## The refinement relation -/

/-- Two computations agree: both abort in the same way, or both return and
the results are related by `R`. -/
def Match {α β : Type} (R : α → β → Prop) (x : Except Abort α) (y : Except Abort β) : Prop :=
  match x, y with
  | .ok a, .ok b => R a b
  | .error e, .error e' => e = e'
  | _, _ => False

/-- The lexer is inside a token and agrees with the cursor. -/
structure SimT (E : Env) (lx : Lexer) (c : Cur) : Prop where
  view : View E lx c.last c.rest
  tok : TokView lx c.acc
  ws : lx.whitespace = GoWhitespace

/-- The lexer is between tokens (`tokPos < 0`) and agrees with the cursor. -/
structure SimW (E : Env) (lx : Lexer) (c : Cur) : Prop where
  view : View E lx c.last c.rest
  neg : lx.tokPos < 0
  ws : lx.whitespace = GoWhitespace

/-- The lexer between two calls of `Scan` agrees with the look-ahead `ch` and
the cursor. -/
structure Inter (E : Env) (lx : Lexer) (ch : Int) (c : Cur) : Prop where
  view : View E lx c.last c.rest
  look : lx.ch = ch
  ws : lx.whitespace = GoWhitespace
  fresh : ch = -2 → lx.tokPos < 0
  lower : -2 ≤ ch

/-- Results of a scanner inside a token agree: the same rune, and the states
agree. -/
def RT (E : Env) (r : Int × Lexer) (s : Int × Cur) : Prop :=
  r.1 = s.1 ∧ -1 ≤ r.1 ∧ SimT E r.2 s.2

/-- Results of a scanner between tokens agree. -/
def RW (E : Env) (r : Int × Lexer) (s : Int × Cur) : Prop :=
  r.1 = s.1 ∧ -1 ≤ r.1 ∧ SimW E r.2 s.2

/-- Results of the `switch` of `Scan` agree: the same kind and rune, and the
states agree. -/
def RD (E : Env) (r : Int × Int × Lexer) (s : Int × Int × Cur) : Prop :=
  r.1 = s.1 ∧ r.2.1 = s.2.1 ∧ -1 ≤ r.2.1 ∧ SimT E r.2.2 s.2.2

/-- Results of `Scan` agree: the same kind, the states agree, and the text of
the token lies between `tokPos` and `tokEnd`. -/
def RS (E : Env) (r : Int × Lexer) (s : Int × Int × Cur) : Prop :=
  r.1 = s.1 ∧ Inter E r.2 s.2.1 s.2.2 ∧ -1 ≤ s.2.1 ∧ TokView r.2 s.2.2.acc ∧
    r.2.tokEnd = r.2.srcPos - r.2.lastCharLen

/-- Results of `peek` agree: the same rune and the same unread input. -/
def RP (E : Env) (r : Int × Lexer) (s : Int × Cur) : Prop :=
  r.1 = s.1 ∧ -1 ≤ r.1 ∧ View E r.2 s.2.last s.2.rest ∧ r.2.whitespace = GoWhitespace

/-! ## Reachable states -/

/-- The lexer states a caller can reach: `Init` on a reader whose `Read`
calls return no error but `io.EOF` at the end, then any number of `Scan` and
`TokenText` calls that return. -/
inductive Reachable (E : Env) : Lexer → Prop where
  | init (lx0 : Lexer) (rd : Reader) (h : ∀ s ∈ rd.plan, s.err = none) :
      Reachable E (Init lx0 rd)
  | scan {lx lx' : Lexer} {tok : Int} (h : Reachable E lx) (hs : Scan E lx = .ok (tok, lx')) :
      Reachable E lx'
  | text {lx lx' : Lexer} {t : List Nat} (h : Reachable E lx)
      (hs : TokenText E lx = .ok (t, lx')) : Reachable E lx'

/-- The invariant of the reachable states: the state agrees with a look-ahead
and a cursor, and either no `Scan` has been called yet or the text of the
last token lies between `tokPos` and `tokEnd`. -/
structure Good (E : Env) (lx : Lexer) (ch : Int) (c : Cur) : Prop where
  inter : Inter E lx ch c
  tok : (ch = -2 ∧ lx.tokPos < 0) ∨
    (-1 ≤ ch ∧ TokView lx c.acc ∧ lx.tokEnd = lx.srcPos - lx.lastCharLen)

/-! ## Environments and inputs of the examples -/

/-- The environment of the source with range tables that hold no code point
above Latin-1. -/
def asciiEnv : Env := goEnv (fun _ => false) (fun _ => false)

/-- An environment with a buffer of 8 bytes, to force refills inside tokens. -/
def tinyEnv : Env := { bufLen := 8, letter := fun _ => false, digit := fun _ => false }

/-- The state a call returned, or `d` if it aborted. -/
def resultState (x : Except Abort (Int × Lexer)) (d : Lexer) : Lexer :=
  match x with
  | .ok r => r.2
  | .error _ => d

/-- A reader that delivers `data` in chunks of the given sizes. -/
def chunked (data : List Nat) (sizes : List Nat) : Reader :=
  { data := data, plan := sizes.map (fun n => { want := n, err := none }) }

/-- The state after `k` calls of `Scan` (a call that aborts leaves the state). -/
def nthScan (E : Env) : Nat → Lexer → Lexer
  | 0, lx => lx
  | k + 1, lx => nthScan E k (resultState (Scan E lx) lx)

/-- The input of `TestBigCase2`. -/
def bigCase2 : List Nat :=
  ascii "\n        width == 2 || width == 4.3\n       "

/-! ## UTF-8 in arithmetic -/

/-- `utf8.DecodeRune` on a non-empty slice, written with arithmetic in place
of masks and shifts and with the ranges of the first byte in place of the
table `first`. -/
def decodeSpec (a : Nat) (t : List Nat) : Int × Int :=
  if a < 0x80 then ((a : Int), 1)
  else if a < 0xC2 then (RuneError, 1)
  else if a < 0xE0 then
    match t with
    | b :: _ =>
      if 0x80 ≤ b ∧ b ≤ 0xBF then ((((a % 32) * 64 + b % 64 : Nat) : Int), 2)
      else (RuneError, 1)
    | [] => (RuneError, 1)
  else if a < 0xF0 then
    match t with
    | b :: c :: _ =>
      if (if a = 0xE0 then 0xA0 else 0x80) ≤ b ∧ b ≤ (if a = 0xED then 0x9F else 0xBF) ∧
          0x80 ≤ c ∧ c ≤ 0xBF then
        ((((a % 16) * 4096 + (b % 64) * 64 + c % 64 : Nat) : Int), 3)
      else (RuneError, 1)
    | _ => (RuneError, 1)
  else if a < 0xF5 then
    match t with
    | b :: c :: d :: _ =>
      if (if a = 0xF0 then 0x90 else 0x80) ≤ b ∧ b ≤ (if a = 0xF4 then 0x8F else 0xBF) ∧
          0x80 ≤ c ∧ c ≤ 0xBF ∧ 0x80 ≤ d ∧ d ≤ 0xBF then
        ((((a % 8) * 262144 + (b % 64) * 4096 + (c % 64) * 64 + d % 64 : Nat) : Int), 4)
      else (RuneError, 1)
    | _ => (RuneError, 1)
  else (RuneError, 1)

/-- The UTF-8 encoding of the code point `r` (what `utf8.AppendRune` appends
for a valid rune). -/
def EncodeRune (r : Nat) : List Nat :=
  if r < 0x80 then [r]
  else if r < 0x800 then [0xC0 + r / 64, 0x80 + r % 64]
  else if r < 0x10000 then [0xE0 + r / 4096, 0x80 + r / 64 % 64, 0x80 + r % 64]
  else [0xF0 + r / 262144, 0x80 + r / 4096 % 64, 0x80 + r / 64 % 64, 0x80 + r % 64]

/-- A Unicode scalar value: at most U+10FFFF and not a surrogate. -/
def ValidRune (r : Nat) : Prop := r ≤ 0x10FFFF ∧ ¬ (0xD800 ≤ r ∧ r ≤ 0xDFFF)

instance (r : Nat) : Decidable (ValidRune r) := by unfold ValidRune; infer_instance

/-! ## Whitespace, look-ahead and unread input -/

/-- The cursor whose look-ahead is the first rune of `u`, with `acc` collected
before it. -/
def curAt (acc u : List Nat) : Cur :=
  { acc := acc, last := u.take (nextRune u).2, rest := u.drop (nextRune u).2 }

/-- The bytes that `Scan` skips: tab, line feed, carriage return, space. -/
def isSpace (b : Nat) : Prop := b = 9 ∨ b = 10 ∨ b = 13 ∨ b = 32

instance (b : Nat) : Decidable (isSpace b) := by unfold isSpace; infer_instance

/-- The look-ahead `ch` and the cursor `c` fit together: nothing has been read
yet, or `ch` is the rune whose bytes are `c.last`. -/
def Looking (ch : Int) (c : Cur) : Prop :=
  (ch = -2 ∧ c.last = []) ∨
  (ch = (nextRune (c.last ++ c.rest)).1 ∧ c.last.length = (nextRune (c.last ++ c.rest)).2)

/-- The input that a lexer state has not turned into tokens yet: the bytes of
the look-ahead rune and the unread input behind it. -/
def unread (lx : Lexer) : List Nat :=
  bytesAt lx.srcBuf (lx.srcPos - lx.lastCharLen).toNat lx.lastCharLen.toNat ++ pending lx

/-! ## Operators, loops and the tokens of the grammar -/

/-- The token kind of the operator that starts with the byte `c`. -/
def opKind (c : Nat) : Int :=
  if c = 0x3D then Equ else if c = 0x26 then And else Or

/-- The abort of `scanEqu`, `scanAnd`, `scanOr` for the operator that starts
with `c`, when the rune `r` follows. -/
def opAbort (c : Nat) (r : Int) : Abort :=
  if c = 0x3D then .notEqu r else if c = 0x26 then .notAnd r else .notOr r

/-- The common shape of the four loops of the scanners: while the test `P`
holds for the look-ahead `ch` and the count `i`, take the next rune. -/
def loopA (P : Int → Int → Bool) : Nat → Int → Int → Cur → Except Abort (Int × Cur)
  | 0, _, _, _ => .error .outOfFuel
  | fuel + 1, i, ch, c =>
    if P ch i then do
      let r ← nextA c
      loopA P fuel (i + 1) r.1 r.2
    else pure (ch, c)

/-- The UTF-8 encoding of a sequence of code points. -/
def encodeAll : List Nat → List Nat
  | [] => []
  | r :: rs => EncodeRune r ++ encodeAll rs

/-- A token of the grammar: an identifier (its first code point and the
others), a numeric literal (the digits, and the digits behind the point if
there is a point), a string literal (the quote and the bytes between the
quotes), or one of `==`, `&&`, `||`, `(`, `)`. -/
inductive Tok where
  | ident (first : Nat) (more : List Nat)
  | number (int : List Nat) (frac : Option (List Nat))
  | string (q : Nat) (body : List Nat)
  | equ
  | and
  | or
  | left
  | right
  deriving DecidableEq, Repr

/-- The bytes of a token in the input. -/
def Tok.bytes : Tok → List Nat
  | .ident r more => EncodeRune r ++ encodeAll more
  | .number i none => i
  | .number i (some f) => i ++ 0x2E :: f
  | .string q body => q :: body ++ [q]
  | .equ => [0x3D, 0x3D]
  | .and => [0x26, 0x26]
  | .or => [0x7C, 0x7C]
  | .left => [0x28]
  | .right => [0x29]

/-- The kind that `Scan` returns for a token. -/
def Tok.kind : Tok → Int
  | .ident _ _ => Var
  | .number _ _ => ConstNumeric
  | .string _ _ => ConstString
  | .equ => Equ
  | .and => And
  | .or => Or
  | .left => LeftBracket
  | .right => RightBracket

/-- An ASCII digit `'0'..'9'`. -/
def isDigitByte (b : Nat) : Prop := 0x30 ≤ b ∧ b ≤ 0x39

instance (b : Nat) : Decidable (isDigitByte b) := by unfold isDigitByte; infer_instance

/-- The token is one of the grammar: an identifier starts with a letter or
`_` and goes on with letters, digits or `_` (all of them Unicode scalar
values); a numeric literal is a non-empty run of ASCII digits, with or without
a point and ASCII digits behind it; a string literal has a single or a double
quote, which does not occur between the quotes. -/
def Tok.wf (E : Env) : Tok → Prop
  | .ident r more =>
    ValidRune r ∧ (r = 0x5F ∨ IsLetter E (r : Int) = true) ∧
    ∀ s ∈ more, ValidRune s ∧
      (s = 0x5F ∨ IsLetter E (s : Int) = true ∨ IsDigit E (s : Int) = true)
  | .number i none => i ≠ [] ∧ ∀ b ∈ i, isDigitByte b
  | .number i (some f) => i ≠ [] ∧ (∀ b ∈ i, isDigitByte b) ∧ ∀ b ∈ f, isDigitByte b
  | .string q body => (q = 0x27 ∨ q = 0x22) ∧ q ∉ body
  | _ => True

instance (E : Env) (t : Tok) : Decidable (t.wf E) := by
  cases t with
  | number i f => cases f <;> (unfold Tok.wf; infer_instance)
  | _ => unfold Tok.wf; infer_instance

/-- The input made of the tokens `ts`, each behind its whitespace, and the
whitespace `tr` at the end. -/
def source : List (List Nat × Tok) → List Nat → List Nat
  | [], tr => tr
  | p :: ts, tr => p.1 ++ (p.2.bytes ++ source ts tr)

/-- What stands behind a token: the end of the input or whitespace. -/
def Sep (rest : List Nat) : Prop := ∀ b ∈ rest.head?, isSpace b

/-- `n` calls of `next`, one after the other. -/
def nextN (E : Env) : Nat → Lexer → Except Abort Lexer
  | 0, lx => .ok lx
  | k + 1, lx => do
    let r ← next E lx
    nextN E k r.2

/-- The nine kinds that have a name in `tokenString`. -/
def namedKinds : List Int :=
  [EOF, Var, ConstNumeric, ConstString, Equ, And, Or, LeftBracket, RightBracket]

/-- The window of the buffer is well formed: `0 <= srcPos <= srcEnd <= bufLen`
and the sentinel stands at `srcEnd`. Nothing is assumed of the reader. -/
structure Win (E : Env) (lx : Lexer) : Prop where
  pos : 0 ≤ lx.srcPos
  le : lx.srcPos ≤ lx.srcEnd
  hi : lx.srcEnd ≤ E.bufLen
  sentinel : lx.srcBuf lx.srcEnd.toNat = RuneSelf

/-- The state between two calls of `next`: the window is well formed and the
rune consumed last lies in the buffer in front of `srcPos`. -/
structure Calm (E : Env) (lx : Lexer) : Prop where
  win : Win E lx
  last0 : 0 ≤ lx.lastCharLen
  lastPos : lx.lastCharLen ≤ lx.srcPos

/-- No token is open, or the open token starts in the buffer at or in front
of the rune consumed last. -/
def TokIn (lx : Lexer) : Prop :=
  lx.tokPos < 0 ∨ lx.tokPos ≤ lx.srcPos - lx.lastCharLen

/-- The `Read` calls between two states: the steps of the plan that were used
up, none of which returned an error other than `io.EOF`. -/
def ReadsOK (lx lx' : Lexer) : Prop :=
  ∃ used : List ReadStep, lx.src.plan = used ++ lx'.src.plan ∧
    ∀ s ∈ used, s.err ≠ some IOErr.other

/-- What the refill loop of `next` leaves behind when it returns. -/
structure FillW (E : Env) (lx : Lexer) (r : Filled × Lexer) : Prop where
  win : Win E r.2
  tokNeg : lx.tokPos < 0 → r.2.tokPos = lx.tokPos
  tokPos : 0 ≤ lx.tokPos → 0 ≤ r.2.tokPos ∧ r.2.tokPos ≤ lx.tokPos
  tokIn : (lx.tokPos < 0 ∨ lx.tokPos ≤ lx.srcPos) → (r.2.tokPos < 0 ∨ r.2.tokPos ≤ r.2.srcPos)
  tokEnd : r.2.tokEnd = lx.tokEnd
  reads : ReadsOK lx r.2
  more : r.1 = Filled.more → r.2.srcPos < r.2.srcEnd
  eof : r.1 = Filled.eof → r.2.srcPos = 0 ∧ r.2.lastCharLen = 0

/-- What a run of `next` calls leaves behind when it returns. -/
structure Trail (E : Env) (lx lx' : Lexer) : Prop where
  calm : Calm E lx'
  tokNeg : lx.tokPos < 0 → lx'.tokPos = lx.tokPos
  tokPos : 0 ≤ lx.tokPos → 0 ≤ lx'.tokPos ∧ lx'.tokPos ≤ lx.tokPos
  tokIn : TokIn lx → TokIn lx'
  tokEnd : lx'.tokEnd = lx.tokEnd
  reads : ReadsOK lx lx'

/-- A computation from the state `lx` is safe: it does not abort on an index
or slice expression out of range (given that the open token starts inside the
buffer), and the state it returns is well formed. -/
def Safe (E : Env) (lx : Lexer) {β : Type} (p : β → Lexer) (x : Except Abort β) : Prop :=
  (TokIn lx → x ≠ .error .outOfRange) ∧ ∀ b, x = .ok b → Trail E lx (p b)

/-- The methods of `Lexer` that change the state. -/
inductive Op where
  | next
  | peek
  | scan
  | text
  deriving DecidableEq, Repr

/-- One call of a method; the state after it. -/
def step (E : Env) : Op → Lexer → Except Abort Lexer
  | .next, lx => do
    let r ← next E lx
    pure r.2
  | .peek, lx => do
    let r ← peek E lx
    pure r.2
  | .scan, lx => do
    let r ← Scan E lx
    pure r.2
  | .text, lx => do
    let r ← TokenText E lx
    pure r.2

/-- A sequence of calls, one after the other. -/
def steps (E : Env) : List Op → Lexer → Except Abort Lexer
  | [], lx => .ok lx
  | o :: os, lx => do
    let l ← step E o lx
    steps E os l

/-- The common shape of the four loops of the scanners of the lexer: while the
test `P` holds for the look-ahead, the count and the state, call `next`. -/
def loopL (E : Env) (P : Int → Int → Lexer → Bool) :
    Nat → Int → Int → Lexer → Except Abort (Int × Lexer)
  | 0, _, _, _ => .error .outOfFuel
  | fuel + 1, i, ch, lx =>
    if P ch i lx then do
      let r ← next E lx
      loopL E P fuel (i + 1) r.1 r.2
    else pure (ch, lx)

/-- The invariant of every sequence of calls: the window is well formed, and
the text of a token, if there is one, lies in the buffer. -/
structure GInv (E : Env) (lx : Lexer) : Prop where
  calm : Calm E lx
  tok : lx.tokPos < 0 ∨ (lx.tokPos ≤ lx.tokEnd ∧ lx.tokEnd ≤ E.bufLen)

/-- The invariant of the sequences of `Scan` and `TokenText` calls: on top of
`GInv`, the token ends at or in front of the look-ahead rune. -/
structure HInv (E : Env) (lx : Lexer) : Prop where
  g : GInv E lx
  api : 0 ≤ lx.tokPos → lx.tokEnd ≤ lx.srcPos - lx.lastCharLen

/-- The state that a sequence of calls returned, or `d` if it aborted. -/
def stateOf (x : Except Abort Lexer) (d : Lexer) : Lexer :=
  match x with
  | .ok l => l
  | .error _ => d

/-- All the bytes of a cursor: the open token, the look-ahead rune, the
unread input. -/
def tot (c : Cur) : List Nat := c.acc ++ (c.last ++ c.rest)

/-- The input as tokenisation sees it: in front of each text its whitespace,
and whitespace at the end. -/
def weave : List (List Nat × List Nat) → List Nat → List Nat
  | [], tr => tr
  | p :: ps, tr => p.1 ++ (p.2 ++ weave ps tr)

/-! ## Bytes of the buffer -/

theorem bytesAt_length (buf : Nat → Nat) (lo n : Nat) : (bytesAt buf lo n).length = n := by
  simp [bytesAt]

theorem bytesAt_zero (buf : Nat → Nat) (lo : Nat) : bytesAt buf lo 0 = [] := rfl

theorem bytesAt_add (buf : Nat → Nat) (lo n m : Nat) :
    bytesAt buf lo (n + m) = bytesAt buf lo n ++ bytesAt buf (lo + n) m := by
  simp only [bytesAt, List.range_add, List.map_append, List.map_map]
  congr 1
  apply List.map_congr_left
  intro j _
  simp [Nat.add_assoc]

theorem bytesAt_succ (buf : Nat → Nat) (lo n : Nat) :
    bytesAt buf lo (n + 1) = buf lo :: bytesAt buf (lo + 1) n := by
  rw [Nat.add_comm n 1, bytesAt_add]
  rfl

theorem bytesAt_ext {f g : Nat → Nat} {lo lo' n : Nat}
    (h : ∀ j, j < n → f (lo + j) = g (lo' + j)) : bytesAt f lo n = bytesAt g lo' n := by
  apply List.map_congr_left
  intro j hj
  exact h _ (List.mem_range.mp hj)

theorem bytesAt_take (buf : Nat → Nat) (lo n k : Nat) (h : k ≤ n) :
    (bytesAt buf lo n).take k = bytesAt buf lo k := by
  obtain ⟨m, rfl⟩ : ∃ m, n = k + m := ⟨n - k, by omega⟩
  rw [bytesAt_add, List.take_left' (bytesAt_length _ _ _)]

theorem bytesAt_drop (buf : Nat → Nat) (lo n k : Nat) (h : k ≤ n) :
    (bytesAt buf lo n).drop k = bytesAt buf (lo + k) (n - k) := by
  obtain ⟨m, rfl⟩ : ∃ m, n = k + m := ⟨n - k, by omega⟩
  rw [bytesAt_add, List.drop_left' (bytesAt_length _ _ _)]
  simp

/-- The refilled buffer holds the unread bytes followed by the bytes read. -/
theorem bytesAt_refill (buf : Nat → Nat) (p n : Nat) (bs : List Nat) (v : Nat) :
    bytesAt (Function.update (writeAt (copyFront buf p n) n bs) (n + bs.length) v) 0
        (n + bs.length) = bytesAt buf p n ++ bs := by
  rw [bytesAt_add]
  congr 1
  · apply bytesAt_ext
    intro j hj
    have h1 : 0 + j ≠ n + bs.length := by omega
    have h2 : ¬ (n ≤ 0 + j ∧ 0 + j < n + bs.length) := by omega
    have h3 : 0 + j < n := by omega
    simp only [Function.update, h1, writeAt, copyFront, h2, h3]
    simp
  · apply List.ext_getElem
    · simp [bytesAt_length]
    · intro j h1 h2
      simp only [bytesAt, List.getElem_map, List.getElem_range]
      have h3 : 0 + n + j ≠ n + bs.length := by omega
      have h4 : n ≤ 0 + n + j ∧ 0 + n + j < n + bs.length := by omega
      have h5 : 0 + n + j - n = j := by omega
      simp only [Function.update, h3, writeAt, h4, h5]
      have h6 : j ≠ bs.length := by omega
      simp [List.getD_eq_getElem?_getD, List.getElem?_eq_getElem h2, h6, h2]

/-! ## Facts about `unicode/utf8` -/

theorem first_cases (b : Nat) :
    first b = 0xF0 ∨ first b = 0xF1 ∨ first b = 0x02 ∨ first b = 0x13 ∨ first b = 0x03 ∨
    first b = 0x23 ∨ first b = 0x34 ∨ first b = 0x04 ∨ first b = 0x44 := by
  unfold first
  by_cases h1 : b < 0x80
  · simp only [h1, ↓reduceIte]; decide
  by_cases h2 : b < 0xC2
  · simp only [h1, h2, ↓reduceIte]; decide
  by_cases h3 : b < 0xE0
  · simp only [h1, h2, h3, ↓reduceIte]; decide
  by_cases h4 : b = 0xE0
  · simp only [h1, h2, h3, h4, ↓reduceIte]; decide
  by_cases h5 : b < 0xED
  · simp only [h1, h2, h3, h4, h5, ↓reduceIte]; decide
  by_cases h6 : b = 0xED
  · simp only [h1, h2, h3, h4, h5, h6, ↓reduceIte]; decide
  by_cases h7 : b < 0xF0
  · simp only [h1, h2, h3, h4, h5, h6, h7, ↓reduceIte]; decide
  by_cases h8 : b = 0xF0
  · simp only [h1, h2, h3, h4, h5, h6, h7, h8, ↓reduceIte]; decide
  by_cases h9 : b < 0xF4
  · simp only [h1, h2, h3, h4, h5, h6, h7, h8, h9, ↓reduceIte]; decide
  by_cases h10 : b = 0xF4
  · simp only [h1, h2, h3, h4, h5, h6, h7, h8, h9, h10, ↓reduceIte]; decide
  · simp only [h1, h2, h3, h4, h5, h6, h7, h8, h9, h10, ↓reduceIte]; decide

theorem first_ascii {b : Nat} (h : b < 0x80) : first b = 0xF0 := by
  unfold first
  rw [if_pos h]

theorem first_of_ge {b : Nat} (h : 0x80 ≤ b) : first b ≠ 0xF0 := by
  unfold first
  have h1 : ¬ b < 0x80 := by omega
  by_cases h2 : b < 0xC2
  · simp only [h1, h2, ↓reduceIte]; decide
  by_cases h3 : b < 0xE0
  · simp only [h1, h2, h3, ↓reduceIte]; decide
  by_cases h4 : b = 0xE0
  · simp only [h1, h2, h3, h4, ↓reduceIte]; decide
  by_cases h5 : b < 0xED
  · simp only [h1, h2, h3, h4, h5, ↓reduceIte]; decide
  by_cases h6 : b = 0xED
  · simp only [h1, h2, h3, h4, h5, h6, ↓reduceIte]; decide
  by_cases h7 : b < 0xF0
  · simp only [h1, h2, h3, h4, h5, h6, h7, ↓reduceIte]; decide
  by_cases h8 : b = 0xF0
  · simp only [h1, h2, h3, h4, h5, h6, h7, h8, ↓reduceIte]; decide
  by_cases h9 : b < 0xF4
  · simp only [h1, h2, h3, h4, h5, h6, h7, h8, h9, ↓reduceIte]; decide
  by_cases h10 : b = 0xF4
  · simp only [h1, h2, h3, h4, h5, h6, h7, h8, h9, h10, ↓reduceIte]; decide
  · simp only [h1, h2, h3, h4, h5, h6, h7, h8, h9, h10, ↓reduceIte]; decide

/-- The size nibble of `first`: 0 or 1 for the one-byte cases, else 2, 3 or 4. -/
theorem first_size (b : Nat) :
    (0xF0 ≤ first b ∧ first b &&& 7 ≤ 1) ∨
    (first b < 0xF0 ∧ (first b &&& 7 = 2 ∨ first b &&& 7 = 3 ∨ first b &&& 7 = 4)) := by
  rcases first_cases b with h | h | h | h | h | h | h | h | h <;> rw [h] <;> decide

theorem DecodeRune_ascii {b : Nat} (t : List Nat) (h : b < 0x80) :
    DecodeRune (b :: t) = ((b : Int), 1) := by
  simp [DecodeRune, first_ascii h]

theorem DecodeRune_append_of_four (a b c d : Nat) (t q : List Nat) :
    DecodeRune (a :: b :: c :: d :: t ++ q) = DecodeRune (a :: b :: c :: d :: t) := by
  simp only [List.cons_append, DecodeRune]
  rcases first_size a with ⟨h1, _⟩ | ⟨h1, h2⟩
  · simp [h1]
  have h3 : ¬ ((a :: b :: c :: d :: (t ++ q)).length < first a &&& 7) := by
    simp only [List.length_cons]; omega
  have h4 : ¬ ((a :: b :: c :: d :: t).length < first a &&& 7) := by
    simp only [List.length_cons]; omega
  simp only [h3, h4, if_false]

theorem DecodeRune_append_of_full (p q : List Nat) (h : FullRune p = true) :
    DecodeRune (p ++ q) = DecodeRune p := by
  rcases p with _ | ⟨a, t⟩
  · simp [FullRune] at h
  rcases first_size a with ⟨h1, h2⟩ | ⟨h1, h2⟩
  · simp [DecodeRune, h1]
  have h3 : ¬ (0xF0 ≤ first a) := by omega
  rcases t with _ | ⟨b, t⟩
  · simp only [FullRune, List.length_singleton] at h
    simp at h
    omega
  rcases t with _ | ⟨c, t⟩
  · simp only [FullRune, List.length_cons, List.length_nil] at h
    simp only [List.cons_append, List.nil_append, DecodeRune, h3, if_false, List.length_cons,
      List.length_nil]
    generalize first a &&& 7 = sz at h h2 ⊢
    generalize acceptRanges (first a >>> 4) = acc at h ⊢
    by_cases hb : b < acc.1 ∨ acc.2 < b
    · simp only [hb, if_true]; split_ifs <;> rfl
    · simp only [hb, if_false] at h ⊢
      have : sz = 2 := by
        rcases h2 with h2 | h2 | h2 <;> simp [h2] at h ⊢
      subst this
      simp
  rcases t with _ | ⟨d, t⟩
  · simp only [FullRune, List.length_cons, List.length_nil] at h
    simp only [List.cons_append, List.nil_append, DecodeRune, h3, if_false, List.length_cons,
      List.length_nil]
    generalize first a &&& 7 = sz at h h2 ⊢
    generalize acceptRanges (first a >>> 4) = acc at h ⊢
    by_cases hb : b < acc.1 ∨ acc.2 < b
    · simp only [hb, if_true]; split_ifs <;> rfl
    simp only [hb, if_false] at h ⊢
    rcases h2 with rfl | rfl | rfl
    · simp
    · simp
    · have hc : c < 0x80 ∨ 0xBF < c := by simpa using h
      simp [hc]
  · exact DecodeRune_append_of_four a b c d t q

theorem DecodeRune_width (a : Nat) (t : List Nat) :
    1 ≤ (DecodeRune (a :: t)).2 ∧ (DecodeRune (a :: t)).2 ≤ (a :: t).length ∧
      (DecodeRune (a :: t)).2 ≤ 4 := by
  simp only [DecodeRune]
  rcases first_size a with ⟨h1, _⟩ | ⟨h1, h2⟩
  · simp [h1]
  have h3 : ¬ (0xF0 ≤ first a) := by omega
  simp only [h3, if_false]
  generalize first a &&& 7 = sz at h2 ⊢
  generalize acceptRanges (first a >>> 4) = acc
  rcases t with _ | ⟨b, _ | ⟨c, _ | ⟨d, t⟩⟩⟩ <;>
    simp only [List.length_cons, List.length_nil] <;> split_ifs <;> simp <;> omega

theorem DecodeRune_nonneg (p : List Nat) : 0 ≤ (DecodeRune p).1 := by
  rcases p with _ | ⟨a, _ | ⟨b, _ | ⟨c, _ | ⟨d, t⟩⟩⟩⟩ <;>
    simp only [DecodeRune] <;> (try split_ifs) <;> simp [RuneError]

/-! ## The view of the lexer state -/

theorem Reader.read_length_le (r : Reader) (cap : Nat) : (r.read cap).1.length ≤ cap := by
  unfold Reader.read
  rcases hp : r.plan with _ | ⟨s, rest⟩
  · by_cases hd : r.data.length = 0
    · simp [hd]
    · simp only [hd, ↓reduceIte, List.length_take]; omega
  · simp only [List.length_take]; omega

theorem Reader.read_data (r : Reader) (cap : Nat) :
    (r.read cap).1 ++ (r.read cap).2.2.data = r.data := by
  unfold Reader.read
  rcases hp : r.plan with _ | ⟨s, rest⟩
  · by_cases hd : r.data.length = 0
    · simp only [hd, ↓reduceIte, List.nil_append]
    · simp only [hd, ↓reduceIte, List.take_append_drop]
  · simp only [List.take_append_drop]

theorem Reader.read_noerr (r : Reader) (cap : Nat) (h : ∀ s ∈ r.plan, s.err = none) :
    ∀ s ∈ (r.read cap).2.2.plan, s.err = none := by
  unfold Reader.read
  rcases hp : r.plan with _ | ⟨s, rest⟩
  · by_cases hd : r.data.length = 0
    · simp [hd, hp]
    · simp [hd, hp]
  · rw [hp] at h
    simp only
    intro s' hs'
    exact h s' (List.mem_cons_of_mem _ hs')

/-- A reader without errors in its plan returns `io.EOF` only when it holds
nothing, and then it delivers nothing. -/
theorem Reader.read_eof (r : Reader) (cap : Nat) (h : ∀ s ∈ r.plan, s.err = none)
    (he : (r.read cap).2.1 = some IOErr.eof) :
    (r.read cap).1 = [] ∧ (r.read cap).2.2.data = [] ∧ r.data = [] := by
  unfold Reader.read at he ⊢
  rcases hp : r.plan with _ | ⟨s, rest⟩
  · rw [hp] at he
    by_cases hd : r.data.length = 0
    · simp only [hd, ↓reduceIte, true_and]
      have := List.length_eq_zero.mp hd
      simp [this]
    · simp [hd] at he
  · rw [hp] at he h
    simp only at he
    rw [h s (List.mem_cons_self _ _)] at he
    simp at he

/-- A reader without errors makes progress on every `Read` that is given
room: it uses up a step of its plan or a byte. -/
theorem Reader.read_progress (r : Reader) (cap : Nat) (hc : 0 < cap)
    (he : (r.read cap).2.1 = none) :
    (r.read cap).2.2.plan.length + (r.read cap).2.2.data.length <
      r.plan.length + r.data.length := by
  unfold Reader.read at he ⊢
  rcases hp : r.plan with _ | ⟨s, rest⟩
  · rw [hp] at he
    by_cases hd : r.data.length = 0
    · simp [hd] at he
    · simp only [hd, ↓reduceIte, hp, List.length_nil, List.length_drop]; omega
  · simp only [List.length_drop, List.length_cons]; omega

theorem slice_ok {E : Env} {buf : Nat → Nat} {lo hi : Int} (h1 : 0 ≤ lo) (h2 : lo ≤ hi)
    (h3 : hi ≤ E.bufLen + 1) :
    slice E buf lo hi = .ok (bytesAt buf lo.toNat (hi - lo).toNat) := by
  unfold slice
  rw [if_pos ⟨h1, h2, h3⟩]

theorem index_ok {E : Env} {buf : Nat → Nat} {i : Int} (h1 : 0 ≤ i) (h2 : i ≤ E.bufLen) :
    index E buf i = .ok (buf i.toNat) := by
  unfold index
  rw [if_pos ⟨h1, by omega⟩]

theorem fillCond_ok {E : Env} {lx : Lexer} (h : BufOK E lx) :
    fillCond E lx = .ok (decide (lx.srcPos + 4 > lx.srcEnd) && !FullRune (avail lx)) := by
  unfold fillCond
  by_cases hc : lx.srcPos + 4 > lx.srcEnd
  · have hs : slice E lx.srcBuf lx.srcPos lx.srcEnd = .ok (avail lx) :=
      slice_ok h.pos h.le (by have := h.hi; omega)
    simp only [UTFMax, hc, ↓reduceIte, hs, bind, Except.bind, pure, Except.pure, decide_True,
      Bool.true_and]
  · simp only [UTFMax, hc, ↓reduceIte, pure, Except.pure, decide_False, Bool.false_and]

theorem spill_ok {E : Env} {lx : Lexer} (h : BufOK E lx)
    (ht : lx.tokPos < 0 ∨ lx.tokPos ≤ lx.srcPos) : spill E lx = .ok (spilled lx) := by
  unfold spill spilled
  by_cases hc : 0 ≤ lx.tokPos
  · have h2 : lx.tokPos ≤ lx.srcPos := by omega
    have hs : slice E lx.srcBuf lx.tokPos lx.srcPos = .ok _ :=
      slice_ok hc h2 (by have := h.hi; have := h.le; omega)
    simp only [hc, ↓reduceIte, hs, bind, Except.bind, pure, Except.pure, tokSoFar]
  · simp only [hc, ↓reduceIte, pure, Except.pure]

theorem refill_ok {E : Env} {lx : Lexer} (h : BufOK E lx) (h3 : lx.srcEnd < lx.srcPos + 4) :
    refill E lx =
      .ok ((lx.src.read (E.bufLen - (lx.srcEnd - lx.srcPos).toNat)).2.1, refilled E lx) := by
  obtain ⟨hcap, hpos, hle, hhi, hsen, hno⟩ := h
  have hlen := Reader.read_length_le lx.src (E.bufLen - (lx.srcEnd - lx.srcPos).toNat)
  unfold refill refilled
  have c1 : (0 : Int) ≤ lx.srcEnd - lx.srcPos ∧ lx.srcEnd - lx.srcPos ≤ (E.bufLen : Int) := by
    omega
  have c2 : (0 : Int) ≤ lx.srcEnd - lx.srcPos +
        ((lx.src.read (E.bufLen - (lx.srcEnd - lx.srcPos).toNat)).1.length : Int) ∧
      lx.srcEnd - lx.srcPos +
        ((lx.src.read (E.bufLen - (lx.srcEnd - lx.srcPos).toNat)).1.length : Int) <
          (E.bufLen : Int) + 1 := by
    omega
  have e1 : (lx.srcEnd - lx.srcPos +
        ((lx.src.read (E.bufLen - (lx.srcEnd - lx.srcPos).toNat)).1.length : Int)) =
      (((lx.srcEnd - lx.srcPos).toNat +
        (lx.src.read (E.bufLen - (lx.srcEnd - lx.srcPos).toNat)).1.length : Nat) : Int) := by
    omega
  have hs : slice E lx.srcBuf lx.srcPos lx.srcEnd = .ok _ := slice_ok hpos hle (by omega)
  simp only [hs, bind, Except.bind,
    pure, Except.pure, c1, c2, not_true_eq_false, ↓reduceIte, and_self, bytesAt_length]
  rw [e1]
  simp only [Int.toNat_ofNat]

theorem Step.refl {E : Env} {lx : Lexer} (h : BufOK E lx) : Step E lx lx :=
  ⟨h, rfl, fun _ => ⟨rfl, rfl⟩, fun h1 h2 => ⟨h1, h2, rfl⟩, rfl, rfl, rfl⟩

theorem Step.trans {E : Env} {a b c : Lexer} (h1 : Step E a b) (h2 : Step E b c) :
    Step E a c := by
  refine ⟨h2.ok, h2.pend.trans h1.pend, ?_, ?_, h2.ch.trans h1.ch, h2.ws.trans h1.ws,
    h2.tokEnd.trans h1.tokEnd⟩
  · intro h
    obtain ⟨e1, e2⟩ := h1.tokNeg h
    obtain ⟨e3, e4⟩ := h2.tokNeg (by omega)
    exact ⟨e3.trans e1, e4.trans e2⟩
  · intro h ha
    obtain ⟨e1, e2, e3⟩ := h1.tokPos h ha
    obtain ⟨e4, e5, e6⟩ := h2.tokPos e1 e2
    exact ⟨e4, e5, e6.trans e3⟩

theorem spilled_eq_of_neg {lx : Lexer} (h : lx.tokPos < 0) : spilled lx = lx := by
  unfold spilled
  rw [if_neg (by omega)]

theorem spilled_eq_of_nonneg {lx : Lexer} (h : 0 ≤ lx.tokPos) :
    spilled lx = { lx with tokBuf := tokSoFar lx, tokPos := 0 } := by
  unfold spilled
  rw [if_pos h]

theorem refilled_step {E : Env} {lx : Lexer} (h : BufOK E lx)
    (_ht : lx.tokPos < 0 ∨ lx.tokPos ≤ lx.srcPos) (h3 : lx.srcEnd < lx.srcPos + 4) :
    Step E lx (refilled E (spilled lx)) := by
  obtain ⟨hcap, hpos, hle, hhi, hsen, hno⟩ := h
  have e1 : (spilled lx).src = lx.src := by unfold spilled; split <;> rfl
  have e2 : (spilled lx).srcBuf = lx.srcBuf := by unfold spilled; split <;> rfl
  have e3 : (spilled lx).srcPos = lx.srcPos := by unfold spilled; split <;> rfl
  have e4 : (spilled lx).srcEnd = lx.srcEnd := by unfold spilled; split <;> rfl
  have hlen := Reader.read_length_le lx.src (E.bufLen - (lx.srcEnd - lx.srcPos).toNat)
  refine ⟨⟨hcap, ?_, ?_, ?_, ?_, ?_⟩, ?_, ?_, ?_, ?_, ?_, ?_⟩
  · simp [refilled]
  · simp only [refilled]; omega
  · simp only [refilled, e1, e3, e4]; omega
  · simp only [refilled, Int.toNat_ofNat, Function.update_same]
  · simp only [refilled, e1, e3, e4]
    exact Reader.read_noerr _ _ hno
  · simp only [pending, avail, refilled, e1, e2, e3, e4, Int.toNat_zero, Int.sub_zero,
      Int.toNat_ofNat, bytesAt_refill, List.append_assoc, Reader.read_data]
  · intro hn
    rw [spilled_eq_of_neg hn]
    exact ⟨rfl, rfl⟩
  · intro hn _
    rw [spilled_eq_of_nonneg hn]
    refine ⟨le_refl _, le_refl _, ?_⟩
    simp [tokSoFar, refilled, bytesAt_zero]
  · unfold spilled; split <;> rfl
  · unfold spilled; split <;> rfl
  · unfold spilled; split <;> rfl

theorem Reader.read_not_other (r : Reader) (cap : Nat) (h : ∀ s ∈ r.plan, s.err = none) :
    (r.read cap).2.1 ≠ some IOErr.other := by
  unfold Reader.read
  rcases hp : r.plan with _ | ⟨s, rest⟩
  · by_cases hd : r.data.length = 0
    · simp [hd]
    · simp [hd]
  · rw [hp] at h
    simp only
    rw [h s (List.mem_cons_self _ _)]
    simp

theorem spilled_bufOK {E : Env} {lx : Lexer} (h : BufOK E lx) : BufOK E (spilled lx) := by
  unfold spilled
  split
  · exact ⟨h.cap, h.pos, h.le, h.hi, h.sentinel, h.noerr⟩
  · exact h

/-- The refill loop on a well-formed state: it ends, keeps the unread input and
the bytes of the open token, and leaves a full rune, four bytes, or all that
is left of the input in the buffer. -/
theorem fill_spec (E : Env) : ∀ (fuel : Nat) (lx : Lexer), BufOK E lx →
    (lx.tokPos < 0 ∨ lx.tokPos ≤ lx.srcPos) →
    lx.src.plan.length + lx.src.data.length < fuel →
    ∃ res lx', fill E fuel lx = .ok (res, lx') ∧ Step E lx lx' ∧
      (res = Filled.more → lx'.lastCharLen = lx.lastCharLen ∧
        (lx'.srcPos + 4 ≤ lx'.srcEnd ∨ FullRune (avail lx') = true ∨
          (lx'.src.data = [] ∧ lx'.srcPos < lx'.srcEnd))) ∧
      (res = Filled.eof → lx'.srcPos = 0 ∧ lx'.srcEnd = 0 ∧ lx'.lastCharLen = 0 ∧
        lx'.src.data = []) := by
  intro fuel
  induction fuel with
  | zero => intro lx _ _ hf; omega
  | succ fuel ih =>
    intro lx h ht hf
    rw [fill]
    simp only [fillCond_ok h, bind, Except.bind]
    by_cases hc : (decide (lx.srcPos + 4 > lx.srcEnd) && !FullRune (avail lx)) = true
    · simp only [hc, ↓reduceIte]
      simp only [Bool.and_eq_true, decide_eq_true_eq, Bool.not_eq_true'] at hc
      have h3 : lx.srcEnd < lx.srcPos + 4 := by omega
      have hsp := spilled_bufOK h
      have e1 : (spilled lx).src = lx.src := by unfold spilled; split <;> rfl
      have e3 : (spilled lx).srcPos = lx.srcPos := by unfold spilled; split <;> rfl
      have e4 : (spilled lx).srcEnd = lx.srcEnd := by unfold spilled; split <;> rfl
      have e5 : (spilled lx).lastCharLen = lx.lastCharLen := by unfold spilled; split <;> rfl
      have hst := refilled_step h ht h3
      rw [spill_ok h ht]
      simp only [refill_ok hsp (by rw [e3, e4]; exact h3)]
      rw [e1, e3, e4]
      rcases herr : (lx.src.read (E.bufLen - (lx.srcEnd - lx.srcPos).toNat)).2.1 with _ | err
      · -- the Read returned no error: once more round the loop
        simp only
        have hprog := Reader.read_progress lx.src (E.bufLen - (lx.srcEnd - lx.srcPos).toNat)
          (by have := h.cap; have := h.le; omega) herr
        have hsrc : (refilled E (spilled lx)).src =
            (lx.src.read (E.bufLen - (lx.srcEnd - lx.srcPos).toNat)).2.2 := by
          simp only [refilled, e1, e3, e4]
        obtain ⟨res, lx', hfill, hstep, hmore, heof⟩ :=
          ih (refilled E (spilled lx)) hst.ok
            (by
              by_cases hn : lx.tokPos < 0
              · exact Or.inl (by rw [(hst.tokNeg hn).1]; exact hn)
              · exact Or.inr (hst.tokPos (by omega) (by omega)).2.1)
            (by rw [hsrc]; omega)
        refine ⟨res, lx', hfill, hst.trans hstep, ?_, heof⟩
        intro hr
        obtain ⟨a, b⟩ := hmore hr
        refine ⟨?_, b⟩
        rw [a]
        simp only [refilled, e5]
      · cases err with
        | other => exact absurd herr (Reader.read_not_other _ _ h.noerr)
        | eof =>
          obtain ⟨r1, r2, r3⟩ := Reader.read_eof _ _ h.noerr herr
          simp only
          have hdata : (refilled E (spilled lx)).src.data = [] := by
            simp only [refilled, e1, e3, e4]; exact r2
          by_cases hz : (refilled E (spilled lx)).srcEnd = 0
          · rw [if_pos hz]
            simp only [pure, Except.pure]
            refine ⟨_, _, rfl, ?_, (by intro hr; cases hr), fun _ => ⟨?_, hz, rfl, hdata⟩⟩
            · exact ⟨⟨hst.ok.cap, hst.ok.pos, hst.ok.le, hst.ok.hi, hst.ok.sentinel,
                hst.ok.noerr⟩, hst.pend, hst.tokNeg, hst.tokPos, hst.ch, hst.ws, hst.tokEnd⟩
            · simp [refilled]
          · rw [if_neg hz]
            simp only [pure, Except.pure]
            refine ⟨_, _, rfl, hst, fun _ => ⟨?_, Or.inr (Or.inr ⟨hdata, ?_⟩)⟩,
              (by intro hr; cases hr)⟩
            · simp only [refilled, e5]
            · have h0 : (refilled E (spilled lx)).srcPos = 0 := by simp [refilled]
              have := hst.ok.le
              omega
    · simp only [hc, pure, Except.pure]
      simp only [Bool.and_eq_true, decide_eq_true_eq, Bool.not_eq_true', not_and,
        Bool.not_eq_false] at hc
      refine ⟨_, _, rfl, Step.refl h, fun _ => ⟨rfl, ?_⟩, (by intro hr; cases hr)⟩
      by_cases h4 : lx.srcPos + 4 > lx.srcEnd
      · exact Or.inr (Or.inl (hc h4))
      · exact Or.inl (by omega)

theorem advance_eq (lx : Lexer) (ch w : Int) :
    ∃ l c ll e, advance lx ch w = (ch, moved lx w l c ll e) := by
  by_cases h0 : ch = 0
  · refine ⟨lx.line, lx.column + 1, lx.lastLineLen, lx.stderr ++ [Diag.illegalNUL], ?_⟩
    simp only [advance]
    rw [if_pos h0]
    rfl
  · by_cases h1 : ch = 10
    · refine ⟨lx.line + 1, 0, lx.column + 1, lx.stderr, ?_⟩
      simp only [advance]
      rw [if_neg h0, if_pos h1]
      rfl
    · refine ⟨lx.line, lx.column + 1, lx.lastLineLen, lx.stderr, ?_⟩
      simp only [advance]
      rw [if_neg h0, if_neg h1]
      rfl

theorem tokSoFar_of_view {E : Env} {lx : Lexer} {last rest acc : List Nat}
    (hv : View E lx last rest) (ht : TokView lx acc) : tokSoFar lx = acc ++ last := by
  obtain ⟨h1, h2, h3⟩ := ht
  have hl := hv.lastLen
  have hb := hv.lastBytes
  have e : (lx.srcPos - lx.tokPos).toNat =
      (lx.srcPos - lx.lastCharLen - lx.tokPos).toNat + last.length := by omega
  have e2 : lx.tokPos.toNat + (lx.srcPos - lx.lastCharLen - lx.tokPos).toNat =
      (lx.srcPos - lx.lastCharLen).toNat := by omega
  unfold tokSoFar
  rw [e, bytesAt_add, e2, hb, ← List.append_assoc, h3]

/-- Consuming `w` bytes that are in the buffer. -/
theorem moved_spec {E : Env} {lx : Lexer} (h : BufOK E lx) (w : Nat) (hw : lx.srcPos + w ≤ lx.srcEnd)
    (l c ll : Int) (e : List Diag) :
    View E (moved lx w l c ll e) ((pending lx).take w) ((pending lx).drop w) ∧
    (0 ≤ lx.tokPos → lx.tokPos ≤ lx.srcPos → TokView (moved lx w l c ll e) (tokSoFar lx)) := by
  obtain ⟨hcap, hpos, hle, hhi, hsen, hno⟩ := h
  have hav : (avail lx).length = (lx.srcEnd - lx.srcPos).toNat := bytesAt_length _ _ _
  have hwl : w ≤ (avail lx).length := by omega
  have htake : (pending lx).take w = bytesAt lx.srcBuf lx.srcPos.toNat w := by
    unfold pending
    rw [List.take_append_of_le_length hwl]
    exact bytesAt_take _ _ _ _ (by omega)
  have hlen : ((pending lx).take w).length = w := by
    rw [htake, bytesAt_length]
  refine ⟨⟨⟨hcap, ?_, ?_, hhi, hsen, hno⟩, ?_, ?_, ?_, ?_⟩, ?_⟩
  · simp only [moved]; omega
  · simp only [moved]; omega
  · unfold pending
    rw [List.drop_append_of_le_length hwl]
    simp only [avail, moved]
    rw [bytesAt_drop _ _ _ _ (by omega)]
    congr 2
    · omega
    · omega
  · simp only [moved, hlen]
  · simp only [moved]; omega
  · rw [hlen, htake]
    simp only [moved]
    congr 1
    omega
  · intro h1 h2
    refine ⟨h1, ?_, ?_⟩
    · simp only [moved]; omega
    · simp only [moved, tokSoFar]
      congr 2
      omega

theorem avail_cons {E : Env} {lx : Lexer} (h : BufOK E lx) (hlt : lx.srcPos < lx.srcEnd) :
    avail lx = lx.srcBuf lx.srcPos.toNat ::
      bytesAt lx.srcBuf (lx.srcPos.toNat + 1) ((lx.srcEnd - lx.srcPos).toNat - 1) := by
  have hpos := h.pos
  unfold avail
  obtain ⟨m, hm⟩ : ∃ m, (lx.srcEnd - lx.srcPos).toNat = m + 1 :=
    ⟨(lx.srcEnd - lx.srcPos).toNat - 1, by omega⟩
  rw [hm, bytesAt_succ]
  simp

theorem consume {E : Env} {lx lx1 : Lexer} {last rest : List Nat} (hv : View E lx last rest)
    (hs : Step E lx lx1) (w : Nat) (hw : lx1.srcPos + w ≤ lx1.srcEnd)
    (hn : (nextRune rest).2 = w) (l c ll : Int) (e : List Diag) :
    NextOK E lx last rest (moved lx1 w l c ll e) := by
  obtain ⟨m1, m2⟩ := moved_spec hs.ok w hw l c ll e
  have hp : pending lx1 = rest := hs.pend.trans hv.pend
  rw [hp] at m1
  refine ⟨by rw [hn]; exact m1, ?_, ?_, hs.ch, hs.ws, hs.tokEnd⟩
  · intro h
    exact hs.tokNeg h
  · intro acc ha
    have hl := hv.lastLen
    have h2 : lx.tokPos ≤ lx.srcPos := by have := ha.le; omega
    obtain ⟨t1, t2, t3⟩ := hs.tokPos ha.pos h2
    have := m2 t1 t2
    rw [t3, tokSoFar_of_view hv ha] at this
    exact this

/-- The refinement step: on a well-formed state whose unread input is `rest`,
`next` does not abort and returns the first rune of `rest`. -/
theorem next_spec {E : Env} {lx : Lexer} {last rest : List Nat} (hv : View E lx last rest)
    (ht : lx.tokPos < 0 ∨ lx.tokPos ≤ lx.srcPos - lx.lastCharLen) :
    ∃ lx', next E lx = .ok ((nextRune rest).1, lx') ∧ NextOK E lx last rest lx' := by
  have hb := hv.ok
  have hll := hv.lastLen
  have ht' : lx.tokPos < 0 ∨ lx.tokPos ≤ lx.srcPos := by omega
  unfold next
  rw [index_ok hb.pos (by have := hb.le; have := hb.hi; omega)]
  simp only [bind, Except.bind]
  by_cases hlt : lx.srcBuf lx.srcPos.toNat < RuneSelf
  · -- an ASCII byte in the buffer
    rw [if_pos hlt]
    have hne : lx.srcPos < lx.srcEnd := by
      rcases lt_or_ge lx.srcPos lx.srcEnd with h | h
      · exact h
      · have : lx.srcPos = lx.srcEnd := le_antisymm hb.le h
        rw [this, hb.sentinel] at hlt
        exact absurd hlt (lt_irrefl _)
    have hr : rest = lx.srcBuf lx.srcPos.toNat ::
        (bytesAt lx.srcBuf (lx.srcPos.toNat + 1) ((lx.srcEnd - lx.srcPos).toNat - 1) ++
          lx.src.data) := by
      rw [← hv.pend, pending, avail_cons hb hne]; rfl
    have hn : nextRune rest = ((lx.srcBuf lx.srcPos.toNat : Int), 1) := by
      rw [hr]; simp only [nextRune, hlt, ↓reduceIte]
    obtain ⟨l, c, ll, e, ha⟩ := advance_eq lx (lx.srcBuf lx.srcPos.toNat) 1
    rw [ha, hn]
    exact ⟨_, rfl, by
      have := consume hv (Step.refl hb) 1 (by omega) (by rw [hn]) l c ll e
      exact this⟩
  · rw [if_neg hlt]
    obtain ⟨res, lx1, hf, hs, hmore, heof⟩ := fill_spec E (fillFuel lx) lx hb ht'
      (by unfold fillFuel; omega)
    rw [hf]
    simp only
    have hp : pending lx1 = rest := hs.pend.trans hv.pend
    cases res with
    | eof =>
      obtain ⟨z1, z2, z3, z4⟩ := heof rfl
      have hr : rest = [] := by
        rw [← hp, pending, avail, z1, z2, z4]; rfl
      have hn : nextRune rest = (EOF, 0) := by rw [hr]; rfl
      have hm : lx1 = moved lx1 (0 : Nat) lx1.line lx1.column lx1.lastLineLen lx1.stderr := by
        cases lx1
        simp only [moved] at z1 z3 ⊢
        simp [z1, z3]
      simp only [pure, Except.pure, hn]
      refine ⟨_, rfl, ?_⟩
      rw [hm]
      exact consume hv hs 0 (by have := hs.ok.le; omega) (by rw [hn]) _ _ _ _
    | more =>
      obtain ⟨k1, k2⟩ := hmore rfl
      have hb1 := hs.ok
      have hne : lx1.srcPos < lx1.srcEnd := by
        rcases k2 with k | k | k
        · omega
        · have hl : (avail lx1).length = (lx1.srcEnd - lx1.srcPos).toNat := bytesAt_length _ _ _
          rcases hav : avail lx1 with _ | ⟨a, t⟩
          · rw [hav] at k; simp [FullRune] at k
          · rw [hav] at hl; simp at hl; omega
        · exact k.2
      have hr : rest = lx1.srcBuf lx1.srcPos.toNat ::
          (bytesAt lx1.srcBuf (lx1.srcPos.toNat + 1) ((lx1.srcEnd - lx1.srcPos).toNat - 1) ++
            lx1.src.data) := by
        rw [← hp, pending, avail_cons hb1 hne]; rfl
      rw [index_ok hb1.pos (by have := hb1.le; have := hb1.hi; omega)]
      simp only
      by_cases hlt1 : lx1.srcBuf lx1.srcPos.toNat < RuneSelf
      · rw [if_pos hlt1]
        have hn : nextRune rest = ((lx1.srcBuf lx1.srcPos.toNat : Int), 1) := by
          rw [hr]; simp only [nextRune, hlt1, ↓reduceIte]
        obtain ⟨l, c, ll, e, ha⟩ := advance_eq lx1 (lx1.srcBuf lx1.srcPos.toNat) 1
        simp only [pure, Except.pure]
        rw [ha, hn]
        exact ⟨_, rfl, consume hv hs 1 (by omega) (by rw [hn]) l c ll e⟩
      · rw [if_neg hlt1]
        have hsl : slice E lx1.srcBuf lx1.srcPos lx1.srcEnd = .ok (avail lx1) :=
          slice_ok hb1.pos hb1.le (by have := hb1.hi; omega)
        rw [hsl]
        simp only
        -- the rune decoded from the buffer is the rune of the whole input
        have hd : DecodeRune rest = DecodeRune (avail lx1) := by
          rw [← hp, pending]
          rcases k2 with k | k | k
          · have hl : (avail lx1).length = (lx1.srcEnd - lx1.srcPos).toNat :=
              bytesAt_length _ _ _
            rcases hav : avail lx1 with _ | ⟨a, _ | ⟨b, _ | ⟨c, _ | ⟨d, t⟩⟩⟩⟩
            · rw [hav] at hl; simp at hl; omega
            · rw [hav] at hl; simp at hl; omega
            · rw [hav] at hl; simp at hl; omega
            · rw [hav] at hl; simp at hl; omega
            · exact DecodeRune_append_of_four a b c d t _
          · exact DecodeRune_append_of_full _ _ k
          · rw [k.1, List.append_nil]
        have hav : avail lx1 = lx1.srcBuf lx1.srcPos.toNat ::
            bytesAt lx1.srcBuf (lx1.srcPos.toNat + 1) ((lx1.srcEnd - lx1.srcPos).toNat - 1) :=
          avail_cons hb1 hne
        have hwd := DecodeRune_width (lx1.srcBuf lx1.srcPos.toNat)
          (bytesAt lx1.srcBuf (lx1.srcPos.toNat + 1) ((lx1.srcEnd - lx1.srcPos).toNat - 1))
        rw [← hav] at hwd
        have hl : (avail lx1).length = (lx1.srcEnd - lx1.srcPos).toNat := bytesAt_length _ _ _
        have hn : nextRune rest =
            ((DecodeRune (avail lx1)).1, (DecodeRune (avail lx1)).2.toNat) := by
          rw [← hd, hr]; simp only [nextRune, hlt1, ↓reduceIte]
        have hcast : (DecodeRune (avail lx1)).2 = (((DecodeRune (avail lx1)).2.toNat : Nat) : Int) := by
          omega
        have hw : lx1.srcPos + ((DecodeRune (avail lx1)).2.toNat : Nat) ≤ lx1.srcEnd := by
          omega
        by_cases herr : (DecodeRune (avail lx1)).1 = RuneError ∧ (DecodeRune (avail lx1)).2 = 1
        · rw [if_pos herr]
          simp only [pure, Except.pure, hn]
          refine ⟨_, rfl, ?_⟩
          have := consume hv hs _ hw (by rw [hn]) lx1.line (lx1.column + 1) lx1.lastLineLen
            (lx1.stderr ++ [Diag.illegalUTF8])
          rw [← hcast] at this
          exact this
        · rw [if_neg herr]
          obtain ⟨l, c, ll, e, ha⟩ := advance_eq lx1 (DecodeRune (avail lx1)).1
            (DecodeRune (avail lx1)).2
          simp only [pure, Except.pure]
          rw [ha, hn]
          refine ⟨_, rfl, ?_⟩
          have := consume hv hs _ hw (by rw [hn]) l c ll e
          rw [← hcast] at this
          exact this

/-! ## The refinement: the lexer with its buffer against the lexer on bytes -/

theorem Match.bind {α β γ δ : Type} {R : α → β → Prop} {S : γ → δ → Prop}
    {x : Except Abort α} {y : Except Abort β} {f : α → Except Abort γ}
    {g : β → Except Abort δ} (h : Match R x y) (hf : ∀ a b, R a b → Match S (f a) (g b)) :
    Match S (x >>= f) (y >>= g) := by
  cases x <;> cases y <;> simp only [Match] at h
  · subst h; simp [Match, Bind.bind, Except.bind]
  · exact hf _ _ h

theorem Match.ok {α β : Type} {R : α → β → Prop} {a : α} {b : β} (h : R a b) :
    Match R (Except.ok a) (Except.ok b) := h

theorem Match.err {α β : Type} {R : α → β → Prop} (e : Abort) :
    Match R (Except.error e : Except Abort α) (Except.error e : Except Abort β) := rfl

theorem View.congr {E : Env} {lx lx' : Lexer} {last rest : List Nat} (h : View E lx last rest)
    (e1 : lx'.src = lx.src) (e2 : lx'.srcBuf = lx.srcBuf) (e3 : lx'.srcPos = lx.srcPos)
    (e4 : lx'.srcEnd = lx.srcEnd) (e5 : lx'.lastCharLen = lx.lastCharLen) :
    View E lx' last rest := by
  obtain ⟨⟨a1, a2, a3, a4, a5, a6⟩, b, c, d, e⟩ := h
  refine ⟨⟨a1, ?_, ?_, ?_, ?_, ?_⟩, ?_, ?_, ?_, ?_⟩
  · rw [e3]; exact a2
  · rw [e3, e4]; exact a3
  · rw [e4]; exact a4
  · rw [e2, e4]; exact a5
  · rw [e1]; exact a6
  · rw [← b]; simp only [pending, avail, e1, e2, e3, e4]
  · rw [e5]; exact c
  · rw [e5, e3]; exact d
  · rw [e2, e3, e5]; exact e

theorem nextRune_ge (rest : List Nat) : -1 ≤ (nextRune rest).1 := by
  rcases rest with _ | ⟨b, t⟩
  · simp [nextRune, EOF]
  · simp only [nextRune]
    by_cases h : b < RuneSelf
    · rw [if_pos h]; simp only; omega
    · rw [if_neg h]
      have := DecodeRune_nonneg (b :: t)
      simp only; omega

/-- `next` inside a token agrees with `nextA`. -/
theorem next_simT {E : Env} {lx : Lexer} {c : Cur} (h : SimT E lx c) :
    Match (fun r s => r.1 = s.1 ∧ -1 ≤ r.1 ∧ SimT E r.2 s.2) (next E lx) (nextA c) := by
  obtain ⟨lx', hn, hk⟩ := next_spec h.view (Or.inr h.tok.le)
  rw [hn]
  exact ⟨rfl, nextRune_ge _, hk.view, hk.tok _ h.tok, hk.ws.trans h.ws⟩

/-- `next` between tokens agrees with `nextA`. -/
theorem next_simW {E : Env} {lx : Lexer} {c : Cur} (h : SimW E lx c) :
    Match (fun r s => r.1 = s.1 ∧ -1 ≤ r.1 ∧ SimW E r.2 s.2) (next E lx) (nextA c) := by
  obtain ⟨lx', hn, hk⟩ := next_spec h.view (Or.inl h.neg)
  rw [hn]
  exact ⟨rfl, nextRune_ge _, hk.view, by rw [(hk.tokNeg h.neg).1]; exact h.neg,
    hk.ws.trans h.ws⟩

theorem nextT {E : Env} {lx : Lexer} {c : Cur} (h : SimT E lx c) :
    Match (RT E) (next E lx) (nextA c) := next_simT h

theorem nextW {E : Env} {lx : Lexer} {c : Cur} (h : SimW E lx c) :
    Match (RW E) (next E lx) (nextA c) := next_simW h

theorem skipWhitespace_sim (E : Env) : ∀ (fuel : Nat) (ch : Int) (lx : Lexer) (c : Cur),
    -1 ≤ ch → SimW E lx c →
    Match (RW E) (skipWhitespace E fuel ch lx) (skipWhitespaceA fuel ch c) := by
  intro fuel
  induction fuel with
  | zero => intro ch lx c _ _; exact Match.err _
  | succ fuel ih =>
    intro ch lx c hch hs
    simp only [skipWhitespace, skipWhitespaceA, hs.ws]
    by_cases h : isWhitespace GoWhitespace ch = true
    · rw [if_pos h, if_pos h]
      exact Match.bind (nextW hs) (fun a b hab => by
        obtain ⟨e, g, s⟩ := hab
        rw [← e]
        exact ih _ _ _ g s)
    · rw [if_neg h, if_neg h]
      exact Match.ok ⟨rfl, hch, hs⟩

theorem identLoop_sim (E : Env) : ∀ (fuel : Nat) (i ch : Int) (lx : Lexer) (c : Cur),
    -1 ≤ ch → SimT E lx c →
    Match (RT E) (identLoop E fuel i ch lx) (identLoopA (isIdentRune E) fuel i ch c) := by
  intro fuel
  induction fuel with
  | zero => intro i ch lx c _ _; exact Match.err _
  | succ fuel ih =>
    intro i ch lx c hch hs
    simp only [identLoop, identLoopA]
    by_cases h : isIdentRune E ch i = true
    · rw [if_pos h, if_pos h]
      exact Match.bind (nextT hs) (fun a b hab => by
        obtain ⟨e, g, s⟩ := hab
        rw [← e]
        exact ih _ _ _ _ g s)
    · rw [if_neg h, if_neg h]
      exact Match.ok ⟨rfl, hch, hs⟩

theorem stringLoop_sim (E : Env) (right : Int) : ∀ (fuel : Nat) (ch : Int) (lx : Lexer)
    (c : Cur), -1 ≤ ch → SimT E lx c →
    Match (RT E) (stringLoop E right fuel ch lx) (stringLoopA right fuel ch c) := by
  intro fuel
  induction fuel with
  | zero => intro ch lx c _ _; exact Match.err _
  | succ fuel ih =>
    intro ch lx c hch hs
    simp only [stringLoop, stringLoopA]
    by_cases h : ch ≠ right ∧ ch ≠ EOF
    · rw [if_pos h, if_pos h]
      exact Match.bind (nextT hs) (fun a b hab => by
        obtain ⟨e, g, s⟩ := hab
        rw [← e]
        exact ih _ _ _ g s)
    · rw [if_neg h, if_neg h]
      exact Match.ok ⟨rfl, hch, hs⟩

theorem scanMantissa_sim (E : Env) : ∀ (fuel : Nat) (ch : Int) (lx : Lexer) (c : Cur),
    -1 ≤ ch → SimT E lx c →
    Match (RT E) (scanMantissa E fuel ch lx) (scanMantissaA fuel ch c) := by
  intro fuel
  induction fuel with
  | zero => intro ch lx c _ _; exact Match.err _
  | succ fuel ih =>
    intro ch lx c hch hs
    simp only [scanMantissa, scanMantissaA]
    by_cases h : 0x30 ≤ ch ∧ ch ≤ 0x39
    · rw [if_pos h, if_pos h]
      exact Match.bind (nextT hs) (fun a b hab => by
        obtain ⟨e, g, s⟩ := hab
        rw [← e]
        exact ih _ _ _ g s)
    · rw [if_neg h, if_neg h]
      exact Match.ok ⟨rfl, hch, hs⟩

theorem scanIdentifier_sim {E : Env} {lx : Lexer} {c : Cur} (fuel : Nat) (hs : SimT E lx c) :
    Match (RT E) (scanIdentifier E fuel lx) (scanIdentifierA (isIdentRune E) fuel c) :=
  Match.bind (nextT hs) (fun a b hab => by
    obtain ⟨e, g, s⟩ := hab
    rw [← e]
    exact identLoop_sim E _ _ _ _ _ g s)

theorem scanEqu_sim {E : Env} {lx : Lexer} {c : Cur} (hs : SimT E lx c) :
    Match (RT E) (scanEqu E lx) (scanEquA c) :=
  Match.bind (nextT hs) (fun a b hab => by
    obtain ⟨e, g, s⟩ := hab
    rw [← e]
    by_cases h : a.1 = 0x3D
    · simp only [h, ↓reduceIte]; exact nextT s
    · simp only [h, ↓reduceIte]; exact Match.err _)

theorem scanAnd_sim {E : Env} {lx : Lexer} {c : Cur} (hs : SimT E lx c) :
    Match (RT E) (scanAnd E lx) (scanAndA c) :=
  Match.bind (nextT hs) (fun a b hab => by
    obtain ⟨e, g, s⟩ := hab
    rw [← e]
    by_cases h : a.1 = 0x26
    · simp only [h, ↓reduceIte]; exact nextT s
    · simp only [h, ↓reduceIte]; exact Match.err _)

theorem scanOr_sim {E : Env} {lx : Lexer} {c : Cur} (hs : SimT E lx c) :
    Match (RT E) (scanOr E lx) (scanOrA c) :=
  Match.bind (nextT hs) (fun a b hab => by
    obtain ⟨e, g, s⟩ := hab
    rw [← e]
    by_cases h : a.1 = 0x7C
    · simp only [h, ↓reduceIte]; exact nextT s
    · simp only [h, ↓reduceIte]; exact Match.err _)

theorem scanString_sim {E : Env} {lx : Lexer} {c : Cur} (fuel : Nat) (right : Int)
    (hs : SimT E lx c) :
    Match (RT E) (scanString E fuel right lx) (scanStringA fuel right c) :=
  Match.bind (nextT hs) (fun a b hab => by
    obtain ⟨e, g, s⟩ := hab
    rw [← e]
    exact Match.bind (stringLoop_sim E right fuel _ _ _ g s) (fun a' b' hab' => by
      obtain ⟨e', _, s'⟩ := hab'
      rw [← e']
      by_cases h : right ≠ a'.1
      · rw [if_pos h, if_pos h]; exact Match.err _
      · rw [if_neg h, if_neg h]; exact nextT s'))

theorem scanNumber_sim {E : Env} {lx : Lexer} {c : Cur} (fuel : Nat) (ch : Int)
    (hch : -1 ≤ ch) (hs : SimT E lx c) :
    Match (RT E) (scanNumber E fuel ch lx) (scanNumberA fuel ch c) :=
  Match.bind (scanMantissa_sim E fuel ch lx c hch hs) (fun a b hab => by
    obtain ⟨e, g, s⟩ := hab
    rw [← e]
    by_cases h : a.1 = 0x2E
    · simp only [h, ↓reduceIte]
      exact Match.bind (nextT s) (fun a' b' hab' => by
        obtain ⟨e', g', s'⟩ := hab'
        rw [← e']
        exact scanMantissa_sim E fuel _ _ _ g' s')
    · simp only [h, ↓reduceIte]
      exact Match.ok ⟨e, g, s⟩)

theorem Match.tag {E : Env} {x : Except Abort (Int × Lexer)} {y : Except Abort (Int × Cur)}
    (k : Int) (h : Match (RT E) x y) :
    Match (RD E) (x >>= fun r => pure (k, r)) (y >>= fun r => pure (k, r)) :=
  Match.bind h (fun _ _ hab => Match.ok ⟨rfl, hab.1, hab.2.1, hab.2.2⟩)

theorem dispatch_sim {E : Env} {lx : Lexer} {c : Cur} (fuel : Nat) (ch : Int)
    (hch : -1 ≤ ch) (hs : SimT E lx c) :
    Match (RD E) (dispatch E fuel ch lx) (dispatchA (isIdentRune E) fuel ch c) := by
  unfold dispatch dispatchA
  by_cases h1 : isIdentRune E ch 0 = true
  · rw [if_pos h1, if_pos h1]; exact Match.tag _ (scanIdentifier_sim fuel hs)
  rw [if_neg h1, if_neg h1]
  by_cases h2 : EOF = ch
  · rw [if_pos h2, if_pos h2]; exact Match.ok ⟨rfl, rfl, hch, hs⟩
  rw [if_neg h2, if_neg h2]
  by_cases h3 : 0x27 = ch ∨ 0x22 = ch
  · rw [if_pos h3, if_pos h3]; exact Match.tag _ (scanString_sim fuel ch hs)
  rw [if_neg h3, if_neg h3]
  by_cases h4 : 0x3D = ch
  · rw [if_pos h4, if_pos h4]; exact Match.tag _ (scanEqu_sim hs)
  rw [if_neg h4, if_neg h4]
  by_cases h5 : 0x26 = ch
  · rw [if_pos h5, if_pos h5]; exact Match.tag _ (scanAnd_sim hs)
  rw [if_neg h5, if_neg h5]
  by_cases h6 : 0x7C = ch
  · rw [if_pos h6, if_pos h6]; exact Match.tag _ (scanOr_sim hs)
  rw [if_neg h6, if_neg h6]
  by_cases h7 : 0x28 = ch
  · rw [if_pos h7, if_pos h7]; exact Match.tag _ (nextT hs)
  rw [if_neg h7, if_neg h7]
  by_cases h8 : 0x29 = ch
  · rw [if_pos h8, if_pos h8]; exact Match.tag _ (nextT hs)
  rw [if_neg h8, if_neg h8]
  by_cases h9 : 0x30 ≤ ch ∧ ch ≤ 0x39
  · rw [if_pos h9, if_pos h9]; exact Match.tag _ (scanNumber_sim fuel ch hch hs)
  rw [if_neg h9, if_neg h9]
  exact Match.err _

theorem peek_sim {E : Env} {lx : Lexer} {ch : Int} {c : Cur} (h : Inter E lx ch c) :
    Match (RP E) (peek E lx) (peekA ch c) := by
  unfold peek peekA
  rw [h.look]
  by_cases h2 : ch = -2
  · rw [if_pos h2, if_pos h2]
    have hw : SimW E lx c := ⟨h.view, h.fresh h2, h.ws⟩
    refine Match.bind (nextW hw) (fun a b hab => ?_)
    obtain ⟨e, g, s⟩ := hab
    simp only
    rw [← e]
    by_cases h3 : a.1 = 0xFEFF
    · rw [if_pos h3, if_pos h3]
      have hw' : SimW E { a.2 with ch := a.1 } b.2 :=
        ⟨s.view.congr rfl rfl rfl rfl rfl, s.neg, s.ws⟩
      refine Match.bind (nextW hw') (fun a' b' hab' => ?_)
      obtain ⟨e', g', s'⟩ := hab'
      exact Match.ok ⟨e', g', s'.view.congr rfl rfl rfl rfl rfl, s'.ws⟩
    · rw [if_neg h3, if_neg h3]
      exact Match.ok ⟨e, g, s.view.congr rfl rfl rfl rfl rfl, s.ws⟩
  · rw [if_neg h2, if_neg h2]
    have := h.lower
    exact Match.ok ⟨rfl, by omega, h.view, h.ws⟩

theorem scanFuel_eq {E : Env} {lx : Lexer} {last rest : List Nat} (h : View E lx last rest) :
    scanFuel lx = rest.length + 2 := by
  have := congrArg List.length h.pend
  simp only [pending, avail, List.length_append, bytesAt_length] at this
  unfold scanFuel
  omega

/-- The refinement of `Scan`: on a state that agrees with a look-ahead and a
cursor, `Scan` aborts exactly as `ScanA` does and returns what `ScanA`
returns. -/
theorem Scan_sim {E : Env} {lx : Lexer} {ch : Int} {c : Cur} (h : Inter E lx ch c) :
    Match (RS E) (Scan E lx) (ScanA (isIdentRune E) ch c) := by
  unfold Scan ScanA
  simp only [scanFuel_eq h.view]
  refine Match.bind (peek_sim h) (fun a b hab => ?_)
  obtain ⟨e, g, v, w⟩ := hab
  rw [← e]
  have hw : SimW E { a.2 with tokPos := -1 } b.2 :=
    ⟨v.congr rfl rfl rfl rfl rfl, by simp, w⟩
  refine Match.bind (skipWhitespace_sim E _ _ _ _ g hw) (fun a' b' hab' => ?_)
  obtain ⟨e', g', s'⟩ := hab'
  rw [← e']
  have hv := s'.view
  have hlp := hv.lastPos
  have ht : SimT E { a'.2 with tokBuf := [], tokPos := a'.2.srcPos - a'.2.lastCharLen }
      { b'.2 with acc := [] } :=
    ⟨hv.congr rfl rfl rfl rfl rfl, ⟨by simp only; omega, le_refl _, by simp [bytesAt_zero]⟩,
      s'.ws⟩
  refine Match.bind (dispatch_sim _ _ g' ht) (fun a'' b'' hab'' => ?_)
  obtain ⟨e1, e2, g'', s''⟩ := hab''
  refine Match.ok ⟨e1, ⟨s''.view.congr rfl rfl rfl rfl rfl, e2, s''.ws, ?_, ?_⟩, ?_,
    ⟨s''.tok.pos, s''.tok.le, s''.tok.bytes⟩, rfl⟩
  · intro hx; rw [← e2] at hx; omega
  · rw [← e2]; omega
  · rw [← e2]; exact g''

/-- `TokenText` when a token has been scanned (`tokPos`, `tokEnd` not
negative) and its bytes are in range. -/
theorem TokenText_eq {E : Env} {lx : Lexer} (h1 : 0 ≤ lx.tokPos) (h2 : lx.tokPos ≤ lx.tokEnd)
    (h3 : lx.tokEnd ≤ E.bufLen + 1) :
    TokenText E lx =
      if lx.tokBuf.length = 0 then
        .ok (bytesAt lx.srcBuf lx.tokPos.toNat (lx.tokEnd - lx.tokPos).toNat, lx)
      else
        .ok (lx.tokBuf ++ bytesAt lx.srcBuf lx.tokPos.toNat (lx.tokEnd - lx.tokPos).toNat,
          { lx with
            tokBuf := lx.tokBuf ++ bytesAt lx.srcBuf lx.tokPos.toNat (lx.tokEnd - lx.tokPos).toNat
            tokPos := lx.tokEnd }) := by
  have hs : slice E lx.srcBuf lx.tokPos lx.tokEnd = .ok _ := slice_ok h1 h2 h3
  have hn1 : ¬ lx.tokPos < 0 := by omega
  have hn2 : ¬ lx.tokEnd < 0 := by omega
  unfold TokenText
  rw [if_neg hn1]
  simp only [hn2, ↓reduceIte, hs, bind, Except.bind, pure, Except.pure]

/-- `TokenText` after `Scan`: it returns the bytes of the token and leaves
the view of the state as it is; a second call returns the same and changes
nothing. -/
theorem TokenText_spec {E : Env} {lx : Lexer} {ch : Int} {c : Cur} (hi : Inter E lx ch c)
    (hch : -1 ≤ ch) (ht : TokView lx c.acc) (he : lx.tokEnd = lx.srcPos - lx.lastCharLen) :
    ∃ lx', TokenText E lx = .ok (c.acc, lx') ∧ Inter E lx' ch c ∧
      TokenText E lx' = .ok (c.acc, lx') := by
  obtain ⟨t1, t2, t3⟩ := ht
  have hb := hi.view.ok
  have hlen := hi.view.lastLen
  have hle := hb.le
  have hhi := hb.hi
  rw [← he] at t2 t3
  have e1 := TokenText_eq (E := E) t1 t2 (by omega)
  by_cases hz : lx.tokBuf.length = 0
  · rw [if_pos hz] at e1
    have hnil : lx.tokBuf = [] := List.length_eq_zero.mp hz
    rw [hnil, List.nil_append] at t3
    rw [t3] at e1
    exact ⟨lx, e1, hi, e1⟩
  · rw [if_neg hz, t3] at e1
    refine ⟨_, e1, ⟨hi.view.congr rfl rfl rfl rfl rfl, hi.look, hi.ws, ?_, hi.lower⟩, ?_⟩
    · intro hx; omega
    · rw [TokenText_eq (E := E) (by simp only; omega) (le_refl _) (by simp only; omega)]
      have hz2 : ¬ (c.acc.length = 0) := by
        rw [← t3]; simp only [List.length_append]; omega
      simp only [hz2, ↓reduceIte, Int.sub_self, Int.toNat_zero, bytesAt_zero, List.append_nil]

/-- A lexer straight after `Init` on a reader without errors agrees with the
cursor at the start of the input. -/
theorem Init_inter (E : Env) (hE : 4 ≤ E.bufLen) (lx0 : Lexer) (rd : Reader)
    (hp : ∀ s ∈ rd.plan, s.err = none) (acc : List Nat) :
    Inter E (Init lx0 rd) (-2) ⟨acc, [], rd.data⟩ := by
  refine ⟨⟨⟨hE, le_refl _, le_refl _, ?_, ?_, hp⟩, ?_, rfl, le_refl _, rfl⟩, rfl, rfl, ?_,
    le_refl _⟩
  · simp [Init]
  · simp [Init]
  · simp [pending, avail, Init, bytesAt_zero]
  · intro _; simp [Init]

/-- The refinement of the driver: the lexer with its buffer and reader
produces the outcomes of the lexer on the byte sequence. -/
theorem run_sim (E : Env) : ∀ (k : Nat) (lx : Lexer) (ch : Int) (c : Cur), Inter E lx ch c →
    run E k lx = runA (isIdentRune E) k ch c := by
  intro k
  induction k with
  | zero => intro lx ch c _; rfl
  | succ k ih =>
    intro lx ch c h
    have hs := Scan_sim h
    simp only [run, runA, scanText]
    rcases hx : Scan E lx with e | r <;> rcases hy : ScanA (isIdentRune E) ch c with e' | s <;>
      rw [hx, hy] at hs <;> simp only [Match] at hs
    · subst hs; simp [bind, Except.bind]
    · obtain ⟨e1, hi, g, tv, te⟩ := hs
      obtain ⟨lx', t1, hi', _⟩ := TokenText_spec hi g tv te
      simp only [bind, Except.bind, t1, pure, Except.pure]
      rw [e1, ih _ _ _ hi']

/-- `TokenText` after `Scan` keeps the text of the token available. -/
theorem TokenText_keeps {E : Env} {lx lx' : Lexer} {ch : Int} {c : Cur} {t : List Nat}
    (hi : Inter E lx ch c) (hch : -1 ≤ ch) (ht : TokView lx c.acc)
    (he : lx.tokEnd = lx.srcPos - lx.lastCharLen) (hs : TokenText E lx = .ok (t, lx')) :
    t = c.acc ∧ Inter E lx' ch c ∧ TokView lx' c.acc ∧
      lx'.tokEnd = lx'.srcPos - lx'.lastCharLen := by
  obtain ⟨t1, t2, t3⟩ := ht
  have hb := hi.view.ok
  have hle := hb.le
  have hhi := hb.hi
  have hlen := hi.view.lastLen
  rw [← he] at t2 t3
  rw [TokenText_eq (E := E) t1 t2 (by omega)] at hs
  by_cases hz : lx.tokBuf.length = 0
  · rw [if_pos hz] at hs
    have hnil : lx.tokBuf = [] := List.length_eq_zero.mp hz
    rw [hnil, List.nil_append] at t3
    simp only [Except.ok.injEq, Prod.mk.injEq] at hs
    obtain ⟨h1, h2⟩ := hs
    subst h2
    refine ⟨by rw [← h1, t3], hi, ⟨t1, by omega, ?_⟩, he⟩
    rw [hnil, List.nil_append, ← he, t3]
  · rw [if_neg hz] at hs
    simp only [Except.ok.injEq, Prod.mk.injEq] at hs
    obtain ⟨h1, h2⟩ := hs
    subst h2
    refine ⟨by rw [← h1, t3], ⟨hi.view.congr rfl rfl rfl rfl rfl, hi.look, hi.ws, ?_,
      hi.lower⟩, ⟨?_, ?_, ?_⟩, he⟩
    · intro hx; omega
    · simp only; omega
    · simp only; omega
    · simp only [he, Int.sub_self, Int.toNat_zero, bytesAt_zero, List.append_nil]
      rw [← he, t3]

/-- Every reachable state satisfies the invariant. -/
theorem Reachable.good {E : Env} (hE : 4 ≤ E.bufLen) {lx : Lexer} (h : Reachable E lx) :
    ∃ ch c, Good E lx ch c := by
  induction h with
  | init lx0 rd hp =>
    exact ⟨-2, ⟨[], [], rd.data⟩, Init_inter E hE lx0 rd hp [], Or.inl ⟨rfl, by simp [Init]⟩⟩
  | @scan lx lx' tok _ hs ih =>
    obtain ⟨ch, c, hg⟩ := ih
    have hm := Scan_sim hg.inter
    rw [hs] at hm
    rcases hy : ScanA (isIdentRune E) ch c with e | s
    · rw [hy] at hm; simp only [Match] at hm
    · rw [hy] at hm
      simp only [Match] at hm
      obtain ⟨_, hi, g, tv, te⟩ := hm
      exact ⟨_, _, hi, Or.inr ⟨g, tv, te⟩⟩
  | @text lx lx' t _ hs ih =>
    obtain ⟨ch, c, hg⟩ := ih
    rcases hg.tok with ⟨_, hneg⟩ | ⟨g, tv, te⟩
    · unfold TokenText at hs
      rw [if_pos hneg] at hs
      simp only [pure, Except.pure, Except.ok.injEq, Prod.mk.injEq] at hs
      rw [← hs.2]
      exact ⟨ch, c, hg⟩
    · obtain ⟨_, hi, tv', te'⟩ := TokenText_keeps hg.inter g tv te hs
      exact ⟨ch, c, hi, Or.inr ⟨g, tv', te'⟩⟩

/-! ## Chunking, `TokenText` and the end of the stream -/

/-- The test `isIdentRune` looks at the range tables only. -/
theorem isIdentRune_congr {E1 E2 : Env} (hl : E1.letter = E2.letter) (hd : E1.digit = E2.digit) :
    isIdentRune E1 = isIdentRune E2 := by
  funext ch i
  simp only [isIdentRune, IsLetter, IsDigit, hl, hd]

theorem bind_eq_ok {α β : Type} {x : Except Abort α} {f : α → Except Abort β} {b : β}
    (h : (x >>= f) = .ok b) : ∃ a, x = .ok a ∧ f a = .ok b := by
  cases x with
  | error e => simp [bind, Except.bind] at h
  | ok a => exact ⟨a, rfl, h⟩

theorem tag_eq_ok {x : Except Abort (Int × Lexer)} {k t : Int} {r : Int × Lexer}
    (h : (x >>= fun r => pure (k, r)) = (.ok (t, r) : Except Abort (Int × Int × Lexer))) :
    k = t := by
  obtain ⟨a, _, h2⟩ := bind_eq_ok h
  simp only [pure, Except.pure, Except.ok.injEq, Prod.mk.injEq] at h2
  exact h2.1

/-- The `switch` of `Scan` returns the kind `EOF` only for the look-ahead
`EOF`, and then it consumes nothing. -/
theorem dispatch_eof {E : Env} {fuel : Nat} {ch ch' : Int} {lx lx' : Lexer}
    (h : dispatch E fuel ch lx = .ok (EOF, ch', lx')) : ch = EOF ∧ ch' = EOF ∧ lx' = lx := by
  unfold dispatch at h
  by_cases h1 : isIdentRune E ch 0 = true
  · rw [if_pos h1] at h; exact absurd (tag_eq_ok h) (by decide)
  rw [if_neg h1] at h
  by_cases h2 : EOF = ch
  · rw [if_pos h2] at h
    simp only [pure, Except.pure, Except.ok.injEq, Prod.mk.injEq] at h
    exact ⟨h2.symm, by rw [← h.2.1, ← h2], h.2.2.symm⟩
  rw [if_neg h2] at h
  by_cases h3 : 0x27 = ch ∨ 0x22 = ch
  · rw [if_pos h3] at h; exact absurd (tag_eq_ok h) (by decide)
  rw [if_neg h3] at h
  by_cases h4 : 0x3D = ch
  · rw [if_pos h4] at h; exact absurd (tag_eq_ok h) (by decide)
  rw [if_neg h4] at h
  by_cases h5 : 0x26 = ch
  · rw [if_pos h5] at h; exact absurd (tag_eq_ok h) (by decide)
  rw [if_neg h5] at h
  by_cases h6 : 0x7C = ch
  · rw [if_pos h6] at h; exact absurd (tag_eq_ok h) (by decide)
  rw [if_neg h6] at h
  by_cases h7 : 0x28 = ch
  · rw [if_pos h7] at h; exact absurd (tag_eq_ok h) (by decide)
  rw [if_neg h7] at h
  by_cases h8 : 0x29 = ch
  · rw [if_pos h8] at h; exact absurd (tag_eq_ok h) (by decide)
  rw [if_neg h8] at h
  by_cases h9 : 0x30 ≤ ch ∧ ch ≤ 0x39
  · rw [if_pos h9] at h; exact absurd (tag_eq_ok h) (by decide)
  rw [if_neg h9] at h
  cases h

/-- After a `Scan` that returned `EOF` the look-ahead is `EOF` and the token
is empty. -/
theorem Scan_eof_state {E : Env} {lx lx1 : Lexer} (h : Scan E lx = .ok (EOF, lx1)) :
    lx1.ch = EOF ∧ lx1.tokBuf = [] ∧ lx1.tokPos = lx1.srcPos - lx1.lastCharLen ∧
      lx1.tokEnd = lx1.srcPos - lx1.lastCharLen := by
  unfold Scan at h
  obtain ⟨a, _, h⟩ := bind_eq_ok h
  obtain ⟨b, _, h⟩ := bind_eq_ok h
  obtain ⟨t, ht, h⟩ := bind_eq_ok h
  simp only [pure, Except.pure, Except.ok.injEq, Prod.mk.injEq] at h
  obtain ⟨h1, h2⟩ := h
  obtain ⟨t1, t2, t3⟩ := t
  simp only at h1 h2 ht
  subst h1
  obtain ⟨_, e2, e3⟩ := dispatch_eof ht
  subst e2 e3
  rw [← h2]
  exact ⟨rfl, rfl, rfl, rfl⟩

theorem isWhitespace_eof (ws : Nat) : isWhitespace ws EOF = false := by
  simp [isWhitespace, EOF]

theorem isIdentRune_eof (E : Env) (i : Int) : isIdentRune E EOF i = false := by
  simp [isIdentRune, IsLetter, IsDigit, EOF]

/-- `Scan` on a state whose look-ahead is `EOF`: it returns `EOF`, whatever
the reader is, and only resets the token. -/
theorem Scan_at_eof (E : Env) (lx : Lexer) (h : lx.ch = EOF) :
    Scan E lx = .ok (EOF, { lx with tokBuf := [], tokPos := lx.srcPos - lx.lastCharLen,
                                    tokEnd := lx.srcPos - lx.lastCharLen, ch := EOF }) := by
  have hp : peek E lx = .ok (EOF, lx) := by
    unfold peek
    rw [h]
    simp [EOF, pure, Except.pure]
  have hf : scanFuel lx = (scanFuel lx - 1) + 1 := by unfold scanFuel; omega
  unfold Scan
  rw [hp, hf]
  simp only [bind, Except.bind, skipWhitespace, isWhitespace_eof, Bool.false_eq_true,
    ↓reduceIte, pure, Except.pure, dispatch, isIdentRune_eof]

/-- C2. The outcomes of repeated `Scan` and `TokenText` depend neither on how
the reader splits the input `B` into chunks nor on the capacity of the buffer:
for two environments with the same range tables and buffers of at least 4
bytes, and two readers that deliver `B` without error, any number of rounds
gives the same outcomes (kinds and texts, or the abort). And after every
`Scan` that returns, `TokenText` returns the spilled bytes `tokBuf` followed by
`srcBuf[tokPos:tokEnd]`. -/
theorem scan_independent_of_chunking (E1 E2 : Env) (h1 : 4 ≤ E1.bufLen) (h2 : 4 ≤ E2.bufLen)
    (hl : E1.letter = E2.letter) (hd : E1.digit = E2.digit) (B : List Nat)
    (p1 p2 : List ReadStep) (hp1 : ∀ s ∈ p1, s.err = none) (hp2 : ∀ s ∈ p2, s.err = none)
    (lx1 lx2 : Lexer) (k : Nat) :
    run E1 k (Init lx1 ⟨B, p1⟩) = run E2 k (Init lx2 ⟨B, p2⟩) ∧
    ∀ (lx lx' : Lexer) (tok : Int), Reachable E1 lx → Scan E1 lx = .ok (tok, lx') →
      ∃ lx'', TokenText E1 lx' = .ok (lx'.tokBuf ++
        bytesAt lx'.srcBuf lx'.tokPos.toNat (lx'.tokEnd - lx'.tokPos).toNat, lx'') := by
  constructor
  · rw [run_sim E1 k _ _ _ (Init_inter E1 h1 lx1 ⟨B, p1⟩ hp1 []),
      run_sim E2 k _ _ _ (Init_inter E2 h2 lx2 ⟨B, p2⟩ hp2 []), isIdentRune_congr hl hd]
  · intro lx lx' tok hr hs
    obtain ⟨ch, c, hg⟩ := (Reachable.scan hr hs).good h1
    rcases hg.tok with ⟨hc, _⟩ | ⟨g, tv, te⟩
    · -- after a `Scan` the look-ahead is filled
      obtain ⟨ch0, c0, hg0⟩ := hr.good h1
      have hm := Scan_sim hg0.inter
      rw [hs] at hm
      rcases hy : ScanA (isIdentRune E1) ch0 c0 with e | s
      · rw [hy] at hm; simp only [Match] at hm
      · rw [hy] at hm
        simp only [Match] at hm
        obtain ⟨_, hi, g, _, _⟩ := hm
        have e1 : lx'.ch = s.2.1 := hi.look
        have e2 := hg.inter.look
        omega
    · obtain ⟨lx'', ht, _, _⟩ := TokenText_spec hg.inter g tv te
      have hb := hg.inter.view.ok
      have hle := hb.le
      have hhi := hb.hi
      have hlen := hg.inter.view.lastLen
      have e := TokenText_eq (E := E1) tv.pos (by rw [te]; exact tv.le) (by omega)
      by_cases hz : lx'.tokBuf.length = 0
      · rw [if_pos hz] at e
        rw [List.length_eq_zero.mp hz, List.nil_append]
        exact ⟨_, e⟩
      · rw [if_neg hz] at e
        exact ⟨_, e⟩

/-- C3. `TokenText` is idempotent: in every reachable state, in particular
after every `Scan`, it returns, and a second call returns the same text and
leaves the state (so also `tokBuf`) as the first call left it. -/
theorem tokenText_idempotent (E : Env) (hE : 4 ≤ E.bufLen) (lx : Lexer)
    (hr : Reachable E lx) :
    ∃ s lx1, TokenText E lx = .ok (s, lx1) ∧ TokenText E lx1 = .ok (s, lx1) := by
  obtain ⟨ch, c, hg⟩ := hr.good hE
  rcases hg.tok with ⟨_, hneg⟩ | ⟨g, tv, te⟩
  · have : TokenText E lx = .ok ([], lx) := by
      unfold TokenText
      rw [if_pos hneg]
      rfl
    exact ⟨[], lx, this, this⟩
  · obtain ⟨lx1, t1, _, t2⟩ := TokenText_spec hg.inter g tv te
    exact ⟨_, lx1, t1, t2⟩

/-- C9. End of stream is absorbing: once `Scan` has returned `EOF`, every
later `Scan` returns `EOF` and leaves the state as it is, whatever reader is
attached (the source is not read again), `TokenText` returns the empty
string, and any number of further rounds yields `EOF` with empty text. -/
theorem eof_is_absorbing (E : Env) (hE : 4 ≤ E.bufLen) (lx lx1 : Lexer)
    (hr : Reachable E lx) (hs : Scan E lx = .ok (EOF, lx1)) :
    (∀ rd : Reader, Scan E { lx1 with src := rd } = .ok (EOF, { lx1 with src := rd })) ∧
    TokenText E lx1 = .ok ([], lx1) ∧
    ∀ k, run E k lx1 = List.replicate k (Outcome.token EOF []) := by
  obtain ⟨e1, e2, e3, e4⟩ := Scan_eof_state hs
  have hscan : ∀ rd : Reader,
      Scan E { lx1 with src := rd } = .ok (EOF, { lx1 with src := rd }) := by
    intro rd
    rw [Scan_at_eof E { lx1 with src := rd } e1]
    cases lx1
    simp only at e1 e2 e3 e4
    subst e1 e2
    simp only [Except.ok.injEq, Prod.mk.injEq, true_and, Lexer.mk.injEq, and_true]
    exact ⟨e3.symm, e4.symm⟩
  obtain ⟨ch, c, hg⟩ := (Reachable.scan hr hs).good hE
  have hv := hg.inter.view
  have htext : TokenText E lx1 = .ok ([], lx1) := by
    have hle := hv.ok.le
    have hhi := hv.ok.hi
    have hlp := hv.lastPos
    have hll := hv.lastLen
    rw [TokenText_eq (E := E) (by omega) (by omega) (by omega)]
    simp [e2, e3, e4, bytesAt_zero]
  refine ⟨hscan, htext, ?_⟩
  intro k
  induction k with
  | zero => rfl
  | succ k ih =>
    have h0 : Scan E lx1 = .ok (EOF, lx1) := hscan lx1.src
    simp only [run, scanText, h0, htext, bind, Except.bind, pure, Except.pure, ih,
      List.replicate_succ]

theorem Reachable.nthScan {E : Env} : ∀ (k : Nat) {lx : Lexer}, Reachable E lx →
    Reachable E (nthScan E k lx) := by
  intro k
  induction k with
  | zero => intro lx h; exact h
  | succ k ih =>
    intro lx h
    apply ih
    rcases hs : Scan E lx with e | r
    · exact h
    · exact Reachable.scan h hs

set_option maxRecDepth 100000 in
theorem scan_independent_of_chunking_witness :
    (4 ≤ tinyEnv.bufLen ∧ 4 ≤ asciiEnv.bufLen ∧ tinyEnv.letter = asciiEnv.letter ∧
      tinyEnv.digit = asciiEnv.digit) ∧
    run tinyEnv 4 (Init Lexer.zero (chunked (ascii "abcdefghijkl == 12") [1, 2, 1, 3])) =
      run asciiEnv 4 (Init Lexer.zero (stringsNewReader (ascii "abcdefghijkl == 12"))) ∧
    run tinyEnv 4 (Init Lexer.zero (chunked (ascii "abcdefghijkl == 12") [1, 2, 1, 3])) =
      [Outcome.token Var (ascii "abcdefghijkl"), Outcome.token Equ (ascii "=="),
        Outcome.token ConstNumeric (ascii "12"), Outcome.token EOF []] :=
  ⟨⟨by decide, by decide, rfl, rfl⟩,
    (scan_independent_of_chunking tinyEnv asciiEnv (by decide) (by decide) rfl rfl
      (ascii "abcdefghijkl == 12") ([1, 2, 1, 3].map (fun n => { want := n, err := none })) []
      (by decide) (by decide) Lexer.zero Lexer.zero 4).1, by decide⟩

set_option maxRecDepth 100000 in
theorem tokenText_idempotent_witness :
    4 ≤ tinyEnv.bufLen ∧
    Reachable tinyEnv
      (nthScan tinyEnv 1 (Init Lexer.zero (chunked (ascii "abcdefghijkl x") [3, 3]))) ∧
    ∃ s lx1,
      TokenText tinyEnv
        (nthScan tinyEnv 1 (Init Lexer.zero (chunked (ascii "abcdefghijkl x") [3, 3]))) =
          .ok (s, lx1) ∧ TokenText tinyEnv lx1 = .ok (s, lx1) :=
  ⟨by decide, Reachable.nthScan 1 (Reachable.init _ _ (by decide)),
    tokenText_idempotent tinyEnv (by decide) _
      (Reachable.nthScan 1 (Reachable.init _ _ (by decide)))⟩

set_option maxRecDepth 100000 in
theorem eof_is_absorbing_witness :
    4 ≤ asciiEnv.bufLen ∧
    Reachable asciiEnv (nthScan asciiEnv 7 (Init Lexer.zero (stringsNewReader bigCase2))) ∧
    Scan asciiEnv (nthScan asciiEnv 7 (Init Lexer.zero (stringsNewReader bigCase2))) =
      .ok (EOF, nthScan asciiEnv 8 (Init Lexer.zero (stringsNewReader bigCase2))) ∧
    ∀ k, run asciiEnv k (nthScan asciiEnv 8 (Init Lexer.zero (stringsNewReader bigCase2))) =
      List.replicate k (Outcome.token EOF []) :=
  ⟨by decide,
    Reachable.nthScan 7 (Reachable.init Lexer.zero (stringsNewReader bigCase2) (by decide)), rfl,
    (eof_is_absorbing asciiEnv (by decide)
      (nthScan asciiEnv 7 (Init Lexer.zero (stringsNewReader bigCase2)))
      (nthScan asciiEnv 8 (Init Lexer.zero (stringsNewReader bigCase2)))
      (Reachable.nthScan 7 (Reachable.init Lexer.zero (stringsNewReader bigCase2) (by decide)))
      rfl).2.2⟩

/-! ## `DecodeRune` in arithmetic, and decoding what `EncodeRune` encodes -/

theorem and_63 (a : Nat) : a &&& 0x3F = a % 64 := Nat.and_pow_two_sub_one_eq_mod a 6

theorem and_31 (a : Nat) : a &&& 0x1F = a % 32 := Nat.and_pow_two_sub_one_eq_mod a 5

theorem and_15 (a : Nat) : a &&& 0x0F = a % 16 := Nat.and_pow_two_sub_one_eq_mod a 4

theorem and_7 (a : Nat) : a &&& 0x07 = a % 8 := Nat.and_pow_two_sub_one_eq_mod a 3

theorem bits2 (x y : Nat) (hy : y < 64) : x <<< 6 ||| y = x * 64 + y := by
  have := Nat.mul_add_lt_is_or (i := 6) hy x
  rw [Nat.shiftLeft_eq, Nat.mul_comm x (2 ^ 6), ← this]

theorem bits3 (x y z : Nat) (hy : y < 64) (hz : z < 64) :
    x <<< 12 ||| y <<< 6 ||| z = x * 4096 + y * 64 + z := by
  have h1 := Nat.mul_add_lt_is_or (i := 12) (b := y * 2 ^ 6) (by omega) x
  have h2 := Nat.mul_add_lt_is_or (i := 6) hz (x * 64 + y)
  rw [Nat.shiftLeft_eq, Nat.shiftLeft_eq, Nat.mul_comm x (2 ^ 12), ← h1]
  have e1 : 2 ^ 12 * x + y * 2 ^ 6 = 2 ^ 6 * (x * 64 + y) := by omega
  rw [e1, ← h2]
  omega

theorem bits4 (x y z w : Nat) (hy : y < 64) (hz : z < 64) (hw : w < 64) :
    x <<< 18 ||| y <<< 12 ||| z <<< 6 ||| w = x * 262144 + y * 4096 + z * 64 + w := by
  have h1 := Nat.mul_add_lt_is_or (i := 18) (b := y * 2 ^ 12) (by omega) x
  have h2 := Nat.mul_add_lt_is_or (i := 12) (b := z * 2 ^ 6) (by omega) (x * 64 + y)
  have h3 := Nat.mul_add_lt_is_or (i := 6) hw (x * 4096 + y * 64 + z)
  rw [Nat.shiftLeft_eq, Nat.shiftLeft_eq, Nat.shiftLeft_eq, Nat.mul_comm x (2 ^ 18), ← h1]
  have e1 : 2 ^ 18 * x + y * 2 ^ 12 = 2 ^ 12 * (x * 64 + y) := by omega
  rw [e1, ← h2]
  have e2 : 2 ^ 12 * (x * 64 + y) + z * 2 ^ 6 = 2 ^ 6 * (x * 4096 + y * 64 + z) := by omega
  rw [e2, ← h3]
  omega

/-- The first byte of a UTF-8 sequence by ranges. -/
theorem first_spec (a : Nat) :
    (a < 0x80 ∧ first a = 0xF0) ∨
    (0x80 ≤ a ∧ a < 0xC2 ∧ first a = 0xF1) ∨
    (0xC2 ≤ a ∧ a < 0xE0 ∧ first a = 0x02) ∨
    (a = 0xE0 ∧ first a = 0x13) ∨
    (0xE0 < a ∧ a < 0xF0 ∧ a ≠ 0xED ∧ first a = 0x03) ∨
    (a = 0xED ∧ first a = 0x23) ∨
    (a = 0xF0 ∧ first a = 0x34) ∨
    (0xF0 < a ∧ a < 0xF4 ∧ first a = 0x04) ∨
    (a = 0xF4 ∧ first a = 0x44) ∨
    (0xF4 < a ∧ first a = 0xF1) := by
  unfold first
  by_cases h1 : a < 0x80
  · simp only [h1, ↓reduceIte]; simp; try omega
  by_cases h2 : a < 0xC2
  · simp only [h1, h2, ↓reduceIte]; simp; try omega
  by_cases h3 : a < 0xE0
  · simp only [h1, h2, h3, ↓reduceIte]; simp; try omega
  by_cases h4 : a = 0xE0
  · simp only [h1, h2, h3, h4, ↓reduceIte]; simp; try omega
  by_cases h5 : a < 0xED
  · simp only [h1, h2, h3, h4, h5, ↓reduceIte]; simp; try omega
  by_cases h6 : a = 0xED
  · simp only [h1, h2, h3, h4, h5, h6, ↓reduceIte]; simp; try omega
  by_cases h7 : a < 0xF0
  · simp only [h1, h2, h3, h4, h5, h6, h7, ↓reduceIte]; simp; try omega
  by_cases h8 : a = 0xF0
  · simp only [h1, h2, h3, h4, h5, h6, h7, h8, ↓reduceIte]; simp; try omega
  by_cases h9 : a < 0xF4
  · simp only [h1, h2, h3, h4, h5, h6, h7, h8, h9, ↓reduceIte]; simp; try omega
  by_cases h10 : a = 0xF4
  · simp only [h1, h2, h3, h4, h5, h6, h7, h8, h9, h10, ↓reduceIte]; simp; try omega
  · simp only [h1, h2, h3, h4, h5, h6, h7, h8, h9, h10, ↓reduceIte]; simp; try omega

/-- The body of `DecodeRune` for a sequence of two bytes. -/
theorem DecodeRune_two {a : Nat} (t : List Nat) (v lo hi : Nat) (hv : first a = v)
    (h1 : v < 0xF0) (h2 : v &&& 7 = 2) (h3 : acceptRanges (v >>> 4) = (lo, hi)) :
    DecodeRune (a :: t) =
      match t with
      | b :: _ =>
        if lo ≤ b ∧ b ≤ hi then ((((a % 32) * 64 + b % 64 : Nat) : Int), 2) else (RuneError, 1)
      | [] => (RuneError, 1) := by
  have hn : ¬ (0xF0 ≤ v) := by omega
  have h4 : v &&& 7 ≤ 2 := by omega
  rcases t with _ | ⟨b, t⟩
  · simp only [DecodeRune, hv, hn, ↓reduceIte, List.length_singleton]
    simp
  · simp only [DecodeRune, hv, hn, ↓reduceIte, h3, List.length_cons]
    have hl : ¬ (t.length + 1 + 1 < v &&& 7) := by omega
    rw [if_neg hl]
    by_cases hb : b < lo ∨ hi < b
    · have hr : ¬ (lo ≤ b ∧ b ≤ hi) := by omega
      rw [if_pos hb, if_neg hr]
    · have hr : lo ≤ b ∧ b ≤ hi := by omega
      rw [if_neg hb, if_pos h4, if_pos hr, and_31, and_63, bits2 _ _ (Nat.mod_lt _ (by decide))]

/-- The body of `DecodeRune` for a sequence of three bytes. -/
theorem DecodeRune_three {a : Nat} (t : List Nat) (v lo hi : Nat) (hv : first a = v)
    (h1 : v < 0xF0) (h2 : v &&& 7 = 3) (h3 : acceptRanges (v >>> 4) = (lo, hi)) :
    DecodeRune (a :: t) =
      match t with
      | b :: c :: _ =>
        if lo ≤ b ∧ b ≤ hi ∧ 0x80 ≤ c ∧ c ≤ 0xBF then
          ((((a % 16) * 4096 + (b % 64) * 64 + c % 64 : Nat) : Int), 3)
        else (RuneError, 1)
      | _ => (RuneError, 1) := by
  have hn : ¬ (0xF0 ≤ v) := by omega
  have h4 : ¬ (v &&& 7 ≤ 2) := by omega
  have h5 : v &&& 7 ≤ 3 := by omega
  rcases t with _ | ⟨b, _ | ⟨c, t⟩⟩
  · simp only [DecodeRune, hv, hn, ↓reduceIte, List.length_singleton]
    simp
  · simp only [DecodeRune, hv, hn, ↓reduceIte, List.length_cons, List.length_nil]
    have hl : 0 + 1 + 1 < v &&& 7 := by omega
    rw [if_pos hl]
  · simp only [DecodeRune, hv, hn, ↓reduceIte, h3, List.length_cons]
    have hl : ¬ (t.length + 1 + 1 + 1 < v &&& 7) := by omega
    rw [if_neg hl]
    by_cases hb : b < lo ∨ hi < b
    · have hr : ¬ (lo ≤ b ∧ b ≤ hi ∧ 0x80 ≤ c ∧ c ≤ 0xBF) := by omega
      rw [if_pos hb, if_neg hr]
    · rw [if_neg hb, if_neg h4]
      by_cases hc : c < 0x80 ∨ 0xBF < c
      · have hr : ¬ (lo ≤ b ∧ b ≤ hi ∧ 0x80 ≤ c ∧ c ≤ 0xBF) := by omega
        rw [if_pos hc, if_neg hr]
      · have hr : lo ≤ b ∧ b ≤ hi ∧ 0x80 ≤ c ∧ c ≤ 0xBF := by omega
        rw [if_neg hc, if_pos h5, if_pos hr, and_15, and_63, and_63,
          bits3 _ _ _ (Nat.mod_lt _ (by decide)) (Nat.mod_lt _ (by decide))]

/-- The body of `DecodeRune` for a sequence of four bytes. -/
theorem DecodeRune_four {a : Nat} (t : List Nat) (v lo hi : Nat) (hv : first a = v)
    (h1 : v < 0xF0) (h2 : v &&& 7 = 4) (h3 : acceptRanges (v >>> 4) = (lo, hi)) :
    DecodeRune (a :: t) =
      match t with
      | b :: c :: d :: _ =>
        if lo ≤ b ∧ b ≤ hi ∧ 0x80 ≤ c ∧ c ≤ 0xBF ∧ 0x80 ≤ d ∧ d ≤ 0xBF then
          ((((a % 8) * 262144 + (b % 64) * 4096 + (c % 64) * 64 + d % 64 : Nat) : Int), 4)
        else (RuneError, 1)
      | _ => (RuneError, 1) := by
  have hn : ¬ (0xF0 ≤ v) := by omega
  have h4 : ¬ (v &&& 7 ≤ 2) := by omega
  have h5 : ¬ (v &&& 7 ≤ 3) := by omega
  rcases t with _ | ⟨b, _ | ⟨c, _ | ⟨d, t⟩⟩⟩
  · simp only [DecodeRune, hv, hn, ↓reduceIte, List.length_singleton]
    simp
  · simp only [DecodeRune, hv, hn, ↓reduceIte, List.length_cons, List.length_nil]
    have hl : 0 + 1 + 1 < v &&& 7 := by omega
    rw [if_pos hl]
  · simp only [DecodeRune, hv, hn, ↓reduceIte, List.length_cons, List.length_nil]
    have hl : 0 + 1 + 1 + 1 < v &&& 7 := by omega
    rw [if_pos hl]
  · simp only [DecodeRune, hv, hn, ↓reduceIte, h3, List.length_cons]
    have hl : ¬ (t.length + 1 + 1 + 1 + 1 < v &&& 7) := by omega
    rw [if_neg hl]
    by_cases hb : b < lo ∨ hi < b
    · have hr : ¬ (lo ≤ b ∧ b ≤ hi ∧ 0x80 ≤ c ∧ c ≤ 0xBF ∧ 0x80 ≤ d ∧ d ≤ 0xBF) := by omega
      rw [if_pos hb, if_neg hr]
    · rw [if_neg hb, if_neg h4]
      by_cases hc : c < 0x80 ∨ 0xBF < c
      · have hr : ¬ (lo ≤ b ∧ b ≤ hi ∧ 0x80 ≤ c ∧ c ≤ 0xBF ∧ 0x80 ≤ d ∧ d ≤ 0xBF) := by omega
        rw [if_pos hc, if_neg hr]
      · rw [if_neg hc, if_neg h5]
        by_cases hd : d < 0x80 ∨ 0xBF < d
        · have hr : ¬ (lo ≤ b ∧ b ≤ hi ∧ 0x80 ≤ c ∧ c ≤ 0xBF ∧ 0x80 ≤ d ∧ d ≤ 0xBF) := by
            omega
          rw [if_pos hd, if_neg hr]
        · have hr : lo ≤ b ∧ b ≤ hi ∧ 0x80 ≤ c ∧ c ≤ 0xBF ∧ 0x80 ≤ d ∧ d ≤ 0xBF := by omega
          rw [if_neg hd, if_pos hr, and_7, and_63, and_63, and_63,
            bits4 _ _ _ _ (Nat.mod_lt _ (by decide)) (Nat.mod_lt _ (by decide))
              (Nat.mod_lt _ (by decide))]

/-- `DecodeRune` agrees with its arithmetic form. -/
theorem DecodeRune_eq (a : Nat) (t : List Nat) : DecodeRune (a :: t) = decodeSpec a t := by
  rcases first_spec a with ⟨h, hv⟩ | ⟨h1, h2, hv⟩ | ⟨h1, h2, hv⟩ | ⟨h, hv⟩ | ⟨h1, h2, h3, hv⟩ |
    ⟨h, hv⟩ | ⟨h, hv⟩ | ⟨h1, h2, hv⟩ | ⟨h, hv⟩ | ⟨h, hv⟩
  · rw [DecodeRune_ascii t h, decodeSpec.eq_def, if_pos h]
  · have e1 : ¬ a < 0x80 := by omega
    rw [decodeSpec.eq_def, if_neg e1, if_pos h2]
    simp [DecodeRune, hv]
  · have e1 : ¬ a < 0x80 := by omega
    have e2 : ¬ a < 0xC2 := by omega
    rw [decodeSpec.eq_def, if_neg e1, if_neg e2, if_pos h2]
    exact DecodeRune_two t 0x02 0x80 0xBF hv (by decide) (by decide) (by decide)
  · have e1 : ¬ a < 0x80 := by omega
    have e2 : ¬ a < 0xC2 := by omega
    have e3 : ¬ a < 0xE0 := by omega
    have e4 : a < 0xF0 := by omega
    have e5 : ¬ a = 0xED := by omega
    rw [decodeSpec.eq_def, if_neg e1, if_neg e2, if_neg e3, if_pos e4]
    simp only [if_pos h, if_neg e5]
    exact DecodeRune_three t 0x13 0xA0 0xBF hv (by decide) (by decide) (by decide)
  · have e1 : ¬ a < 0x80 := by omega
    have e2 : ¬ a < 0xC2 := by omega
    have e3 : ¬ a < 0xE0 := by omega
    have e5 : ¬ a = 0xE0 := by omega
    rw [decodeSpec.eq_def, if_neg e1, if_neg e2, if_neg e3, if_pos h2]
    simp only [if_neg h3, if_neg e5]
    exact DecodeRune_three t 0x03 0x80 0xBF hv (by decide) (by decide) (by decide)
  · have e1 : ¬ a < 0x80 := by omega
    have e2 : ¬ a < 0xC2 := by omega
    have e3 : ¬ a < 0xE0 := by omega
    have e4 : a < 0xF0 := by omega
    have e5 : ¬ a = 0xE0 := by omega
    rw [decodeSpec.eq_def, if_neg e1, if_neg e2, if_neg e3, if_pos e4]
    simp only [if_pos h, if_neg e5]
    exact DecodeRune_three t 0x23 0x80 0x9F hv (by decide) (by decide) (by decide)
  · have e1 : ¬ a < 0x80 := by omega
    have e2 : ¬ a < 0xC2 := by omega
    have e3 : ¬ a < 0xE0 := by omega
    have e4 : ¬ a < 0xF0 := by omega
    have e5 : a < 0xF5 := by omega
    have e6 : ¬ a = 0xF4 := by omega
    rw [decodeSpec.eq_def, if_neg e1, if_neg e2, if_neg e3, if_neg e4, if_pos e5]
    simp only [if_pos h, if_neg e6]
    exact DecodeRune_four t 0x34 0x90 0xBF hv (by decide) (by decide) (by decide)
  · have e1 : ¬ a < 0x80 := by omega
    have e2 : ¬ a < 0xC2 := by omega
    have e3 : ¬ a < 0xE0 := by omega
    have e4 : ¬ a < 0xF0 := by omega
    have e5 : a < 0xF5 := by omega
    have e6 : ¬ a = 0xF4 := by omega
    have e7 : ¬ a = 0xF0 := by omega
    rw [decodeSpec.eq_def, if_neg e1, if_neg e2, if_neg e3, if_neg e4, if_pos e5]
    simp only [if_neg e7, if_neg e6]
    exact DecodeRune_four t 0x04 0x80 0xBF hv (by decide) (by decide) (by decide)
  · have e1 : ¬ a < 0x80 := by omega
    have e2 : ¬ a < 0xC2 := by omega
    have e3 : ¬ a < 0xE0 := by omega
    have e4 : ¬ a < 0xF0 := by omega
    have e5 : a < 0xF5 := by omega
    have e7 : ¬ a = 0xF0 := by omega
    rw [decodeSpec.eq_def, if_neg e1, if_neg e2, if_neg e3, if_neg e4, if_pos e5]
    simp only [if_neg e7, if_pos h]
    exact DecodeRune_four t 0x44 0x80 0x8F hv (by decide) (by decide) (by decide)
  · have e1 : ¬ a < 0x80 := by omega
    have e2 : ¬ a < 0xC2 := by omega
    have e3 : ¬ a < 0xE0 := by omega
    have e4 : ¬ a < 0xF0 := by omega
    have e5 : ¬ a < 0xF5 := by omega
    rw [decodeSpec.eq_def, if_neg e1, if_neg e2, if_neg e3, if_neg e4, if_neg e5]
    simp [DecodeRune, hv]

theorem nextRune_cons (a : Nat) (t : List Nat) :
    nextRune (a :: t) = ((decodeSpec a t).1, (decodeSpec a t).2.toNat) := by
  simp only [nextRune]
  by_cases h : a < RuneSelf
  · have h' : a < 0x80 := h
    rw [if_pos h, decodeSpec.eq_def, if_pos h']
    rfl
  · rw [if_neg h, DecodeRune_eq]

theorem nextRune_ascii {a : Nat} (t : List Nat) (h : a < 0x80) :
    nextRune (a :: t) = ((a : Int), 1) := by
  have h' : a < RuneSelf := h
  simp only [nextRune, if_pos h']

theorem nextRune_nil : nextRune [] = (EOF, 0) := rfl

/-- Decoding inverts encoding, whatever follows. -/
theorem nextRune_encode (r : Nat) (h : ValidRune r) (t : List Nat) :
    nextRune (EncodeRune r ++ t) = ((r : Int), (EncodeRune r).length) := by
  obtain ⟨h1, h2⟩ := h
  unfold EncodeRune
  by_cases c1 : r < 0x80
  · rw [if_pos c1]
    exact nextRune_ascii t c1
  rw [if_neg c1]
  by_cases c2 : r < 0x800
  · rw [if_pos c2]
    simp only [List.cons_append, List.nil_append, nextRune_cons, decodeSpec, List.length_cons,
      List.length_nil]
    have e1 : ¬ (0xC0 + r / 64 < 0x80) := by omega
    have e2 : ¬ (0xC0 + r / 64 < 0xC2) := by omega
    have e3 : 0xC0 + r / 64 < 0xE0 := by omega
    have e4 : 0x80 ≤ 0x80 + r % 64 ∧ 0x80 + r % 64 ≤ 0xBF := by omega
    rw [if_neg e1, if_neg e2, if_pos e3, if_pos e4]
    simp only [Prod.mk.injEq, Int.toNat_ofNat]
    refine ⟨?_, rfl⟩
    congr 1
    omega
  rw [if_neg c2]
  by_cases c3 : r < 0x10000
  · rw [if_pos c3]
    simp only [List.cons_append, List.nil_append, nextRune_cons, decodeSpec, List.length_cons,
      List.length_nil]
    have e1 : ¬ (0xE0 + r / 4096 < 0x80) := by omega
    have e2 : ¬ (0xE0 + r / 4096 < 0xC2) := by omega
    have e3 : ¬ (0xE0 + r / 4096 < 0xE0) := by omega
    have e4 : 0xE0 + r / 4096 < 0xF0 := by omega
    have e5 : (if 0xE0 + r / 4096 = 0xE0 then 0xA0 else 0x80) ≤ 0x80 + r / 64 % 64 ∧
        0x80 + r / 64 % 64 ≤ (if 0xE0 + r / 4096 = 0xED then 0x9F else 0xBF) ∧
        0x80 ≤ 0x80 + r % 64 ∧ 0x80 + r % 64 ≤ 0xBF := by
      refine ⟨?_, ?_, by omega, by omega⟩
      · by_cases c : 0xE0 + r / 4096 = 0xE0
        · rw [if_pos c]; omega
        · rw [if_neg c]; omega
      · by_cases c : 0xE0 + r / 4096 = 0xED
        · rw [if_pos c]; omega
        · rw [if_neg c]; omega
    rw [if_neg e1, if_neg e2, if_neg e3, if_pos e4, if_pos e5]
    simp only [Prod.mk.injEq, Int.toNat_ofNat]
    refine ⟨?_, rfl⟩
    congr 1
    omega
  · rw [if_neg c3]
    simp only [List.cons_append, List.nil_append, nextRune_cons, decodeSpec, List.length_cons,
      List.length_nil]
    have e1 : ¬ (0xF0 + r / 262144 < 0x80) := by omega
    have e2 : ¬ (0xF0 + r / 262144 < 0xC2) := by omega
    have e3 : ¬ (0xF0 + r / 262144 < 0xE0) := by omega
    have e4 : ¬ (0xF0 + r / 262144 < 0xF0) := by omega
    have e6 : 0xF0 + r / 262144 < 0xF5 := by omega
    have e5 : (if 0xF0 + r / 262144 = 0xF0 then 0x90 else 0x80) ≤ 0x80 + r / 4096 % 64 ∧
        0x80 + r / 4096 % 64 ≤ (if 0xF0 + r / 262144 = 0xF4 then 0x8F else 0xBF) ∧
        0x80 ≤ 0x80 + r / 64 % 64 ∧ 0x80 + r / 64 % 64 ≤ 0xBF ∧
        0x80 ≤ 0x80 + r % 64 ∧ 0x80 + r % 64 ≤ 0xBF := by
      refine ⟨?_, ?_, by omega, by omega, by omega, by omega⟩
      · by_cases c : 0xF0 + r / 262144 = 0xF0
        · rw [if_pos c]; omega
        · rw [if_neg c]; omega
      · by_cases c : 0xF0 + r / 262144 = 0xF4
        · rw [if_pos c]; omega
        · rw [if_neg c]; omega
    rw [if_neg e1, if_neg e2, if_neg e3, if_neg e4, if_pos e6, if_pos e5]
    simp only [Prod.mk.injEq, Int.toNat_ofNat]
    refine ⟨?_, rfl⟩
    congr 1
    omega

theorem decodeSpec_bounds (a : Nat) (t : List Nat) (h : 0x80 ≤ a) :
    0x80 ≤ (decodeSpec a t).1 ∧ (decodeSpec a t).1 < 0x200000 := by
  have e1 : ¬ a < 0x80 := by omega
  rw [decodeSpec.eq_def, if_neg e1]
  by_cases h2 : a < 0xC2
  · rw [if_pos h2]; simp [RuneError]
  rw [if_neg h2]
  by_cases h3 : a < 0xE0
  · rw [if_pos h3]
    rcases t with _ | ⟨b, t⟩
    · simp [RuneError]
    · simp only
      by_cases c : 0x80 ≤ b ∧ b ≤ 0xBF
      · rw [if_pos c]; simp only; omega
      · rw [if_neg c]; simp [RuneError]
  rw [if_neg h3]
  by_cases h4 : a < 0xF0
  · rw [if_pos h4]
    rcases t with _ | ⟨b, _ | ⟨c, t⟩⟩
    · simp [RuneError]
    · simp [RuneError]
    · simp only
      by_cases c1 : (if a = 0xE0 then 0xA0 else 0x80) ≤ b ∧
          b ≤ (if a = 0xED then 0x9F else 0xBF) ∧ 0x80 ≤ c ∧ c ≤ 0xBF
      · rw [if_pos c1]
        simp only
        obtain ⟨c2, c3, c4, c5⟩ := c1
        have c9 : b ≤ 0xBF := by
          by_cases c10 : a = 0xED
          · rw [if_pos c10] at c3; omega
          · rw [if_neg c10] at c3; omega
        by_cases c6 : a = 0xE0
        · rw [if_pos c6] at c2; omega
        · rw [if_neg c6] at c2; omega
      · rw [if_neg c1]; simp [RuneError]
  rw [if_neg h4]
  by_cases h5 : a < 0xF5
  · rw [if_pos h5]
    rcases t with _ | ⟨b, _ | ⟨c, _ | ⟨d, t⟩⟩⟩
    · simp [RuneError]
    · simp [RuneError]
    · simp [RuneError]
    · simp only
      by_cases c1 : (if a = 0xF0 then 0x90 else 0x80) ≤ b ∧
          b ≤ (if a = 0xF4 then 0x8F else 0xBF) ∧ 0x80 ≤ c ∧ c ≤ 0xBF ∧ 0x80 ≤ d ∧ d ≤ 0xBF
      · rw [if_pos c1]
        simp only
        obtain ⟨c2, c3, c4, c5, c7, c8⟩ := c1
        have c9 : b ≤ 0xBF := by
          by_cases c10 : a = 0xF4
          · rw [if_pos c10] at c3; omega
          · rw [if_neg c10] at c3; omega
        by_cases c6 : a = 0xF0
        · rw [if_pos c6] at c2; omega
        · rw [if_neg c6] at c2; omega
      · rw [if_neg c1]; simp [RuneError]
  · rw [if_neg h5]; simp [RuneError]

/-- A rune that starts with a byte that is not ASCII is not ASCII. -/
theorem nextRune_high {a : Nat} (t : List Nat) (h : 0x80 ≤ a) :
    0x80 ≤ (nextRune (a :: t)).1 := by
  rw [nextRune_cons]
  exact (decodeSpec_bounds a t h).1

theorem nextRune_lt (u : List Nat) : (nextRune u).1 < 0x200000 := by
  rcases u with _ | ⟨a, t⟩
  · simp [nextRune, EOF]
  · by_cases h : a < 0x80
    · rw [nextRune_ascii t h]; simp only; omega
    · rw [nextRune_cons]
      exact (decodeSpec_bounds a t (by omega)).2

theorem nextRune_width (a : Nat) (t : List Nat) :
    1 ≤ (nextRune (a :: t)).2 ∧ (nextRune (a :: t)).2 ≤ (a :: t).length := by
  simp only [nextRune]
  by_cases h : a < RuneSelf
  · rw [if_pos h]; simp
  · rw [if_neg h]
    have := DecodeRune_width a t
    simp only
    omega

/-! ## `Scan` from a reachable state: whitespace and look-ahead -/

/-- The whitespace test of `Scan` holds for tab, line feed, carriage return
and space, and for no other rune that `next` can return. -/
theorem isWhitespace_iff (ch : Int) (h1 : -1 ≤ ch) (h2 : ch < 2 ^ 64) :
    isWhitespace GoWhitespace ch = true ↔ (ch = 9 ∨ ch = 10 ∨ ch = 13 ∨ ch = 32) := by
  unfold isWhitespace
  by_cases hneg : ch = -1
  · subst hneg
    simp
  have h0 : 0 ≤ ch := by omega
  have hm : ch % 2 ^ 64 = ch := Int.emod_eq_of_lt h0 h2
  simp only [hm]
  by_cases h64 : ch < 64
  · obtain ⟨n, rfl⟩ := Int.eq_ofNat_of_zero_le h0
    have hn : n < 64 := by omega
    simp only [Int.toNat_ofNat, hn, ↓reduceIte]
    interval_cases n <;> simp [GoWhitespace] <;> decide
  · have : ¬ (ch.toNat < 64) := by omega
    simp only [this, ↓reduceIte, Nat.and_zero, bne_self_eq_false, Bool.false_eq_true, false_iff]
    omega

theorem nextA_curAt (acc u : List Nat) :
    nextA (curAt acc u) = .ok ((nextRune (u.drop (nextRune u).2)).1,
      curAt (acc ++ u.take (nextRune u).2) (u.drop (nextRune u).2)) := rfl

/-- A step over a rune whose bytes are `p`. -/
theorem nextA_step (acc p t : List Nat) (r : Int) (h : nextRune (p ++ t) = (r, p.length)) :
    nextA (curAt acc (p ++ t)) = .ok ((nextRune t).1, curAt (acc ++ p) t) := by
  rw [nextA_curAt, h]
  simp

theorem nextA_ascii (acc : List Nat) {b : Nat} (t : List Nat) (h : b < 0x80) :
    nextA (curAt acc (b :: t)) = .ok ((nextRune t).1, curAt (acc ++ [b]) t) :=
  nextA_step acc [b] t b (nextRune_ascii t h)

theorem nextA_fresh (acc u : List Nat) :
    nextA ⟨acc, [], u⟩ = .ok ((nextRune u).1, curAt acc u) := by
  simp [nextA, curAt]

theorem isSpace_lt {b : Nat} (h : isSpace b) : b < 0x80 := by
  unfold isSpace at h; omega

theorem isWhitespace_space {b : Nat} (h : isSpace b) :
    isWhitespace GoWhitespace (b : Int) = true := by
  have hb := isSpace_lt h
  rw [isWhitespace_iff _ (by omega) (by omega)]
  unfold isSpace at h
  omega

/-- A rune of the input is no whitespace unless it is one of the four bytes. -/
theorem isWhitespace_nextRune (u : List Nat) :
    isWhitespace GoWhitespace (nextRune u).1 = true ↔ ∃ b t, u = b :: t ∧ isSpace b := by
  have h1 := nextRune_ge u
  have h2 := nextRune_lt u
  rw [isWhitespace_iff _ h1 (by omega)]
  rcases u with _ | ⟨a, t⟩
  · simp [nextRune, EOF]
  · by_cases ha : a < 0x80
    · rw [nextRune_ascii t ha]
      simp only [List.cons.injEq, isSpace]
      constructor
      · intro h; exact ⟨a, t, ⟨rfl, rfl⟩, by omega⟩
      · rintro ⟨b, t', ⟨rfl, _⟩, h⟩; omega
    · have := nextRune_high t (by omega : 0x80 ≤ a)
      constructor
      · intro h; omega
      · rintro ⟨b, t', h, hs⟩
        simp only [List.cons.injEq] at h
        have := isSpace_lt hs
        omega

/-- The whitespace loop skips the bytes `ws` and stops before `v`. -/
theorem skipWhitespaceA_spec : ∀ (ws : List Nat) (fuel : Nat) (acc v : List Nat),
    (∀ b ∈ ws, isSpace b) → isWhitespace GoWhitespace (nextRune v).1 = false →
    ws.length < fuel →
    skipWhitespaceA fuel (nextRune (ws ++ v)).1 (curAt acc (ws ++ v)) =
      .ok ((nextRune v).1, curAt (acc ++ ws) v) := by
  intro ws
  induction ws with
  | nil =>
    intro fuel acc v _ hv hf
    obtain ⟨f, rfl⟩ : ∃ f, fuel = f + 1 := ⟨fuel - 1, by simp at hf; omega⟩
    simp [skipWhitespaceA, hv, pure, Except.pure]
  | cons b ws ih =>
    intro fuel acc v hws hv hf
    obtain ⟨f, rfl⟩ : ∃ f, fuel = f + 1 := ⟨fuel - 1, by simp at hf; omega⟩
    have hb : isSpace b := hws b (List.mem_cons_self _ _)
    have hlt := isSpace_lt hb
    simp only [List.cons_append, skipWhitespaceA, nextRune_ascii _ hlt, isWhitespace_space hb,
      ↓reduceIte, nextA_ascii acc _ hlt, bind, Except.bind]
    rw [ih f (acc ++ [b]) v (fun x hx => hws x (List.mem_cons_of_mem _ hx)) hv
      (by simp at hf; omega)]
    simp

theorem nextA_looking {c : Cur} {r : Int × Cur} (h : nextA c = .ok r) : Looking r.1 r.2 := by
  simp only [nextA, Except.ok.injEq] at h
  subst h
  right
  simp only [List.take_append_drop, List.length_take, true_and]
  rcases hr : c.rest with _ | ⟨a, t⟩
  · simp [nextRune]
  · have := nextRune_width a t
    omega

theorem skipWhitespaceA_looking : ∀ (fuel : Nat) (ch : Int) (c : Cur) (r : Int × Cur),
    Looking ch c → skipWhitespaceA fuel ch c = .ok r → Looking r.1 r.2 := by
  intro fuel
  induction fuel with
  | zero => intro ch c r _ h; simp [skipWhitespaceA] at h
  | succ fuel ih =>
    intro ch c r hl h
    simp only [skipWhitespaceA] at h
    by_cases hc : isWhitespace GoWhitespace ch = true
    · rw [if_pos hc] at h
      obtain ⟨a, h1, h2⟩ := bind_eq_ok h
      exact ih _ _ _ (nextA_looking h1) h2
    · rw [if_neg hc] at h
      simp only [pure, Except.pure, Except.ok.injEq] at h
      subst h
      exact hl

theorem identLoopA_looking (idr : Int → Int → Bool) : ∀ (fuel : Nat) (i ch : Int) (c : Cur)
    (r : Int × Cur), Looking ch c → identLoopA idr fuel i ch c = .ok r → Looking r.1 r.2 := by
  intro fuel
  induction fuel with
  | zero => intro i ch c r _ h; simp [identLoopA] at h
  | succ fuel ih =>
    intro i ch c r hl h
    simp only [identLoopA] at h
    by_cases hc : idr ch i = true
    · rw [if_pos hc] at h
      obtain ⟨a, h1, h2⟩ := bind_eq_ok h
      exact ih _ _ _ _ (nextA_looking h1) h2
    · rw [if_neg hc] at h
      simp only [pure, Except.pure, Except.ok.injEq] at h
      subst h
      exact hl

theorem stringLoopA_looking (right : Int) : ∀ (fuel : Nat) (ch : Int) (c : Cur)
    (r : Int × Cur), Looking ch c → stringLoopA right fuel ch c = .ok r → Looking r.1 r.2 := by
  intro fuel
  induction fuel with
  | zero => intro ch c r _ h; simp [stringLoopA] at h
  | succ fuel ih =>
    intro ch c r hl h
    simp only [stringLoopA] at h
    by_cases hc : ch ≠ right ∧ ch ≠ EOF
    · rw [if_pos hc] at h
      obtain ⟨a, h1, h2⟩ := bind_eq_ok h
      exact ih _ _ _ (nextA_looking h1) h2
    · rw [if_neg hc] at h
      simp only [pure, Except.pure, Except.ok.injEq] at h
      subst h
      exact hl

theorem scanMantissaA_looking : ∀ (fuel : Nat) (ch : Int) (c : Cur) (r : Int × Cur),
    Looking ch c → scanMantissaA fuel ch c = .ok r → Looking r.1 r.2 := by
  intro fuel
  induction fuel with
  | zero => intro ch c r _ h; simp [scanMantissaA] at h
  | succ fuel ih =>
    intro ch c r hl h
    simp only [scanMantissaA] at h
    by_cases hc : 0x30 ≤ ch ∧ ch ≤ 0x39
    · rw [if_pos hc] at h
      obtain ⟨a, h1, h2⟩ := bind_eq_ok h
      exact ih _ _ _ (nextA_looking h1) h2
    · rw [if_neg hc] at h
      simp only [pure, Except.pure, Except.ok.injEq] at h
      subst h
      exact hl

theorem tagA_looking {x : Except Abort (Int × Cur)} {k : Int} {t : Int × Int × Cur}
    (hx : ∀ r, x = .ok r → Looking r.1 r.2)
    (h : (x >>= fun r => pure (k, r)) = .ok t) : Looking t.2.1 t.2.2 := by
  obtain ⟨a, h1, h2⟩ := bind_eq_ok h
  simp only [pure, Except.pure, Except.ok.injEq] at h2
  subst h2
  exact hx a h1

theorem opA_looking {c : Cur} {k : Int} {e : Int → Abort} {r : Int × Cur}
    (h : (nextA c >>= fun r => if r.1 = k then nextA r.2 else .error (e r.1)) = .ok r) :
    Looking r.1 r.2 := by
  obtain ⟨a, _, h2⟩ := bind_eq_ok h
  by_cases hc : a.1 = k
  · rw [if_pos hc] at h2; exact nextA_looking h2
  · rw [if_neg hc] at h2; cases h2

theorem dispatchA_looking (idr : Int → Int → Bool) (fuel : Nat) (ch : Int) (c : Cur)
    (t : Int × Int × Cur) (hl : Looking ch c) (h : dispatchA idr fuel ch c = .ok t) :
    Looking t.2.1 t.2.2 := by
  unfold dispatchA at h
  by_cases h1 : idr ch 0 = true
  · rw [if_pos h1] at h
    refine tagA_looking (fun r hr => ?_) h
    obtain ⟨a, h1, h2⟩ := bind_eq_ok hr
    exact identLoopA_looking idr _ _ _ _ _ (nextA_looking h1) h2
  rw [if_neg h1] at h
  by_cases h2 : EOF = ch
  · rw [if_pos h2] at h
    simp only [pure, Except.pure, Except.ok.injEq] at h
    subst h
    exact hl
  rw [if_neg h2] at h
  by_cases h3 : 0x27 = ch ∨ 0x22 = ch
  · rw [if_pos h3] at h
    refine tagA_looking (fun r hr => ?_) h
    obtain ⟨a, _, h2⟩ := bind_eq_ok hr
    obtain ⟨b, _, h3⟩ := bind_eq_ok h2
    by_cases hc : ch ≠ b.1
    · rw [if_pos hc] at h3; cases h3
    · rw [if_neg hc] at h3; exact nextA_looking h3
  rw [if_neg h3] at h
  by_cases h4 : 0x3D = ch
  · rw [if_pos h4] at h; exact tagA_looking (fun r hr => opA_looking hr) h
  rw [if_neg h4] at h
  by_cases h5 : 0x26 = ch
  · rw [if_pos h5] at h; exact tagA_looking (fun r hr => opA_looking hr) h
  rw [if_neg h5] at h
  by_cases h6 : 0x7C = ch
  · rw [if_pos h6] at h; exact tagA_looking (fun r hr => opA_looking hr) h
  rw [if_neg h6] at h
  by_cases h7 : 0x28 = ch
  · rw [if_pos h7] at h; exact tagA_looking (fun r hr => nextA_looking hr) h
  rw [if_neg h7] at h
  by_cases h8 : 0x29 = ch
  · rw [if_pos h8] at h; exact tagA_looking (fun r hr => nextA_looking hr) h
  rw [if_neg h8] at h
  by_cases h9 : 0x30 ≤ ch ∧ ch ≤ 0x39
  · rw [if_pos h9] at h
    refine tagA_looking (fun r hr => ?_) h
    obtain ⟨a, h1, h2⟩ := bind_eq_ok hr
    have la := scanMantissaA_looking _ _ _ _ hl h1
    by_cases hc : a.1 = 0x2E
    · rw [if_pos hc] at h2
      obtain ⟨b, h3, h4⟩ := bind_eq_ok h2
      exact scanMantissaA_looking _ _ _ _ (nextA_looking h3) h4
    · rw [if_neg hc] at h2
      simp only [pure, Except.pure, Except.ok.injEq] at h2
      subst h2
      exact la
  rw [if_neg h9] at h
  cases h

/-- `ScanA` keeps the look-ahead and the cursor fitting together. -/
theorem ScanA_looking (idr : Int → Int → Bool) (ch : Int) (c : Cur) (t : Int × Int × Cur)
    (hl : Looking ch c) (h : ScanA idr ch c = .ok t) : Looking t.2.1 t.2.2 := by
  unfold ScanA at h
  obtain ⟨a, h1, h⟩ := bind_eq_ok h
  obtain ⟨b, h2, h⟩ := bind_eq_ok h
  obtain ⟨d, h3, h⟩ := bind_eq_ok h
  simp only [pure, Except.pure, Except.ok.injEq] at h
  subst h
  have la : Looking a.1 a.2 := by
    unfold peekA at h1
    by_cases hc : ch = -2
    · rw [if_pos hc] at h1
      obtain ⟨x, hx, h1⟩ := bind_eq_ok h1
      by_cases hf : x.1 = 0xFEFF
      · rw [if_pos hf] at h1; exact nextA_looking h1
      · rw [if_neg hf] at h1
        simp only [pure, Except.pure, Except.ok.injEq] at h1
        subst h1
        exact nextA_looking hx
    · rw [if_neg hc] at h1
      simp only [pure, Except.pure, Except.ok.injEq] at h1
      subst h1
      exact hl
  have lb := skipWhitespaceA_looking _ _ _ _ la h2
  have lc : Looking b.1 { b.2 with acc := [] } := lb
  exact dispatchA_looking idr _ _ _ _ lc h3

/-- Every reachable state satisfies the invariant, with a look-ahead that
fits the cursor. -/
theorem Reachable.ready {E : Env} (hE : 4 ≤ E.bufLen) {lx : Lexer} (h : Reachable E lx) :
    ∃ ch c, Good E lx ch c ∧ Looking ch c := by
  induction h with
  | init lx0 rd hp =>
    exact ⟨-2, ⟨[], [], rd.data⟩,
      ⟨Init_inter E hE lx0 rd hp [], Or.inl ⟨rfl, by simp [Init]⟩⟩, Or.inl ⟨rfl, rfl⟩⟩
  | @scan lx lx' tok _ hs ih =>
    obtain ⟨ch, c, hg, hl⟩ := ih
    have hm := Scan_sim hg.inter
    rw [hs] at hm
    rcases hy : ScanA (isIdentRune E) ch c with e | s
    · rw [hy] at hm; simp only [Match] at hm
    · rw [hy] at hm
      simp only [Match] at hm
      obtain ⟨_, hi, g, tv, te⟩ := hm
      exact ⟨_, _, ⟨hi, Or.inr ⟨g, tv, te⟩⟩, ScanA_looking _ _ _ _ hl hy⟩
  | @text lx lx' t _ hs ih =>
    obtain ⟨ch, c, hg, hl⟩ := ih
    rcases hg.tok with ⟨_, hneg⟩ | ⟨g, tv, te⟩
    · unfold TokenText at hs
      rw [if_pos hneg] at hs
      simp only [pure, Except.pure, Except.ok.injEq, Prod.mk.injEq] at hs
      rw [← hs.2]
      exact ⟨ch, c, hg, hl⟩
    · obtain ⟨_, hi, tv', te'⟩ := TokenText_keeps hg.inter g tv te hs
      exact ⟨ch, c, ⟨hi, Or.inr ⟨g, tv', te'⟩⟩, hl⟩

theorem unread_eq {E : Env} {lx : Lexer} {ch : Int} {c : Cur} (hg : Good E lx ch c) :
    unread lx = c.last ++ c.rest := by
  have hv := hg.inter.view
  have hb := hv.lastBytes
  unfold unread
  rw [hv.pend, hv.lastLen] at *
  simp only [Int.toNat_ofNat]
  rw [hb]

theorem unread_Init (lx0 : Lexer) (rd : Reader) : unread (Init lx0 rd) = rd.data := by
  simp [unread, pending, avail, Init, bytesAt_zero]

theorem bind_pure_id {α : Type} (x : Except Abort α) : (x >>= fun t => pure t) = x := by
  cases x <;> rfl

theorem curAt_of_looking {ch : Int} {c : Cur} (hl : Looking ch c) (hc : ch ≠ -2) :
    ch = (nextRune (c.last ++ c.rest)).1 ∧ c = curAt c.acc (c.last ++ c.rest) := by
  rcases hl with ⟨h, _⟩ | ⟨h1, h2⟩
  · exact absurd h hc
  · refine ⟨h1, ?_⟩
    cases c
    simp only [curAt, ← h2, List.take_left', List.drop_left']

/-- `ScanA` on an input that starts with the whitespace `ws`: the whitespace
is skipped and the `switch` sees the first rune of what follows. -/
theorem ScanA_ready (idr : Int → Int → Bool) {ch : Int} {c : Cur} (hl : Looking ch c)
    (ws x : List Nat) (hu : c.last ++ c.rest = ws ++ x) (hws : ∀ b ∈ ws, isSpace b)
    (hx : isWhitespace GoWhitespace (nextRune x).1 = false)
    (hbom : ch = -2 → (nextRune (ws ++ x)).1 ≠ 0xFEFF) :
    ScanA idr ch c = dispatchA idr (c.rest.length + 2) (nextRune x).1 (curAt [] x) := by
  unfold ScanA
  simp only [bind_pure_id]
  by_cases hc : ch = -2
  · rcases hl with ⟨_, h0⟩ | ⟨h1, _⟩
    · obtain ⟨acc, last, rest⟩ := c
      simp only at h0 hu ⊢
      subst h0
      rw [List.nil_append] at hu
      subst hu
      rw [peekA, if_pos hc, nextA_fresh]
      simp only [bind, Except.bind, if_neg (hbom hc), pure, Except.pure]
      rw [skipWhitespaceA_spec ws _ acc x hws hx (by simp; omega)]
      rfl
    · have := nextRune_ge (c.last ++ c.rest); omega
  · obtain ⟨h1, h2⟩ := curAt_of_looking hl hc
    rw [hu] at h1 h2
    obtain ⟨acc, last, rest⟩ := c
    simp only [curAt, Cur.mk.injEq, true_and] at h2
    obtain ⟨h3, h4⟩ := h2
    have hf : ws.length < rest.length + 2 := by
      rcases ws with _ | ⟨b, ws⟩
      · simp
      · have hb := isSpace_lt (hws b (List.mem_cons_self _ _))
        rw [h4, List.cons_append, nextRune_ascii _ hb]
        simp
        omega
    have hcur : (⟨acc, last, rest⟩ : Cur) = curAt acc (ws ++ x) := by
      simp only [curAt, Cur.mk.injEq, true_and]
      exact ⟨h3, h4⟩
    rw [peekA, if_neg hc]
    simp only [bind, Except.bind, pure, Except.pure]
    rw [hcur, h1, skipWhitespaceA_spec ws _ acc x hws hx hf]
    rfl

/-- One round of the driver on a reachable state, through the lexer on the
byte sequence. -/
theorem run_one {E : Env} {lx : Lexer} {ch : Int} {c : Cur} (hg : Good E lx ch c) :
    run E 1 lx = match ScanA (isIdentRune E) ch c with
      | .error e => [Outcome.abort e]
      | .ok r => [Outcome.token r.1 r.2.2.acc] := by
  rw [run_sim E 1 lx ch c hg.inter]
  rcases hs : ScanA (isIdentRune E) ch c with e | r <;> simp [runA, hs]

/-- `Scan` aborts where `ScanA` aborts. -/
theorem Scan_abort {E : Env} {lx : Lexer} {ch : Int} {c : Cur} (hg : Good E lx ch c)
    {e : Abort} (h : ScanA (isIdentRune E) ch c = .error e) : Scan E lx = .error e := by
  have hm := Scan_sim hg.inter
  rw [h] at hm
  rcases hs : Scan E lx with e' | r
  · rw [hs] at hm; simp only [Match] at hm; rw [hm]
  · rw [hs] at hm; simp only [Match] at hm

/-! ## Operators -/

theorem nextRune_head_ascii {b : Nat} (t : List Nat) (h : b < 0x80) :
    (nextRune (b :: t)).1 = (b : Int) := by
  rw [nextRune_ascii t h]

theorem nextRune_eq_byte {c : Nat} (hc : c < 0x80) (u : List Nat) :
    (nextRune u).1 = (c : Int) ↔ u.head? = some c := by
  rcases u with _ | ⟨a, t⟩
  · simp [nextRune, EOF]
  · by_cases ha : a < 0x80
    · rw [nextRune_ascii t ha]
      simp only [List.head?_cons, Option.some.injEq]
      omega
    · have := nextRune_high t (by omega : 0x80 ≤ a)
      simp only [List.head?_cons, Option.some.injEq]
      omega

theorem nextRune_nonneg {u : List Nat} (h : u ≠ []) : 0 ≤ (nextRune u).1 := by
  rcases u with _ | ⟨a, t⟩
  · exact absurd rfl h
  · by_cases ha : a < 0x80
    · rw [nextRune_ascii t ha]; simp only; omega
    · have := nextRune_high t (by omega : 0x80 ≤ a); omega

/-- An input that starts with whitespace or with an ASCII byte does not start
with a byte order mark. -/
theorem not_bom_of_ascii (ws : List Nat) {b : Nat} (t : List Nat) (hws : ∀ x ∈ ws, isSpace x)
    (hb : b < 0x80) : (nextRune (ws ++ b :: t)).1 ≠ 0xFEFF := by
  rcases ws with _ | ⟨w, ws⟩
  · rw [List.nil_append, nextRune_ascii t hb]; simp only; omega
  · have := isSpace_lt (hws w (List.mem_cons_self _ _))
    rw [List.cons_append, nextRune_ascii _ this]; simp only; omega

/-- The scanner of a two-byte operator on a cursor; `k` is the rune of the
operator byte `b`. -/
theorem opA_spec (k : Int) (b : Nat) (hb : b < 0x80) (hk : k = (b : Int)) (e : Int → Abort)
    (rest : List Nat) :
    (nextA (curAt [] (b :: rest)) >>= fun r =>
        if r.1 = k then nextA r.2 else .error (e r.1)) =
      if (nextRune rest).1 = (b : Int) then
        .ok ((nextRune rest.tail).1, curAt [b, b] rest.tail)
      else .error (e (nextRune rest).1) := by
  subst hk
  rw [nextA_ascii [] rest hb]
  simp only [bind, Except.bind, List.nil_append]
  by_cases h : (nextRune rest).1 = (b : Int)
  · rw [if_pos h, if_pos h]
    obtain ⟨t, rfl⟩ : ∃ t, rest = b :: t := by
      have := (nextRune_eq_byte hb rest).mp h
      rcases rest with _ | ⟨a, t⟩
      · simp at this
      · simp only [List.head?_cons, Option.some.injEq] at this
        exact ⟨t, by rw [this]⟩
    rw [nextA_ascii [b] t hb]
    rfl
  · rw [if_neg h, if_neg h]

theorem isIdentRune_op (E : Env) {c : Nat} (hc : c = 0x3D ∨ c = 0x26 ∨ c = 0x7C) :
    isIdentRune E (c : Int) 0 = false := by
  rcases hc with rfl | rfl | rfl <;>
    simp [isIdentRune, IsLetter, IsDigit, latin1Letter]

theorem tag_ite {k : Int} {p : Prop} [Decidable p] (a : Int × Cur) (e : Abort) :
    ((if p then (.ok a : Except Abort (Int × Cur)) else .error e) >>= fun r => pure (k, r)) =
      if p then (.ok (k, a) : Except Abort (Int × Int × Cur)) else .error e := by
  by_cases h : p
  · rw [if_pos h, if_pos h]; rfl
  · rw [if_neg h, if_neg h]; rfl

/-- The `switch` of `Scan` at an operator byte. -/
theorem dispatchA_op (E : Env) (fuel : Nat) {c : Nat} (hc : c = 0x3D ∨ c = 0x26 ∨ c = 0x7C)
    (rest : List Nat) :
    dispatchA (isIdentRune E) fuel (c : Int) (curAt [] (c :: rest)) =
      if (nextRune rest).1 = (c : Int) then
        .ok (opKind c, (nextRune rest.tail).1, curAt [c, c] rest.tail)
      else .error (opAbort c (nextRune rest).1) := by
  have hi := isIdentRune_op E hc
  unfold dispatchA
  rw [hi]
  simp only [Bool.false_eq_true, ↓reduceIte]
  rcases hc with rfl | rfl | rfl
  · rw [if_neg (show ¬ (EOF = ((0x3D : Nat) : Int)) by decide),
      if_neg (show ¬ ((0x27 : Int) = ((0x3D : Nat) : Int) ∨ (0x22 : Int) = ((0x3D : Nat) : Int))
        by decide),
      if_pos (show (0x3D : Int) = ((0x3D : Nat) : Int) by decide)]
    unfold scanEquA
    rw [opA_spec 0x3D 0x3D (by decide) (by decide) Abort.notEqu rest, tag_ite]
    rfl
  · rw [if_neg (show ¬ (EOF = ((0x26 : Nat) : Int)) by decide),
      if_neg (show ¬ ((0x27 : Int) = ((0x26 : Nat) : Int) ∨ (0x22 : Int) = ((0x26 : Nat) : Int))
        by decide),
      if_neg (show ¬ ((0x3D : Int) = ((0x26 : Nat) : Int)) by decide),
      if_pos (show (0x26 : Int) = ((0x26 : Nat) : Int) by decide)]
    unfold scanAndA
    rw [opA_spec 0x26 0x26 (by decide) (by decide) Abort.notAnd rest, tag_ite]
    rfl
  · rw [if_neg (show ¬ (EOF = ((0x7C : Nat) : Int)) by decide),
      if_neg (show ¬ ((0x27 : Int) = ((0x7C : Nat) : Int) ∨ (0x22 : Int) = ((0x7C : Nat) : Int))
        by decide),
      if_neg (show ¬ ((0x3D : Int) = ((0x7C : Nat) : Int)) by decide),
      if_neg (show ¬ ((0x26 : Int) = ((0x7C : Nat) : Int)) by decide),
      if_pos (show (0x7C : Int) = ((0x7C : Nat) : Int) by decide)]
    unfold scanOrA
    rw [opA_spec 0x7C 0x7C (by decide) (by decide) Abort.notOr rest, tag_ite]
    rfl

/-- `Scan` returns where `ScanA` returns: the same kind, and `TokenText` after
it returns the text that the cursor has collected. -/
theorem Scan_token {E : Env} {lx : Lexer} {ch : Int} {c : Cur} (hg : Good E lx ch c)
    {r : Int × Int × Cur} (h : ScanA (isIdentRune E) ch c = .ok r) :
    ∃ lx1 lx2, Scan E lx = .ok (r.1, lx1) ∧ TokenText E lx1 = .ok (r.2.2.acc, lx2) := by
  have hm := Scan_sim hg.inter
  rw [h] at hm
  rcases hs : Scan E lx with e' | s
  · rw [hs] at hm; simp only [Match] at hm
  · rw [hs] at hm
    simp only [Match] at hm
    obtain ⟨e1, hi, g, tv, te⟩ := hm
    obtain ⟨lx2, t1, _, _⟩ := TokenText_spec hi g tv te
    exact ⟨s.2, lx2, by rw [← e1], t1⟩

/-- The start of `Scan` in a reachable state whose unread input is the
whitespace `ws` and then `x`: the `switch` runs on the first rune of `x`, with
fuel for every rune behind it. -/
theorem Scan_ready {E : Env} (hE : 4 ≤ E.bufLen) {lx : Lexer} (hr : Reachable E lx)
    (ws x : List Nat) (hu : unread lx = ws ++ x) (hws : ∀ b ∈ ws, isSpace b)
    (hx : isWhitespace GoWhitespace (nextRune x).1 = false)
    (hbom : lx.ch = -2 → (nextRune (ws ++ x)).1 ≠ 0xFEFF) :
    ∃ ch c fuel, Good E lx ch c ∧ (curAt [] x).rest.length + 2 ≤ fuel ∧
      ScanA (isIdentRune E) ch c =
        dispatchA (isIdentRune E) fuel (nextRune x).1 (curAt [] x) := by
  obtain ⟨ch, c, hg, hl⟩ := hr.ready hE
  have hu2 : c.last ++ c.rest = ws ++ x := by rw [← unread_eq hg, hu]
  have hlook := hg.inter.look
  refine ⟨ch, c, c.rest.length + 2, hg, ?_,
    ScanA_ready _ hl ws x hu2 hws hx (fun h => hbom (by rw [hlook, h]))⟩
  have hdrop : (curAt [] x).rest.length ≤ x.length := by
    simp only [curAt, List.length_drop]; omega
  by_cases hc : ch = -2
  · rcases hl with ⟨_, h0⟩ | ⟨h1, _⟩
    · rw [h0, List.nil_append] at hu2
      rw [hu2, List.length_append]; omega
    · have := nextRune_ge (c.last ++ c.rest); omega
  · obtain ⟨_, h2⟩ := curAt_of_looking hl hc
    rw [hu2] at h2
    rcases ws with _ | ⟨b, ws⟩
    · rw [List.nil_append] at h2
      rw [h2]; simp only [curAt]; omega
    · have hb := isSpace_lt (hws b (List.mem_cons_self _ _))
      have e : (curAt c.acc (b :: ws ++ x)).rest = ws ++ x := by
        simp [curAt, nextRune_ascii _ hb]
      have e2 : c.rest = ws ++ x := by rw [h2]; exact e
      rw [e2, List.length_append]
      omega

theorem isWhitespace_cons {b : Nat} (h : ¬ isSpace b) (t : List Nat) :
    isWhitespace GoWhitespace (nextRune (b :: t)).1 = false := by
  rw [Bool.eq_false_iff]
  intro hw
  obtain ⟨b', t', e, hs⟩ := (isWhitespace_nextRune (b :: t)).mp hw
  simp only [List.cons.injEq] at e
  rw [← e.1] at hs
  exact h hs

/-- C5. In a reachable state whose unread input is whitespace and then an
operator character `c` (one of `=`, `&`, `|`), `Scan` aborts if and only if
the rune right after `c` is not `c` (another rune, or the end of the stream),
and then with the abort of that operator; when the rune is `c`, `Scan` returns
`Equ`, `And` or `Or` and `TokenText` returns the two bytes `cc`. -/
theorem operator_needs_pair (E : Env) (hE : 4 ≤ E.bufLen) (lx : Lexer) (hr : Reachable E lx)
    (c : Nat) (hc : c = 0x3D ∨ c = 0x26 ∨ c = 0x7C) (ws rest : List Nat)
    (hu : unread lx = ws ++ c :: rest) (hws : ∀ b ∈ ws, isSpace b) :
    ((∃ e, Scan E lx = .error e) ↔ (nextRune rest).1 ≠ (c : Int)) ∧
    ((nextRune rest).1 ≠ (c : Int) → Scan E lx = .error (opAbort c (nextRune rest).1)) ∧
    ((nextRune rest).1 = (c : Int) →
      ∃ lx1 lx2, Scan E lx = .ok (opKind c, lx1) ∧ TokenText E lx1 = .ok ([c, c], lx2)) := by
  have hlt : c < 0x80 := by omega
  have hsp : ¬ isSpace c := by unfold isSpace; omega
  obtain ⟨ch, cu, fuel, hg, _, hs⟩ := Scan_ready hE hr ws (c :: rest) hu hws
    (isWhitespace_cons hsp rest) (fun _ => not_bom_of_ascii ws rest hws hlt)
  rw [nextRune_ascii rest hlt, dispatchA_op E fuel hc rest] at hs
  have hbad : (nextRune rest).1 ≠ (c : Int) →
      Scan E lx = .error (opAbort c (nextRune rest).1) := by
    intro h
    rw [if_neg h] at hs
    exact Scan_abort hg hs
  have hgood : (nextRune rest).1 = (c : Int) →
      ∃ lx1 lx2, Scan E lx = .ok (opKind c, lx1) ∧ TokenText E lx1 = .ok ([c, c], lx2) := by
    intro h
    rw [if_pos h] at hs
    exact Scan_token hg hs
  refine ⟨⟨?_, fun h => ⟨_, hbad h⟩⟩, hbad, hgood⟩
  rintro ⟨e, he⟩ h
  obtain ⟨lx1, _, h1, _⟩ := hgood h
  rw [h1] at he
  cases he

set_option maxRecDepth 100000 in
theorem operator_needs_pair_witness :
    Scan asciiEnv (Init Lexer.zero (stringsNewReader (ascii "=x"))) =
      .error (Abort.notEqu 0x78) ∧
    ∃ lx1 lx2, Scan asciiEnv (Init Lexer.zero (stringsNewReader (ascii " &&"))) =
        .ok (And, lx1) ∧ TokenText asciiEnv lx1 = .ok (ascii "&&", lx2) :=
  ⟨(operator_needs_pair asciiEnv (by decide) _ (Reachable.init _ _ (by decide)) 0x3D
      (Or.inl rfl) [] [0x78] (unread_Init _ _) (by decide)).2.1 (by decide),
    (operator_needs_pair asciiEnv (by decide) _ (Reachable.init _ _ (by decide)) 0x26
      (Or.inr (Or.inl rfl)) [0x20] [0x26] (unread_Init _ _) (by decide)).2.2 (by decide)⟩

/-! ## Runes that start no token -/

/-- An input behind whitespace does not start with a byte order mark unless
there is no whitespace and the first rune is the mark. -/
theorem not_bom_behind (ws x : List Nat) (hws : ∀ b ∈ ws, isSpace b)
    (h : ws = [] → (nextRune x).1 ≠ 0xFEFF) : (nextRune (ws ++ x)).1 ≠ 0xFEFF := by
  rcases ws with _ | ⟨w, ws⟩
  · rw [List.nil_append]; exact h rfl
  · have := isSpace_lt (hws w (List.mem_cons_self _ _))
    rw [List.cons_append, nextRune_ascii _ this]; simp only; omega

/-- The `switch` of `Scan` at a rune that starts no token. -/
theorem dispatchA_other (idr : Int → Int → Bool) (fuel : Nat) (ch : Int) (c : Cur)
    (h1 : idr ch 0 = false) (h2 : ch ≠ EOF)
    (h3 : ch ∉ [(0x27 : Int), 0x22, 0x3D, 0x26, 0x7C, 0x28, 0x29])
    (h4 : ¬ (0x30 ≤ ch ∧ ch ≤ 0x39)) :
    dispatchA idr fuel ch c = .error (.notImplemented ch) := by
  simp only [List.mem_cons, List.mem_singleton, List.not_mem_nil, or_false, not_or] at h3
  obtain ⟨a1, a2, a3, a4, a5, a6, a7⟩ := h3
  unfold dispatchA
  rw [h1]
  simp only [Bool.false_eq_true, ↓reduceIte]
  rw [if_neg (fun h => h2 h.symm), if_neg (by rintro (h | h) <;> omega),
    if_neg (fun h => a3 h.symm), if_neg (fun h => a4 h.symm), if_neg (fun h => a5 h.symm),
    if_neg (fun h => a6 h.symm), if_neg (fun h => a7 h.symm), if_neg h4]

/-- C6, counterexample. The rune U+FEFF is neither whitespace, `_`, a letter,
an ASCII digit nor one of the seven punctuation characters, and it is the
first rune of the input `EF BB BF 61`; yet the first `Scan` after `Init` does
not abort: `peek` drops the mark and `Scan` returns `Var` with text `a`. -/
theorem unclassified_rune_counterexample :
    (nextRune [0xEF, 0xBB, 0xBF, 0x61]).1 = 0xFEFF ∧
    isWhitespace GoWhitespace 0xFEFF = false ∧ IsLetter asciiEnv 0xFEFF = false ∧
    (∃ lx1, Scan asciiEnv (Init Lexer.zero (stringsNewReader [0xEF, 0xBB, 0xBF, 0x61])) =
      .ok (Var, lx1)) ∧
    run asciiEnv 1 (Init Lexer.zero (stringsNewReader [0xEF, 0xBB, 0xBF, 0x61])) =
      [Outcome.token Var [0x61]] :=
  ⟨by decide, by decide, by decide, ⟨_, rfl⟩, by decide⟩

/-- C6, amended. In a reachable state whose unread input is whitespace and
then a rune `r` that is not the end of the stream, not tab, line feed,
carriage return or space, not `_`, not a letter, not an ASCII digit and none
of the characters quote, double quote, `=`, `&`, `|`, `(`, `)`, `Scan` aborts
with "not implemented" for `r`, unless `r` is U+FEFF at the very start of the
stream (nothing read since `Init` and no whitespace before it). -/
theorem unclassified_rune_not_implemented (E : Env) (hE : 4 ≤ E.bufLen) (lx : Lexer)
    (hr : Reachable E lx) (ws x : List Nat) (hu : unread lx = ws ++ x)
    (hws : ∀ b ∈ ws, isSpace b) (r : Int) (hx : (nextRune x).1 = r) (h0 : r ≠ EOF)
    (hsp : r ∉ [(9 : Int), 10, 13, 32]) (hus : r ≠ 0x5F) (hl : IsLetter E r = false)
    (hd : ¬ (0x30 ≤ r ∧ r ≤ 0x39))
    (hp : r ∉ [(0x27 : Int), 0x22, 0x3D, 0x26, 0x7C, 0x28, 0x29])
    (hbom : lx.ch = -2 → ws = [] → r ≠ 0xFEFF) :
    Scan E lx = .error (.notImplemented r) := by
  have hw : isWhitespace GoWhitespace (nextRune x).1 = false := by
    rw [Bool.eq_false_iff, Ne, isWhitespace_iff _ (nextRune_ge x)
      (by have := nextRune_lt x; omega), hx]
    simp only [List.mem_cons, List.mem_singleton, List.not_mem_nil, or_false] at hsp
    exact hsp
  obtain ⟨ch, c, fuel, hg, _, hs⟩ := Scan_ready hE hr ws x hu hws hw
    (fun h => not_bom_behind ws x hws (fun hn => by rw [hx]; exact hbom h hn))
  have hi : isIdentRune E r 0 = false := by
    simp [isIdentRune, hl, hus]
  rw [hx, dispatchA_other _ fuel r _ hi h0 hp hd] at hs
  exact Scan_abort hg hs

set_option maxRecDepth 100000 in
theorem unclassified_rune_not_implemented_witness :
    Scan asciiEnv (Init Lexer.zero (stringsNewReader (ascii " ."))) =
      .error (.notImplemented 0x2E) :=
  unclassified_rune_not_implemented asciiEnv (by decide) _ (Reachable.init _ _ (by decide))
    [0x20] [0x2E] (unread_Init _ _) (by decide) 0x2E (by decide) (by decide) (by decide)
    (by decide) (by decide) (by decide) (by decide) (by decide)

/-! ## String literals -/

/-- The bytes of a rune behind its first byte are continuation bytes. -/
theorem decodeSpec_cont (a : Nat) (t : List Nat) :
    ∀ b ∈ t.take ((decodeSpec a t).2.toNat - 1), 0x80 ≤ b := by
  rw [decodeSpec.eq_def]
  by_cases h1 : a < 0x80
  · rw [if_pos h1]; simp
  rw [if_neg h1]
  by_cases h2 : a < 0xC2
  · rw [if_pos h2]; simp
  rw [if_neg h2]
  by_cases h3 : a < 0xE0
  · rw [if_pos h3]
    rcases t with _ | ⟨b, t⟩
    · simp
    · simp only
      by_cases c : 0x80 ≤ b ∧ b ≤ 0xBF
      · rw [if_pos c]; simp; exact c.1
      · rw [if_neg c]; simp
  rw [if_neg h3]
  by_cases h4 : a < 0xF0
  · rw [if_pos h4]
    rcases t with _ | ⟨b, _ | ⟨c, t⟩⟩
    · simp
    · simp
    · simp only
      by_cases c1 : (if a = 0xE0 then 0xA0 else 0x80) ≤ b ∧
          b ≤ (if a = 0xED then 0x9F else 0xBF) ∧ 0x80 ≤ c ∧ c ≤ 0xBF
      · rw [if_pos c1]
        obtain ⟨c2, c3, c4, c5⟩ := c1
        have c9 : 0x80 ≤ b := by
          by_cases c6 : a = 0xE0
          · rw [if_pos c6] at c2; omega
          · rw [if_neg c6] at c2; omega
        simp
        exact ⟨c9, c4⟩
      · rw [if_neg c1]; simp
  rw [if_neg h4]
  by_cases h5 : a < 0xF5
  · rw [if_pos h5]
    rcases t with _ | ⟨b, _ | ⟨c, _ | ⟨d, t⟩⟩⟩
    · simp
    · simp
    · simp
    · simp only
      by_cases c1 : (if a = 0xF0 then 0x90 else 0x80) ≤ b ∧
          b ≤ (if a = 0xF4 then 0x8F else 0xBF) ∧ 0x80 ≤ c ∧ c ≤ 0xBF ∧ 0x80 ≤ d ∧ d ≤ 0xBF
      · rw [if_pos c1]
        obtain ⟨c2, c3, c4, c5, c7, c8⟩ := c1
        have c9 : 0x80 ≤ b := by
          by_cases c6 : a = 0xF0
          · rw [if_pos c6] at c2; omega
          · rw [if_neg c6] at c2; omega
        simp
        exact ⟨c9, c4, c7⟩
      · rw [if_neg c1]; simp
  · rw [if_neg h5]; simp

/-- A rune does not reach over an ASCII byte: in front of the ASCII byte `b`
the rune that starts the non-empty `p` lies inside `p`. -/
theorem nextRune_stop (p : List Nat) (hp : p ≠ []) {b : Nat} (hb : b < 0x80) (u : List Nat) :
    (nextRune (p ++ b :: u)).2 ≤ p.length := by
  rcases p with _ | ⟨a, p⟩
  · exact absurd rfl hp
  · by_contra hlt
    have hc := decodeSpec_cont a (p ++ b :: u)
    rw [List.cons_append, nextRune_cons] at hlt
    simp only [List.length_cons] at hlt
    have hmem : b ∈ (p ++ b :: u).take ((decodeSpec a (p ++ b :: u)).2.toNat - 1) := by
      rw [List.take_append_eq_append_take]
      apply List.mem_append_right
      obtain ⟨m, hm⟩ : ∃ m, (decodeSpec a (p ++ b :: u)).2.toNat - 1 - p.length = m + 1 :=
        ⟨(decodeSpec a (p ++ b :: u)).2.toNat - 1 - p.length - 1, by omega⟩
      rw [hm, List.take_succ_cons]
      exact List.mem_cons_self _ _
    have := hc b hmem
    omega

/-- A rune at the end of the input lies inside the input. -/
theorem nextRune_le (p : List Nat) : (nextRune p).2 ≤ p.length := by
  rcases p with _ | ⟨a, p⟩
  · simp [nextRune]
  · exact (nextRune_width a p).2

/-- The loop of `scanString` walks over a body that does not hold the quote
`q` and stops at what follows: the quote or the end of the input. -/
theorem stringLoopA_spec (q : Nat) (hq : q < 0x80) (tail : List Nat)
    (ht : tail = [] ∨ ∃ t, tail = q :: t) : ∀ (n : Nat) (body : List Nat), body.length ≤ n →
    ∀ (fuel : Nat) (acc : List Nat), q ∉ body → body.length + 1 ≤ fuel →
    stringLoopA (q : Int) fuel (nextRune (body ++ tail)).1 (curAt acc (body ++ tail)) =
      .ok ((nextRune tail).1, curAt (acc ++ body) tail) := by
  intro n
  induction n with
  | zero =>
    intro body hn fuel acc _ hf
    have hb : body = [] := List.length_eq_zero.mp (by omega)
    subst hb
    obtain ⟨f, rfl⟩ : ∃ f, fuel = f + 1 := ⟨fuel - 1, by omega⟩
    simp only [List.nil_append, List.append_nil, stringLoopA]
    have hstop : ¬ ((nextRune tail).1 ≠ (q : Int) ∧ (nextRune tail).1 ≠ EOF) := by
      rcases ht with h | ⟨t, h⟩
      · rw [h]; simp [nextRune]
      · rw [h, nextRune_ascii t hq]; simp
    rw [if_neg hstop]
    rfl
  | succ n ih =>
    intro body hn fuel acc hnot hf
    rcases body with _ | ⟨a, body⟩
    · exact ih [] (by simp) fuel acc hnot hf
    · obtain ⟨f, rfl⟩ : ∃ f, fuel = f + 1 := ⟨fuel - 1, by omega⟩
      have haq : a ≠ q := fun h => hnot (by rw [h]; exact List.mem_cons_self _ _)
      have hgo : (nextRune (a :: body ++ tail)).1 ≠ (q : Int) ∧
          (nextRune (a :: body ++ tail)).1 ≠ EOF := by
        have h0 := nextRune_nonneg (u := a :: body ++ tail) (by simp)
        refine ⟨?_, by simp only [EOF]; omega⟩
        by_cases ha : a < 0x80
        · rw [List.cons_append, nextRune_ascii _ ha]; simp only; omega
        · have := nextRune_high (body ++ tail) (by omega : 0x80 ≤ a)
          rw [List.cons_append]; omega
      have hw : (nextRune (a :: body ++ tail)).2 ≤ (a :: body).length := by
        rcases ht with h | ⟨t, h⟩
        · rw [h, List.append_nil]; exact nextRune_le _
        · rw [h]; exact nextRune_stop (a :: body) (by simp) hq t
      have hw1 := (nextRune_width a (body ++ tail)).1
      rw [← List.cons_append] at hw1
      rw [stringLoopA, if_pos hgo, nextA_curAt]
      simp only [bind, Except.bind]
      rw [List.drop_append_of_le_length hw, List.take_append_of_le_length hw]
      have hlen : ((a :: body).drop (nextRune (a :: body ++ tail)).2).length ≤ n := by
        simp only [List.length_drop, List.length_cons] at hn ⊢
        omega
      rw [ih _ hlen f _ (fun h => hnot (List.mem_of_mem_drop h))
        (by simp only [List.length_drop, List.length_cons] at hf ⊢; omega)]
      rw [List.append_assoc, List.take_append_drop]

theorem isIdentRune_ascii_other (E : Env) {b : Nat} (hb : b < 0x41) (i : Int)
    (hd : ¬ (0x30 ≤ b ∧ b ≤ 0x39)) : isIdentRune E (b : Int) i = false := by
  have h1 : ((b : Int) == 0x5F) = false := by
    rw [beq_eq_false_iff_ne]; omega
  have hl : latin1Letter b = false := by
    unfold latin1Letter
    have e1 : decide (0x41 ≤ b) = false := decide_eq_false (by omega)
    have e2 : decide (0x61 ≤ b) = false := decide_eq_false (by omega)
    have e3 : (b == 0xAA) = false := by rw [beq_eq_false_iff_ne]; omega
    have e4 : (b == 0xB5) = false := by rw [beq_eq_false_iff_ne]; omega
    have e5 : (b == 0xBA) = false := by rw [beq_eq_false_iff_ne]; omega
    have e6 : decide (0xC0 ≤ b) = false := decide_eq_false (by omega)
    have e7 : decide (0xD8 ≤ b) = false := decide_eq_false (by omega)
    have e8 : decide (0xF8 ≤ b) = false := decide_eq_false (by omega)
    rw [e1, e2, e3, e4, e5, e6, e7, e8]
    rfl
  have h2 : IsLetter E (b : Int) = false := by
    unfold IsLetter
    rw [if_neg (show ¬ ((b : Int) < 0) by omega), if_pos (show (b : Int) ≤ 0xFF by omega)]
    simp only [Int.toNat_ofNat]
    exact hl
  have h3 : IsDigit E (b : Int) = false := by
    unfold IsDigit
    rw [if_pos (show (b : Int) ≤ 0xFF by omega)]
    exact decide_eq_false (by omega)
  unfold isIdentRune
  rw [h1, h2, h3]
  rfl

/-- `scanString` on a literal that is not closed: the loop runs to the end of
the input and the test for the closing quote fails. -/
theorem scanStringA_open (q : Nat) (hq : q < 0x80) (body : List Nat) (hnot : q ∉ body)
    (fuel : Nat) (hf : body.length + 1 ≤ fuel) :
    scanStringA fuel (q : Int) (curAt [] (q :: body)) = .error .stringNotClosed := by
  have hl := stringLoopA_spec q hq [] (Or.inl rfl) body.length body (le_refl _) fuel [q] hnot hf
  rw [List.append_nil] at hl
  unfold scanStringA
  rw [nextA_ascii [] body hq]
  simp only [bind, Except.bind, List.nil_append]
  rw [hl]
  simp only [nextRune_nil]
  rw [if_pos (by simp only [EOF]; omega)]

/-- `scanString` on a closed literal: the token is the literal with both
quotes, and the look-ahead is the rune behind it. -/
theorem scanStringA_closed (q : Nat) (hq : q < 0x80) (body t : List Nat) (hnot : q ∉ body)
    (fuel : Nat) (hf : body.length + 1 ≤ fuel) :
    scanStringA fuel (q : Int) (curAt [] (q :: body ++ q :: t)) =
      .ok ((nextRune t).1, curAt (q :: body ++ [q]) t) := by
  have hl := stringLoopA_spec q hq (q :: t) (Or.inr ⟨t, rfl⟩) body.length body (le_refl _) fuel
    [q] hnot hf
  unfold scanStringA
  rw [List.cons_append, nextA_ascii [] (body ++ q :: t) hq]
  simp only [bind, Except.bind, List.nil_append]
  rw [hl]
  simp only [nextRune_ascii t hq]
  rw [if_neg (by simp), nextA_ascii _ t hq]
  rfl

/-- The `switch` of `Scan` at a quote. -/
theorem dispatchA_quote (E : Env) (fuel : Nat) {q : Nat} (hq : q = 0x27 ∨ q = 0x22) (c : Cur) :
    dispatchA (isIdentRune E) fuel (q : Int) c =
      (scanStringA fuel (q : Int) c >>= fun r => pure (ConstString, r)) := by
  have hi : isIdentRune E (q : Int) 0 = false :=
    isIdentRune_ascii_other E (by omega) 0 (by omega)
  unfold dispatchA
  rw [hi]
  simp only [Bool.false_eq_true, ↓reduceIte]
  rw [if_neg (show ¬ (EOF = (q : Int)) by simp only [EOF]; omega),
    if_pos (show (0x27 : Int) = (q : Int) ∨ (0x22 : Int) = (q : Int) by omega)]

/-- C4. In a reachable state whose unread input is whitespace, then a quote
`q` (single or double), then bytes among which `q` does not occur again up to
the end of the stream, `Scan` aborts with `StringNotClosed`; it returns no
token kind. -/
theorem unterminated_string_aborts (E : Env) (hE : 4 ≤ E.bufLen) (lx : Lexer)
    (hr : Reachable E lx) (q : Nat) (hq : q = 0x27 ∨ q = 0x22) (ws body : List Nat)
    (hu : unread lx = ws ++ q :: body) (hws : ∀ b ∈ ws, isSpace b) (hnot : q ∉ body) :
    Scan E lx = .error .stringNotClosed := by
  have hlt : q < 0x80 := by omega
  have hsp : ¬ isSpace q := by unfold isSpace; omega
  obtain ⟨ch, cu, fuel, hg, hf, hs⟩ := Scan_ready hE hr ws (q :: body) hu hws
    (isWhitespace_cons hsp body) (fun _ => not_bom_of_ascii ws body hws hlt)
  have hrest : (curAt [] (q :: body)).rest = body := by
    simp [curAt, nextRune_ascii body hlt]
  rw [hrest] at hf
  rw [nextRune_ascii body hlt, dispatchA_quote E fuel hq,
    scanStringA_open q hlt body hnot fuel (by omega)] at hs
  exact Scan_abort hg hs

set_option maxRecDepth 100000 in
theorem unterminated_string_aborts_witness :
    Scan asciiEnv (Init Lexer.zero (stringsNewReader (0x22 :: ascii "unterminated"))) =
      .error .stringNotClosed :=
  unterminated_string_aborts asciiEnv (by decide) _ (Reachable.init _ _ (by decide)) 0x22
    (Or.inr rfl) [] (ascii "unterminated") (unread_Init _ _) (by decide) (by decide)

/-! ## Numeric literals -/

/-- The loop of `scanMantissa` walks over the ASCII digits `d` and stops at
the first rune of `v`, which is no ASCII digit. -/
theorem scanMantissaA_spec (v : List Nat)
    (hv : ¬ (0x30 ≤ (nextRune v).1 ∧ (nextRune v).1 ≤ 0x39)) : ∀ (d : List Nat) (fuel : Nat)
    (acc : List Nat), (∀ b ∈ d, 0x30 ≤ b ∧ b ≤ 0x39) → d.length + 1 ≤ fuel →
    scanMantissaA fuel (nextRune (d ++ v)).1 (curAt acc (d ++ v)) =
      .ok ((nextRune v).1, curAt (acc ++ d) v) := by
  intro d
  induction d with
  | nil =>
    intro fuel acc _ hf
    obtain ⟨f, rfl⟩ : ∃ f, fuel = f + 1 := ⟨fuel - 1, by simp at hf; omega⟩
    simp only [List.nil_append, List.append_nil, scanMantissaA]
    rw [if_neg hv]
    rfl
  | cons a d ih =>
    intro fuel acc hd hf
    obtain ⟨f, rfl⟩ : ∃ f, fuel = f + 1 := ⟨fuel - 1, by simp at hf; omega⟩
    have ha := hd a (List.mem_cons_self _ _)
    have hlt : a < 0x80 := by omega
    rw [List.cons_append, scanMantissaA, nextRune_ascii _ hlt]
    simp only
    rw [if_pos (by omega), nextA_ascii acc _ hlt]
    simp only [bind, Except.bind]
    rw [ih f (acc ++ [a]) (fun x hx => hd x (List.mem_cons_of_mem _ hx))
      (by simp at hf; omega)]
    simp

/-- `scanNumber` on digits, a point and digits: the token is all of them. -/
theorem scanNumberA_point (d f v : List Nat) (hd : ∀ b ∈ d, 0x30 ≤ b ∧ b ≤ 0x39)
    (hf : ∀ b ∈ f, 0x30 ≤ b ∧ b ≤ 0x39)
    (hv : ¬ (0x30 ≤ (nextRune v).1 ∧ (nextRune v).1 ≤ 0x39)) (fuel : Nat)
    (h1 : d.length + 1 ≤ fuel) (h2 : f.length + 1 ≤ fuel) (acc : List Nat) :
    scanNumberA fuel (nextRune (d ++ 0x2E :: (f ++ v))).1 (curAt acc (d ++ 0x2E :: (f ++ v))) =
      .ok ((nextRune v).1, curAt (acc ++ d ++ 0x2E :: f) v) := by
  have hp : (0x2E : Nat) < 0x80 := by decide
  have e1 := scanMantissaA_spec (0x2E :: (f ++ v))
    (by rw [nextRune_ascii _ hp]; simp) d fuel acc hd h1
  have e2 := scanMantissaA_spec v hv f fuel (acc ++ d ++ [0x2E]) hf h2
  unfold scanNumberA
  rw [e1]
  simp only [bind, Except.bind, nextRune_ascii _ hp]
  rw [if_pos (by rfl), nextA_ascii _ _ hp]
  simp only
  rw [e2]
  simp

/-- `scanNumber` on digits that no point follows: the token is the digits. -/
theorem scanNumberA_int (d v : List Nat) (hd : ∀ b ∈ d, 0x30 ≤ b ∧ b ≤ 0x39)
    (hv : ¬ (0x30 ≤ (nextRune v).1 ∧ (nextRune v).1 ≤ 0x39)) (hp : (nextRune v).1 ≠ 0x2E)
    (fuel : Nat) (h1 : d.length + 1 ≤ fuel) (acc : List Nat) :
    scanNumberA fuel (nextRune (d ++ v)).1 (curAt acc (d ++ v)) =
      .ok ((nextRune v).1, curAt (acc ++ d) v) := by
  unfold scanNumberA
  rw [scanMantissaA_spec v hv d fuel acc hd h1]
  simp only [bind, Except.bind]
  rw [if_neg hp]
  rfl

theorem isIdentRune_digit (E : Env) {b : Nat} (hb : 0x30 ≤ b ∧ b ≤ 0x39) :
    isIdentRune E (b : Int) 0 = false := by
  have h1 : ((b : Int) == 0x5F) = false := by
    rw [beq_eq_false_iff_ne]; omega
  have hl : latin1Letter b = false := by
    unfold latin1Letter
    have e1 : decide (0x41 ≤ b) = false := decide_eq_false (by omega)
    have e2 : decide (0x61 ≤ b) = false := decide_eq_false (by omega)
    have e3 : (b == 0xAA) = false := by rw [beq_eq_false_iff_ne]; omega
    have e4 : (b == 0xB5) = false := by rw [beq_eq_false_iff_ne]; omega
    have e5 : (b == 0xBA) = false := by rw [beq_eq_false_iff_ne]; omega
    have e6 : decide (0xC0 ≤ b) = false := decide_eq_false (by omega)
    have e7 : decide (0xD8 ≤ b) = false := decide_eq_false (by omega)
    have e8 : decide (0xF8 ≤ b) = false := decide_eq_false (by omega)
    rw [e1, e2, e3, e4, e5, e6, e7, e8]
    rfl
  have h2 : IsLetter E (b : Int) = false := by
    unfold IsLetter
    rw [if_neg (show ¬ ((b : Int) < 0) by omega), if_pos (show (b : Int) ≤ 0xFF by omega)]
    simp only [Int.toNat_ofNat]
    exact hl
  unfold isIdentRune
  rw [h1, h2]
  simp

/-- The `switch` of `Scan` at an ASCII digit. -/
theorem dispatchA_digit (E : Env) (fuel : Nat) {b : Nat} (hb : 0x30 ≤ b ∧ b ≤ 0x39) (c : Cur) :
    dispatchA (isIdentRune E) fuel (b : Int) c =
      (scanNumberA fuel (b : Int) c >>= fun r => pure (ConstNumeric, r)) := by
  unfold dispatchA
  rw [isIdentRune_digit E hb]
  simp only [Bool.false_eq_true, ↓reduceIte]
  rw [if_neg (show ¬ (EOF = (b : Int)) by simp only [EOF]; omega),
    if_neg (show ¬ ((0x27 : Int) = (b : Int) ∨ (0x22 : Int) = (b : Int)) by omega),
    if_neg (show ¬ ((0x3D : Int) = (b : Int)) by omega),
    if_neg (show ¬ ((0x26 : Int) = (b : Int)) by omega),
    if_neg (show ¬ ((0x7C : Int) = (b : Int)) by omega),
    if_neg (show ¬ ((0x28 : Int) = (b : Int)) by omega),
    if_neg (show ¬ ((0x29 : Int) = (b : Int)) by omega),
    if_pos (show (0x30 : Int) ≤ (b : Int) ∧ (b : Int) ≤ 0x39 by omega)]

/-- C10. A numeric literal that ends in a point is a complete constant: in a
reachable state whose unread input is whitespace, a non-empty run `d` of ASCII
digits, a point, and then the end of the stream or a rune that is no ASCII
digit, `Scan` returns `ConstNumeric` and `TokenText` returns `d` and the
point. -/
theorem trailing_point_accepted (E : Env) (hE : 4 ≤ E.bufLen) (lx : Lexer)
    (hr : Reachable E lx) (ws d v : List Nat) (hu : unread lx = ws ++ (d ++ 0x2E :: v))
    (hws : ∀ b ∈ ws, isSpace b) (hne : d ≠ []) (hd : ∀ b ∈ d, 0x30 ≤ b ∧ b ≤ 0x39)
    (hv : ¬ (0x30 ≤ (nextRune v).1 ∧ (nextRune v).1 ≤ 0x39)) :
    ∃ lx1 lx2, Scan E lx = .ok (ConstNumeric, lx1) ∧
      TokenText E lx1 = .ok (d ++ [0x2E], lx2) := by
  rcases d with _ | ⟨a, d⟩
  · exact absurd rfl hne
  have ha := hd a (List.mem_cons_self _ _)
  have hlt : a < 0x80 := by omega
  have hsp : ¬ isSpace a := by unfold isSpace; omega
  obtain ⟨ch, cu, fuel, hg, hf, hs⟩ := Scan_ready hE hr ws (a :: d ++ 0x2E :: v) hu hws
    (isWhitespace_cons hsp _) (fun _ => not_bom_of_ascii ws _ hws hlt)
  have hrest : (curAt [] (a :: d ++ 0x2E :: v)).rest = d ++ 0x2E :: v := by
    simp [curAt, nextRune_ascii _ hlt]
  rw [hrest] at hf
  simp only [List.length_append, List.length_cons] at hf
  have hnum := scanNumberA_point (a :: d) [] v hd (by simp) hv fuel
    (by simp only [List.length_cons]; omega) (by simp only [List.length_nil]; omega) []
  simp only [List.nil_append] at hnum
  have h1 : (nextRune (a :: d ++ 0x2E :: v)).1 = (a : Int) := by
    rw [List.cons_append, nextRune_ascii _ hlt]
  rw [h1] at hnum hs
  rw [dispatchA_digit E fuel ha, hnum] at hs
  obtain ⟨lx1, lx2, s1, s2⟩ := Scan_token hg hs
  refine ⟨lx1, lx2, s1, ?_⟩
  rw [s2]
  simp [curAt]

set_option maxRecDepth 100000 in
theorem trailing_point_accepted_witness :
    ∃ lx1 lx2, Scan asciiEnv (Init Lexer.zero (stringsNewReader (ascii "12."))) =
        .ok (ConstNumeric, lx1) ∧ TokenText asciiEnv lx1 = .ok (ascii "12.", lx2) :=
  trailing_point_accepted asciiEnv (by decide) _ (Reachable.init _ _ (by decide)) []
    (ascii "12") [] (unread_Init _ _) (by decide) (by decide) (by decide) (by decide)

/-! ## Independence of the fuel, and the byte order mark -/

theorem identLoopA_eq (idr : Int → Int → Bool) : ∀ (fuel : Nat) (i ch : Int) (c : Cur),
    identLoopA idr fuel i ch c = loopA idr fuel i ch c := by
  intro fuel
  induction fuel with
  | zero => intro i ch c; rfl
  | succ f ih =>
    intro i ch c
    simp only [identLoopA, loopA, ih]

theorem skipWhitespaceA_eq : ∀ (fuel : Nat) (i ch : Int) (c : Cur),
    skipWhitespaceA fuel ch c = loopA (fun ch _ => isWhitespace GoWhitespace ch) fuel i ch c := by
  intro fuel
  induction fuel with
  | zero => intro i ch c; rfl
  | succ f ih =>
    intro i ch c
    simp only [skipWhitespaceA, loopA, ih (i + 1)]

theorem stringLoopA_eq (right : Int) : ∀ (fuel : Nat) (i ch : Int) (c : Cur),
    stringLoopA right fuel ch c =
      loopA (fun ch _ => decide (ch ≠ right ∧ ch ≠ EOF)) fuel i ch c := by
  intro fuel
  induction fuel with
  | zero => intro i ch c; rfl
  | succ f ih =>
    intro i ch c
    simp only [stringLoopA, loopA, ih (i + 1), decide_eq_true_eq]

theorem scanMantissaA_eq : ∀ (fuel : Nat) (i ch : Int) (c : Cur),
    scanMantissaA fuel ch c =
      loopA (fun ch _ => decide (0x30 ≤ ch ∧ ch ≤ 0x39)) fuel i ch c := by
  intro fuel
  induction fuel with
  | zero => intro i ch c; rfl
  | succ f ih =>
    intro i ch c
    simp only [scanMantissaA, loopA, ih (i + 1), decide_eq_true_eq]

/-- A loop whose test fails at the end of the input returns, given fuel for
every byte of the unread input and two more rounds; what it returns does not
depend on the fuel, and the bytes in front of the look-ahead only grow. -/
theorem loopA_total (P : Int → Int → Bool) (hP : ∀ i, P EOF i = false) : ∀ (n : Nat) (i ch : Int)
    (l r : List Nat), r.length ≤ n →
    ∃ (ch' : Int) (m l' r' : List Nat), r'.length ≤ r.length ∧
      ∀ (acc : List Nat) (f : Nat), n + 2 ≤ f →
        loopA P f i ch ⟨acc, l, r⟩ = .ok (ch', ⟨acc ++ m, l', r'⟩) := by
  have hend : ∀ (i ch : Int) (l : List Nat), P ch i = true →
      ∀ (acc : List Nat) (f : Nat), 2 ≤ f →
        loopA P f i ch ⟨acc, l, []⟩ = .ok (EOF, ⟨acc ++ l, [], []⟩) := by
    intro i ch l hp acc f hf
    obtain ⟨g, rfl⟩ : ∃ g, f = g + 2 := ⟨f - 2, by omega⟩
    rw [loopA, if_pos hp]
    simp only [nextA, nextRune, bind, Except.bind, List.take_nil, List.drop_nil]
    rw [loopA, hP]
    rfl
  have hstop : ∀ (i ch : Int) (l r : List Nat), P ch i = false →
      ∀ (acc : List Nat) (f : Nat), 1 ≤ f →
        loopA P f i ch ⟨acc, l, r⟩ = .ok (ch, ⟨acc ++ [], l, r⟩) := by
    intro i ch l r hp acc f hf
    obtain ⟨g, rfl⟩ : ∃ g, f = g + 1 := ⟨f - 1, by omega⟩
    rw [loopA, hp, List.append_nil]
    rfl
  intro n
  induction n with
  | zero =>
    intro i ch l r hr
    have hnil : r = [] := List.length_eq_zero.mp (by omega)
    subst hnil
    by_cases hp : P ch i = true
    · exact ⟨EOF, l, [], [], le_refl _, fun acc f hf => hend i ch l hp acc f (by omega)⟩
    · exact ⟨ch, [], l, [], le_refl _, fun acc f hf =>
        hstop i ch l [] (by simpa using hp) acc f (by omega)⟩
  | succ n ih =>
    intro i ch l r hr
    by_cases hp : P ch i = true
    · rcases r with _ | ⟨a, t⟩
      · exact ⟨EOF, l, [], [], le_refl _, fun acc f hf => hend i ch l hp acc f (by omega)⟩
      · have hw := nextRune_width a t
        have hlen : ((a :: t).drop (nextRune (a :: t)).2).length ≤ n := by
          simp only [List.length_drop, List.length_cons] at hr ⊢
          omega
        obtain ⟨ch', m, l', r', hle, hrun⟩ := ih (i + 1) (nextRune (a :: t)).1
          ((a :: t).take (nextRune (a :: t)).2) ((a :: t).drop (nextRune (a :: t)).2) hlen
        refine ⟨ch', l ++ m, l', r', ?_, ?_⟩
        · simp only [List.length_drop] at hle
          omega
        · intro acc f hf
          obtain ⟨g, rfl⟩ : ∃ g, f = g + 1 := ⟨f - 1, by omega⟩
          rw [loopA, if_pos hp]
          simp only [nextA, bind, Except.bind]
          rw [hrun (acc ++ l) g (by omega), List.append_assoc]
    · exact ⟨ch, [], l, r, le_refl _, fun acc f hf =>
        hstop i ch l r (by simpa using hp) acc f (by omega)⟩

/-- The result of a loop does not depend on the fuel, once there is enough. -/
theorem loopA_stable (P : Int → Int → Bool) (hP : ∀ i, P EOF i = false) (i ch : Int) (c : Cur)
    (f1 f2 : Nat) (h1 : c.rest.length + 2 ≤ f1) (h2 : c.rest.length + 2 ≤ f2) :
    loopA P f1 i ch c = loopA P f2 i ch c := by
  obtain ⟨ch', m, l', r', _, h⟩ := loopA_total P hP c.rest.length i ch c.last c.rest (le_refl _)
  obtain ⟨acc, l, r⟩ := c
  rw [h acc f1 h1, h acc f2 h2]

/-- A loop leaves no more unread input than it found. -/
theorem loopA_rest_le (P : Int → Int → Bool) : ∀ (f : Nat) (i ch : Int) (c : Cur)
    (r : Int × Cur), loopA P f i ch c = .ok r → r.2.rest.length ≤ c.rest.length := by
  intro f
  induction f with
  | zero => intro i ch c r h; simp [loopA] at h
  | succ f ih =>
    intro i ch c r h
    rw [loopA] at h
    by_cases hp : P ch i = true
    · rw [if_pos hp] at h
      obtain ⟨a, h1, h2⟩ := bind_eq_ok h
      have := ih _ _ _ _ h2
      simp only [nextA, Except.ok.injEq] at h1
      subst h1
      simp only [List.length_drop] at this
      omega
    · rw [if_neg hp] at h
      simp only [pure, Except.pure, Except.ok.injEq] at h
      subst h
      exact le_refl _

theorem nextA_rest_le {c : Cur} {r : Int × Cur} (h : nextA c = .ok r) :
    r.2.rest.length ≤ c.rest.length := by
  simp only [nextA, Except.ok.injEq] at h
  subst h
  simp only [List.length_drop]
  omega

theorem bind_congr_ok {α β : Type} {x : Except Abort α} {f g : α → Except Abort β}
    (h : ∀ a, x = .ok a → f a = g a) : (x >>= f) = (x >>= g) := by
  cases x with
  | error e => rfl
  | ok a => exact h a rfl

/-- The `switch` of `Scan` does not depend on the fuel, once there is enough
for the unread input. -/
theorem dispatchA_stable (idr : Int → Int → Bool) (hP : ∀ i, idr EOF i = false) (ch : Int)
    (c : Cur) (f1 f2 : Nat) (h1 : c.rest.length + 2 ≤ f1) (h2 : c.rest.length + 2 ≤ f2) :
    dispatchA idr f1 ch c = dispatchA idr f2 ch c := by
  have hid : scanIdentifierA idr f1 c = scanIdentifierA idr f2 c := by
    unfold scanIdentifierA
    refine bind_congr_ok (fun a ha => ?_)
    have := nextA_rest_le ha
    rw [identLoopA_eq, identLoopA_eq]
    exact loopA_stable idr hP _ _ _ _ _ (by omega) (by omega)
  have hstr : scanStringA f1 ch c = scanStringA f2 ch c := by
    unfold scanStringA
    refine bind_congr_ok (fun a ha => ?_)
    have := nextA_rest_le ha
    rw [stringLoopA_eq ch f1 0, stringLoopA_eq ch f2 0]
    rw [loopA_stable _ (fun i => by simp) 0 a.1 a.2 f1 f2 (by omega) (by omega)]
  have hnum : scanNumberA f1 ch c = scanNumberA f2 ch c := by
    unfold scanNumberA
    have e1 : scanMantissaA f1 ch c = scanMantissaA f2 ch c := by
      rw [scanMantissaA_eq f1 0, scanMantissaA_eq f2 0]
      exact loopA_stable _ (fun i => by simp [EOF]) 0 ch c f1 f2 h1 h2
    rw [e1]
    refine bind_congr_ok (fun a ha => ?_)
    rw [scanMantissaA_eq f2 0] at ha
    have hle := loopA_rest_le _ _ _ _ _ _ ha
    by_cases hp : a.1 = 0x2E
    · rw [if_pos hp, if_pos hp]
      refine bind_congr_ok (fun b hb => ?_)
      have := nextA_rest_le hb
      rw [scanMantissaA_eq f1 0, scanMantissaA_eq f2 0]
      exact loopA_stable _ (fun i => by simp [EOF]) 0 _ _ f1 f2 (by omega) (by omega)
    · rw [if_neg hp, if_neg hp]
  unfold dispatchA
  rw [hid, hstr, hnum]

theorem nextRune_bom (t : List Nat) : nextRune (0xEF :: 0xBB :: 0xBF :: t) = (0xFEFF, 3) := by
  have e : EncodeRune 0xFEFF = [0xEF, 0xBB, 0xBF] := by decide
  have := nextRune_encode 0xFEFF (by decide) t
  rw [e] at this
  exact this

/-- Only the bytes `EF BB BF` decode to U+FEFF. -/
theorem bom_of_nextRune (B : List Nat) (h : (nextRune B).1 = 0xFEFF) :
    ∃ t, B = 0xEF :: 0xBB :: 0xBF :: t := by
  rcases B with _ | ⟨a, t⟩
  · simp [nextRune, EOF] at h
  rw [nextRune_cons] at h
  simp only at h
  rw [decodeSpec.eq_def] at h
  by_cases h1 : a < 0x80
  · rw [if_pos h1] at h; simp only at h; omega
  rw [if_neg h1] at h
  by_cases h2 : a < 0xC2
  · rw [if_pos h2] at h; simp [RuneError] at h
  rw [if_neg h2] at h
  by_cases h3 : a < 0xE0
  · rw [if_pos h3] at h
    rcases t with _ | ⟨b, t⟩
    · simp [RuneError] at h
    · simp only at h
      by_cases c : 0x80 ≤ b ∧ b ≤ 0xBF
      · rw [if_pos c] at h; simp only at h; omega
      · rw [if_neg c] at h; simp [RuneError] at h
  rw [if_neg h3] at h
  by_cases h4 : a < 0xF0
  · rw [if_pos h4] at h
    rcases t with _ | ⟨b, _ | ⟨c, t⟩⟩
    · simp [RuneError] at h
    · simp [RuneError] at h
    · simp only at h
      by_cases c1 : (if a = 0xE0 then 0xA0 else 0x80) ≤ b ∧
          b ≤ (if a = 0xED then 0x9F else 0xBF) ∧ 0x80 ≤ c ∧ c ≤ 0xBF
      · rw [if_pos c1] at h
        simp only at h
        obtain ⟨c2, c3, c4, c5⟩ := c1
        have c9 : b ≤ 0xBF := by
          by_cases c10 : a = 0xED
          · rw [if_pos c10] at c3; omega
          · rw [if_neg c10] at c3; omega
        have c8 : 0x80 ≤ b := by
          by_cases c6 : a = 0xE0
          · rw [if_pos c6] at c2; omega
          · rw [if_neg c6] at c2; omega
        have ea : a = 0xEF := by omega
        have eb : b = 0xBB := by omega
        have ec : c = 0xBF := by omega
        exact ⟨t, by rw [ea, eb, ec]⟩
      · rw [if_neg c1] at h; simp [RuneError] at h
  rw [if_neg h4] at h
  by_cases h5 : a < 0xF5
  · rw [if_pos h5] at h
    rcases t with _ | ⟨b, _ | ⟨c, _ | ⟨d, t⟩⟩⟩
    · simp [RuneError] at h
    · simp [RuneError] at h
    · simp [RuneError] at h
    · simp only at h
      by_cases c1 : (if a = 0xF0 then 0x90 else 0x80) ≤ b ∧
          b ≤ (if a = 0xF4 then 0x8F else 0xBF) ∧ 0x80 ≤ c ∧ c ≤ 0xBF ∧ 0x80 ≤ d ∧ d ≤ 0xBF
      · rw [if_pos c1] at h
        simp only at h
        obtain ⟨c2, c3, c4, c5, c7, c8⟩ := c1
        have c9 : b ≤ 0xBF := by
          by_cases c10 : a = 0xF4
          · rw [if_pos c10] at c3; omega
          · rw [if_neg c10] at c3; omega
        by_cases c6 : a = 0xF0
        · rw [if_pos c6] at c2; omega
        · rw [if_neg c6] at c2; omega
      · rw [if_neg c1] at h; simp [RuneError] at h
  · rw [if_neg h5] at h; simp [RuneError] at h

/-- The first `Scan` after `Init` on an input with a byte order mark in front
does what it does on the input without the mark. -/
theorem ScanA_bom (idr : Int → Int → Bool) (hP : ∀ i, idr EOF i = false) (B : List Nat)
    (hB : (nextRune B).1 ≠ 0xFEFF) :
    ScanA idr (-2) ⟨[], [], 0xEF :: 0xBB :: 0xBF :: B⟩ = ScanA idr (-2) ⟨[], [], B⟩ := by
  obtain ⟨ch', m, l', r', hle, hrun⟩ := loopA_total (fun ch _ => isWhitespace GoWhitespace ch)
    (fun _ => isWhitespace_eof _) (B.drop (nextRune B).2).length 0 (nextRune B).1
    (B.take (nextRune B).2) (B.drop (nextRune B).2) (le_refl _)
  have hd : (B.drop (nextRune B).2).length ≤ B.length := by
    simp only [List.length_drop]; omega
  have e1 : skipWhitespaceA ((0xEF :: 0xBB :: 0xBF :: B).length + 2) (nextRune B).1
      (curAt [0xEF, 0xBB, 0xBF] B) = .ok (ch', ⟨[0xEF, 0xBB, 0xBF] ++ m, l', r'⟩) := by
    rw [skipWhitespaceA_eq _ 0]
    exact hrun _ _ (by simp only [List.length_cons]; omega)
  have e2 : skipWhitespaceA (B.length + 2) (nextRune B).1 (curAt [] B) =
      .ok (ch', ⟨[] ++ m, l', r'⟩) := by
    rw [skipWhitespaceA_eq _ 0]
    exact hrun _ _ (by omega)
  have p1 : peekA (-2) ⟨[], [], 0xEF :: 0xBB :: 0xBF :: B⟩ =
      .ok ((nextRune B).1, curAt [0xEF, 0xBB, 0xBF] B) := by
    rw [peekA, if_pos rfl, nextA_fresh]
    simp only [bind, Except.bind, nextRune_bom]
    rw [if_pos True.intro]
    exact nextA_step [] [0xEF, 0xBB, 0xBF] B 0xFEFF (nextRune_bom B)
  have p2 : peekA (-2) ⟨[], [], B⟩ = .ok ((nextRune B).1, curAt [] B) := by
    rw [peekA, if_pos rfl, nextA_fresh]
    simp only [bind, Except.bind]
    rw [if_neg hB]
    rfl
  unfold ScanA
  simp only [bind_pure_id]
  rw [p1, p2]
  simp only [bind, Except.bind]
  rw [e1, e2]
  simp only
  exact dispatchA_stable idr hP ch' ⟨[], l', r'⟩ _ _
    (by simp only [List.length_cons]; omega) (by simp only; omega)

/-- C8. A byte order mark in front of the input changes nothing: for every
byte sequence `B` that does not itself begin with the bytes `EF BB BF`, any
number of rounds of `Scan` and `TokenText` on `EF BB BF ++ B` gives the same
kinds and the same texts (or the same abort) as on `B`; so the bytes of the
mark are in no text. -/
theorem bom_prefix_ignored (E : Env) (hE : 4 ≤ E.bufLen) (B : List Nat)
    (hB : B.take 3 ≠ [0xEF, 0xBB, 0xBF]) (p1 p2 : List ReadStep)
    (hp1 : ∀ s ∈ p1, s.err = none) (hp2 : ∀ s ∈ p2, s.err = none) (lx1 lx2 : Lexer) (k : Nat) :
    run E k (Init lx1 ⟨0xEF :: 0xBB :: 0xBF :: B, p1⟩) = run E k (Init lx2 ⟨B, p2⟩) := by
  have hn : (nextRune B).1 ≠ 0xFEFF := by
    intro h
    obtain ⟨t, rfl⟩ := bom_of_nextRune B h
    exact hB rfl
  rw [run_sim E k _ _ _ (Init_inter E hE lx1 ⟨0xEF :: 0xBB :: 0xBF :: B, p1⟩ hp1 []),
    run_sim E k _ _ _ (Init_inter E hE lx2 ⟨B, p2⟩ hp2 [])]
  cases k with
  | zero => rfl
  | succ k =>
    simp only [runA]
    rw [ScanA_bom _ (isIdentRune_eof E) B hn]

set_option maxRecDepth 100000 in
theorem bom_prefix_ignored_witness :
    run asciiEnv 4 (Init Lexer.zero (stringsNewReader (0xEF :: 0xBB :: 0xBF :: ascii "a == 1"))) =
      run asciiEnv 4 (Init Lexer.zero (stringsNewReader (ascii "a == 1"))) ∧
    run asciiEnv 4 (Init Lexer.zero (stringsNewReader (0xEF :: 0xBB :: 0xBF :: ascii "a == 1"))) =
      [Outcome.token Var (ascii "a"), Outcome.token Equ (ascii "=="),
        Outcome.token ConstNumeric (ascii "1"), Outcome.token EOF []] :=
  ⟨bom_prefix_ignored asciiEnv (by decide) (ascii "a == 1") (by decide) [] [] (by decide)
    (by decide) Lexer.zero Lexer.zero 4, by decide⟩

/-! ## NUL bytes and bytes that are no UTF-8 -/

theorem spill_stderr {E : Env} {lx lx' : Lexer} (h : spill E lx = .ok lx') :
    lx'.stderr = lx.stderr := by
  unfold spill at h
  by_cases hc : 0 ≤ lx.tokPos
  · rw [if_pos hc] at h
    obtain ⟨t, _, h2⟩ := bind_eq_ok h
    simp only [pure, Except.pure, Except.ok.injEq] at h2
    rw [← h2]
  · rw [if_neg hc] at h
    simp only [pure, Except.pure, Except.ok.injEq] at h
    rw [← h]

theorem refill_stderr {E : Env} {lx : Lexer} {r : Option IOErr × Lexer}
    (h : refill E lx = .ok r) : r.2.stderr = lx.stderr := by
  unfold refill at h
  obtain ⟨p, _, h2⟩ := bind_eq_ok h
  simp only at h2
  by_cases c1 : ¬ ((0 : Int) ≤ lx.srcEnd - lx.srcPos ∧ lx.srcEnd - lx.srcPos ≤ (E.bufLen : Int))
  · rw [if_pos c1] at h2; cases h2
  rw [if_neg c1] at h2
  by_cases c2 : ¬ ((0 : Int) ≤ lx.srcEnd - lx.srcPos +
        ((lx.src.read (E.bufLen - (lx.srcEnd - lx.srcPos).toNat)).1.length : Int) ∧
      lx.srcEnd - lx.srcPos +
        ((lx.src.read (E.bufLen - (lx.srcEnd - lx.srcPos).toNat)).1.length : Int) <
          (E.bufLen : Int) + 1)
  · rw [if_pos c2] at h2; cases h2
  rw [if_neg c2] at h2
  simp only [pure, Except.pure, Except.ok.injEq] at h2
  rw [← h2]

/-- The refill loop writes nothing to `os.Stderr`. -/
theorem fill_stderr (E : Env) : ∀ (fuel : Nat) (lx : Lexer) (r : Filled × Lexer),
    fill E fuel lx = .ok r → r.2.stderr = lx.stderr := by
  intro fuel
  induction fuel with
  | zero => intro lx r h; simp [fill] at h
  | succ fuel ih =>
    intro lx r h
    rw [fill] at h
    obtain ⟨again, _, h⟩ := bind_eq_ok h
    by_cases ha : again = true
    · rw [if_pos ha] at h
      obtain ⟨lx1, h1, h⟩ := bind_eq_ok h
      obtain ⟨r1, h2, h⟩ := bind_eq_ok h
      have e1 := spill_stderr h1
      have e2 := refill_stderr h2
      rcases hr : r1.1 with _ | err
      · rw [hr] at h
        simp only at h
        rw [ih _ _ h, e2, e1]
      · rw [hr] at h
        cases err with
        | other => cases h
        | eof =>
          simp only at h
          by_cases hz : r1.2.srcEnd = 0
          · rw [if_pos hz] at h
            simp only [pure, Except.pure, Except.ok.injEq] at h
            rw [← h]
            simp only
            rw [e2, e1]
          · rw [if_neg hz] at h
            simp only [pure, Except.pure, Except.ok.injEq] at h
            rw [← h]
            simp only
            rw [e2, e1]
    · rw [if_neg ha] at h
      simp only [pure, Except.pure, Except.ok.injEq] at h
      rw [← h]

theorem advance_stderr (lx : Lexer) (ch w : Int) :
    (advance lx ch w).1 = ch ∧ (advance lx ch w).2.lastCharLen = w ∧
    (advance lx ch w).2.stderr = lx.stderr ++ (if ch = 0 then [Diag.illegalNUL] else []) := by
  unfold advance
  by_cases h0 : ch = 0
  · simp only [h0, ↓reduceIte, Lexer.error, and_self]
  · by_cases h1 : ch = 10
    · simp only [h1, ↓reduceIte, List.append_nil, and_self]
      simp
    · simp only [h0, h1, ↓reduceIte, List.append_nil, and_self]

/-- What `next` writes to `os.Stderr`: one line for a NUL, one line for a byte
that is no UTF-8 (the rune is `RuneError` and one byte wide), nothing else. -/
theorem next_stderr {E : Env} {lx : Lexer} {r : Int × Lexer} (h : next E lx = .ok r) :
    r.2.stderr = lx.stderr ++
      (if r.1 = 0 then [Diag.illegalNUL]
       else if r.1 = RuneError ∧ r.2.lastCharLen = 1 then [Diag.illegalUTF8] else []) := by
  have key : ∀ (l : Lexer) (b : Nat), b < RuneSelf → l.stderr = lx.stderr →
      r = advance l (b : Int) 1 → r.2.stderr = lx.stderr ++
      (if r.1 = 0 then [Diag.illegalNUL]
       else if r.1 = RuneError ∧ r.2.lastCharLen = 1 then [Diag.illegalUTF8] else []) := by
    intro l b hb hl hr
    obtain ⟨a1, a2, a3⟩ := advance_stderr l (b : Int) 1
    rw [hr, a1, a3, hl]
    by_cases h0 : (b : Int) = 0
    · rw [if_pos h0, if_pos h0]
    · rw [if_neg h0, if_neg h0, if_neg]
      simp only [RuneError, RuneSelf] at hb ⊢
      omega
  unfold next at h
  obtain ⟨b, _, h⟩ := bind_eq_ok h
  by_cases hb : b < RuneSelf
  · rw [if_pos hb] at h
    simp only [pure, Except.pure, Except.ok.injEq] at h
    exact key lx b hb rfl h.symm
  rw [if_neg hb] at h
  obtain ⟨f, hf, h⟩ := bind_eq_ok h
  have hfs := fill_stderr E _ _ _ hf
  obtain ⟨res, lx1⟩ := f
  simp only at hfs
  cases res with
  | more =>
    obtain ⟨b1, _, h⟩ := bind_eq_ok h
    by_cases hb1 : b1 < RuneSelf
    · rw [if_pos hb1] at h
      simp only [pure, Except.pure, Except.ok.injEq] at h
      exact key lx1 b1 hb1 hfs h.symm
    rw [if_neg hb1] at h
    obtain ⟨p, _, h⟩ := bind_eq_ok h
    simp only at h
    by_cases hd : (DecodeRune p).1 = RuneError ∧ (DecodeRune p).2 = 1
    · rw [if_pos hd] at h
      simp only [pure, Except.pure, Except.ok.injEq] at h
      rw [← h]
      simp only [Lexer.error, hd.1, hd.2, hfs]
      rw [if_neg (by simp [RuneError]), if_pos ⟨trivial, trivial⟩]
    · rw [if_neg hd] at h
      simp only [pure, Except.pure, Except.ok.injEq] at h
      obtain ⟨a1, a2, a3⟩ := advance_stderr lx1 (DecodeRune p).1 (DecodeRune p).2
      rw [← h, a1, a2, a3, hfs]
      by_cases h0 : (DecodeRune p).1 = 0
      · rw [if_pos h0, if_pos h0]
      · rw [if_neg h0, if_neg h0, if_neg hd]
  | eof =>
    simp only [pure, Except.pure, Except.ok.injEq] at h
    rw [← h]
    simp only [hfs, EOF, RuneError]
    simp

/-- `Scan` on a closed string literal behind whitespace: the token is the
literal with both quotes, whatever bytes other than the quote it holds. -/
theorem Scan_string {E : Env} (hE : 4 ≤ E.bufLen) {lx : Lexer} (hr : Reachable E lx)
    {q : Nat} (hq : q = 0x27 ∨ q = 0x22) (ws body t : List Nat)
    (hu : unread lx = ws ++ (q :: body ++ q :: t)) (hws : ∀ b ∈ ws, isSpace b)
    (hnot : q ∉ body) :
    ∃ lx1 lx2, Scan E lx = .ok (ConstString, lx1) ∧
      TokenText E lx1 = .ok (q :: body ++ [q], lx2) := by
  have hlt : q < 0x80 := by omega
  have hsp : ¬ isSpace q := by unfold isSpace; omega
  obtain ⟨ch, cu, fuel, hg, hf, hs⟩ := Scan_ready hE hr ws (q :: body ++ q :: t) hu hws
    (isWhitespace_cons hsp _) (fun _ => not_bom_of_ascii ws _ hws hlt)
  have hrest : (curAt [] (q :: body ++ q :: t)).rest = body ++ q :: t := by
    simp [curAt, nextRune_ascii _ hlt]
  rw [hrest] at hf
  simp only [List.length_append, List.length_cons] at hf
  have h1 : (nextRune (q :: body ++ q :: t)).1 = (q : Int) := by
    rw [List.cons_append, nextRune_ascii _ hlt]
  rw [h1, dispatchA_quote E fuel hq, scanStringA_closed q hlt body t hnot fuel (by omega)] at hs
  obtain ⟨lx1, lx2, s1, s2⟩ := Scan_token hg hs
  exact ⟨lx1, lx2, s1, s2⟩

set_option maxRecDepth 100000 in
/-- C7, counterexample. On the input that consists of one NUL byte, and on
the input that consists of the byte `80` (no UTF-8), the `Scan` call that
reads the byte aborts: the rune it becomes (0, U+FFFD) starts no token. In
`a` followed by NUL the first `Scan` reads the NUL and returns `Var`; the
second aborts. -/
theorem illegal_byte_counterexample :
    Scan asciiEnv (Init Lexer.zero (stringsNewReader [0])) = .error (.notImplemented 0) ∧
    Scan asciiEnv (Init Lexer.zero (stringsNewReader [0x80])) =
      .error (.notImplemented 0xFFFD) ∧
    run asciiEnv 2 (Init Lexer.zero (stringsNewReader [0x61, 0])) =
      [Outcome.token Var [0x61], Outcome.abort (.notImplemented 0)] :=
  ⟨rfl, rfl, by decide⟩

/-- C7, amended. A NUL byte and a byte that is no UTF-8 are recovered by
`next`, not by `Scan`. In every reachable state whose unread input starts
with such a byte, `next` returns (the rune 0, or `RuneError`), consumes that
one byte and writes one line to `os.Stderr`. Inside a string literal the byte
is part of the token: `Scan` returns `ConstString` for every closed literal,
whatever bytes other than the quote it holds. Where a token starts, a NUL
makes `Scan` abort with "not implemented". -/
theorem illegal_byte_recovered_by_next (E : Env) (hE : 4 ≤ E.bufLen) (lx : Lexer)
    (hr : Reachable E lx) :
    (∀ (b : Nat) (t : List Nat), pending lx = b :: t →
      (b = 0 ∨ (0x80 ≤ b ∧ DecodeRune (b :: t) = (RuneError, 1))) →
      ∃ lx', next E lx = .ok (if b = 0 then 0 else RuneError, lx') ∧
        lx'.stderr = lx.stderr ++ [if b = 0 then Diag.illegalNUL else Diag.illegalUTF8] ∧
        pending lx' = t ∧ lx'.lastCharLen = 1) ∧
    (∀ (q : Nat) (ws body t : List Nat), (q = 0x27 ∨ q = 0x22) →
      unread lx = ws ++ (q :: body ++ q :: t) → (∀ b ∈ ws, isSpace b) → q ∉ body →
      ∃ lx1 lx2, Scan E lx = .ok (ConstString, lx1) ∧
        TokenText E lx1 = .ok (q :: body ++ [q], lx2)) ∧
    (∀ (ws t : List Nat), unread lx = ws ++ 0 :: t → (∀ b ∈ ws, isSpace b) →
      Scan E lx = .error (.notImplemented 0)) := by
  refine ⟨?_, ?_, ?_⟩
  · intro b t hp hb
    obtain ⟨ch, c, hg⟩ := hr.good hE
    have hv := hg.inter.view
    have ht : lx.tokPos < 0 ∨ lx.tokPos ≤ lx.srcPos - lx.lastCharLen := by
      rcases hg.tok with ⟨_, h⟩ | ⟨_, tv, _⟩
      · exact Or.inl h
      · exact Or.inr tv.le
    obtain ⟨lx', hn, hok⟩ := next_spec hv ht
    have hrest : c.rest = b :: t := by rw [← hv.pend, hp]
    have hrune : nextRune c.rest = ((if b = 0 then 0 else RuneError : Int), 1) := by
      rw [hrest]
      rcases hb with h0 | ⟨h1, h2⟩
      · subst h0
        rw [nextRune_ascii t (by decide)]
        rfl
      · have e0 : ¬ b = 0 := by omega
        have e1 : ¬ b < RuneSelf := by simp only [RuneSelf]; omega
        simp only [nextRune, if_neg e1, h2, if_neg e0]
        rfl
    rw [hrune] at hn
    have hv' := hok.view
    rw [hrune, hrest] at hv'
    simp only [List.take_succ_cons, List.take_zero, List.drop_succ_cons, List.drop_zero] at hv'
    have hlen : lx'.lastCharLen = 1 := by
      have := hv'.lastLen
      simpa using this
    refine ⟨lx', hn, ?_, hv'.pend, hlen⟩
    have hs := next_stderr hn
    simp only at hs
    rw [hs]
    by_cases h0 : b = 0
    · simp only [h0, ↓reduceIte]
    · simp only [h0, ↓reduceIte, hlen, RuneError]
      simp
  · intro q ws body t hq hu hws hnot
    exact Scan_string hE hr hq ws body t hu hws hnot
  · intro ws t hu hws
    have hw : isWhitespace GoWhitespace (nextRune (0 :: t)).1 = false :=
      isWhitespace_cons (by decide) t
    obtain ⟨ch, c, fuel, hg, _, hs⟩ := Scan_ready hE hr ws (0 :: t) hu hws hw
      (fun _ => not_bom_of_ascii ws t hws (by decide))
    have hi : isIdentRune E 0 0 = false := by
      have := isIdentRune_ascii_other E (b := 0) (by decide) 0 (by decide)
      simpa using this
    rw [nextRune_ascii t (by decide)] at hs
    simp only [Nat.cast_zero] at hs
    rw [dispatchA_other _ fuel 0 _ hi (by decide) (by decide) (by decide)] at hs
    exact Scan_abort hg hs

set_option maxRecDepth 100000 in
theorem illegal_byte_recovered_by_next_witness :
    (∃ lx', next asciiEnv (Init Lexer.zero (stringsNewReader [0x80, 0x61])) =
        .ok (RuneError, lx') ∧
      lx'.stderr = [Diag.illegalUTF8] ∧ pending lx' = [0x61] ∧ lx'.lastCharLen = 1) ∧
    ∃ lx1 lx2, Scan asciiEnv (Init Lexer.zero (stringsNewReader [0x22, 0, 0x80, 0x22])) =
        .ok (ConstString, lx1) ∧
      TokenText asciiEnv lx1 = .ok ([0x22, 0, 0x80, 0x22], lx2) :=
  ⟨(illegal_byte_recovered_by_next asciiEnv (by decide) _
      (Reachable.init Lexer.zero (stringsNewReader [0x80, 0x61]) (by decide))).1 0x80 [0x61]
      (by simp [pending, avail, Init, bytesAt_zero, stringsNewReader]) (Or.inr (by decide)),
    (illegal_byte_recovered_by_next asciiEnv (by decide) _
      (Reachable.init Lexer.zero (stringsNewReader [0x22, 0, 0x80, 0x22]) (by decide))).2.1
      0x22 [] [0, 0x80] [] (Or.inr rfl) (unread_Init _ _) (by decide) (by decide)⟩

/-! ## Inputs made of tokens and whitespace -/

theorem sep_cases {rest : List Nat} (h : Sep rest) :
    (nextRune rest).1 = EOF ∨ ∃ b : Nat, isSpace b ∧ (nextRune rest).1 = (b : Int) := by
  rcases rest with _ | ⟨b, u⟩
  · exact Or.inl rfl
  · have hb : isSpace b := h b (by simp)
    exact Or.inr ⟨b, hb, by rw [nextRune_ascii u (isSpace_lt hb)]⟩

theorem sep_not_ident (E : Env) {rest : List Nat} (h : Sep rest) (i : Int) :
    isIdentRune E (nextRune rest).1 i = false := by
  rcases sep_cases h with e | ⟨b, hb, e⟩
  · rw [e]; exact isIdentRune_eof E i
  · rw [e]
    have : b = 9 ∨ b = 10 ∨ b = 13 ∨ b = 32 := hb
    exact isIdentRune_ascii_other E (by omega) i (by omega)

theorem sep_not_digit {rest : List Nat} (h : Sep rest) :
    ¬ (0x30 ≤ (nextRune rest).1 ∧ (nextRune rest).1 ≤ 0x39) ∧ (nextRune rest).1 ≠ 0x2E := by
  rcases sep_cases h with e | ⟨b, hb, e⟩
  · rw [e]; simp [EOF]
  · rw [e]
    have : b = 9 ∨ b = 10 ∨ b = 13 ∨ b = 32 := hb
    omega

theorem EncodeRune_length (r : Nat) : 1 ≤ (EncodeRune r).length := by
  unfold EncodeRune
  by_cases h1 : r < 0x80
  · rw [if_pos h1]; simp
  rw [if_neg h1]
  by_cases h2 : r < 0x800
  · rw [if_pos h2]; simp
  rw [if_neg h2]
  by_cases h3 : r < 0x10000
  · rw [if_pos h3]; simp
  · rw [if_neg h3]; simp

theorem encodeAll_length (rs : List Nat) : rs.length ≤ (encodeAll rs).length := by
  induction rs with
  | nil => simp [encodeAll]
  | cons r rs ih =>
    have := EncodeRune_length r
    simp only [encodeAll, List.length_append, List.length_cons]
    omega

/-- The loop of `scanIdentifier` walks over the runes `more` and stops at what
follows. -/
theorem identLoopA_spec (E : Env) (rest : List Nat)
    (hrest : ∀ j, isIdentRune E (nextRune rest).1 j = false) : ∀ (more : List Nat) (i : Int)
    (acc : List Nat) (fuel : Nat), 0 < i →
    (∀ s ∈ more, ValidRune s ∧
      (s = 0x5F ∨ IsLetter E (s : Int) = true ∨ IsDigit E (s : Int) = true)) →
    more.length + 1 ≤ fuel →
    identLoopA (isIdentRune E) fuel i (nextRune (encodeAll more ++ rest)).1
        (curAt acc (encodeAll more ++ rest)) =
      .ok ((nextRune rest).1, curAt (acc ++ encodeAll more) rest) := by
  intro more
  induction more with
  | nil =>
    intro i acc fuel _ _ hf
    obtain ⟨f, rfl⟩ : ∃ f, fuel = f + 1 := ⟨fuel - 1, by simp at hf; omega⟩
    simp only [encodeAll, List.nil_append, List.append_nil, identLoopA, hrest]
    rfl
  | cons s more ih =>
    intro i acc fuel hi hm hf
    obtain ⟨f, rfl⟩ : ∃ f, fuel = f + 1 := ⟨fuel - 1, by simp at hf; omega⟩
    obtain ⟨hv, hs⟩ := hm s (List.mem_cons_self _ _)
    have hn := nextRune_encode s hv (encodeAll more ++ rest)
    have hid : isIdentRune E (s : Int) i = true := by
      unfold isIdentRune
      rcases hs with h | h | h
      · subst h; rfl
      · rw [h]; simp
      · rw [h]; simp [hi]
    simp only [encodeAll, List.append_assoc]
    rw [identLoopA, hn]
    simp only [hid, ↓reduceIte]
    rw [nextA_step acc (EncodeRune s) (encodeAll more ++ rest) s hn]
    simp only [bind, Except.bind]
    rw [ih (i + 1) (acc ++ EncodeRune s) f (by omega)
      (fun x hx => hm x (List.mem_cons_of_mem _ hx)) (by simp at hf; omega)]
    rw [List.append_assoc]

/-- The `switch` of `Scan` at an identifier. -/
theorem dispatchA_ident (E : Env) (r : Nat) (more rest : List Nat)
    (ht : (Tok.ident r more).wf E) (hs : Sep rest) (fuel : Nat)
    (hf : (encodeAll more ++ rest).length + 2 ≤ fuel) :
    dispatchA (isIdentRune E) fuel (r : Int) (curAt [] (EncodeRune r ++ encodeAll more ++ rest)) =
      .ok (Var, (nextRune rest).1, curAt (EncodeRune r ++ encodeAll more) rest) := by
  obtain ⟨hv, h1, hm⟩ := ht
  have hid : isIdentRune E (r : Int) 0 = true := by
    unfold isIdentRune
    rcases h1 with h | h
    · subst h; rfl
    · rw [h]; simp
  have hn := nextRune_encode r hv (encodeAll more ++ rest)
  have hl := encodeAll_length more
  unfold dispatchA
  rw [hid]
  simp only [↓reduceIte]
  unfold scanIdentifierA
  rw [List.append_assoc, nextA_step [] (EncodeRune r) (encodeAll more ++ rest) r hn]
  simp only [bind, Except.bind, List.nil_append]
  rw [identLoopA_spec E rest (sep_not_ident E hs) more 1 (EncodeRune r) fuel (by decide) hm
    (by simp only [List.length_append] at hf; omega)]
  simp only [pure, Except.pure, List.append_assoc]

/-- The `switch` of `Scan` at a bracket. -/
theorem dispatchA_bracket (E : Env) (fuel : Nat) {c : Nat} (hc : c = 0x28 ∨ c = 0x29)
    (rest : List Nat) :
    dispatchA (isIdentRune E) fuel (c : Int) (curAt [] (c :: rest)) =
      .ok (if c = 0x28 then LeftBracket else RightBracket, (nextRune rest).1,
        curAt [c] rest) := by
  have hi : isIdentRune E (c : Int) 0 = false :=
    isIdentRune_ascii_other E (by omega) 0 (by omega)
  have hlt : c < 0x80 := by omega
  unfold dispatchA
  rw [hi]
  simp only [Bool.false_eq_true, ↓reduceIte]
  rw [if_neg (show ¬ (EOF = (c : Int)) by simp only [EOF]; omega),
    if_neg (show ¬ ((0x27 : Int) = (c : Int) ∨ (0x22 : Int) = (c : Int)) by omega),
    if_neg (show ¬ ((0x3D : Int) = (c : Int)) by omega),
    if_neg (show ¬ ((0x26 : Int) = (c : Int)) by omega),
    if_neg (show ¬ ((0x7C : Int) = (c : Int)) by omega)]
  rcases hc with rfl | rfl
  · rw [if_pos (by rfl), nextA_ascii [] rest hlt]
    rfl
  · rw [if_neg (by decide), if_pos (by rfl), nextA_ascii [] rest hlt]
    rfl

theorem looking_curAt (acc u : List Nat) : Looking (nextRune u).1 (curAt acc u) := by
  right
  have := nextRune_le u
  simp only [curAt, List.take_append_drop, List.length_take, true_and]
  omega

/-- The fuel of `ScanA` suffices for the unread input behind the whitespace. -/
theorem ScanA_fuel {ch : Int} {c : Cur} (hl : Looking ch c) (ws x : List Nat)
    (hu : c.last ++ c.rest = ws ++ x) (hws : ∀ b ∈ ws, isSpace b) :
    (curAt [] x).rest.length + 2 ≤ c.rest.length + 2 := by
  have hdrop : (curAt [] x).rest.length ≤ x.length := by
    simp only [curAt, List.length_drop]; omega
  by_cases hc : ch = -2
  · rcases hl with ⟨_, h0⟩ | ⟨h1, _⟩
    · rw [h0, List.nil_append] at hu
      rw [hu, List.length_append]; omega
    · have := nextRune_ge (c.last ++ c.rest); omega
  · obtain ⟨_, h2⟩ := curAt_of_looking hl hc
    rw [hu] at h2
    rcases ws with _ | ⟨b, ws⟩
    · rw [List.nil_append] at h2
      rw [h2]; simp only [curAt]; omega
    · have hb := isSpace_lt (hws b (List.mem_cons_self _ _))
      have e : (curAt c.acc (b :: ws ++ x)).rest = ws ++ x := by
        simp [curAt, nextRune_ascii _ hb]
      have e2 : c.rest = ws ++ x := by rw [h2]; exact e
      rw [e2, List.length_append]
      omega

theorem ascii_first {b : Nat} (hb : b < 0x80) (hs : ¬ isSpace b) (u : List Nat) :
    isWhitespace GoWhitespace (nextRune (b :: u)).1 = false ∧
      (nextRune (b :: u)).1 ≠ 0xFEFF := by
  refine ⟨isWhitespace_cons hs u, ?_⟩
  rw [nextRune_ascii u hb]
  simp only
  omega

/-- The first rune of a token is no whitespace and no byte order mark. -/
theorem tok_first (E : Env) (hbom : IsLetter E 0xFEFF = false) (t : Tok) (ht : t.wf E)
    (rest : List Nat) :
    isWhitespace GoWhitespace (nextRune (t.bytes ++ rest)).1 = false ∧
      (nextRune (t.bytes ++ rest)).1 ≠ 0xFEFF := by
  cases t with
  | ident r more =>
    obtain ⟨hv, h1, _⟩ := ht
    have hn := nextRune_encode r hv (encodeAll more ++ rest)
    simp only [Tok.bytes, List.append_assoc]
    rw [hn]
    simp only
    have hr : r ≤ 0x10FFFF := hv.1
    constructor
    · rw [Bool.eq_false_iff, Ne, isWhitespace_iff _ (by omega) (by omega)]
      rintro (h | h | h | h) <;> rcases h1 with e | e
      all_goals first
        | omega
        | (have h' : r = 9 := by omega
           subst h'; simp [IsLetter, latin1Letter] at e)
        | (have h' : r = 10 := by omega
           subst h'; simp [IsLetter, latin1Letter] at e)
        | (have h' : r = 13 := by omega
           subst h'; simp [IsLetter, latin1Letter] at e)
        | (have h' : r = 32 := by omega
           subst h'; simp [IsLetter, latin1Letter] at e)
    · intro h
      rcases h1 with e | e
      · omega
      · rw [h, hbom] at e
        cases e
  | number i f =>
    cases f with
    | none =>
      obtain ⟨hne, hd⟩ := ht
      rcases i with _ | ⟨a, d⟩
      · exact absurd rfl hne
      have ha : 0x30 ≤ a ∧ a ≤ 0x39 := hd a (List.mem_cons_self _ _)
      exact ascii_first (by omega) (by unfold isSpace; omega) _
    | some f =>
      obtain ⟨hne, hd, _⟩ := ht
      rcases i with _ | ⟨a, d⟩
      · exact absurd rfl hne
      have ha : 0x30 ≤ a ∧ a ≤ 0x39 := hd a (List.mem_cons_self _ _)
      exact ascii_first (by omega) (by unfold isSpace; omega) _
  | string q body =>
    obtain ⟨hq, _⟩ := ht
    exact ascii_first (by omega) (by unfold isSpace; omega) _
  | equ => exact ascii_first (by decide) (by decide) _
  | and => exact ascii_first (by decide) (by decide) _
  | or => exact ascii_first (by decide) (by decide) _
  | left => exact ascii_first (by decide) (by decide) _
  | right => exact ascii_first (by decide) (by decide) _

theorem dispatchA_pair (E : Env) (fuel : Nat) {c : Nat} (hc : c = 0x3D ∨ c = 0x26 ∨ c = 0x7C)
    (rest : List Nat) :
    dispatchA (isIdentRune E) fuel (nextRune (c :: c :: rest)).1 (curAt [] (c :: c :: rest)) =
      .ok (opKind c, (nextRune rest).1, curAt [c, c] rest) := by
  have hlt : c < 0x80 := by omega
  rw [nextRune_ascii _ hlt, dispatchA_op E fuel hc (c :: rest), nextRune_ascii _ hlt]
  simp only [↓reduceIte, List.tail_cons]

/-- The `switch` of `Scan` at a token of the grammar that is followed by the
end of the input or by whitespace: the kind is the kind of the token, the
text is its bytes, and the look-ahead is the rune behind it. -/
theorem dispatchA_tok (E : Env) (t : Tok) (ht : t.wf E) (rest : List Nat) (hs : Sep rest)
    (fuel : Nat) (hf : (curAt [] (t.bytes ++ rest)).rest.length + 2 ≤ fuel) :
    dispatchA (isIdentRune E) fuel (nextRune (t.bytes ++ rest)).1 (curAt [] (t.bytes ++ rest)) =
      .ok (t.kind, (nextRune rest).1, curAt t.bytes rest) := by
  cases t with
  | ident r more =>
    have hn := nextRune_encode r ht.1 (encodeAll more ++ rest)
    have hr : (curAt [] (EncodeRune r ++ (encodeAll more ++ rest))).rest =
        encodeAll more ++ rest := by
      simp [curAt, hn]
    simp only [Tok.bytes, List.append_assoc] at hf ⊢
    rw [hr] at hf
    rw [hn]
    have := dispatchA_ident E r more rest ht hs fuel hf
    rw [List.append_assoc] at this
    exact this
  | number i f =>
    obtain ⟨hv, hp⟩ := sep_not_digit hs
    cases f with
    | none =>
      obtain ⟨hne, hd⟩ := ht
      rcases i with _ | ⟨a, d⟩
      · exact absurd rfl hne
      have ha : 0x30 ≤ a ∧ a ≤ 0x39 := hd a (List.mem_cons_self _ _)
      have hlt : a < 0x80 := by omega
      have hr : (curAt [] (a :: d ++ rest)).rest = d ++ rest := by
        simp [curAt, nextRune_ascii _ hlt]
      simp only [Tok.bytes] at hf ⊢
      rw [hr] at hf
      simp only [List.length_append] at hf
      have hnum := scanNumberA_int (a :: d) rest hd hv hp fuel
        (by simp only [List.length_cons]; omega) []
      have h1 : (nextRune (a :: d ++ rest)).1 = (a : Int) := by
        rw [List.cons_append, nextRune_ascii _ hlt]
      rw [h1] at hnum ⊢
      rw [dispatchA_digit E fuel ha, hnum]
      rfl
    | some f =>
      obtain ⟨hne, hd, hfr⟩ := ht
      rcases i with _ | ⟨a, d⟩
      · exact absurd rfl hne
      have ha : 0x30 ≤ a ∧ a ≤ 0x39 := hd a (List.mem_cons_self _ _)
      have hlt : a < 0x80 := by omega
      have hx : (a :: d ++ 0x2E :: f) ++ rest = a :: d ++ 0x2E :: (f ++ rest) := by simp
      have hr : (curAt [] (a :: d ++ 0x2E :: (f ++ rest))).rest = d ++ 0x2E :: (f ++ rest) := by
        simp [curAt, nextRune_ascii _ hlt]
      simp only [Tok.bytes] at hf ⊢
      rw [hx] at hf ⊢
      rw [hr] at hf
      simp only [List.length_append, List.length_cons] at hf
      have hnum := scanNumberA_point (a :: d) f rest hd hfr hv fuel
        (by simp only [List.length_cons]; omega) (by omega) []
      have h1 : (nextRune (a :: d ++ 0x2E :: (f ++ rest))).1 = (a : Int) := by
        rw [List.cons_append, nextRune_ascii _ hlt]
      rw [h1] at hnum ⊢
      rw [dispatchA_digit E fuel ha, hnum]
      rfl
  | string q body =>
    obtain ⟨hq, hnot⟩ := ht
    have hlt : q < 0x80 := by omega
    have hx : (q :: body ++ [q]) ++ rest = q :: body ++ q :: rest := by simp
    have hr : (curAt [] (q :: body ++ q :: rest)).rest = body ++ q :: rest := by
      simp [curAt, nextRune_ascii _ hlt]
    simp only [Tok.bytes] at hf ⊢
    rw [hx] at hf ⊢
    rw [hr] at hf
    simp only [List.length_append, List.length_cons] at hf
    have h1 : (nextRune (q :: body ++ q :: rest)).1 = (q : Int) := by
      rw [List.cons_append, nextRune_ascii _ hlt]
    rw [h1, dispatchA_quote E fuel hq, scanStringA_closed q hlt body rest hnot fuel (by omega)]
    rfl
  | equ => exact dispatchA_pair E fuel (Or.inl rfl) rest
  | and => exact dispatchA_pair E fuel (Or.inr (Or.inl rfl)) rest
  | or => exact dispatchA_pair E fuel (Or.inr (Or.inr rfl)) rest
  | left =>
    have := dispatchA_bracket E fuel (c := 0x28) (Or.inl rfl) rest
    rw [← nextRune_head_ascii rest (by decide : (0x28 : Nat) < 0x80)] at this
    exact this
  | right =>
    have := dispatchA_bracket E fuel (c := 0x29) (Or.inr rfl) rest
    rw [← nextRune_head_ascii rest (by decide : (0x29 : Nat) < 0x80)] at this
    exact this

theorem sep_source (E : Env) (ts : List (List Nat × Tok)) (tr : List Nat)
    (htr : ∀ b ∈ tr, isSpace b) (h1 : ∀ p ∈ ts, (∀ b ∈ p.1, isSpace b) ∧ p.2.wf E)
    (h2 : ∀ p ∈ ts, p.1 ≠ []) : Sep (source ts tr) := by
  rcases ts with _ | ⟨p, ts⟩
  · intro b hb
    rcases tr with _ | ⟨a, u⟩
    · simp [source] at hb
    · simp only [source, List.head?_cons, Option.mem_def, Option.some.injEq] at hb
      exact htr b (by rw [← hb]; exact List.mem_cons_self _ _)
  · intro b hb
    have hne := h2 p (List.mem_cons_self _ _)
    have hsp := (h1 p (List.mem_cons_self _ _)).1
    rcases hp : p.1 with _ | ⟨a, u⟩
    · exact absurd hp hne
    · simp only [source, hp, List.cons_append, List.head?_cons, Option.mem_def,
        Option.some.injEq] at hb
      exact hsp b (by rw [hp, ← hb]; exact List.mem_cons_self _ _)

/-- The lexer on the byte sequence reproduces the tokens of an input made of
tokens that whitespace separates. -/
theorem runA_tokens (E : Env) (hbom : IsLetter E 0xFEFF = false) (tr : List Nat)
    (htr : ∀ b ∈ tr, isSpace b) : ∀ (ts : List (List Nat × Tok)) (ch : Int) (c : Cur),
    Looking ch c → c.last ++ c.rest = source ts tr →
    (∀ p ∈ ts, (∀ b ∈ p.1, isSpace b) ∧ p.2.wf E) → (∀ p ∈ ts.tail, p.1 ≠ []) →
    runA (isIdentRune E) (ts.length + 1) ch c =
      ts.map (fun p => Outcome.token p.2.kind p.2.bytes) ++ [Outcome.token EOF []] := by
  intro ts
  induction ts with
  | nil =>
    intro ch c hl hu _ _
    have hs := ScanA_ready (isIdentRune E) hl tr [] (by rw [hu]; simp [source]) htr
      (isWhitespace_eof _)
      (fun _ => not_bom_behind tr [] htr (fun _ => by simp [nextRune, EOF]))
    have hd : dispatchA (isIdentRune E) (c.rest.length + 2) (nextRune []).1 (curAt [] []) =
        .ok (EOF, EOF, curAt [] []) := by
      unfold dispatchA
      rw [nextRune_nil]
      simp only [isIdentRune_eof, Bool.false_eq_true, ↓reduceIte]
      rfl
    rw [hd] at hs
    simp only [List.length_nil, Nat.zero_add, runA, hs, List.map_nil, List.nil_append]
    rfl
  | cons p ts ih =>
    intro ch c hl hu h1 h2
    obtain ⟨hws, hwf⟩ := h1 p (List.mem_cons_self _ _)
    have hsep : Sep (source ts tr) :=
      sep_source E ts tr htr (fun x hx => h1 x (List.mem_cons_of_mem _ hx)) h2
    obtain ⟨f1, f2⟩ := tok_first E hbom p.2 hwf (source ts tr)
    have hs := ScanA_ready (isIdentRune E) hl p.1 (p.2.bytes ++ source ts tr) hu hws f1
      (fun _ => not_bom_behind p.1 _ hws (fun _ => f2))
    have hfuel := ScanA_fuel hl p.1 (p.2.bytes ++ source ts tr) hu hws
    rw [dispatchA_tok E p.2 hwf (source ts tr) hsep _ hfuel] at hs
    have hrec := ih (nextRune (source ts tr)).1 (curAt p.2.bytes (source ts tr))
      (looking_curAt _ _) (by simp [curAt]) (fun x hx => h1 x (List.mem_cons_of_mem _ hx))
      (fun x hx => h2 x (List.mem_of_mem_tail hx))
    simp only [List.length_cons, List.map_cons, List.cons_append]
    rw [runA, hs]
    simp only
    rw [hrec]
    rfl

/-- C1. For every list of tokens of the grammar (identifiers, numeric
literals, string literals, `==`, `&&`, `||`, `(`, `)`) and every input that
holds these tokens in order, with whitespace (space, tab, CR, LF) in front of
each token, at least one byte of it between two tokens, and whitespace or
nothing at the end, delivered by a reader that returns no error but the end of
the stream: after `Init` the rounds of `Scan` and `TokenText` give, for the
i-th token, its kind and exactly its bytes (quotes included for strings), and
the round after the last token gives `EOF`; no call aborts. The byte order
mark is taken to be no letter, as in the tables of Unicode. -/
theorem tokens_reproduced (E : Env) (hE : 4 ≤ E.bufLen) (hbom : IsLetter E 0xFEFF = false)
    (ts : List (List Nat × Tok)) (tr : List Nat) (htr : ∀ b ∈ tr, isSpace b)
    (h1 : ∀ p ∈ ts, (∀ b ∈ p.1, isSpace b) ∧ p.2.wf E) (h2 : ∀ p ∈ ts.tail, p.1 ≠ [])
    (plan : List ReadStep) (hp : ∀ s ∈ plan, s.err = none) (lx0 : Lexer) :
    run E (ts.length + 1) (Init lx0 ⟨source ts tr, plan⟩) =
      ts.map (fun p => Outcome.token p.2.kind p.2.bytes) ++ [Outcome.token EOF []] := by
  rw [run_sim E _ _ _ _ (Init_inter E hE lx0 ⟨source ts tr, plan⟩ hp [])]
  exact runA_tokens E hbom tr htr ts (-2) ⟨[], [], source ts tr⟩ (Or.inl ⟨rfl, rfl⟩) rfl h1 h2

set_option maxRecDepth 100000 in
theorem tokens_reproduced_witness :
    run asciiEnv 8 (Init Lexer.zero (stringsNewReader (ascii "20 == age && age == 28.30"))) =
      [Outcome.token ConstNumeric (ascii "20"), Outcome.token Equ (ascii "=="),
        Outcome.token Var (ascii "age"), Outcome.token And (ascii "&&"),
        Outcome.token Var (ascii "age"), Outcome.token Equ (ascii "=="),
        Outcome.token ConstNumeric (ascii "28.30"), Outcome.token EOF []] :=
  tokens_reproduced asciiEnv (by decide) (by decide)
    [([], Tok.number (ascii "20") none), ([0x20], Tok.equ),
      ([0x20], Tok.ident 0x61 [0x67, 0x65]), ([0x20], Tok.and),
      ([0x20], Tok.ident 0x61 [0x67, 0x65]), ([0x20], Tok.equ),
      ([0x20], Tok.number (ascii "28") (some (ascii "30")))] []
    (by decide) (by decide) (by decide) [] (by decide) Lexer.zero

/-! ## String literals -/

/-- C11. A string literal runs from its quote `q` (single or double) to the
first later `q`, and nothing is escaped: in a reachable state whose unread
input is whitespace, `q`, bytes `s` without `q` (backslashes, line feeds and
the other quote may be among them), and `q` again, `Scan` returns
`ConstString` and `TokenText` returns `q ++ s ++ q`, whatever follows. In
particular for `s` that ends in a backslash the literal ends at the `q`
behind the backslash. -/
theorem string_runs_to_same_quote (E : Env) (hE : 4 ≤ E.bufLen) (lx : Lexer)
    (hr : Reachable E lx) (q : Nat) (hq : q = 0x27 ∨ q = 0x22) (ws s t : List Nat)
    (hws : ∀ b ∈ ws, isSpace b) (hnot : q ∉ s) :
    (unread lx = ws ++ (q :: s ++ q :: t) →
      ∃ lx1 lx2, Scan E lx = .ok (ConstString, lx1) ∧
        TokenText E lx1 = .ok (q :: s ++ [q], lx2)) ∧
    (unread lx = ws ++ (q :: (s ++ [0x5C]) ++ q :: t) →
      ∃ lx1 lx2, Scan E lx = .ok (ConstString, lx1) ∧
        TokenText E lx1 = .ok (q :: (s ++ [0x5C]) ++ [q], lx2)) := by
  refine ⟨fun hu => Scan_string hE hr hq ws s t hu hws hnot, fun hu => ?_⟩
  refine Scan_string hE hr hq ws (s ++ [0x5C]) t hu hws ?_
  intro h
  rcases List.mem_append.mp h with h | h
  · exact hnot h
  · simp only [List.mem_singleton] at h
    omega

set_option maxRecDepth 100000 in
theorem string_runs_to_same_quote_witness :
    (∃ lx1 lx2, Scan asciiEnv (Init Lexer.zero (stringsNewReader
        (0x22 :: [0x61, 0x27, 0x62] ++ 0x22 :: ascii " x"))) = .ok (ConstString, lx1) ∧
      TokenText asciiEnv lx1 = .ok (0x22 :: [0x61, 0x27, 0x62] ++ [0x22], lx2)) ∧
    ∃ lx1 lx2, Scan asciiEnv (Init Lexer.zero (stringsNewReader
        (0x27 :: ([0x61] ++ [0x5C]) ++ 0x27 :: [0x62, 0x27]))) = .ok (ConstString, lx1) ∧
      TokenText asciiEnv lx1 = .ok (0x27 :: ([0x61] ++ [0x5C]) ++ [0x27], lx2) :=
  ⟨(string_runs_to_same_quote asciiEnv (by decide) _ (Reachable.init _ _ (by decide)) 0x22
      (Or.inr rfl) [] ([0x61, 0x27, 0x62]) (ascii " x") (by decide) (by decide)).1 (unread_Init _ _),
    (string_runs_to_same_quote asciiEnv (by decide) _ (Reachable.init _ _ (by decide)) 0x27
      (Or.inl rfl) [] [0x61] ([0x62, 0x27]) (by decide) (by decide)).2 (unread_Init _ _)⟩

/-! ## Line and column -/

theorem spill_position {E : Env} {lx lx' : Lexer} (h : spill E lx = .ok lx') :
    lx'.line = lx.line ∧ lx'.column = lx.column ∧ lx'.lastLineLen = lx.lastLineLen := by
  unfold spill at h
  by_cases hc : 0 ≤ lx.tokPos
  · rw [if_pos hc] at h
    obtain ⟨t, _, h2⟩ := bind_eq_ok h
    simp only [pure, Except.pure, Except.ok.injEq] at h2
    rw [← h2]
    exact ⟨rfl, rfl, rfl⟩
  · rw [if_neg hc] at h
    simp only [pure, Except.pure, Except.ok.injEq] at h
    rw [← h]
    exact ⟨rfl, rfl, rfl⟩

theorem refill_position {E : Env} {lx : Lexer} {r : Option IOErr × Lexer}
    (h : refill E lx = .ok r) :
    r.2.line = lx.line ∧ r.2.column = lx.column ∧ r.2.lastLineLen = lx.lastLineLen := by
  unfold refill at h
  obtain ⟨p, _, h2⟩ := bind_eq_ok h
  simp only at h2
  by_cases c1 : ¬ ((0 : Int) ≤ lx.srcEnd - lx.srcPos ∧ lx.srcEnd - lx.srcPos ≤ (E.bufLen : Int))
  · rw [if_pos c1] at h2; cases h2
  rw [if_neg c1] at h2
  by_cases c2 : ¬ ((0 : Int) ≤ lx.srcEnd - lx.srcPos +
        ((lx.src.read (E.bufLen - (lx.srcEnd - lx.srcPos).toNat)).1.length : Int) ∧
      lx.srcEnd - lx.srcPos +
        ((lx.src.read (E.bufLen - (lx.srcEnd - lx.srcPos).toNat)).1.length : Int) <
          (E.bufLen : Int) + 1)
  · rw [if_pos c2] at h2; cases h2
  rw [if_neg c2] at h2
  simp only [pure, Except.pure, Except.ok.injEq] at h2
  rw [← h2]
  exact ⟨rfl, rfl, rfl⟩

/-- The refill loop keeps the line, and it keeps the column unless it
returns `EOF`. -/
theorem fill_position (E : Env) : ∀ (fuel : Nat) (lx : Lexer) (r : Filled × Lexer),
    fill E fuel lx = .ok r →
    r.2.line = lx.line ∧ r.2.lastLineLen = lx.lastLineLen ∧
      (r.1 = Filled.more → r.2.column = lx.column) := by
  intro fuel
  induction fuel with
  | zero => intro lx r h; simp [fill] at h
  | succ fuel ih =>
    intro lx r h
    rw [fill] at h
    obtain ⟨again, _, h⟩ := bind_eq_ok h
    by_cases ha : again = true
    · rw [if_pos ha] at h
      obtain ⟨lx1, h1, h⟩ := bind_eq_ok h
      obtain ⟨r1, h2, h⟩ := bind_eq_ok h
      obtain ⟨a1, a2, a3⟩ := spill_position h1
      obtain ⟨b1, b2, b3⟩ := refill_position h2
      rcases hr : r1.1 with _ | err
      · rw [hr] at h
        simp only at h
        obtain ⟨c1, c2, c3⟩ := ih _ _ h
        exact ⟨by rw [c1, b1, a1], by rw [c2, b3, a3], fun hm => by rw [c3 hm, b2, a2]⟩
      · rw [hr] at h
        cases err with
        | other => cases h
        | eof =>
          simp only at h
          by_cases hz : r1.2.srcEnd = 0
          · rw [if_pos hz] at h
            simp only [pure, Except.pure, Except.ok.injEq] at h
            rw [← h]
            simp only
            exact ⟨by rw [b1, a1], by rw [b3, a3], fun hm => by cases hm⟩
          · rw [if_neg hz] at h
            simp only [pure, Except.pure, Except.ok.injEq] at h
            rw [← h]
            simp only
            exact ⟨by rw [b1, a1], by rw [b3, a3], fun _ => by rw [b2, a2]⟩
    · rw [if_neg ha] at h
      simp only [pure, Except.pure, Except.ok.injEq] at h
      rw [← h]
      exact ⟨rfl, rfl, fun _ => rfl⟩

theorem advance_position (lx : Lexer) (ch w : Int) :
    (advance lx ch w).1 = ch ∧
    (ch = 10 → (advance lx ch w).2.line = lx.line + 1 ∧
      (advance lx ch w).2.lastLineLen = lx.column + 1 ∧ (advance lx ch w).2.column = 0) ∧
    (ch ≠ 10 → (advance lx ch w).2.line = lx.line ∧
      (advance lx ch w).2.column = lx.column + 1 ∧
      (advance lx ch w).2.lastLineLen = lx.lastLineLen) := by
  unfold advance
  by_cases h0 : ch = 0
  · subst h0
    simp [Lexer.error]
  · by_cases h1 : ch = 10
    · subst h1
      simp
    · simp [h0, h1]

/-- What `next` does to the position when it consumes a rune. -/
theorem next_position {E : Env} {lx : Lexer} {r : Int × Lexer} (h : next E lx = .ok r)
    (hne : r.1 ≠ EOF) :
    (r.1 = 10 → r.2.line = lx.line + 1 ∧ r.2.lastLineLen = lx.column + 1 ∧ r.2.column = 0) ∧
    (r.1 ≠ 10 → r.2.line = lx.line ∧ r.2.column = lx.column + 1 ∧
      r.2.lastLineLen = lx.lastLineLen) := by
  have key : ∀ (l : Lexer) (ch w : Int), l.line = lx.line → l.column = lx.column →
      l.lastLineLen = lx.lastLineLen → r = advance l ch w →
      (r.1 = 10 → r.2.line = lx.line + 1 ∧ r.2.lastLineLen = lx.column + 1 ∧ r.2.column = 0) ∧
      (r.1 ≠ 10 → r.2.line = lx.line ∧ r.2.column = lx.column + 1 ∧
        r.2.lastLineLen = lx.lastLineLen) := by
    intro l ch w e1 e2 e3 hr
    obtain ⟨a1, a2, a3⟩ := advance_position l ch w
    rw [hr, a1, ← e1, ← e2, ← e3]
    exact ⟨a2, a3⟩
  unfold next at h
  obtain ⟨b, _, h⟩ := bind_eq_ok h
  by_cases hb : b < RuneSelf
  · rw [if_pos hb] at h
    simp only [pure, Except.pure, Except.ok.injEq] at h
    exact key lx b 1 rfl rfl rfl h.symm
  rw [if_neg hb] at h
  obtain ⟨f, hf, h⟩ := bind_eq_ok h
  obtain ⟨p1, p2, p3⟩ := fill_position E _ _ _ hf
  obtain ⟨res, lx1⟩ := f
  simp only at p1 p2 p3
  cases res with
  | more =>
    have p4 := p3 rfl
    obtain ⟨b1, _, h⟩ := bind_eq_ok h
    by_cases hb1 : b1 < RuneSelf
    · rw [if_pos hb1] at h
      simp only [pure, Except.pure, Except.ok.injEq] at h
      exact key lx1 b1 1 p1 p4 p2 h.symm
    rw [if_neg hb1] at h
    obtain ⟨p, _, h⟩ := bind_eq_ok h
    simp only at h
    by_cases hd : (DecodeRune p).1 = RuneError ∧ (DecodeRune p).2 = 1
    · rw [if_pos hd] at h
      simp only [pure, Except.pure, Except.ok.injEq] at h
      rw [← h]
      simp only [Lexer.error, hd.1, p1, p2, p4, RuneError]
      exact ⟨fun h10 => by omega, fun _ => by simp⟩
    · rw [if_neg hd] at h
      simp only [pure, Except.pure, Except.ok.injEq] at h
      exact key lx1 _ _ p1 p4 p2 h.symm
  | eof =>
    simp only [pure, Except.pure, Except.ok.injEq] at h
    rw [← h] at hne
    exact absurd rfl hne

/-- One call of `next` between tokens at an ASCII byte. -/
theorem next_ascii_step {E : Env} {lx : Lexer} {last : List Nat} {b : Nat} {t : List Nat}
    (hv : View E lx last (b :: t)) (hb : b < 0x80) (hn : lx.tokPos < 0) :
    ∃ lx', next E lx = .ok ((b : Int), lx') ∧ View E lx' [b] t ∧ lx'.tokPos < 0 := by
  obtain ⟨lx', h1, hok⟩ := next_spec hv (Or.inl hn)
  have hr := nextRune_ascii t hb
  rw [hr] at h1
  have hv' := hok.view
  rw [hr] at hv'
  simp only [List.take_succ_cons, List.take_zero, List.drop_succ_cons, List.drop_zero] at hv'
  exact ⟨lx', h1, hv', by rw [(hok.tokNeg hn).1]; exact hn⟩

/-- C12. How `next` tracks the position. For every rune that `next`
consumes: if it is a line feed, `line` grows by 1, `lastLineLen` becomes the
column count of the line with the line feed counted, and `column` becomes 0;
for every other rune `line` stays and `column` grows by exactly 1, whatever
the width of the rune in bytes. `Init` sets line 1 and column 0, and after the
four runes of `a`, line feed, `b`, `b` the state has line 2 and column 2. -/
theorem position_tracked (E : Env) (hE : 4 ≤ E.bufLen) :
    (∀ (lx lx' : Lexer) (r : Int), next E lx = .ok (r, lx') → r ≠ EOF →
      (r = 10 → lx'.line = lx.line + 1 ∧ lx'.lastLineLen = lx.column + 1 ∧ lx'.column = 0) ∧
      (r ≠ 10 → lx'.line = lx.line ∧ lx'.column = lx.column + 1 ∧
        lx'.lastLineLen = lx.lastLineLen)) ∧
    (∀ (lx0 : Lexer) (rd : Reader), (Init lx0 rd).line = 1 ∧ (Init lx0 rd).column = 0) ∧
    (∀ (lx0 : Lexer) (plan : List ReadStep), (∀ s ∈ plan, s.err = none) →
      ∃ lx4, nextN E 4 (Init lx0 ⟨[0x61, 0x0A, 0x62, 0x62], plan⟩) = .ok lx4 ∧
        lx4.line = 2 ∧ lx4.column = 2) := by
  refine ⟨fun lx lx' r h hne => next_position h hne, fun lx0 rd => ⟨rfl, rfl⟩, ?_⟩
  intro lx0 plan hp
  have hv0 := (Init_inter E hE lx0 ⟨[0x61, 0x0A, 0x62, 0x62], plan⟩ hp []).view
  simp only at hv0
  obtain ⟨lx1, h1, hv1, n1⟩ := next_ascii_step hv0 (by decide) (by simp [Init])
  obtain ⟨lx2, h2, hv2, n2⟩ := next_ascii_step hv1 (by decide) n1
  obtain ⟨lx3, h3, hv3, n3⟩ := next_ascii_step hv2 (by decide) n2
  obtain ⟨lx4, h4, _, _⟩ := next_ascii_step hv3 (by decide) n3
  have e0 : ((0x61 : Nat) : Int) ≠ EOF ∧ ((0x61 : Nat) : Int) ≠ 10 := by decide
  have e1 : ((0x0A : Nat) : Int) ≠ EOF ∧ ((0x0A : Nat) : Int) = 10 := by decide
  have e2 : ((0x62 : Nat) : Int) ≠ EOF ∧ ((0x62 : Nat) : Int) ≠ 10 := by decide
  obtain ⟨a1, a2, _⟩ := (next_position h1 e0.1).2 e0.2
  obtain ⟨b1, _, b3⟩ := (next_position h2 e1.1).1 e1.2
  obtain ⟨c1, c2, _⟩ := (next_position h3 e2.1).2 e2.2
  obtain ⟨d1, d2, _⟩ := (next_position h4 e2.1).2 e2.2
  simp only at a1 a2 b1 b3 c1 c2 d1 d2
  refine ⟨lx4, ?_, ?_, ?_⟩
  · simp only [nextN, h1, h2, h3, h4, bind, Except.bind]
  · rw [d1, c1, b1, a1]
    rfl
  · rw [d2, c2, b3]
    rfl

set_option maxRecDepth 100000 in
theorem position_tracked_witness :
    4 ≤ tinyEnv.bufLen ∧
    ∃ lx4, nextN tinyEnv 4 (Init Lexer.zero (chunked [0x61, 0x0A, 0x62, 0x62] [1, 2])) =
        .ok lx4 ∧ lx4.line = 2 ∧ lx4.column = 2 :=
  ⟨by decide, (position_tracked tinyEnv (by decide)).2.2 Lexer.zero
    ([1, 2].map (fun n => { want := n, err := none })) (by decide)⟩

/-! ## Token text before the first token, and token names -/

/-- C13. `TokenText` after `Init` and before any `Scan` returns the empty
string and leaves the state as it is, for every reader and for every lexer
that `Init` is called on, a fresh one or one that has scanned another
stream. -/
theorem tokenText_before_scan (E : Env) (lx0 : Lexer) (rd : Reader) :
    TokenText E (Init lx0 rd) = .ok ([], Init lx0 rd) := by
  unfold TokenText
  rw [if_pos (show (Init lx0 rd).tokPos < 0 by simp [Init])]
  rfl

/-- C14. `TokenNameFor k` is the placeholder `"*"` if and only if `k` is none
of the nine named kinds; so it is `"*"` for `Unknown` and for every rune value
that is not negative. The names of the nine kinds differ from each other and
from `"*"`. -/
theorem tokenNameFor_placeholder :
    (∀ k : Int, TokenNameFor k = "*" ↔ k ∉ namedKinds) ∧
    TokenNameFor Unknown = "*" ∧ (∀ k : Int, 0 ≤ k → TokenNameFor k = "*") ∧
    (namedKinds.map TokenNameFor).Nodup ∧ "*" ∉ namedKinds.map TokenNameFor := by
  have hiff : ∀ k : Int, TokenNameFor k = "*" ↔ k ∉ namedKinds := by
    intro k
    by_cases h1 : k = EOF
    · subst h1; decide
    by_cases h2 : k = Var
    · subst h2; decide
    by_cases h3 : k = ConstNumeric
    · subst h3; decide
    by_cases h4 : k = ConstString
    · subst h4; decide
    by_cases h5 : k = Equ
    · subst h5; decide
    by_cases h6 : k = And
    · subst h6; decide
    by_cases h7 : k = Or
    · subst h7; decide
    by_cases h8 : k = LeftBracket
    · subst h8; decide
    by_cases h9 : k = RightBracket
    · subst h9; decide
    have hn : k ∉ namedKinds := by
      simp only [namedKinds, List.mem_cons, List.mem_singleton, List.not_mem_nil, or_false]
      tauto
    have ht : tokenString k = none := by
      unfold tokenString
      rw [if_neg h1, if_neg h2, if_neg h3, if_neg h4, if_neg h5, if_neg h6, if_neg h7,
        if_neg h8, if_neg h9]
    have hs : TokenNameFor k = "*" := by
      unfold TokenNameFor
      rw [ht]
    exact ⟨fun _ => hn, fun _ => hs⟩
  refine ⟨hiff, by decide, ?_, by decide, by decide⟩
  intro k hk
  rw [hiff]
  simp only [namedKinds, List.mem_cons, List.mem_singleton, List.not_mem_nil, or_false, EOF, Var,
    ConstNumeric, ConstString, Equ, And, Or, LeftBracket, RightBracket]
  omega

theorem tagL_kind {x : Except Abort (Int × Lexer)} {k : Int} {t : Int × Int × Lexer}
    (h : (x >>= fun r => pure (k, r)) = .ok t) : t.1 = k := by
  obtain ⟨a, _, h2⟩ := bind_eq_ok h
  simp only [pure, Except.pure, Except.ok.injEq] at h2
  rw [← h2]

/-- The `switch` of `Scan` returns one of the nine kinds. -/
theorem dispatch_kind {E : Env} {fuel : Nat} {ch : Int} {lx : Lexer} {t : Int × Int × Lexer}
    (h : dispatch E fuel ch lx = .ok t) : t.1 ∈ namedKinds := by
  unfold dispatch at h
  by_cases h1 : isIdentRune E ch 0 = true
  · rw [if_pos h1] at h; rw [tagL_kind h]; decide
  rw [if_neg h1] at h
  by_cases h2 : EOF = ch
  · rw [if_pos h2] at h
    simp only [pure, Except.pure, Except.ok.injEq] at h
    rw [← h, ← h2]
    exact List.mem_cons_self _ _
  rw [if_neg h2] at h
  by_cases h3 : 0x27 = ch ∨ 0x22 = ch
  · rw [if_pos h3] at h; rw [tagL_kind h]; decide
  rw [if_neg h3] at h
  by_cases h4 : 0x3D = ch
  · rw [if_pos h4] at h; rw [tagL_kind h]; decide
  rw [if_neg h4] at h
  by_cases h5 : 0x26 = ch
  · rw [if_pos h5] at h; rw [tagL_kind h]; decide
  rw [if_neg h5] at h
  by_cases h6 : 0x7C = ch
  · rw [if_pos h6] at h; rw [tagL_kind h]; decide
  rw [if_neg h6] at h
  by_cases h7 : 0x28 = ch
  · rw [if_pos h7] at h; rw [tagL_kind h]; decide
  rw [if_neg h7] at h
  by_cases h8 : 0x29 = ch
  · rw [if_pos h8] at h; rw [tagL_kind h]; decide
  rw [if_neg h8] at h
  by_cases h9 : 0x30 ≤ ch ∧ ch ≤ 0x39
  · rw [if_pos h9] at h; rw [tagL_kind h]; decide
  rw [if_neg h9] at h
  cases h

/-- C16. Every value that `Scan` returns is one of the nine kinds `EOF`,
`Var`, `ConstNumeric`, `ConstString`, `Equ`, `And`, `Or`, `LeftBracket`,
`RightBracket`: never `Unknown`, never a rune value that is not negative. The
ten kind constants are negative and differ from each other. This holds for
every state, reachable or not. -/
theorem scan_returns_named_kind (E : Env) (lx lx' : Lexer) (tok : Int)
    (h : Scan E lx = .ok (tok, lx')) :
    tok ∈ namedKinds ∧ tok ≠ Unknown ∧ tok < 0 ∧
    (Unknown :: namedKinds).Nodup ∧ ∀ k ∈ Unknown :: namedKinds, k < 0 := by
  have hk : tok ∈ namedKinds := by
    unfold Scan at h
    obtain ⟨a, _, h⟩ := bind_eq_ok h
    obtain ⟨b, _, h⟩ := bind_eq_ok h
    obtain ⟨t, ht, h⟩ := bind_eq_ok h
    simp only [pure, Except.pure, Except.ok.injEq, Prod.mk.injEq] at h
    rw [← h.1]
    exact dispatch_kind ht
  have hall : ∀ k ∈ Unknown :: namedKinds, k < 0 := by decide
  refine ⟨hk, ?_, hall tok (List.mem_cons_of_mem _ hk), by decide, hall⟩
  intro hu
  rw [hu] at hk
  exact absurd hk (by decide)

set_option maxRecDepth 100000 in
theorem scan_returns_named_kind_witness :
    Scan asciiEnv (Init Lexer.zero (stringsNewReader (ascii "(x"))) =
      .ok (LeftBracket, nthScan asciiEnv 1 (Init Lexer.zero (stringsNewReader (ascii "(x")))) ∧
    LeftBracket ∈ namedKinds ∧ LeftBracket ≠ Unknown :=
  ⟨rfl, (scan_returns_named_kind asciiEnv _ _ LeftBracket
    (rfl : Scan asciiEnv (Init Lexer.zero (stringsNewReader (ascii "(x"))) =
      .ok (LeftBracket, nthScan asciiEnv 1 (Init Lexer.zero (stringsNewReader (ascii "(x")))))).1,
    (scan_returns_named_kind asciiEnv _ _ LeftBracket
    (rfl : Scan asciiEnv (Init Lexer.zero (stringsNewReader (ascii "(x"))) =
      .ok (LeftBracket, nthScan asciiEnv 1 (Init Lexer.zero (stringsNewReader (ascii "(x")))))).2.1⟩

/-! ## The mask of the whitespace, and quotes -/

/-- The mask test fails for every negative rune value: `uint(ch)` is then at
least `2^63`, and the shift gives 0. -/
theorem isWhitespace_neg (ws : Nat) (ch : Int) (h1 : -2 ^ 31 ≤ ch) (h2 : ch < 0) :
    isWhitespace ws ch = false := by
  unfold isWhitespace
  have hm : ch % 2 ^ 64 = ch + 2 ^ 64 := by omega
  have hs : ¬ ((ch % 2 ^ 64).toNat < 64) := by omega
  simp only [hs, ↓reduceIte, Nat.and_zero, bne_self_eq_false]

/-- C19, counterexample. The input is the six bytes of `"it's"` (double
quote, `i`, `t`, apostrophe, `s`, double quote). The apostrophe does not end
the literal: `Scan` returns `ConstString` and `TokenText` returns all six
bytes, not the four bytes up to the apostrophe. -/
theorem other_quote_counterexample :
    run asciiEnv 2 (Init Lexer.zero (stringsNewReader (0x22 :: [0x69, 0x74, 0x27, 0x73] ++ [0x22]))) =
      [Outcome.token ConstString (0x22 :: [0x69, 0x74, 0x27, 0x73] ++ [0x22]), Outcome.token EOF []] ∧
    run asciiEnv 1 (Init Lexer.zero (stringsNewReader (0x22 :: [0x69, 0x74, 0x27, 0x73] ++ [0x22]))) ≠
      [Outcome.token ConstString [0x22, 0x69, 0x74, 0x27]] := by
  constructor <;> decide

/-- C19, amended. Inside a string literal only the quote that opened it
closes it; the other quote character is a byte of the body like any other. In
a reachable state whose unread input is whitespace, a quote `q`, bytes `s1`
without `q`, the other quote `q'`, bytes `s2` without `q`, and `q`, `Scan`
returns `ConstString` and `TokenText` returns the whole of
`q ++ s1 ++ q' ++ s2 ++ q`: the lexeme does not end at `q'`. -/
theorem other_quote_does_not_close (E : Env) (hE : 4 ≤ E.bufLen) (lx : Lexer)
    (hr : Reachable E lx) (q q' : Nat)
    (hq : (q = 0x22 ∧ q' = 0x27) ∨ (q = 0x27 ∧ q' = 0x22)) (ws s1 s2 t : List Nat)
    (hu : unread lx = ws ++ (q :: (s1 ++ q' :: s2) ++ q :: t)) (hws : ∀ b ∈ ws, isSpace b)
    (h1 : q ∉ s1) (h2 : q ∉ s2) :
    ∃ lx1 lx2, Scan E lx = .ok (ConstString, lx1) ∧
      TokenText E lx1 = .ok (q :: (s1 ++ q' :: s2) ++ [q], lx2) ∧
      q :: (s1 ++ q' :: s2) ++ [q] ≠ q :: s1 ++ [q'] := by
  have hq1 : q = 0x27 ∨ q = 0x22 := by omega
  have hne : q ≠ q' := by omega
  have hnot : q ∉ s1 ++ q' :: s2 := by
    intro h
    rcases List.mem_append.mp h with h | h
    · exact h1 h
    · rcases List.mem_cons.mp h with h | h
      · exact hne h
      · exact h2 h
  obtain ⟨lx1, lx2, a, b⟩ := Scan_string hE hr hq1 ws (s1 ++ q' :: s2) t hu hws hnot
  refine ⟨lx1, lx2, a, b, ?_⟩
  intro h
  have := congrArg List.length h
  simp at this

set_option maxRecDepth 100000 in
theorem other_quote_does_not_close_witness :
    ∃ lx1 lx2,
      Scan asciiEnv (Init Lexer.zero (stringsNewReader (0x22 :: [0x69, 0x74, 0x27, 0x73] ++ [0x22]))) =
        .ok (ConstString, lx1) ∧
      TokenText asciiEnv lx1 = .ok (0x22 :: (ascii "it" ++ 0x27 :: ascii "s") ++ [0x22], lx2) ∧
      0x22 :: (ascii "it" ++ 0x27 :: ascii "s") ++ [0x22] ≠ 0x22 :: ascii "it" ++ [0x27] :=
  other_quote_does_not_close asciiEnv (by decide) _ (Reachable.init _ _ (by decide)) 0x22 0x27
    (Or.inl ⟨rfl, rfl⟩) [] (ascii "it") (ascii "s") [] (unread_Init _ _) (by decide)
    (by decide) (by decide)

/-! ## The window of the buffer -/

theorem ReadsOK.same (lx : Lexer) : ReadsOK lx lx := ⟨[], rfl, by simp⟩

theorem ReadsOK.chain {a b c : Lexer} (h1 : ReadsOK a b) (h2 : ReadsOK b c) : ReadsOK a c := by
  obtain ⟨u1, e1, g1⟩ := h1
  obtain ⟨u2, e2, g2⟩ := h2
  refine ⟨u1 ++ u2, by rw [e1, e2, List.append_assoc], ?_⟩
  intro s hs
  rcases List.mem_append.mp hs with h | h
  · exact g1 s h
  · exact g2 s h

theorem ReadsOK.of_src {a b : Lexer} (h : b.src = a.src) : ReadsOK a b :=
  ⟨[], by rw [h]; rfl, by simp⟩

theorem Reader.read_reads (r : Reader) (cap : Nat) (h : (r.read cap).2.1 ≠ some IOErr.other) :
    ∃ used : List ReadStep, r.plan = used ++ (r.read cap).2.2.plan ∧
      ∀ s ∈ used, s.err ≠ some IOErr.other := by
  unfold Reader.read at h ⊢
  rcases hp : r.plan with _ | ⟨s, rest⟩
  · refine ⟨[], ?_, by simp⟩
    by_cases hd : r.data.length = 0
    · simp [hd, hp]
    · simp [hd, hp]
  · rw [hp] at h
    simp only at h
    refine ⟨[s], by simp, ?_⟩
    intro x hx
    simp only [List.mem_singleton] at hx
    rw [hx]
    exact h

theorem fillCond_win {E : Env} {lx : Lexer} (h : Win E lx) :
    fillCond E lx = .ok (decide (lx.srcPos + 4 > lx.srcEnd) && !FullRune (avail lx)) := by
  unfold fillCond
  by_cases hc : lx.srcPos + 4 > lx.srcEnd
  · have hs : slice E lx.srcBuf lx.srcPos lx.srcEnd = .ok (avail lx) :=
      slice_ok h.pos h.le (by have := h.hi; omega)
    simp only [UTFMax, hc, ↓reduceIte, hs, bind, Except.bind, pure, Except.pure, decide_True,
      Bool.true_and]
  · simp only [UTFMax, hc, ↓reduceIte, pure, Except.pure, decide_False, Bool.false_and]

theorem spill_win {E : Env} {lx : Lexer} (h : Win E lx)
    (ht : lx.tokPos < 0 ∨ lx.tokPos ≤ lx.srcPos) : spill E lx = .ok (spilled lx) := by
  unfold spill spilled
  by_cases hc : 0 ≤ lx.tokPos
  · have h2 : lx.tokPos ≤ lx.srcPos := by omega
    have hs : slice E lx.srcBuf lx.tokPos lx.srcPos = .ok _ :=
      slice_ok hc h2 (by have := h.hi; have := h.le; omega)
    simp only [hc, ↓reduceIte, hs, bind, Except.bind, pure, Except.pure, tokSoFar]
  · simp only [hc, ↓reduceIte, pure, Except.pure]

/-- The state that `spill` returns, whenever it returns. -/
theorem spill_ret {E : Env} {lx l : Lexer} (h : spill E lx = .ok l) : l = spilled lx := by
  unfold spill at h
  unfold spilled
  by_cases hc : 0 ≤ lx.tokPos
  · rw [if_pos hc] at h
    rw [if_pos hc]
    obtain ⟨t, h1, h2⟩ := bind_eq_ok h
    unfold slice at h1
    by_cases hs : 0 ≤ lx.tokPos ∧ lx.tokPos ≤ lx.srcPos ∧ lx.srcPos ≤ E.bufLen + 1
    · rw [if_pos hs] at h1
      simp only [Except.ok.injEq] at h1
      simp only [pure, Except.pure, Except.ok.injEq] at h2
      rw [← h2, ← h1]
      rfl
    · rw [if_neg hs] at h1; cases h1
  · rw [if_neg hc] at h
    rw [if_neg hc]
    simp only [pure, Except.pure, Except.ok.injEq] at h
    exact h.symm

theorem refill_win {E : Env} {lx : Lexer} (h : Win E lx) :
    refill E lx =
      .ok ((lx.src.read (E.bufLen - (lx.srcEnd - lx.srcPos).toNat)).2.1, refilled E lx) := by
  obtain ⟨hpos, hle, hhi, hsen⟩ := h
  have hlen := Reader.read_length_le lx.src (E.bufLen - (lx.srcEnd - lx.srcPos).toNat)
  unfold refill refilled
  have c1 : (0 : Int) ≤ lx.srcEnd - lx.srcPos ∧ lx.srcEnd - lx.srcPos ≤ (E.bufLen : Int) := by
    omega
  have c2 : (0 : Int) ≤ lx.srcEnd - lx.srcPos +
        ((lx.src.read (E.bufLen - (lx.srcEnd - lx.srcPos).toNat)).1.length : Int) ∧
      lx.srcEnd - lx.srcPos +
        ((lx.src.read (E.bufLen - (lx.srcEnd - lx.srcPos).toNat)).1.length : Int) <
          (E.bufLen : Int) + 1 := by
    omega
  have e1 : (lx.srcEnd - lx.srcPos +
        ((lx.src.read (E.bufLen - (lx.srcEnd - lx.srcPos).toNat)).1.length : Int)) =
      (((lx.srcEnd - lx.srcPos).toNat +
        (lx.src.read (E.bufLen - (lx.srcEnd - lx.srcPos).toNat)).1.length : Nat) : Int) := by
    omega
  have hs : slice E lx.srcBuf lx.srcPos lx.srcEnd = .ok _ := slice_ok hpos hle (by omega)
  simp only [hs, bind, Except.bind,
    pure, Except.pure, c1, c2, not_true_eq_false, ↓reduceIte, and_self, bytesAt_length]
  rw [e1]
  simp only [Int.toNat_ofNat]

/-- The window after a spill and a refill. -/
theorem win_refilled {E : Env} {lx : Lexer} (h : Win E lx) :
    Win E (refilled E (spilled lx)) ∧ (refilled E (spilled lx)).srcPos = 0 ∧
    (refilled E (spilled lx)).tokPos = (spilled lx).tokPos ∧
    (refilled E (spilled lx)).tokEnd = lx.tokEnd ∧
    (refilled E (spilled lx)).lastCharLen = lx.lastCharLen ∧
    (refilled E (spilled lx)).src =
      (lx.src.read (E.bufLen - (lx.srcEnd - lx.srcPos).toNat)).2.2 := by
  obtain ⟨hpos, hle, hhi, hsen⟩ := h
  have e1 : (spilled lx).src = lx.src := by unfold spilled; split <;> rfl
  have e3 : (spilled lx).srcPos = lx.srcPos := by unfold spilled; split <;> rfl
  have e4 : (spilled lx).srcEnd = lx.srcEnd := by unfold spilled; split <;> rfl
  have e5 : (spilled lx).lastCharLen = lx.lastCharLen := by unfold spilled; split <;> rfl
  have e6 : (spilled lx).tokEnd = lx.tokEnd := by unfold spilled; split <;> rfl
  have hlen := Reader.read_length_le lx.src (E.bufLen - (lx.srcEnd - lx.srcPos).toNat)
  refine ⟨⟨?_, ?_, ?_, ?_⟩, ?_, ?_, ?_, ?_, ?_⟩
  · simp [refilled]
  · simp only [refilled]; omega
  · simp only [refilled, e1, e3, e4]; omega
  · simp only [refilled, Int.toNat_ofNat, Function.update_same]
  · simp [refilled]
  · simp [refilled]
  · simp only [refilled, e6]
  · simp only [refilled, e5]
  · simp only [refilled, e1, e3, e4]

theorem win_spilled {E : Env} {lx : Lexer} (h : Win E lx) : Win E (spilled lx) := by
  obtain ⟨hpos, hle, hhi, hsen⟩ := h
  unfold spilled
  by_cases hc : 0 ≤ lx.tokPos
  · rw [if_pos hc]; exact ⟨hpos, hle, hhi, hsen⟩
  · rw [if_neg hc]; exact ⟨hpos, hle, hhi, hsen⟩

theorem spilled_tokPos (lx : Lexer) :
    (lx.tokPos < 0 → (spilled lx).tokPos = lx.tokPos) ∧ (0 ≤ lx.tokPos → (spilled lx).tokPos = 0) := by
  constructor
  · intro h; rw [spilled_eq_of_neg h]
  · intro h; rw [spilled_eq_of_nonneg h]

/-- The refill loop on a state with a well-formed window, for any reader: it
does not abort on a slice out of range (if the open token starts inside the
buffer), and when it returns the window is well formed again. -/
theorem fill_safe (E : Env) : ∀ (fuel : Nat) (lx : Lexer), Win E lx →
    ((lx.tokPos < 0 ∨ lx.tokPos ≤ lx.srcPos) → fill E fuel lx ≠ .error .outOfRange) ∧
    ∀ r, fill E fuel lx = .ok r → FillW E lx r := by
  intro fuel
  induction fuel with
  | zero =>
    intro lx _
    exact ⟨fun _ h => by simp [fill] at h, fun r h => by simp [fill] at h⟩
  | succ fuel ih =>
    intro lx h
    rw [fill]
    simp only [fillCond_win h, bind, Except.bind]
    by_cases hc : (decide (lx.srcPos + 4 > lx.srcEnd) && !FullRune (avail lx)) = true
    · simp only [hc, ↓reduceIte]
      rcases hsp : spill E lx with e | l
      · simp only
        refine ⟨fun ht hx => ?_, fun r hr => by cases hr⟩
        rw [spill_win h ht] at hsp
        cases hsp
      · have hl := spill_ret hsp
        subst hl
        simp only [refill_win (win_spilled h)]
        obtain ⟨w1, w2, w3, w4, w5, w6⟩ := win_refilled (E := E) h
        obtain ⟨t1, t2⟩ := spilled_tokPos lx
        have e1 : (spilled lx).src = lx.src := by unfold spilled; split <;> rfl
        have e3 : (spilled lx).srcPos = lx.srcPos := by unfold spilled; split <;> rfl
        have e4 : (spilled lx).srcEnd = lx.srcEnd := by unfold spilled; split <;> rfl
        rw [e1, e3, e4]
        have hin : (refilled E (spilled lx)).tokPos < 0 ∨
            (refilled E (spilled lx)).tokPos ≤ (refilled E (spilled lx)).srcPos := by
          rw [w2, w3]
          by_cases hn : lx.tokPos < 0
          · left; rw [t1 hn]; exact hn
          · right; rw [t2 (by omega)]
        have hneg : lx.tokPos < 0 → (refilled E (spilled lx)).tokPos = lx.tokPos := by
          intro hn; rw [w3, t1 hn]
        have hzero : 0 ≤ lx.tokPos → (refilled E (spilled lx)).tokPos = 0 := by
          intro hn; rw [w3, t2 hn]
        rcases herr : (lx.src.read (E.bufLen - (lx.srcEnd - lx.srcPos).toNat)).2.1 with _ | err
        · -- no error: once more round the loop
          simp only
          have hreads : ReadsOK lx (refilled E (spilled lx)) := by
            obtain ⟨u, hu1, hu2⟩ := Reader.read_reads lx.src
              (E.bufLen - (lx.srcEnd - lx.srcPos).toNat) (by rw [herr]; simp)
            exact ⟨u, by rw [w6]; exact hu1, hu2⟩
          obtain ⟨i1, i2⟩ := ih (refilled E (spilled lx)) w1
          refine ⟨fun _ => i1 hin, fun r hr => ?_⟩
          have f := i2 r hr
          refine ⟨f.win, ?_, ?_, fun _ => f.tokIn hin, by rw [f.tokEnd, w4],
            hreads.chain f.reads, f.more, f.eof⟩
          · intro hn
            rw [f.tokNeg (by rw [hneg hn]; exact hn), hneg hn]
          · intro hn
            have := f.tokPos (by rw [hzero hn])
            rw [hzero hn] at this
            omega
        · have hreads : err ≠ IOErr.other → ReadsOK lx (refilled E (spilled lx)) := by
            intro hne
            obtain ⟨u, hu1, hu2⟩ := Reader.read_reads lx.src
              (E.bufLen - (lx.srcEnd - lx.srcPos).toNat) (by rw [herr]; simpa using hne)
            exact ⟨u, by rw [w6]; exact hu1, hu2⟩
          cases err with
          | other =>
            dsimp only
            exact ⟨fun _ hx => (by cases hx), fun r hr => by cases hr⟩
          | eof =>
            dsimp only
            have hrd := hreads (by decide)
            by_cases hz : (refilled E (spilled lx)).srcEnd = 0
            · rw [if_pos hz]
              dsimp only [pure, Except.pure]
              refine ⟨fun _ hx => (by cases hx), fun r hr => ?_⟩
              simp only [Except.ok.injEq] at hr
              subst hr
              refine ⟨⟨w1.pos, w1.le, w1.hi, w1.sentinel⟩, ?_, ?_, ?_, w4, hrd,
                fun hm => (by cases hm), fun _ => ⟨w2, rfl⟩⟩
              · intro hn; exact hneg hn
              · intro hn
                show 0 ≤ (refilled E (spilled lx)).tokPos ∧ (refilled E (spilled lx)).tokPos ≤ _
                rw [hzero hn]; omega
              · intro _; exact hin
            · rw [if_neg hz]
              dsimp only [pure, Except.pure]
              refine ⟨fun _ hx => (by cases hx), fun r hr => ?_⟩
              simp only [Except.ok.injEq] at hr
              subst hr
              refine ⟨w1, hneg, ?_, fun _ => hin, w4, hrd, fun _ => ?_, fun hm => by cases hm⟩
              · intro hn
                show 0 ≤ (refilled E (spilled lx)).tokPos ∧ (refilled E (spilled lx)).tokPos ≤ _
                rw [hzero hn]; omega
              · have := w1.le
                have := w1.pos
                show (refilled E (spilled lx)).srcPos < (refilled E (spilled lx)).srcEnd
                omega
    · rw [if_neg hc]
      dsimp only [pure, Except.pure]
      refine ⟨fun _ hx => (by cases hx), fun r hr => ?_⟩
      simp only [Except.ok.injEq] at hr
      subst hr
      refine ⟨h, fun _ => rfl, fun hn => ⟨hn, le_refl _⟩, fun ht => ht, rfl, ReadsOK.same _,
        fun _ => ?_, fun hm => by cases hm⟩
      simp only [Bool.and_eq_true, decide_eq_true_eq, Bool.not_eq_true', not_and,
        Bool.not_eq_false] at hc
      show lx.srcPos < lx.srcEnd
      by_cases h4 : lx.srcPos + 4 > lx.srcEnd
      · have hf := hc h4
        have hl : (avail lx).length = (lx.srcEnd - lx.srcPos).toNat := bytesAt_length _ _ _
        rcases hav : avail lx with _ | ⟨a, t⟩
        · rw [hav] at hf; simp [FullRune] at hf
        · rw [hav] at hl; simp at hl; omega
      · omega

theorem Trail.stay {E : Env} {lx : Lexer} (h : Calm E lx) : Trail E lx lx :=
  ⟨h, fun _ => rfl, fun hn => ⟨hn, le_refl _⟩, fun ht => ht, rfl, ReadsOK.same _⟩

theorem Trail.join {E : Env} {a b c : Lexer} (h1 : Trail E a b) (h2 : Trail E b c) :
    Trail E a c := by
  refine ⟨h2.calm, ?_, ?_, fun ht => h2.tokIn (h1.tokIn ht), by rw [h2.tokEnd, h1.tokEnd],
    h1.reads.chain h2.reads⟩
  · intro hn
    have e := h1.tokNeg hn
    rw [h2.tokNeg (by rw [e]; exact hn), e]
  · intro hn
    obtain ⟨p1, p2⟩ := h1.tokPos hn
    obtain ⟨q1, q2⟩ := h2.tokPos p1
    exact ⟨q1, by omega⟩

/-- The state after the rune of `w` bytes is consumed, behind the refill
loop. -/
theorem trail_moved {E : Env} {lx l1 : Lexer} {res : Filled} (hc : Calm E lx)
    (f : FillW E lx (res, l1)) (w : Int) (h1 : 0 ≤ w) (h2 : l1.srcPos + w ≤ l1.srcEnd)
    (l c ll : Int) (e : List Diag) : Trail E lx (moved l1 w l c ll e) := by
  have hw := f.win
  simp only at hw
  refine ⟨⟨⟨?_, ?_, hw.hi, hw.sentinel⟩, h1, ?_⟩, f.tokNeg, f.tokPos, ?_, f.tokEnd, ?_⟩
  · simp only [moved]; have := hw.pos; omega
  · simp only [moved]; exact h2
  · simp only [moved]; have := hw.pos; omega
  · intro ht
    have hl := hc.last0
    have ht' : lx.tokPos < 0 ∨ lx.tokPos ≤ lx.srcPos := by
      rcases ht with h | h
      · exact Or.inl h
      · exact Or.inr (by omega)
    have := f.tokIn ht'
    simp only at this
    unfold TokIn
    simp only [moved]
    omega
  · obtain ⟨u, hu1, hu2⟩ := f.reads
    exact ⟨u, hu1, hu2⟩

theorem win_lt_of_ascii {E : Env} {lx : Lexer} (h : Win E lx)
    (hb : lx.srcBuf lx.srcPos.toNat < RuneSelf) : lx.srcPos < lx.srcEnd := by
  rcases lt_or_ge lx.srcPos lx.srcEnd with h1 | h1
  · exact h1
  · have : lx.srcPos = lx.srcEnd := le_antisymm h.le h1
    rw [this, h.sentinel] at hb
    exact absurd hb (lt_irrefl _)

/-- One call of `next` on a well-formed state, for any reader: the index and
slice expressions are in range, and the state it returns is well formed. -/
theorem next_safe {E : Env} {lx : Lexer} (h : Calm E lx) :
    Safe E lx (fun r : Int × Lexer => r.2) (next E lx) := by
  have hw := h.win
  have f0 : lx.srcPos < lx.srcEnd → FillW E lx (Filled.more, lx) := fun hlt =>
    ⟨hw, fun _ => rfl, fun hn => ⟨hn, le_refl _⟩, fun ht => ht, rfl, ReadsOK.same _,
      fun _ => hlt, fun hm => by cases hm⟩
  unfold next
  rw [index_ok hw.pos (by have := hw.le; have := hw.hi; omega)]
  simp only [bind, Except.bind]
  by_cases hlt : lx.srcBuf lx.srcPos.toNat < RuneSelf
  · rw [if_pos hlt]
    have hne := win_lt_of_ascii hw hlt
    obtain ⟨l, c, ll, e, ha⟩ := advance_eq lx (lx.srcBuf lx.srcPos.toNat) 1
    refine ⟨fun _ hx => (by cases hx), fun r hr => ?_⟩
    simp only [pure, Except.pure, Except.ok.injEq] at hr
    rw [← hr, ha]
    exact trail_moved h (f0 hne) 1 (by decide) (by omega) l c ll e
  · rw [if_neg hlt]
    obtain ⟨s1, s2⟩ := fill_safe E (fillFuel lx) lx hw
    rcases hf : fill E (fillFuel lx) lx with e | ⟨res, lx1⟩
    · dsimp only
      refine ⟨fun ht hx => ?_, fun r hr => (by cases hr)⟩
      have hl := h.last0
      have ht' : lx.tokPos < 0 ∨ lx.tokPos ≤ lx.srcPos := by
        rcases ht with h | h
        · exact Or.inl h
        · exact Or.inr (by omega)
      simp only [Except.error.injEq] at hx
      rw [hx] at hf
      exact s1 ht' hf
    · have f := s2 _ hf
      have hw1 := f.win
      simp only at hw1
      cases res with
      | eof =>
        obtain ⟨z1, z2⟩ := f.eof rfl
        simp only at z1 z2
        refine ⟨fun _ hx => (by cases hx), fun r hr => ?_⟩
        simp only [pure, Except.pure, Except.ok.injEq] at hr
        rw [← hr]
        refine ⟨⟨hw1, by simp only; omega, by simp only; omega⟩, f.tokNeg, f.tokPos, ?_,
          f.tokEnd, f.reads⟩
        intro ht
        have hl := h.last0
        have ht' : lx.tokPos < 0 ∨ lx.tokPos ≤ lx.srcPos := by
          rcases ht with h | h
          · exact Or.inl h
          · exact Or.inr (by omega)
        have := f.tokIn ht'
        simp only at this
        unfold TokIn
        simp only
        omega
      | more =>
        have hne : lx1.srcPos < lx1.srcEnd := f.more rfl
        dsimp only
        rw [index_ok hw1.pos (by have := hw1.le; have := hw1.hi; omega)]
        dsimp only
        by_cases hlt1 : lx1.srcBuf lx1.srcPos.toNat < RuneSelf
        · rw [if_pos hlt1]
          obtain ⟨l, c, ll, e, ha⟩ := advance_eq lx1 (lx1.srcBuf lx1.srcPos.toNat) 1
          refine ⟨fun _ hx => (by cases hx), fun r hr => ?_⟩
          simp only [pure, Except.pure, Except.ok.injEq] at hr
          rw [← hr, ha]
          exact trail_moved h f 1 (by decide) (by omega) l c ll e
        · rw [if_neg hlt1]
          have hsl : slice E lx1.srcBuf lx1.srcPos lx1.srcEnd = .ok (avail lx1) :=
            slice_ok hw1.pos hw1.le (by have := hw1.hi; omega)
          rw [hsl]
          dsimp only
          have hav : avail lx1 = lx1.srcBuf lx1.srcPos.toNat ::
              bytesAt lx1.srcBuf (lx1.srcPos.toNat + 1) ((lx1.srcEnd - lx1.srcPos).toNat - 1) := by
            have hpos := hw1.pos
            unfold avail
            obtain ⟨m, hm⟩ : ∃ m, (lx1.srcEnd - lx1.srcPos).toNat = m + 1 :=
              ⟨(lx1.srcEnd - lx1.srcPos).toNat - 1, by omega⟩
            rw [hm, bytesAt_succ]
            simp
          have hwd := DecodeRune_width (lx1.srcBuf lx1.srcPos.toNat)
            (bytesAt lx1.srcBuf (lx1.srcPos.toNat + 1) ((lx1.srcEnd - lx1.srcPos).toNat - 1))
          rw [← hav] at hwd
          have hl : (avail lx1).length = (lx1.srcEnd - lx1.srcPos).toNat := bytesAt_length _ _ _
          have hw2 : lx1.srcPos + (DecodeRune (avail lx1)).2 ≤ lx1.srcEnd := by omega
          by_cases herr : (DecodeRune (avail lx1)).1 = RuneError ∧ (DecodeRune (avail lx1)).2 = 1
          · rw [if_pos herr]
            refine ⟨fun _ hx => (by cases hx), fun r hr => ?_⟩
            simp only [pure, Except.pure, Except.ok.injEq] at hr
            rw [← hr]
            exact trail_moved h f (DecodeRune (avail lx1)).2 (by omega) hw2 lx1.line
              (lx1.column + 1) lx1.lastLineLen (lx1.stderr ++ [Diag.illegalUTF8])
          · rw [if_neg herr]
            obtain ⟨l, c, ll, e, ha⟩ := advance_eq lx1 (DecodeRune (avail lx1)).1
              (DecodeRune (avail lx1)).2
            refine ⟨fun _ hx => (by cases hx), fun r hr => ?_⟩
            simp only [pure, Except.pure, Except.ok.injEq] at hr
            rw [← hr, ha]
            exact trail_moved h f (DecodeRune (avail lx1)).2 (by omega) hw2 l c ll e

theorem skipWhitespace_eq (E : Env) : ∀ (fuel : Nat) (i ch : Int) (lx : Lexer),
    skipWhitespace E fuel ch lx =
      loopL E (fun ch _ lx => isWhitespace lx.whitespace ch) fuel i ch lx := by
  intro fuel
  induction fuel with
  | zero => intro i ch lx; rfl
  | succ f ih =>
    intro i ch lx
    simp only [skipWhitespace, loopL, ih (i + 1)]

theorem identLoop_eq (E : Env) : ∀ (fuel : Nat) (i ch : Int) (lx : Lexer),
    identLoop E fuel i ch lx = loopL E (fun ch i _ => isIdentRune E ch i) fuel i ch lx := by
  intro fuel
  induction fuel with
  | zero => intro i ch lx; rfl
  | succ f ih =>
    intro i ch lx
    simp only [identLoop, loopL, ih]

theorem stringLoop_eq (E : Env) (right : Int) : ∀ (fuel : Nat) (i ch : Int) (lx : Lexer),
    stringLoop E right fuel ch lx =
      loopL E (fun ch _ _ => decide (ch ≠ right ∧ ch ≠ EOF)) fuel i ch lx := by
  intro fuel
  induction fuel with
  | zero => intro i ch lx; rfl
  | succ f ih =>
    intro i ch lx
    simp only [stringLoop, loopL, ih (i + 1), decide_eq_true_eq]

theorem scanMantissa_eq (E : Env) : ∀ (fuel : Nat) (i ch : Int) (lx : Lexer),
    scanMantissa E fuel ch lx =
      loopL E (fun ch _ _ => decide (0x30 ≤ ch ∧ ch ≤ 0x39)) fuel i ch lx := by
  intro fuel
  induction fuel with
  | zero => intro i ch lx; rfl
  | succ f ih =>
    intro i ch lx
    simp only [scanMantissa, loopL, ih (i + 1), decide_eq_true_eq]

theorem Safe.seq {E : Env} {lx : Lexer} {β γ : Type} {p : β → Lexer} {q : γ → Lexer}
    {x : Except Abort β} {f : β → Except Abort γ} (hx : Safe E lx p x)
    (hf : ∀ b, x = .ok b → Calm E (p b) → Safe E (p b) q (f b)) :
    Safe E lx q (x >>= f) := by
  cases x with
  | error e =>
    refine ⟨fun ht h => ?_, fun c hc => (by cases hc)⟩
    have : e = Abort.outOfRange := by
      cases h; rfl
    exact hx.1 ht (by rw [this])
  | ok b =>
    have tb := hx.2 b rfl
    have sf := hf b rfl tb.calm
    exact ⟨fun ht h => sf.1 (tb.tokIn ht) h, fun c hc => tb.join (sf.2 c hc)⟩

theorem Safe.ret {E : Env} {lx : Lexer} {β : Type} {p : β → Lexer} (b : β) (h : Calm E lx)
    (hp : p b = lx) : Safe E lx p (pure b : Except Abort β) := by
  refine ⟨fun _ hx => (by cases hx), fun c hc => ?_⟩
  cases hc
  rw [hp]
  exact Trail.stay h

theorem Safe.fail {E : Env} {lx : Lexer} {β : Type} {p : β → Lexer} (e : Abort)
    (he : e ≠ Abort.outOfRange) : Safe E lx p (.error e : Except Abort β) := by
  refine ⟨fun _ hx => ?_, fun c hc => (by cases hc)⟩
  simp only [Except.error.injEq] at hx
  exact he hx

/-- A computation is safe from a state if it is safe from a state that
differs only in fields that do not matter for safety. -/
theorem Safe.start {E : Env} {lx : Lexer} (lx' : Lexer) {β : Type} {p : β → Lexer}
    {x : Except Abort β}
    (h : Safe E lx' p x) (h1 : lx'.tokPos = lx.tokPos) (h2 : lx'.srcPos = lx.srcPos)
    (h3 : lx'.lastCharLen = lx.lastCharLen) (h4 : lx'.tokEnd = lx.tokEnd)
    (h5 : lx'.src = lx.src) : Safe E lx p x := by
  refine ⟨fun ht => h.1 (by unfold TokIn at ht ⊢; rw [h1, h2, h3]; exact ht), fun b hb => ?_⟩
  have t := h.2 b hb
  refine ⟨t.calm, ?_, ?_, ?_, by rw [t.tokEnd, h4], ?_⟩
  · intro hn; rw [← h1]; exact t.tokNeg (by rw [h1]; exact hn)
  · intro hn; rw [← h1]; exact t.tokPos (by rw [h1]; exact hn)
  · intro ht; exact t.tokIn (by unfold TokIn at ht ⊢; rw [h1, h2, h3]; exact ht)
  · obtain ⟨u, hu1, hu2⟩ := t.reads
    exact ⟨u, by rw [← h5]; exact hu1, hu2⟩

theorem calm_setCh {E : Env} {lx : Lexer} (h : Calm E lx) (c : Int) :
    Calm E { lx with ch := c } :=
  ⟨⟨h.win.pos, h.win.le, h.win.hi, h.win.sentinel⟩, h.last0, h.lastPos⟩

/-- Every loop of the scanners is safe. -/
theorem loopL_safe (E : Env) (P : Int → Int → Lexer → Bool) : ∀ (fuel : Nat) (i ch : Int)
    (lx : Lexer), Calm E lx →
    Safe E lx (fun r : Int × Lexer => r.2) (loopL E P fuel i ch lx) := by
  intro fuel
  induction fuel with
  | zero =>
    intro i ch lx _
    exact Safe.fail _ (by decide)
  | succ f ih =>
    intro i ch lx h
    rw [loopL]
    by_cases hp : P ch i lx = true
    · rw [if_pos hp]
      exact Safe.seq (next_safe h) (fun b _ hb => ih _ _ _ hb)
    · rw [if_neg hp]
      exact Safe.ret _ h rfl

/-- `peek` is safe. -/
theorem peek_safe {E : Env} {lx : Lexer} (h : Calm E lx) :
    Safe E lx (fun r : Int × Lexer => r.2) (peek E lx) := by
  unfold peek
  by_cases hc : lx.ch = -2
  · rw [if_pos hc]
    refine Safe.seq (next_safe h) (fun b _ hb => ?_)
    dsimp only
    by_cases hf : b.1 = 0xFEFF
    · rw [if_pos hf]
      have hb' := calm_setCh hb b.1
      refine Safe.start { b.2 with ch := b.1 } ?_ rfl rfl rfl rfl rfl
      refine Safe.seq (next_safe hb') (fun d _ hd => ?_)
      refine Safe.start { d.2 with ch := d.1 } ?_ rfl rfl rfl rfl rfl
      exact Safe.ret _ (calm_setCh hd d.1) rfl
    · rw [if_neg hf]
      refine Safe.start { b.2 with ch := b.1 } ?_ rfl rfl rfl rfl rfl
      exact Safe.ret _ (calm_setCh hb b.1) rfl
  · rw [if_neg hc]
    exact Safe.ret _ h rfl

theorem Safe.tagged {E : Env} {lx : Lexer} {x : Except Abort (Int × Lexer)} (k : Int)
    (hx : Safe E lx (fun r : Int × Lexer => r.2) x) :
    Safe E lx (fun t : Int × Int × Lexer => t.2.2) (x >>= fun r => pure (k, r)) :=
  Safe.seq hx (fun _ _ hb => Safe.ret _ hb rfl)

theorem scanOp_safe {E : Env} {lx : Lexer} (h : Calm E lx) (k : Int) (e : Int → Abort)
    (he : ∀ r, e r ≠ Abort.outOfRange) :
    Safe E lx (fun r : Int × Lexer => r.2)
      (next E lx >>= fun r => if r.1 = k then next E r.2 else .error (e r.1)) := by
  refine Safe.seq (next_safe h) (fun b _ hb => ?_)
  by_cases hk : b.1 = k
  · rw [if_pos hk]; exact next_safe hb
  · rw [if_neg hk]; exact Safe.fail _ (he _)

/-- The `switch` of `Scan` is safe. -/
theorem dispatch_safe {E : Env} {lx : Lexer} (h : Calm E lx) (fuel : Nat) (ch : Int) :
    Safe E lx (fun t : Int × Int × Lexer => t.2.2) (dispatch E fuel ch lx) := by
  unfold dispatch
  by_cases h1 : isIdentRune E ch 0 = true
  · rw [if_pos h1]
    refine Safe.tagged _ ?_
    unfold scanIdentifier
    refine Safe.seq (next_safe h) (fun b _ hb => ?_)
    rw [identLoop_eq]
    exact loopL_safe E _ _ _ _ _ hb
  rw [if_neg h1]
  by_cases h2 : EOF = ch
  · rw [if_pos h2]; exact Safe.ret _ h rfl
  rw [if_neg h2]
  by_cases h3 : 0x27 = ch ∨ 0x22 = ch
  · rw [if_pos h3]
    refine Safe.tagged _ ?_
    unfold scanString
    refine Safe.seq (next_safe h) (fun b _ hb => ?_)
    rw [stringLoop_eq E ch fuel 0]
    refine Safe.seq (loopL_safe E _ _ _ _ _ hb) (fun d _ hd => ?_)
    by_cases hq : ch ≠ d.1
    · rw [if_pos hq]; exact Safe.fail _ (by decide)
    · rw [if_neg hq]; exact next_safe hd
  rw [if_neg h3]
  by_cases h4 : 0x3D = ch
  · rw [if_pos h4]
    exact Safe.tagged _ (scanOp_safe h _ Abort.notEqu (fun _ => by simp))
  rw [if_neg h4]
  by_cases h5 : 0x26 = ch
  · rw [if_pos h5]
    exact Safe.tagged _ (scanOp_safe h _ Abort.notAnd (fun _ => by simp))
  rw [if_neg h5]
  by_cases h6 : 0x7C = ch
  · rw [if_pos h6]
    exact Safe.tagged _ (scanOp_safe h _ Abort.notOr (fun _ => by simp))
  rw [if_neg h6]
  by_cases h7 : 0x28 = ch
  · rw [if_pos h7]; exact Safe.tagged _ (next_safe h)
  rw [if_neg h7]
  by_cases h8 : 0x29 = ch
  · rw [if_pos h8]; exact Safe.tagged _ (next_safe h)
  rw [if_neg h8]
  by_cases h9 : 0x30 ≤ ch ∧ ch ≤ 0x39
  · rw [if_pos h9]
    refine Safe.tagged _ ?_
    unfold scanNumber
    rw [scanMantissa_eq E fuel 0]
    refine Safe.seq (loopL_safe E _ _ _ _ _ h) (fun b _ hb => ?_)
    by_cases hp : b.1 = 0x2E
    · rw [if_pos hp]
      refine Safe.seq (next_safe hb) (fun d _ hd => ?_)
      rw [scanMantissa_eq E fuel 0]
      exact loopL_safe E _ _ _ _ _ hd
    · rw [if_neg hp]; exact Safe.ret _ hb rfl
  rw [if_neg h9]
  exact Safe.fail _ (by simp)

theorem HInv.tokIn {E : Env} {lx : Lexer} (h : HInv E lx) : TokIn lx := by
  unfold TokIn
  rcases h.g.tok with h1 | ⟨h1, _⟩
  · exact Or.inl h1
  · by_cases hn : lx.tokPos < 0
    · exact Or.inl hn
    · have := h.api (by omega)
      exact Or.inr (by omega)

theorem Init_hinv (E : Env) (lx0 : Lexer) (rd : Reader) : HInv E (Init lx0 rd) := by
  refine ⟨⟨⟨⟨le_refl _, le_refl _, ?_, ?_⟩, le_refl _, le_refl _⟩, Or.inl ?_⟩, ?_⟩
  · simp [Init]
  · simp [Init]
  · simp [Init]
  · intro h; simp [Init] at h

/-- `Scan` on a well-formed state, for any reader: it does not abort on an
expression out of range, and when it returns the state is well formed and the
token lies between `tokPos` and `tokEnd`, in front of the look-ahead rune. -/
theorem Scan_safe {E : Env} {lx : Lexer} (h : Calm E lx) :
    (TokIn lx → Scan E lx ≠ .error .outOfRange) ∧
    ∀ r, Scan E lx = .ok r → Calm E r.2 ∧ 0 ≤ r.2.tokPos ∧ r.2.tokPos ≤ r.2.tokEnd ∧
      r.2.tokEnd = r.2.srcPos - r.2.lastCharLen ∧ ReadsOK lx r.2 := by
  have ps := peek_safe h
  unfold Scan
  rcases hp : peek E lx with e | a
  · rw [hp] at ps
    refine ⟨fun ht hx => ps.1 ht ?_, fun r hr => (by cases hr)⟩
    cases hx; rfl
  · rw [hp] at ps
    have ta : Trail E lx a.2 := ps.2 a rfl
    have ca : Calm E { a.2 with tokPos := -1 } :=
      ⟨⟨ta.calm.win.pos, ta.calm.win.le, ta.calm.win.hi, ta.calm.win.sentinel⟩, ta.calm.last0,
        ta.calm.lastPos⟩
    have ss := loopL_safe E (fun ch _ lx => isWhitespace lx.whitespace ch) (scanFuel lx) 0 a.1 _ ca
    rw [← skipWhitespace_eq] at ss
    have tin : TokIn { a.2 with tokPos := -1 } := Or.inl (show (-1 : Int) < 0 by decide)
    dsimp only [bind, Except.bind]
    rcases hs : skipWhitespace E (scanFuel lx) a.1 { a.2 with tokPos := -1 } with e | b
    · rw [hs] at ss
      refine ⟨fun _ hx => ss.1 tin ?_, fun r hr => (by cases hr)⟩
      cases hx; rfl
    · rw [hs] at ss
      have tb : Trail E { a.2 with tokPos := -1 } b.2 := ss.2 b rfl
      have cb := tb.calm
      dsimp only
      have cc : Calm E { b.2 with tokBuf := [], tokPos := b.2.srcPos - b.2.lastCharLen } :=
        ⟨⟨cb.win.pos, cb.win.le, cb.win.hi, cb.win.sentinel⟩, cb.last0, cb.lastPos⟩
      have ds := dispatch_safe cc (scanFuel lx) b.1
      have tin2 : TokIn { b.2 with tokBuf := [], tokPos := b.2.srcPos - b.2.lastCharLen } :=
        Or.inr (le_refl _)
      rcases hd : dispatch E (scanFuel lx) b.1
          { b.2 with tokBuf := [], tokPos := b.2.srcPos - b.2.lastCharLen } with e | t
      · rw [hd] at ds
        refine ⟨fun _ hx => ds.1 tin2 ?_, fun r hr => (by cases hr)⟩
        cases hx; rfl
      · rw [hd] at ds
        have tt : Trail E { b.2 with tokBuf := [], tokPos := b.2.srcPos - b.2.lastCharLen }
            t.2.2 := ds.2 t rfl
        refine ⟨fun _ hx => (by cases hx), fun r hr => ?_⟩
        simp only [pure, Except.pure, Except.ok.injEq] at hr
        rw [← hr]
        have ct := tt.calm
        have h0 : 0 ≤ t.2.2.tokPos := (tt.tokPos (by
          have := cb.lastPos
          show 0 ≤ b.2.srcPos - b.2.lastCharLen
          omega)).1
        have hin : t.2.2.tokPos ≤ t.2.2.srcPos - t.2.2.lastCharLen := by
          rcases tt.tokIn tin2 with hx | hx
          · omega
          · exact hx
        refine ⟨⟨⟨ct.win.pos, ct.win.le, ct.win.hi, ct.win.sentinel⟩, ct.last0, ct.lastPos⟩,
          h0, hin, rfl, ?_⟩
        have r1 : ReadsOK lx a.2 := ta.reads
        have r2 : ReadsOK a.2 b.2 := by
          obtain ⟨u, hu1, hu2⟩ := tb.reads
          exact ⟨u, hu1, hu2⟩
        have r3 : ReadsOK b.2 t.2.2 := by
          obtain ⟨u, hu1, hu2⟩ := tt.reads
          exact ⟨u, hu1, hu2⟩
        obtain ⟨u, hu1, hu2⟩ := (r1.chain r2).chain r3
        exact ⟨u, hu1, hu2⟩

/-- `TokenText` on a state that satisfies the invariant: it returns, and the
invariant holds afterwards. -/
theorem TokenText_safe {E : Env} {lx : Lexer} (h : GInv E lx) :
    ∃ r, TokenText E lx = .ok r ∧ GInv E r.2 ∧ (HInv E lx → HInv E r.2) := by
  by_cases hn : lx.tokPos < 0
  · refine ⟨([], lx), ?_, h, fun hh => hh⟩
    unfold TokenText
    rw [if_pos hn]
    rfl
  · rcases h.tok with h1 | ⟨h1, h2⟩
    · exact absurd h1 hn
    have e := TokenText_eq (E := E) (by omega : 0 ≤ lx.tokPos) h1 (by omega)
    have c := h.calm
    by_cases hz : lx.tokBuf.length = 0
    · rw [if_pos hz] at e
      exact ⟨_, e, h, fun hh => hh⟩
    · rw [if_neg hz] at e
      refine ⟨_, e, ⟨⟨⟨c.win.pos, c.win.le, c.win.hi, c.win.sentinel⟩, c.last0, c.lastPos⟩,
        Or.inr ⟨le_refl _, h2⟩⟩, fun hh => ⟨⟨⟨⟨c.win.pos, c.win.le, c.win.hi, c.win.sentinel⟩,
          c.last0, c.lastPos⟩, Or.inr ⟨le_refl _, h2⟩⟩, fun _ => hh.api (by omega)⟩⟩

theorem step_ok {E : Env} {o : Op} {lx l : Lexer} (h : step E o lx = .ok l) :
    match o with
    | .next => ∃ r, next E lx = .ok r ∧ r.2 = l
    | .peek => ∃ r, peek E lx = .ok r ∧ r.2 = l
    | .scan => ∃ r, Scan E lx = .ok r ∧ r.2 = l
    | .text => ∃ r, TokenText E lx = .ok r ∧ r.2 = l := by
  cases o <;> simp only [step] at h ⊢ <;> obtain ⟨r, h1, h2⟩ := bind_eq_ok h <;>
    simp only [pure, Except.pure, Except.ok.injEq] at h2 <;> exact ⟨r, h1, h2⟩

theorem trail_ginv {E : Env} {lx l : Lexer} (h : GInv E lx) (t : Trail E lx l) : GInv E l := by
  refine ⟨t.calm, ?_⟩
  by_cases hn : lx.tokPos < 0
  · left; rw [t.tokNeg hn]; exact hn
  · rcases h.tok with h1 | ⟨h1, h2⟩
    · exact absurd h1 hn
    · right
      have := (t.tokPos (by omega)).2
      rw [t.tokEnd]
      exact ⟨by omega, h2⟩

theorem scan_hinv {E : Env} {lx : Lexer} {r : Int × Lexer} (h : Calm E lx)
    (hs : Scan E lx = .ok r) : HInv E r.2 := by
  obtain ⟨c, h0, h1, h2, _⟩ := (Scan_safe h).2 r hs
  have := c.win.le
  have := c.win.hi
  have := c.last0
  exact ⟨⟨c, Or.inr ⟨h1, by omega⟩⟩, fun _ => by omega⟩

/-- One call keeps the invariant of all sequences of calls. -/
theorem step_ginv {E : Env} {o : Op} {lx l : Lexer} (h : GInv E lx)
    (hs : step E o lx = .ok l) : GInv E l := by
  have hk := step_ok hs
  cases o with
  | next =>
    obtain ⟨r, h1, h2⟩ := hk
    rw [← h2]
    exact trail_ginv h ((next_safe h.calm).2 r h1)
  | peek =>
    obtain ⟨r, h1, h2⟩ := hk
    rw [← h2]
    exact trail_ginv h ((peek_safe h.calm).2 r h1)
  | scan =>
    obtain ⟨r, h1, h2⟩ := hk
    rw [← h2]
    exact (scan_hinv h.calm h1).g
  | text =>
    obtain ⟨r, h1, h2⟩ := hk
    obtain ⟨r', e, g, _⟩ := TokenText_safe h
    rw [e] at h1
    simp only [Except.ok.injEq] at h1
    rw [← h2, ← h1]
    exact g

/-- A call of `Scan` or `TokenText` keeps the invariant of these sequences. -/
theorem step_hinv {E : Env} {o : Op} {lx l : Lexer} (h : HInv E lx)
    (ho : o = Op.scan ∨ o = Op.text) (hs : step E o lx = .ok l) : HInv E l := by
  rcases ho with rfl | rfl
  · obtain ⟨r, h1, h2⟩ := step_ok hs
    rw [← h2]
    exact scan_hinv h.g.calm h1
  · obtain ⟨r, h1, h2⟩ := step_ok hs
    obtain ⟨r', e, _, g⟩ := TokenText_safe h.g
    rw [e] at h1
    simp only [Except.ok.injEq] at h1
    rw [← h2, ← h1]
    exact g h

theorem steps_ginv (E : Env) : ∀ (ops : List Op) (lx l : Lexer), GInv E lx →
    steps E ops lx = .ok l → GInv E l := by
  intro ops
  induction ops with
  | nil =>
    intro lx l h hs
    simp only [steps, Except.ok.injEq] at hs
    rw [← hs]; exact h
  | cons o ops ih =>
    intro lx l h hs
    rw [steps] at hs
    obtain ⟨m, h1, h2⟩ := bind_eq_ok hs
    exact ih m l (step_ginv h h1) h2

theorem steps_hinv (E : Env) : ∀ (ops : List Op) (lx l : Lexer), HInv E lx →
    (∀ o ∈ ops, o = Op.scan ∨ o = Op.text) → steps E ops lx = .ok l → HInv E l := by
  intro ops
  induction ops with
  | nil =>
    intro lx l h _ hs
    simp only [steps, Except.ok.injEq] at hs
    rw [← hs]; exact h
  | cons o ops ih =>
    intro lx l h ho hs
    rw [steps] at hs
    obtain ⟨m, h1, h2⟩ := bind_eq_ok hs
    exact ih m l (step_hinv h (ho o (List.mem_cons_self _ _)) h1)
      (fun x hx => ho x (List.mem_cons_of_mem _ hx)) h2

set_option maxRecDepth 100000 in
/-- C17, counterexample. The reader delivers `xxx y` in reads of 4 bytes and
1 byte. After `Init`, `Scan`, `next`, `TokenText` the calls have returned and
the state has `tokPos = 3` and `srcPos = 1`: the `next` has refilled the
buffer, and `TokenText` has set `tokPos` to the `tokEnd` of the `Scan`. The
following `next` evaluates `srcBuf[tokPos:srcPos]`, which is out of range. -/
theorem buffer_window_counterexample :
    (∃ lx, steps asciiEnv [Op.scan, Op.next, Op.text]
        (Init Lexer.zero (chunked (ascii "xxx y") [4, 1])) = .ok lx ∧
      lx.tokPos = 3 ∧ lx.srcPos = 1 ∧ next asciiEnv lx = .error .outOfRange) ∧
    steps asciiEnv [Op.scan, Op.next, Op.text, Op.next]
      (Init Lexer.zero (chunked (ascii "xxx y") [4, 1])) = .error .outOfRange :=
  ⟨⟨_, rfl, rfl, rfl, rfl⟩, rfl⟩

/-- C17, amended. The window of the buffer: in every state that `Init` and
then any sequence of returning calls of `next`, `peek`, `Scan` and `TokenText`
reach, with any reader, `0 <= srcPos <= srcEnd <= bufLen` and
`srcBuf[srcEnd]` is the sentinel `0x80`; when `Scan` returns in such a state,
`0 <= tokPos <= tokEnd <= srcEnd`; and `TokenText` returns, so its slice
expression is in range. If the calls were calls of `Scan` and `TokenText`
only, then the index and slice expressions of `next` are in range as well:
neither `next` nor `peek` nor `Scan`, with the calls of `next` inside it,
aborts on an expression out of range. -/
theorem buffer_window_invariant (E : Env) (lx0 : Lexer) (rd : Reader) (ops : List Op)
    (lx : Lexer) (h : steps E ops (Init lx0 rd) = .ok lx) :
    (0 ≤ lx.srcPos ∧ lx.srcPos ≤ lx.srcEnd ∧ lx.srcEnd ≤ E.bufLen ∧
      lx.srcBuf lx.srcEnd.toNat = 0x80) ∧
    (∀ (tok : Int) (lx' : Lexer), Scan E lx = .ok (tok, lx') →
      0 ≤ lx'.tokPos ∧ lx'.tokPos ≤ lx'.tokEnd ∧ lx'.tokEnd ≤ lx'.srcEnd) ∧
    (∃ r, TokenText E lx = .ok r) ∧
    ((∀ o ∈ ops, o = Op.scan ∨ o = Op.text) →
      next E lx ≠ .error .outOfRange ∧ peek E lx ≠ .error .outOfRange ∧
        Scan E lx ≠ .error .outOfRange) := by
  have g := steps_ginv E ops _ lx (Init_hinv E lx0 rd).g h
  have c := g.calm
  refine ⟨⟨c.win.pos, c.win.le, c.win.hi, c.win.sentinel⟩, ?_, ?_, ?_⟩
  · intro tok lx' hs
    obtain ⟨c', h0, h1, h2, _⟩ := (Scan_safe c).2 _ hs
    have q1 : lx'.srcPos ≤ lx'.srcEnd := c'.win.le
    have q2 : 0 ≤ lx'.lastCharLen := c'.last0
    simp only at h0 h1 h2
    exact ⟨h0, h1, by omega⟩
  · obtain ⟨r, e, _⟩ := TokenText_safe g
    exact ⟨r, e⟩
  · intro hops
    have hh := steps_hinv E ops _ lx (Init_hinv E lx0 rd) hops h
    exact ⟨(next_safe c).1 hh.tokIn, (peek_safe c).1 hh.tokIn, (Scan_safe c).1 hh.tokIn⟩

set_option maxRecDepth 100000 in
theorem buffer_window_invariant_witness :
    steps tinyEnv [Op.scan, Op.text, Op.scan]
        (Init Lexer.zero (chunked (ascii "abcdefghijkl x") [3, 3])) =
      .ok (stateOf (steps tinyEnv [Op.scan, Op.text, Op.scan]
        (Init Lexer.zero (chunked (ascii "abcdefghijkl x") [3, 3]))) Lexer.zero) ∧
    next tinyEnv (stateOf (steps tinyEnv [Op.scan, Op.text, Op.scan]
        (Init Lexer.zero (chunked (ascii "abcdefghijkl x") [3, 3]))) Lexer.zero) ≠
      .error .outOfRange :=
  ⟨rfl, ((buffer_window_invariant tinyEnv Lexer.zero (chunked (ascii "abcdefghijkl x") [3, 3])
    [Op.scan, Op.text, Op.scan] _ rfl).2.2.2 (by decide)).1⟩

/-! ## Errors of the reader -/

theorem Init_win (E : Env) (lx0 : Lexer) (rd : Reader) : Win E (Init lx0 rd) :=
  (Init_hinv E lx0 rd).g.calm.win

/-- `next` straight after `Init` when the first `Read` returns an error that
is not `io.EOF`. -/
theorem next_Init_error (E : Env) (lx0 : Lexer) (data : List Nat) (w : Nat)
    (plan : List ReadStep) :
    next E (Init lx0 ⟨data, ⟨w, some IOErr.other⟩ :: plan⟩) = .error .readError := by
  have hw := Init_win E lx0 ⟨data, ⟨w, some IOErr.other⟩ :: plan⟩
  have hb : ¬ ((Init lx0 ⟨data, ⟨w, some IOErr.other⟩ :: plan⟩).srcBuf
      (Init lx0 ⟨data, ⟨w, some IOErr.other⟩ :: plan⟩).srcPos.toNat < RuneSelf) := by
    simp [Init]
  have hav : avail (Init lx0 ⟨data, ⟨w, some IOErr.other⟩ :: plan⟩) = [] := by
    simp [avail, Init, bytesAt_zero]
  obtain ⟨f, hf⟩ : ∃ f, fillFuel (Init lx0 ⟨data, ⟨w, some IOErr.other⟩ :: plan⟩) = f + 1 :=
    ⟨_, rfl⟩
  unfold next
  rw [index_ok hw.pos (by have := hw.le; have := hw.hi; omega)]
  simp only [bind, Except.bind]
  rw [if_neg hb, hf, fill]
  simp only [fillCond_win hw, bind, Except.bind, hav]
  have hc : (decide ((Init lx0 ⟨data, ⟨w, some IOErr.other⟩ :: plan⟩).srcPos + 4 >
      (Init lx0 ⟨data, ⟨w, some IOErr.other⟩ :: plan⟩).srcEnd) && !FullRune []) = true := by
    simp [Init, FullRune]
  rw [if_pos hc, spill_win hw (Or.inl (by simp [Init]))]
  simp only [refill_win (win_spilled hw)]
  have e1 : ((spilled (Init lx0 ⟨data, ⟨w, some IOErr.other⟩ :: plan⟩)).src.read
      (E.bufLen - ((spilled (Init lx0 ⟨data, ⟨w, some IOErr.other⟩ :: plan⟩)).srcEnd -
        (spilled (Init lx0 ⟨data, ⟨w, some IOErr.other⟩ :: plan⟩)).srcPos).toNat)).2.1 =
      some IOErr.other := by
    simp [spilled, Init, Reader.read]
  rw [e1]

/-- `Scan` straight after `Init` when the first `Read` returns an error that
is not `io.EOF`. -/
theorem Scan_Init_error (E : Env) (lx0 : Lexer) (data : List Nat) (w : Nat)
    (plan : List ReadStep) :
    Scan E (Init lx0 ⟨data, ⟨w, some IOErr.other⟩ :: plan⟩) = .error .readError := by
  unfold Scan peek
  rw [if_pos (show (Init lx0 ⟨data, ⟨w, some IOErr.other⟩ :: plan⟩).ch = -2 by rfl),
    next_Init_error]
  rfl

/-- `next` behind a refill loop that has left bytes in the buffer: it returns
a rune, not `EOF`. -/
theorem next_after_fill {E : Env} {lx l1 : Lexer} (hw : Win E lx)
    (hb : ¬ lx.srcBuf lx.srcPos.toNat < RuneSelf)
    (hf : fill E (fillFuel lx) lx = .ok (Filled.more, l1)) (hw1 : Win E l1)
    (hne : l1.srcPos < l1.srcEnd) : ∃ r lx', next E lx = .ok (r, lx') ∧ 0 ≤ r := by
  unfold next
  rw [index_ok hw.pos (by have := hw.le; have := hw.hi; omega)]
  simp only [bind, Except.bind]
  rw [if_neg hb, hf]
  dsimp only
  rw [index_ok hw1.pos (by have := hw1.le; have := hw1.hi; omega)]
  dsimp only
  by_cases hlt1 : l1.srcBuf l1.srcPos.toNat < RuneSelf
  · rw [if_pos hlt1]
    obtain ⟨l, c, ll, e, ha⟩ := advance_eq l1 (l1.srcBuf l1.srcPos.toNat) 1
    rw [ha]
    exact ⟨_, _, rfl, by omega⟩
  · rw [if_neg hlt1]
    have hsl : slice E l1.srcBuf l1.srcPos l1.srcEnd = .ok (avail l1) :=
      slice_ok hw1.pos hw1.le (by have := hw1.hi; omega)
    rw [hsl]
    dsimp only
    have hn := DecodeRune_nonneg (avail l1)
    by_cases herr : (DecodeRune (avail l1)).1 = RuneError ∧ (DecodeRune (avail l1)).2 = 1
    · rw [if_pos herr]
      exact ⟨_, _, rfl, hn⟩
    · rw [if_neg herr]
      obtain ⟨l, c, ll, e, ha⟩ := advance_eq l1 (DecodeRune (avail l1)).1
        (DecodeRune (avail l1)).2
      rw [ha]
      exact ⟨_, _, rfl, hn⟩

/-- The refill loop when the `Read` returns `io.EOF` and there is a byte in
the buffer afterwards: the loop is left, and `next` goes on. -/
theorem fill_eof_bytes {E : Env} {lx : Lexer} (hw : Win E lx)
    (ht : lx.tokPos < 0 ∨ lx.tokPos ≤ lx.srcPos) (h4 : lx.srcEnd < lx.srcPos + 4)
    (hfr : FullRune (avail lx) = false)
    (herr : (lx.src.read (E.bufLen - (lx.srcEnd - lx.srcPos).toNat)).2.1 = some IOErr.eof)
    (hpos : 0 < (lx.srcEnd - lx.srcPos) +
      ((lx.src.read (E.bufLen - (lx.srcEnd - lx.srcPos).toNat)).1.length : Int)) :
    fill E (fillFuel lx) lx = .ok (Filled.more, refilled E (spilled lx)) := by
  obtain ⟨f, hf⟩ : ∃ f, fillFuel lx = f + 1 := ⟨_, rfl⟩
  have e1 : (spilled lx).src = lx.src := by unfold spilled; split <;> rfl
  have e3 : (spilled lx).srcPos = lx.srcPos := by unfold spilled; split <;> rfl
  have e4 : (spilled lx).srcEnd = lx.srcEnd := by unfold spilled; split <;> rfl
  have hc : (decide (lx.srcPos + 4 > lx.srcEnd) && !FullRune (avail lx)) = true := by
    rw [hfr]
    simp only [Bool.not_false, Bool.and_true, decide_eq_true_eq]
    omega
  have hz : ¬ (refilled E (spilled lx)).srcEnd = 0 := by
    have hle := hw.le
    simp only [refilled, e1, e3, e4]
    omega
  rw [hf, fill]
  simp only [fillCond_win hw, bind, Except.bind]
  rw [if_pos hc, spill_win hw ht]
  simp only [refill_win (win_spilled hw)]
  rw [e1, e3, e4, herr]
  dsimp only
  rw [if_neg hz]
  rfl

/-- C15. Errors of the reader. If the first `Read` after `Init` returns an
error other than `io.EOF`, with or without bytes, `next` and `Scan` abort with
the read error and return no token. In general, when `next` or `Scan`
returns in a state that `Init` and a sequence of calls have reached, every
`Read` it has issued has returned no error of that kind (`ReadsOK`): a call
that meets such an error does not return. And a `Read` that returns `io.EOF`
with at least one byte then in the buffer does not abort `next` and does not
make it return `EOF`: it returns a rune. -/
theorem read_error_aborts (E : Env) :
    (∀ (lx0 : Lexer) (data : List Nat) (w : Nat) (plan : List ReadStep),
      next E (Init lx0 ⟨data, ⟨w, some IOErr.other⟩ :: plan⟩) = .error .readError ∧
      Scan E (Init lx0 ⟨data, ⟨w, some IOErr.other⟩ :: plan⟩) = .error .readError) ∧
    (∀ (lx0 : Lexer) (rd : Reader) (ops : List Op) (lx : Lexer),
      steps E ops (Init lx0 rd) = .ok lx →
      (∀ r, next E lx = .ok r → ReadsOK lx r.2) ∧ (∀ r, Scan E lx = .ok r → ReadsOK lx r.2)) ∧
    (∀ (lx0 : Lexer) (rd : Reader) (ops : List Op) (lx : Lexer),
      steps E ops (Init lx0 rd) = .ok lx → (lx.tokPos < 0 ∨ lx.tokPos ≤ lx.srcPos) →
      RuneSelf ≤ lx.srcBuf lx.srcPos.toNat → lx.srcEnd < lx.srcPos + 4 →
      FullRune (avail lx) = false →
      (lx.src.read (E.bufLen - (lx.srcEnd - lx.srcPos).toNat)).2.1 = some IOErr.eof →
      0 < (lx.srcEnd - lx.srcPos) +
        ((lx.src.read (E.bufLen - (lx.srcEnd - lx.srcPos).toNat)).1.length : Int) →
      ∃ r lx', next E lx = .ok (r, lx') ∧ r ≠ EOF) := by
  refine ⟨fun lx0 data w plan => ⟨next_Init_error E lx0 data w plan,
    Scan_Init_error E lx0 data w plan⟩, ?_, ?_⟩
  · intro lx0 rd ops lx h
    have c := (steps_ginv E ops _ lx (Init_hinv E lx0 rd).g h).calm
    exact ⟨fun r hr => ((next_safe c).2 r hr).reads, fun r hr => ((Scan_safe c).2 r hr).2.2.2.2⟩
  · intro lx0 rd ops lx h ht hb h4 hfr herr hpos
    have hw := (steps_ginv E ops _ lx (Init_hinv E lx0 rd).g h).calm.win
    have hf := fill_eof_bytes hw ht h4 hfr herr hpos
    obtain ⟨w1, w2, _⟩ := win_refilled (E := E) hw
    have hne : (refilled E (spilled lx)).srcPos < (refilled E (spilled lx)).srcEnd := by
      have e1 : (spilled lx).src = lx.src := by unfold spilled; split <;> rfl
      have e3 : (spilled lx).srcPos = lx.srcPos := by unfold spilled; split <;> rfl
      have e4 : (spilled lx).srcEnd = lx.srcEnd := by unfold spilled; split <;> rfl
      have hle := hw.le
      simp only [refilled, e1, e3, e4]
      omega
    obtain ⟨r, lx', e, h0⟩ := next_after_fill hw (by omega) hf w1 hne
    exact ⟨r, lx', e, by simp only [EOF]; omega⟩

set_option maxRecDepth 100000 in
theorem read_error_aborts_witness :
    Scan asciiEnv (Init Lexer.zero ⟨ascii "ab", [⟨1, some IOErr.other⟩]⟩) =
      .error .readError ∧
    ∃ r lx', next asciiEnv (Init Lexer.zero ⟨ascii "ab", [⟨2, some IOErr.eof⟩]⟩) =
      .ok (r, lx') ∧ r ≠ EOF :=
  ⟨((read_error_aborts asciiEnv).1 Lexer.zero (ascii "ab") 1 []).2,
    (read_error_aborts asciiEnv).2.2 Lexer.zero ⟨ascii "ab", [⟨2, some IOErr.eof⟩]⟩ []
      (Init Lexer.zero ⟨ascii "ab", [⟨2, some IOErr.eof⟩]⟩) rfl (by decide) (by decide)
      (by decide) (by decide) (by decide) (by decide)⟩

/-! ## No byte is lost -/

theorem nextA_tot {c : Cur} {r : Int × Cur} (h : nextA c = .ok r) :
    tot r.2 = tot c ∧ -1 ≤ r.1 := by
  simp only [nextA, Except.ok.injEq] at h
  subst h
  exact ⟨by simp only [tot, List.take_append_drop, List.append_assoc], nextRune_ge _⟩

theorem loopA_tot (P : Int → Int → Bool) : ∀ (f : Nat) (i ch : Int) (c : Cur) (r : Int × Cur),
    loopA P f i ch c = .ok r → tot r.2 = tot c ∧ (-1 ≤ ch → -1 ≤ r.1) := by
  intro f
  induction f with
  | zero => intro i ch c r h; simp [loopA] at h
  | succ f ih =>
    intro i ch c r h
    rw [loopA] at h
    by_cases hp : P ch i = true
    · rw [if_pos hp] at h
      obtain ⟨a, h1, h2⟩ := bind_eq_ok h
      obtain ⟨e1, g1⟩ := nextA_tot h1
      obtain ⟨e2, g2⟩ := ih _ _ _ _ h2
      exact ⟨e2.trans e1, fun _ => g2 g1⟩
    · rw [if_neg hp] at h
      simp only [pure, Except.pure, Except.ok.injEq] at h
      subst h
      exact ⟨rfl, id⟩

theorem tagA_tot {x : Except Abort (Int × Cur)} {k : Int} {t : Int × Int × Cur} {c : Cur}
    (hx : ∀ r, x = .ok r → tot r.2 = tot c ∧ -1 ≤ r.1)
    (h : (x >>= fun r => pure (k, r)) = .ok t) :
    (tot t.2.2 = tot c ∧ -1 ≤ t.2.1) ∧ t.1 = k := by
  obtain ⟨a, h1, h2⟩ := bind_eq_ok h
  simp only [pure, Except.pure, Except.ok.injEq] at h2
  subst h2
  exact ⟨hx a h1, rfl⟩

theorem opA_tot {c : Cur} {k : Int} {e : Int → Abort} {r : Int × Cur}
    (h : (nextA c >>= fun r => if r.1 = k then nextA r.2 else .error (e r.1)) = .ok r) :
    tot r.2 = tot c ∧ -1 ≤ r.1 := by
  obtain ⟨a, h1, h2⟩ := bind_eq_ok h
  by_cases hc : a.1 = k
  · rw [if_pos hc] at h2
    exact ⟨(nextA_tot h2).1.trans (nextA_tot h1).1, (nextA_tot h2).2⟩
  · rw [if_neg hc] at h2; cases h2

/-- The `switch` of `Scan` on a cursor loses no byte and leaves a look-ahead
that has been read, and the kind `EOF` comes only from the look-ahead `EOF`,
with the cursor as it was. -/
theorem dispatchA_tot (idr : Int → Int → Bool) (fuel : Nat) (ch : Int) (c : Cur)
    (t : Int × Int × Cur) (h : dispatchA idr fuel ch c = .ok t) :
    (tot t.2.2 = tot c ∧ -1 ≤ t.2.1) ∧ (t.1 = EOF → ch = EOF ∧ t.2.2 = c) := by
  unfold dispatchA at h
  by_cases h1 : idr ch 0 = true
  · rw [if_pos h1] at h
    obtain ⟨a, b⟩ := tagA_tot (c := c) (fun r hr => by
      obtain ⟨a, h1, h2⟩ := bind_eq_ok hr
      rw [identLoopA_eq] at h2
      obtain ⟨e1, g1⟩ := nextA_tot h1
      obtain ⟨e2, g2⟩ := loopA_tot _ _ _ _ _ _ h2
      exact ⟨e2.trans e1, g2 g1⟩) h
    exact ⟨a, fun he => absurd (b.symm.trans he) (by decide)⟩
  rw [if_neg h1] at h
  by_cases h2 : EOF = ch
  · rw [if_pos h2] at h
    simp only [pure, Except.pure, Except.ok.injEq] at h
    subst h
    exact ⟨⟨rfl, le_of_eq h2⟩, fun _ => ⟨h2.symm, rfl⟩⟩
  rw [if_neg h2] at h
  by_cases h3 : 0x27 = ch ∨ 0x22 = ch
  · rw [if_pos h3] at h
    obtain ⟨a, b⟩ := tagA_tot (c := c) (fun r hr => by
      obtain ⟨a, h1, h2⟩ := bind_eq_ok hr
      obtain ⟨b, h3, h4⟩ := bind_eq_ok h2
      rw [stringLoopA_eq ch fuel 0] at h3
      by_cases hc : ch ≠ b.1
      · rw [if_pos hc] at h4; cases h4
      · rw [if_neg hc] at h4
        obtain ⟨e4, g4⟩ := nextA_tot h4
        exact ⟨e4.trans ((loopA_tot _ _ _ _ _ _ h3).1.trans (nextA_tot h1).1), g4⟩) h
    exact ⟨a, fun he => absurd (b.symm.trans he) (by decide)⟩
  rw [if_neg h3] at h
  by_cases h4 : 0x3D = ch
  · rw [if_pos h4] at h
    obtain ⟨a, b⟩ := tagA_tot (c := c) (fun r hr => opA_tot hr) h
    exact ⟨a, fun he => absurd (b.symm.trans he) (by decide)⟩
  rw [if_neg h4] at h
  by_cases h5 : 0x26 = ch
  · rw [if_pos h5] at h
    obtain ⟨a, b⟩ := tagA_tot (c := c) (fun r hr => opA_tot hr) h
    exact ⟨a, fun he => absurd (b.symm.trans he) (by decide)⟩
  rw [if_neg h5] at h
  by_cases h6 : 0x7C = ch
  · rw [if_pos h6] at h
    obtain ⟨a, b⟩ := tagA_tot (c := c) (fun r hr => opA_tot hr) h
    exact ⟨a, fun he => absurd (b.symm.trans he) (by decide)⟩
  rw [if_neg h6] at h
  by_cases h7 : 0x28 = ch
  · rw [if_pos h7] at h
    obtain ⟨a, b⟩ := tagA_tot (c := c) (fun r hr => nextA_tot hr) h
    exact ⟨a, fun he => absurd (b.symm.trans he) (by decide)⟩
  rw [if_neg h7] at h
  by_cases h8 : 0x29 = ch
  · rw [if_pos h8] at h
    obtain ⟨a, b⟩ := tagA_tot (c := c) (fun r hr => nextA_tot hr) h
    exact ⟨a, fun he => absurd (b.symm.trans he) (by decide)⟩
  rw [if_neg h8] at h
  by_cases h9 : 0x30 ≤ ch ∧ ch ≤ 0x39
  · rw [if_pos h9] at h
    obtain ⟨a, b⟩ := tagA_tot (c := c) (fun r hr => by
      obtain ⟨a, h1, h2⟩ := bind_eq_ok hr
      rw [scanMantissaA_eq fuel 0] at h1
      obtain ⟨e1, g1⟩ := loopA_tot _ _ _ _ _ _ h1
      by_cases hc : a.1 = 0x2E
      · rw [if_pos hc] at h2
        obtain ⟨b, h3, h4⟩ := bind_eq_ok h2
        rw [scanMantissaA_eq fuel 0] at h4
        obtain ⟨e3, g3⟩ := nextA_tot h3
        obtain ⟨e4, g4⟩ := loopA_tot _ _ _ _ _ _ h4
        exact ⟨e4.trans (e3.trans e1), g4 g3⟩
      · rw [if_neg hc] at h2
        simp only [pure, Except.pure, Except.ok.injEq] at h2
        subst h2
        exact ⟨e1, g1 (by omega)⟩) h
    exact ⟨a, fun he => absurd (b.symm.trans he) (by decide)⟩
  rw [if_neg h9] at h
  cases h

/-- The whitespace loop moves whitespace bytes, and nothing else, from the
input to the bytes in front of the look-ahead. -/
theorem skipWhitespaceA_ws : ∀ (fuel : Nat) (ch : Int) (c : Cur) (r : Int × Cur),
    Looking ch c → skipWhitespaceA fuel ch c = .ok r →
    ∃ ws, (∀ b ∈ ws, isSpace b) ∧ r.2.acc = c.acc ++ ws ∧
      c.last ++ c.rest = ws ++ (r.2.last ++ r.2.rest) := by
  intro fuel
  induction fuel with
  | zero => intro ch c r _ h; simp [skipWhitespaceA] at h
  | succ fuel ih =>
    intro ch c r hl h
    simp only [skipWhitespaceA] at h
    by_cases hc : isWhitespace GoWhitespace ch = true
    · rw [if_pos hc] at h
      obtain ⟨a, h1, h2⟩ := bind_eq_ok h
      obtain ⟨ws, w1, w2, w3⟩ := ih _ _ _ (nextA_looking h1) h2
      have hch : ch = (nextRune (c.last ++ c.rest)).1 ∧
          c.last.length = (nextRune (c.last ++ c.rest)).2 := by
        rcases hl with ⟨h0, _⟩ | hl
        · rw [h0] at hc
          rw [isWhitespace_neg _ (-2) (by decide) (by decide)] at hc
          cases hc
        · exact hl
      rw [hch.1] at hc
      obtain ⟨b, t, e, hb⟩ := (isWhitespace_nextRune _).mp hc
      have hn := nextRune_ascii t (isSpace_lt hb)
      rw [e, hn] at hch
      have hlast : c.last = [b] ∧ c.rest = t := by
        rcases hcl : c.last with _ | ⟨x, _ | ⟨y, l⟩⟩
        · rw [hcl] at hch; simp at hch
        · rw [hcl] at e
          simp only [List.singleton_append, List.cons.injEq] at e
          exact ⟨by rw [e.1], e.2⟩
        · rw [hcl] at hch; simp at hch
      simp only [nextA, Except.ok.injEq] at h1
      subst h1
      simp only [List.take_append_drop] at w2 w3
      refine ⟨b :: ws, ?_, ?_, ?_⟩
      · intro x hx
        rcases List.mem_cons.mp hx with rfl | hx
        · exact hb
        · exact w1 x hx
      · rw [w2, hlast.1]; simp
      · rw [hlast.1]; simpa using w3
    · rw [if_neg hc] at h
      simp only [pure, Except.pure, Except.ok.injEq] at h
      subst h
      exact ⟨[], by simp, by simp, by simp⟩

/-- What `peek` consumes: nothing, or the three bytes of a byte order mark in
front of the very first rune. -/
theorem peekA_bom {ch : Int} {c : Cur} {r : Int × Cur} (hl : Looking ch c)
    (h : peekA ch c = .ok r) :
    ∃ bom, (bom = [] ∨ (ch = -2 ∧ bom = [0xEF, 0xBB, 0xBF])) ∧
      c.last ++ c.rest = bom ++ (r.2.last ++ r.2.rest) ∧ Looking r.1 r.2 := by
  unfold peekA at h
  by_cases hc : ch = -2
  · rw [if_pos hc] at h
    have hlast : c.last = [] := by
      rcases hl with ⟨_, h0⟩ | ⟨h1, _⟩
      · exact h0
      · have := nextRune_ge (c.last ++ c.rest)
        omega
    obtain ⟨x, hx, h⟩ := bind_eq_ok h
    by_cases hf : x.1 = 0xFEFF
    · rw [if_pos hf] at h
      have lr := nextA_looking h
      simp only [nextA, Except.ok.injEq] at hx
      subst hx
      obtain ⟨t, ht⟩ := bom_of_nextRune _ hf
      simp only [nextA, Except.ok.injEq] at h
      subst h
      refine ⟨[0xEF, 0xBB, 0xBF], Or.inr ⟨hc, rfl⟩, ?_, lr⟩
      simp only [List.take_append_drop]
      rw [hlast, ht, nextRune_bom]
      rfl
    · rw [if_neg hf] at h
      simp only [pure, Except.pure, Except.ok.injEq] at h
      subst h
      have lr := nextA_looking hx
      simp only [nextA, Except.ok.injEq] at hx
      subst hx
      refine ⟨[], Or.inl rfl, ?_, lr⟩
      simp only [List.take_append_drop, hlast, List.nil_append]
  · rw [if_neg hc] at h
    simp only [pure, Except.pure, Except.ok.injEq] at h
    subst h
    exact ⟨[], Or.inl rfl, rfl, hl⟩

/-- One `Scan` on a cursor splits the input in front of it into an optional
byte order mark, whitespace, the text of the token and the input that is
left; with the kind `EOF` no input is left. -/
theorem ScanA_consumes (idr : Int → Int → Bool) {ch : Int} {c : Cur} {t : Int × Int × Cur}
    (hl : Looking ch c) (h : ScanA idr ch c = .ok t) :
    ∃ bom ws, (bom = [] ∨ (ch = -2 ∧ bom = [0xEF, 0xBB, 0xBF])) ∧ (∀ b ∈ ws, isSpace b) ∧
      c.last ++ c.rest = bom ++ (ws ++ (t.2.2.acc ++ (t.2.2.last ++ t.2.2.rest))) ∧
      Looking t.2.1 t.2.2 ∧ t.2.1 ≠ -2 ∧
      (t.1 = EOF → t.2.2.acc = [] ∧ t.2.2.last ++ t.2.2.rest = []) := by
  have lt := ScanA_looking idr ch c t hl h
  unfold ScanA at h
  obtain ⟨a, h1, h⟩ := bind_eq_ok h
  obtain ⟨b, h2, h⟩ := bind_eq_ok h
  obtain ⟨d, h3, h⟩ := bind_eq_ok h
  simp only [pure, Except.pure, Except.ok.injEq] at h
  subst h
  obtain ⟨bom, hb, e1, la⟩ := peekA_bom hl h1
  obtain ⟨ws, hw, _, e2⟩ := skipWhitespaceA_ws _ _ _ _ la h2
  have lb := skipWhitespaceA_looking _ _ _ _ la h2
  obtain ⟨⟨e3, g3⟩, he⟩ := dispatchA_tot idr _ _ _ _ h3
  have e3' : d.2.2.acc ++ (d.2.2.last ++ d.2.2.rest) = b.2.last ++ b.2.rest := e3
  refine ⟨bom, ws, hb, hw, ?_, lt, by omega, ?_⟩
  · rw [e1, e2, e3']
  · intro h0
    obtain ⟨h4, h5⟩ := he h0
    rw [h5]
    refine ⟨rfl, ?_⟩
    show b.2.last ++ b.2.rest = []
    rcases lb with ⟨h6, _⟩ | ⟨h6, _⟩
    · rw [h4] at h6; cases h6
    · by_contra hne
      have := nextRune_nonneg hne
      rw [← h6, h4] at this
      exact absurd this (by decide)

/-- A run on a cursor that ends with `EOF` after the tokens `toks` has read
an input that is the texts of `toks` in their order, whitespace in front of
each and at the end, behind an optional byte order mark. -/
theorem runA_weave (idr : Int → Int → Bool) (te : List Nat) : ∀ (toks : List (Int × List Nat)) (ch : Int)
    (c : Cur), Looking ch c →
    runA idr (toks.length + 1) ch c =
      toks.map (fun p => Outcome.token p.1 p.2) ++ [Outcome.token EOF te] →
    ∃ bom ps wn, (bom = [] ∨ (ch = -2 ∧ bom = [0xEF, 0xBB, 0xBF])) ∧
      ps.map Prod.snd = toks.map Prod.snd ∧ (∀ p ∈ ps, ∀ b ∈ p.1, isSpace b) ∧
      (∀ b ∈ wn, isSpace b) ∧ c.last ++ c.rest = bom ++ weave ps wn := by
  intro toks
  induction toks with
  | nil =>
    intro ch c hl h
    simp only [List.length_nil, Nat.zero_add, List.map_nil, List.nil_append, runA] at h
    rcases hs : ScanA idr ch c with e | t
    · rw [hs] at h; cases h
    · rw [hs] at h
      simp only [List.cons.injEq, Outcome.token.injEq, and_true] at h
      obtain ⟨bom, ws, hb, hw, e, _, _, he⟩ := ScanA_consumes idr hl hs
      obtain ⟨e1, e2⟩ := he h.1
      refine ⟨bom, [], ws, hb, rfl, by simp, hw, ?_⟩
      rw [e, e1, e2]
      simp [weave]
  | cons p toks ih =>
    intro ch c hl h
    rw [List.length_cons, runA] at h
    rcases hs : ScanA idr ch c with e | t
    · rw [hs] at h; cases h
    · rw [hs] at h
      simp only [List.map_cons, List.cons_append, List.cons.injEq, Outcome.token.injEq] at h
      obtain ⟨bom, ws, hb, hw, e, lt, ht, _⟩ := ScanA_consumes idr hl hs
      obtain ⟨bom', ps, wn, hb', hp, hps, hwn, e'⟩ := ih _ _ lt h.2
      have hb0 : bom' = [] := by
        rcases hb' with h0 | ⟨h0, _⟩
        · exact h0
        · exact absurd h0 ht
      refine ⟨bom, (ws, p.2) :: ps, wn, hb, ?_, ?_, hwn, ?_⟩
      · simp only [List.map_cons, hp]
      · intro q hq
        rcases List.mem_cons.mp hq with rfl | hq
        · exact hw
        · exact hps q hq
      · rw [e, e', hb0, h.1.2]
        simp [weave]

/-- C20. No input byte is lost, duplicated or reordered: when the rounds of
`Scan` and `TokenText` on the input `B`, delivered by a reader without error,
give the tokens `toks` and then `EOF` without an abort, `B` is an optional
byte order mark `EF BB BF` followed by the texts of `toks` in their order,
with a run of tab, line feed, carriage return and space bytes (possibly
empty) in front of each text and at the end. -/
theorem no_byte_lost (E : Env) (hE : 4 ≤ E.bufLen) (B : List Nat) (plan : List ReadStep)
    (hp : ∀ s ∈ plan, s.err = none) (lx0 : Lexer) (toks : List (Int × List Nat))
    (te : List Nat)
    (h : run E (toks.length + 1) (Init lx0 ⟨B, plan⟩) =
      toks.map (fun p => Outcome.token p.1 p.2) ++ [Outcome.token EOF te]) :
    ∃ bom ps wn, (bom = [] ∨ bom = [0xEF, 0xBB, 0xBF]) ∧
      ps.map Prod.snd = toks.map Prod.snd ∧ (∀ p ∈ ps, ∀ b ∈ p.1, isSpace b) ∧
      (∀ b ∈ wn, isSpace b) ∧ B = bom ++ weave ps wn := by
  rw [run_sim E _ _ _ _ (Init_inter E hE lx0 ⟨B, plan⟩ hp [])] at h
  obtain ⟨bom, ps, wn, hb, h1, h2, h3, h4⟩ :=
    runA_weave (isIdentRune E) te toks (-2) ⟨[], [], B⟩ (Or.inl ⟨rfl, rfl⟩) h
  refine ⟨bom, ps, wn, ?_, h1, h2, h3, h4⟩
  rcases hb with h0 | ⟨_, h0⟩
  · exact Or.inl h0
  · exact Or.inr h0

set_option maxRecDepth 100000 in
theorem no_byte_lost_witness :
    (4 ≤ tinyEnv.bufLen ∧
      run tinyEnv 4 (Init Lexer.zero
          (chunked ([0xEF, 0xBB, 0xBF] ++ ascii " ab  == 12" ++ [0x0A]) [1, 2, 1, 3])) =
        [Outcome.token Var (ascii "ab"), Outcome.token Equ (ascii "=="),
          Outcome.token ConstNumeric (ascii "12"), Outcome.token EOF []]) ∧
    ∃ bom ps wn, (bom = [] ∨ bom = [0xEF, 0xBB, 0xBF]) ∧
      ps.map Prod.snd = [ascii "ab", ascii "==", ascii "12"] ∧
      (∀ p ∈ ps, ∀ b ∈ p.1, isSpace b) ∧ (∀ b ∈ wn, isSpace b) ∧
      [0xEF, 0xBB, 0xBF] ++ ascii " ab  == 12" ++ [0x0A] = bom ++ weave ps wn :=
  ⟨⟨by decide, by decide⟩,
    no_byte_lost tinyEnv (by decide) ([0xEF, 0xBB, 0xBF] ++ ascii " ab  == 12" ++ [0x0A])
      ([1, 2, 1, 3].map (fun n => { want := n, err := none })) (by decide) Lexer.zero
      [(Var, ascii "ab"), (Equ, ascii "=="), (ConstNumeric, ascii "12")] [] (by decide)⟩

/-! ## What `Scan` skips -/

/-- Every input is a run of whitespace bytes and a rest whose first rune is
no whitespace. -/
theorem ws_split : ∀ u : List Nat, ∃ ws y, u = ws ++ y ∧ (∀ b ∈ ws, isSpace b) ∧
    isWhitespace GoWhitespace (nextRune y).1 = false := by
  intro u
  induction u with
  | nil => exact ⟨[], [], rfl, by simp, isWhitespace_eof _⟩
  | cons b t ih =>
    by_cases hb : isSpace b
    · obtain ⟨ws, y, e, hw, hy⟩ := ih
      refine ⟨b :: ws, y, by rw [e]; rfl, ?_, hy⟩
      intro x hx
      rcases List.mem_cons.mp hx with rfl | hx
      · exact hb
      · exact hw x hx
    · exact ⟨[], b :: t, rfl, by simp, isWhitespace_cons hb t⟩

theorem unread_of_view {E : Env} {lx : Lexer} {last rest : List Nat}
    (hv : View E lx last rest) : unread lx = last ++ rest := by
  have hb := hv.lastBytes
  unfold unread
  rw [hv.pend, hv.lastLen] at *
  simp only [Int.toNat_ofNat]
  rw [hb]

/-- Whitespace in front of the unread input changes nothing of what `Scan`
and `TokenText` give: two reachable states whose unread inputs differ by a run
of whitespace bytes in front have the same outcomes. -/
theorem run_skips {E : Env} (hE : 4 ≤ E.bufLen) {lx lx' : Lexer} (hr : Reachable E lx)
    (hr' : Reachable E lx') (ws : List Nat) (hws : ∀ b ∈ ws, isSpace b)
    (hu : unread lx = ws ++ unread lx')
    (hB : lx'.ch = -2 ∨ (lx.ch = -2 ∧ ws = []) → (nextRune (unread lx')).1 ≠ 0xFEFF)
    (k : Nat) : run E k lx = run E k lx' := by
  obtain ⟨ws', y, e, hw', hy⟩ := ws_split (unread lx')
  have hww : ∀ b ∈ ws ++ ws', isSpace b := by
    intro b hb
    rcases List.mem_append.mp hb with h | h
    · exact hws b h
    · exact hw' b h
  obtain ⟨ch, c, f, hg, hf, hs⟩ := Scan_ready hE hr (ws ++ ws') y
    (by rw [hu, e, List.append_assoc]) hww hy (fun h0 => by
      rw [List.append_assoc, ← e]
      by_cases hn : ws = []
      · rw [hn]; exact hB (Or.inr ⟨h0, hn⟩)
      · rcases ws with _ | ⟨b, t⟩
        · exact absurd rfl hn
        · have hb := isSpace_lt (hws b (List.mem_cons_self _ _))
          rw [List.cons_append, nextRune_ascii _ hb]
          simp only
          omega)
  obtain ⟨ch', c', f', hg', hf', hs'⟩ := Scan_ready hE hr' ws' y e hw' hy (fun h0 => by
    rw [← e]; exact hB (Or.inl h0))
  have heq : ScanA (isIdentRune E) ch c = ScanA (isIdentRune E) ch' c' := by
    rw [hs, hs']
    exact dispatchA_stable _ (isIdentRune_eof E) _ _ _ _ hf hf'
  rw [run_sim E k lx ch c hg.inter, run_sim E k lx' ch' c' hg'.inter]
  cases k with
  | zero => rfl
  | succ k => simp only [runA, heq]

theorem peekA_seen {ch : Int} {c : Cur} {r : Int × Cur} (h : peekA ch c = .ok r) :
    r.1 ≠ -2 := by
  unfold peekA at h
  by_cases hc : ch = -2
  · rw [if_pos hc] at h
    obtain ⟨x, hx, h⟩ := bind_eq_ok h
    by_cases hf : x.1 = 0xFEFF
    · rw [if_pos hf] at h
      have := (nextA_tot h).2
      omega
    · rw [if_neg hf] at h
      simp only [pure, Except.pure, Except.ok.injEq] at h
      subst h
      have := (nextA_tot hx).2
      omega
  · rw [if_neg hc] at h
    simp only [pure, Except.pure, Except.ok.injEq] at h
    subst h
    exact hc

/-- The whitespace loop stops at a rune that fails the mask test. -/
theorem skipWhitespaceA_stops : ∀ (fuel : Nat) (ch : Int) (c : Cur) (r : Int × Cur),
    skipWhitespaceA fuel ch c = .ok r → ch ≠ -2 →
    isWhitespace GoWhitespace r.1 = false ∧ r.1 ≠ -2 := by
  intro fuel
  induction fuel with
  | zero => intro ch c r h; simp [skipWhitespaceA] at h
  | succ fuel ih =>
    intro ch c r h hc
    simp only [skipWhitespaceA] at h
    by_cases hw : isWhitespace GoWhitespace ch = true
    · rw [if_pos hw] at h
      obtain ⟨a, h1, h2⟩ := bind_eq_ok h
      have := (nextA_tot h1).2
      exact ih _ _ _ h2 (by omega)
    · rw [if_neg hw] at h
      simp only [pure, Except.pure, Except.ok.injEq] at h
      subst h
      exact ⟨by simpa using hw, hc⟩

/-- What `ScanA` skips in front of a token is a run of whitespace bytes
(behind the byte order mark, if `peek` drops one), and the run ends where the
first byte is no whitespace. -/
theorem ScanA_skipped (idr : Int → Int → Bool) {ch : Int} {c : Cur} {t : Int × Int × Cur}
    (hl : Looking ch c) (h : ScanA idr ch c = .ok t) :
    ∃ bom ws, (bom = [] ∨ (ch = -2 ∧ bom = [0xEF, 0xBB, 0xBF])) ∧ (∀ b ∈ ws, isSpace b) ∧
      c.last ++ c.rest = bom ++ (ws ++ (t.2.2.acc ++ (t.2.2.last ++ t.2.2.rest))) ∧
      ∀ b u, t.2.2.acc ++ (t.2.2.last ++ t.2.2.rest) = b :: u → ¬ isSpace b := by
  unfold ScanA at h
  obtain ⟨a, h1, h⟩ := bind_eq_ok h
  obtain ⟨b, h2, h⟩ := bind_eq_ok h
  obtain ⟨d, h3, h⟩ := bind_eq_ok h
  simp only [pure, Except.pure, Except.ok.injEq] at h
  subst h
  obtain ⟨bom, hb, e1, la⟩ := peekA_bom hl h1
  obtain ⟨ws, hw, _, e2⟩ := skipWhitespaceA_ws _ _ _ _ la h2
  have lb := skipWhitespaceA_looking _ _ _ _ la h2
  obtain ⟨hstop, hseen⟩ := skipWhitespaceA_stops _ _ _ _ h2 (peekA_seen h1)
  obtain ⟨⟨e3, _⟩, _⟩ := dispatchA_tot idr _ _ _ _ h3
  have e3' : d.2.2.acc ++ (d.2.2.last ++ d.2.2.rest) = b.2.last ++ b.2.rest := e3
  refine ⟨bom, ws, hb, hw, by rw [e1, e2, e3'], ?_⟩
  intro x u hx hsp
  rw [e3'] at hx
  rcases lb with ⟨h0, _⟩ | ⟨h0, _⟩
  · exact hseen h0
  · rw [h0, hx] at hstop
    have := (isWhitespace_nextRune (x :: u)).mpr ⟨x, u, rfl, hsp⟩
    rw [this] at hstop
    cases hstop

/-- What `Scan` skips in front of a token: in a reachable state, when `Scan`
returns, the unread input before the call is a byte order mark (only at the
very start), a run of whitespace bytes, the text of the token and the unread
input behind it; and the byte behind the run is no whitespace. -/
theorem Scan_skipped {E : Env} (hE : 4 ≤ E.bufLen) {lx lx1 : Lexer} {tok : Int}
    (hr : Reachable E lx) (hs : Scan E lx = .ok (tok, lx1)) :
    ∃ bom ws text lx2, TokenText E lx1 = .ok (text, lx2) ∧
      unread lx = bom ++ (ws ++ (text ++ unread lx1)) ∧
      (bom = [] ∨ (lx.ch = -2 ∧ bom = [0xEF, 0xBB, 0xBF])) ∧ (∀ b ∈ ws, isSpace b) ∧
      ∀ b u, text ++ unread lx1 = b :: u → ¬ isSpace b := by
  obtain ⟨ch, c, hg, hl⟩ := hr.ready hE
  have hm := Scan_sim hg.inter
  rw [hs] at hm
  rcases hy : ScanA (isIdentRune E) ch c with e | s
  · rw [hy] at hm; simp only [Match] at hm
  · rw [hy] at hm
    simp only [Match] at hm
    obtain ⟨_, hi, _, _, _⟩ := hm
    obtain ⟨lx1', lx2, q1, q2⟩ := Scan_token hg hy
    rw [hs] at q1
    simp only [Except.ok.injEq, Prod.mk.injEq] at q1
    rw [← q1.2] at q2
    obtain ⟨bom, ws, hb, hw, e, hmax⟩ := ScanA_skipped _ hl hy
    have hu1 : unread lx1 = s.2.2.last ++ s.2.2.rest := unread_of_view hi.view
    refine ⟨bom, ws, s.2.2.acc, lx2, q2, ?_, ?_, hw, ?_⟩
    · rw [unread_eq hg, hu1, e]
    · rcases hb with h0 | ⟨h0, h1⟩
      · exact Or.inl h0
      · exact Or.inr ⟨by rw [hg.inter.look, h0], h1⟩
    · rw [hu1]; exact hmax

/-- `Scan` does not skip NUL, vertical tab, form feed or the backquote: behind
any whitespace the `switch` meets the byte and aborts with "not implemented"
for it. And on whitespace alone `Scan` returns `EOF`. -/
theorem Scan_meets {E : Env} (hE : 4 ≤ E.bufLen) {lx : Lexer} (hr : Reachable E lx)
    (ws : List Nat) (hws : ∀ b ∈ ws, isSpace b) :
    (∀ (b : Nat) (t : List Nat), b = 0 ∨ b = 11 ∨ b = 12 ∨ b = 96 →
      unread lx = ws ++ b :: t → Scan E lx = .error (.notImplemented b)) ∧
    (unread lx = ws → ∃ lx1, Scan E lx = .ok (EOF, lx1)) := by
  constructor
  · intro b t hb hu
    have hlt : b < 0x80 := by omega
    have hns : ¬ isSpace b := by unfold isSpace; omega
    obtain ⟨ch, c, f, hg, _, hs⟩ := Scan_ready hE hr ws (b :: t) hu hws
      (isWhitespace_cons hns t) (fun _ => not_bom_of_ascii ws t hws hlt)
    rw [nextRune_head_ascii t hlt] at hs
    have hid : isIdentRune E (b : Int) 0 = false := by
      rcases hb with rfl | rfl | rfl | rfl <;> rfl
    have hne : (b : Int) ≠ EOF := by
      intro h
      have h0 : (0 : Int) ≤ (b : Int) := Int.ofNat_nonneg b
      rw [h] at h0
      exact absurd h0 (by decide)
    have hnp : (b : Int) ∉ [(0x27 : Int), 0x22, 0x3D, 0x26, 0x7C, 0x28, 0x29] := by
      rcases hb with rfl | rfl | rfl | rfl <;> decide
    have hnd : ¬ (0x30 ≤ (b : Int) ∧ (b : Int) ≤ 0x39) := by
      rcases hb with rfl | rfl | rfl | rfl <;> decide
    rw [dispatchA_other _ _ _ _ hid hne hnp hnd] at hs
    exact Scan_abort hg hs
  · intro hu
    obtain ⟨ch, c, f, hg, _, hs⟩ := Scan_ready hE hr ws [] (by rw [hu, List.append_nil]) hws
      (isWhitespace_eof _) (fun _ => not_bom_behind ws [] hws (fun _ => by decide))
    have hd : dispatchA (isIdentRune E) f (nextRune []).1 (curAt [] []) =
        .ok (EOF, EOF, curAt [] []) := by
      unfold dispatchA
      rw [nextRune_nil]
      simp only [isIdentRune_eof, Bool.false_eq_true, ↓reduceIte]
      rfl
    rw [hd] at hs
    obtain ⟨lx1, _, q, _⟩ := Scan_token hg hs
    exact ⟨lx1, q⟩

/-- C18. The runes that `Scan` skips in front of a token are exactly tab (9),
line feed (10), carriage return (13) and space (32). `Init` sets the mask
`GoWhitespace` and every reachable state has it; for every rune value (a
32-bit integer) the test `whitespace & (1 << uint(ch)) != 0` holds if and only
if `ch` is one of the four. So it fails for every code point from 64 on (the
backquote, 96 = 64 + 32, is no space), for NUL, for vertical tab and form
feed, and for `EOF`. And this is what `Scan` does in every reachable state:
a run of the four bytes in front of the unread input changes no outcome of
`Scan` and `TokenText` (all of it is skipped); when `Scan` returns, the bytes
it has passed in front of the text of the token are a run of the four bytes
(behind the byte order mark at the very start, if `peek` drops one), and the
byte behind the run is none of them; behind any such run `Scan` meets NUL,
vertical tab, form feed and the backquote in its `switch` and aborts with
"not implemented" for the byte, and at the end of the input it returns
`EOF`. -/
theorem whitespace_is_four_bytes (E : Env) (hE : 4 ≤ E.bufLen) :
    (∀ (lx0 : Lexer) (rd : Reader), (Init lx0 rd).whitespace = GoWhitespace) ∧
    (∀ lx : Lexer, Reachable E lx → lx.whitespace = GoWhitespace) ∧
    (∀ ch : Int, -2 ^ 31 ≤ ch → ch < 2 ^ 31 →
      (isWhitespace GoWhitespace ch = true ↔ (ch = 9 ∨ ch = 10 ∨ ch = 13 ∨ ch = 32))) ∧
    (∀ ch : Int, 64 ≤ ch → ch < 2 ^ 31 → isWhitespace GoWhitespace ch = false) ∧
    isWhitespace GoWhitespace 96 = false ∧ isWhitespace GoWhitespace 0 = false ∧
    isWhitespace GoWhitespace 11 = false ∧ isWhitespace GoWhitespace 12 = false ∧
    isWhitespace GoWhitespace EOF = false ∧
    (∀ (lx lx' : Lexer) (ws : List Nat) (k : Nat), Reachable E lx → Reachable E lx' →
      (∀ b ∈ ws, isSpace b) → unread lx = ws ++ unread lx' →
      (lx'.ch = -2 ∨ (lx.ch = -2 ∧ ws = []) → (nextRune (unread lx')).1 ≠ 0xFEFF) →
      run E k lx = run E k lx') ∧
    (∀ (lx lx1 : Lexer) (tok : Int), Reachable E lx → Scan E lx = .ok (tok, lx1) →
      ∃ bom ws text lx2, TokenText E lx1 = .ok (text, lx2) ∧
        unread lx = bom ++ (ws ++ (text ++ unread lx1)) ∧
        (bom = [] ∨ (lx.ch = -2 ∧ bom = [0xEF, 0xBB, 0xBF])) ∧ (∀ b ∈ ws, isSpace b) ∧
        ∀ b u, text ++ unread lx1 = b :: u → ¬ isSpace b) ∧
    (∀ (lx : Lexer) (ws t : List Nat) (b : Nat), Reachable E lx → (∀ x ∈ ws, isSpace x) →
      b = 0 ∨ b = 11 ∨ b = 12 ∨ b = 96 → unread lx = ws ++ b :: t →
      Scan E lx = .error (.notImplemented b)) ∧
    (∀ (lx : Lexer) (ws : List Nat), Reachable E lx → (∀ x ∈ ws, isSpace x) →
      unread lx = ws → ∃ lx1, Scan E lx = .ok (EOF, lx1)) := by
  have hiff : ∀ ch : Int, -2 ^ 31 ≤ ch → ch < 2 ^ 31 →
      (isWhitespace GoWhitespace ch = true ↔ (ch = 9 ∨ ch = 10 ∨ ch = 13 ∨ ch = 32)) := by
    intro ch h1 h2
    by_cases hn : ch < 0
    · rw [isWhitespace_neg _ ch h1 hn]
      constructor
      · intro h; cases h
      · intro h; omega
    · exact isWhitespace_iff ch (by omega) (by omega)
  have hno : ∀ ch : Int, -2 ^ 31 ≤ ch → ch < 2 ^ 31 →
      ¬ (ch = 9 ∨ ch = 10 ∨ ch = 13 ∨ ch = 32) → isWhitespace GoWhitespace ch = false := by
    intro ch h1 h2 h
    rw [Bool.eq_false_iff, Ne, hiff ch h1 h2]
    exact h
  refine ⟨fun _ _ => rfl, ?_, hiff, fun ch h1 h2 => hno ch (by omega) h2 (by omega),
    hno 96 (by decide) (by decide) (by decide), hno 0 (by decide) (by decide) (by decide),
    hno 11 (by decide) (by decide) (by decide), hno 12 (by decide) (by decide) (by decide),
    isWhitespace_eof _,
    fun lx lx' ws k hr hr' hws hu hB => run_skips hE hr hr' ws hws hu hB k,
    fun lx lx1 tok hr hs => Scan_skipped hE hr hs,
    fun lx ws t b hr hws hb hu => (Scan_meets hE hr ws hws).1 b t hb hu,
    fun lx ws hr hws hu => (Scan_meets hE hr ws hws).2 hu⟩
  intro lx hr
  obtain ⟨ch, c, hg⟩ := hr.good hE
  exact hg.inter.ws

set_option maxRecDepth 100000 in
theorem whitespace_is_four_bytes_witness :
    4 ≤ asciiEnv.bufLen ∧
    (nthScan asciiEnv 1 (Init Lexer.zero (stringsNewReader (ascii "a b")))).whitespace =
      GoWhitespace ∧
    (isWhitespace GoWhitespace 32 = true ↔ ((32 : Int) = 9 ∨ (32 : Int) = 10 ∨
      (32 : Int) = 13 ∨ (32 : Int) = 32)) ∧
    run asciiEnv 2
        (Init Lexer.zero (stringsNewReader ([0x20, 0x09, 0x0A, 0x0D] ++ ascii "a"))) =
      run asciiEnv 2 (Init Lexer.zero (stringsNewReader (ascii "a"))) ∧
    run asciiEnv 2 (Init Lexer.zero (stringsNewReader (ascii "a"))) =
      [Outcome.token Var (ascii "a"), Outcome.token EOF []] ∧
    Scan asciiEnv (Init Lexer.zero (stringsNewReader [0x20, 0x60, 0x61])) =
      .error (.notImplemented 96) :=
  ⟨by decide,
    (whitespace_is_four_bytes asciiEnv (by decide)).2.1 _
      (Reachable.nthScan 1 (Reachable.init _ _ (by decide))),
    (whitespace_is_four_bytes asciiEnv (by decide)).2.2.1 32 (by decide) (by decide),
    (whitespace_is_four_bytes asciiEnv (by decide)).2.2.2.2.2.2.2.2.2.1 _ _
      [0x20, 0x09, 0x0A, 0x0D] 2 (Reachable.init _ _ (by decide))
      (Reachable.init _ _ (by decide)) (by decide)
      (by rw [unread_Init, unread_Init]; rfl) (fun _ => by rw [unread_Init]; decide),
    by decide,
    (whitespace_is_four_bytes asciiEnv (by decide)).2.2.2.2.2.2.2.2.2.2.2.1 _ [0x20] [0x61] 0x60
      (Reachable.init _ _ (by decide)) (by decide) (by decide) (unread_Init _ _)⟩

end Glex
